import Mathlib

/-!
# ACARS receiver: CRC engine and frame state machine

A shallow embedding of the CRC engine (`crc.cc`), of the odd-parity and
bit-count helpers and of the frame state machine `_getmesg` with its parser
`build_mesg` (`rtl_acars_ng.cc`), followed by the properties established for
them.

Machine integers are natural numbers (or integers for `int`); a truncation
that the C++ types perform is written as an explicit `%`.  Bytes are
`Nat` values below 256, 16-bit CRC registers are `Nat` values below 65536.
-/

namespace Acars

/-! ## Constants of `message.h` -/

def SOH : Nat := 0x01
def STX : Nat := 0x02
def ETX : Nat := 0x03
def ACK : Nat := 0x06
def LF : Nat := 0x0a
def CR : Nat := 0x0d
def NAK : Nat := 0x15
def SYN : Nat := 0x16
def ETB : Nat := 0x17
def DEL : Nat := 0x7f

def PRE_KEY_CHAR : Nat := 0xff
def BIT_SYNC_1 : Nat := 0x2b
def BIT_SYNC_2 : Nat := 0x2a
def CHAR_SYNC_1 : Nat := SYN
def CHAR_SYNC_2 : Nat := SYN

def MODE_BYTES : Nat := 8 / 8
def ADDRESS_BYTES : Nat := 56 / 8
def ACK_NAK_BYTES : Nat := 8 / 8
def LABEL_BYTES : Nat := 16 / 8
def BLOCK_ID_BYTES : Nat := 8 / 8
def STX_BYTES : Nat := 8 / 8
def SEQ_NUM_BYTES : Nat := 32 / 8
def FLIGHT_NUM_BYTES : Nat := 48 / 8
def MAX_TEXT_BYTES : Nat := (220 * 8) / 8
def ETX_BYTES : Nat := 8 / 8

/-! ## Tables -/

/-- The table `crc_ccitt` of `crc.cc` (polynomial 0x1021). -/
def crc_ccitt : List Nat := [
  0x0000, 0x1021, 0x2042, 0x3063, 0x4084, 0x50a5, 0x60c6, 0x70e7,
  0x8108, 0x9129, 0xa14a, 0xb16b, 0xc18c, 0xd1ad, 0xe1ce, 0xf1ef,
  0x1231, 0x0210, 0x3273, 0x2252, 0x52b5, 0x4294, 0x72f7, 0x62d6,
  0x9339, 0x8318, 0xb37b, 0xa35a, 0xd3bd, 0xc39c, 0xf3ff, 0xe3de,
  0x2462, 0x3443, 0x0420, 0x1401, 0x64e6, 0x74c7, 0x44a4, 0x5485,
  0xa56a, 0xb54b, 0x8528, 0x9509, 0xe5ee, 0xf5cf, 0xc5ac, 0xd58d,
  0x3653, 0x2672, 0x1611, 0x0630, 0x76d7, 0x66f6, 0x5695, 0x46b4,
  0xb75b, 0xa77a, 0x9719, 0x8738, 0xf7df, 0xe7fe, 0xd79d, 0xc7bc,
  0x48c4, 0x58e5, 0x6886, 0x78a7, 0x0840, 0x1861, 0x2802, 0x3823,
  0xc9cc, 0xd9ed, 0xe98e, 0xf9af, 0x8948, 0x9969, 0xa90a, 0xb92b,
  0x5af5, 0x4ad4, 0x7ab7, 0x6a96, 0x1a71, 0x0a50, 0x3a33, 0x2a12,
  0xdbfd, 0xcbdc, 0xfbbf, 0xeb9e, 0x9b79, 0x8b58, 0xbb3b, 0xab1a,
  0x6ca6, 0x7c87, 0x4ce4, 0x5cc5, 0x2c22, 0x3c03, 0x0c60, 0x1c41,
  0xedae, 0xfd8f, 0xcdec, 0xddcd, 0xad2a, 0xbd0b, 0x8d68, 0x9d49,
  0x7e97, 0x6eb6, 0x5ed5, 0x4ef4, 0x3e13, 0x2e32, 0x1e51, 0x0e70,
  0xff9f, 0xefbe, 0xdfdd, 0xcffc, 0xbf1b, 0xaf3a, 0x9f59, 0x8f78,
  0x9188, 0x81a9, 0xb1ca, 0xa1eb, 0xd10c, 0xc12d, 0xf14e, 0xe16f,
  0x1080, 0x00a1, 0x30c2, 0x20e3, 0x5004, 0x4025, 0x7046, 0x6067,
  0x83b9, 0x9398, 0xa3fb, 0xb3da, 0xc33d, 0xd31c, 0xe37f, 0xf35e,
  0x02b1, 0x1290, 0x22f3, 0x32d2, 0x4235, 0x5214, 0x6277, 0x7256,
  0xb5ea, 0xa5cb, 0x95a8, 0x8589, 0xf56e, 0xe54f, 0xd52c, 0xc50d,
  0x34e2, 0x24c3, 0x14a0, 0x0481, 0x7466, 0x6447, 0x5424, 0x4405,
  0xa7db, 0xb7fa, 0x8799, 0x97b8, 0xe75f, 0xf77e, 0xc71d, 0xd73c,
  0x26d3, 0x36f2, 0x0691, 0x16b0, 0x6657, 0x7676, 0x4615, 0x5634,
  0xd94c, 0xc96d, 0xf90e, 0xe92f, 0x99c8, 0x89e9, 0xb98a, 0xa9ab,
  0x5844, 0x4865, 0x7806, 0x6827, 0x18c0, 0x08e1, 0x3882, 0x28a3,
  0xcb7d, 0xdb5c, 0xeb3f, 0xfb1e, 0x8bf9, 0x9bd8, 0xabbb, 0xbb9a,
  0x4a75, 0x5a54, 0x6a37, 0x7a16, 0x0af1, 0x1ad0, 0x2ab3, 0x3a92,
  0xfd2e, 0xed0f, 0xdd6c, 0xcd4d, 0xbdaa, 0xad8b, 0x9de8, 0x8dc9,
  0x7c26, 0x6c07, 0x5c64, 0x4c45, 0x3ca2, 0x2c83, 0x1ce0, 0x0cc1,
  0xef1f, 0xff3e, 0xcf5d, 0xdf7c, 0xaf9b, 0xbfba, 0x8fd9, 0x9ff8,
  0x6e17, 0x7e36, 0x4e55, 0x5e74, 0x2e93, 0x3eb2, 0x0ed1, 0x1ef0
]

/-- Modelled from the spec: the 256-entry bit-reversal table `reverse_bits`,
which `acars/utility.h` only declares (`extern`); entry `b` is the byte whose
bit `k` is bit `7 - k` of `b` ("given a byte MSB..LSB, return the byte
LSB..MSB"). -/
def reverse_bits : List Nat := [
  0x00, 0x80, 0x40, 0xc0, 0x20, 0xa0, 0x60, 0xe0,
  0x10, 0x90, 0x50, 0xd0, 0x30, 0xb0, 0x70, 0xf0,
  0x08, 0x88, 0x48, 0xc8, 0x28, 0xa8, 0x68, 0xe8,
  0x18, 0x98, 0x58, 0xd8, 0x38, 0xb8, 0x78, 0xf8,
  0x04, 0x84, 0x44, 0xc4, 0x24, 0xa4, 0x64, 0xe4,
  0x14, 0x94, 0x54, 0xd4, 0x34, 0xb4, 0x74, 0xf4,
  0x0c, 0x8c, 0x4c, 0xcc, 0x2c, 0xac, 0x6c, 0xec,
  0x1c, 0x9c, 0x5c, 0xdc, 0x3c, 0xbc, 0x7c, 0xfc,
  0x02, 0x82, 0x42, 0xc2, 0x22, 0xa2, 0x62, 0xe2,
  0x12, 0x92, 0x52, 0xd2, 0x32, 0xb2, 0x72, 0xf2,
  0x0a, 0x8a, 0x4a, 0xca, 0x2a, 0xaa, 0x6a, 0xea,
  0x1a, 0x9a, 0x5a, 0xda, 0x3a, 0xba, 0x7a, 0xfa,
  0x06, 0x86, 0x46, 0xc6, 0x26, 0xa6, 0x66, 0xe6,
  0x16, 0x96, 0x56, 0xd6, 0x36, 0xb6, 0x76, 0xf6,
  0x0e, 0x8e, 0x4e, 0xce, 0x2e, 0xae, 0x6e, 0xee,
  0x1e, 0x9e, 0x5e, 0xde, 0x3e, 0xbe, 0x7e, 0xfe,
  0x01, 0x81, 0x41, 0xc1, 0x21, 0xa1, 0x61, 0xe1,
  0x11, 0x91, 0x51, 0xd1, 0x31, 0xb1, 0x71, 0xf1,
  0x09, 0x89, 0x49, 0xc9, 0x29, 0xa9, 0x69, 0xe9,
  0x19, 0x99, 0x59, 0xd9, 0x39, 0xb9, 0x79, 0xf9,
  0x05, 0x85, 0x45, 0xc5, 0x25, 0xa5, 0x65, 0xe5,
  0x15, 0x95, 0x55, 0xd5, 0x35, 0xb5, 0x75, 0xf5,
  0x0d, 0x8d, 0x4d, 0xcd, 0x2d, 0xad, 0x6d, 0xed,
  0x1d, 0x9d, 0x5d, 0xdd, 0x3d, 0xbd, 0x7d, 0xfd,
  0x03, 0x83, 0x43, 0xc3, 0x23, 0xa3, 0x63, 0xe3,
  0x13, 0x93, 0x53, 0xd3, 0x33, 0xb3, 0x73, 0xf3,
  0x0b, 0x8b, 0x4b, 0xcb, 0x2b, 0xab, 0x6b, 0xeb,
  0x1b, 0x9b, 0x5b, 0xdb, 0x3b, 0xbb, 0x7b, 0xfb,
  0x07, 0x87, 0x47, 0xc7, 0x27, 0xa7, 0x67, 0xe7,
  0x17, 0x97, 0x57, 0xd7, 0x37, 0xb7, 0x77, 0xf7,
  0x0f, 0x8f, 0x4f, 0xcf, 0x2f, 0xaf, 0x6f, 0xef,
  0x1f, 0x9f, 0x5f, 0xdf, 0x3f, 0xbf, 0x7f, 0xff
]

/-- The table `bits_set` of `rtl_acars_ng.cc`: number of one bits of a byte. -/
def bits_set : List Nat := [
  0, 1, 1, 2, 1, 2, 2, 3, 1, 2, 2, 3, 2, 3, 3, 4,
  1, 2, 2, 3, 2, 3, 3, 4, 2, 3, 3, 4, 3, 4, 4, 5,
  1, 2, 2, 3, 2, 3, 3, 4, 2, 3, 3, 4, 3, 4, 4, 5,
  2, 3, 3, 4, 3, 4, 4, 5, 3, 4, 4, 5, 4, 5, 5, 6,
  1, 2, 2, 3, 2, 3, 3, 4, 2, 3, 3, 4, 3, 4, 4, 5,
  2, 3, 3, 4, 3, 4, 4, 5, 3, 4, 4, 5, 4, 5, 5, 6,
  2, 3, 3, 4, 3, 4, 4, 5, 3, 4, 4, 5, 4, 5, 5, 6,
  3, 4, 4, 5, 4, 5, 5, 6, 4, 5, 5, 6, 5, 6, 6, 7,
  1, 2, 2, 3, 2, 3, 3, 4, 2, 3, 3, 4, 3, 4, 4, 5,
  2, 3, 3, 4, 3, 4, 4, 5, 3, 4, 4, 5, 4, 5, 5, 6,
  2, 3, 3, 4, 3, 4, 4, 5, 3, 4, 4, 5, 4, 5, 5, 6,
  3, 4, 4, 5, 4, 5, 5, 6, 4, 5, 5, 6, 5, 6, 6, 7,
  2, 3, 3, 4, 3, 4, 4, 5, 3, 4, 4, 5, 4, 5, 5, 6,
  3, 4, 4, 5, 4, 5, 5, 6, 4, 5, 5, 6, 5, 6, 6, 7,
  3, 4, 4, 5, 4, 5, 5, 6, 4, 5, 5, 6, 5, 6, 6, 7,
  4, 5, 5, 6, 5, 6, 6, 7, 5, 6, 6, 7, 6, 7, 7, 8
]

/-- The table `parity_bit` of `rtl_acars_ng.cc`, indexed by a 7-bit character. -/
def parity_bit : List Nat := [
  0x80, 0x00, 0x00, 0x80, 0x00, 0x80, 0x80, 0x00,
  0x00, 0x80, 0x80, 0x00, 0x80, 0x00, 0x00, 0x80,
  0x00, 0x80, 0x80, 0x00, 0x80, 0x00, 0x00, 0x80,
  0x80, 0x00, 0x00, 0x80, 0x00, 0x80, 0x80, 0x00,
  0x00, 0x80, 0x80, 0x00, 0x80, 0x00, 0x00, 0x80,
  0x80, 0x00, 0x00, 0x80, 0x00, 0x80, 0x80, 0x00,
  0x80, 0x00, 0x00, 0x80, 0x00, 0x80, 0x80, 0x00,
  0x00, 0x80, 0x80, 0x00, 0x80, 0x00, 0x00, 0x80,
  0x00, 0x80, 0x80, 0x00, 0x80, 0x00, 0x00, 0x80,
  0x80, 0x00, 0x00, 0x80, 0x00, 0x80, 0x80, 0x00,
  0x80, 0x00, 0x00, 0x80, 0x00, 0x80, 0x80, 0x00,
  0x00, 0x80, 0x80, 0x00, 0x80, 0x00, 0x00, 0x80,
  0x80, 0x00, 0x00, 0x80, 0x00, 0x80, 0x80, 0x00,
  0x00, 0x80, 0x80, 0x00, 0x80, 0x00, 0x00, 0x80,
  0x00, 0x80, 0x80, 0x00, 0x80, 0x00, 0x00, 0x80,
  0x80, 0x00, 0x00, 0x80, 0x00, 0x80, 0x80, 0x00
]

/-- The table `mask` of `rtl_acars_ng.cc`: the byte with only bit `j` set. -/
def mask : List Nat := [0x01, 0x02, 0x04, 0x08, 0x10, 0x20, 0x40, 0x80]

/-- The function `_to_odd`: set bit 7 so that the byte has odd parity. -/
def _to_odd (c : Nat) : Nat :=
  c ||| parity_bit.getD (c &&& 0x7f) 0

/-! ## CRC engine (`crc.cc`) -/

/-- The function `fold_crc_rev`: reflect the input byte, then one table step.
The register is a `uint16_t`, so the left shift is truncated to 16 bits. -/
def fold_crc_rev (crc c : Nat) : Nat :=
  let the_byte := reverse_bits.getD c 0
  let pos := ((crc >>> 8) ^^^ the_byte) &&& 0xff
  ((crc <<< 8) % 65536) ^^^ crc_ccitt.getD pos 0

/-- The function `fold_crc`: one table step without reflection. -/
def fold_crc (crc c : Nat) : Nat :=
  let the_byte := c
  let pos := ((crc >>> 8) ^^^ the_byte) &&& 0xff
  ((crc <<< 8) % 65536) ^^^ crc_ccitt.getD pos 0

/-- The function `gen_crc` over the bytes of the range `[s, e)`: zero for an
empty range, otherwise the folded register with its two bytes swapped and
each reflected. -/
def gen_crc (s : List Nat) : Nat :=
  match s with
  | [] => 0
  | _ :: _ =>
    let wCRC := s.foldl fold_crc_rev 0
    ((reverse_bits.getD ((wCRC >>> 0) &&& 0x00ff) 0) <<< 8) |||
      ((reverse_bits.getD ((wCRC >>> 8) &&& 0x00ff) 0) <<< 0)

/-- The function `check_crc`: fold without reflection and compare with zero. -/
def check_crc (s : List Nat) : Bool :=
  match s with
  | [] => true
  | _ :: _ => s.foldl fold_crc 0 == 0

/-- The final reflection of `gen_crc`: swap the two bytes of the register and
reverse the bits of each (proof helper, the expression is inline in
`gen_crc`). -/
def crc_reflect (wCRC : Nat) : Nat :=
  ((reverse_bits.getD ((wCRC >>> 0) &&& 0x00ff) 0) <<< 8) |||
    ((reverse_bits.getD ((wCRC >>> 8) &&& 0x00ff) 0) <<< 0)

/-! ## Helpers of `rtl_acars_ng.cc` -/

/-- The 8-bit overload of `_count_bit_errors`. -/
def _count_bit_errors_u8 (c1 c2 : Nat) : Int :=
  bits_set.getD (c1 ^^^ c2) 0

/-- The 64-bit overload of `_count_bit_errors`: the eight bytes of
`c1 ^ c2` looked up in `bits_set` (the cast to `uint8_t` is the `% 256`). -/
def _count_bit_errors (c1 c2 : Nat) : Int :=
  let x := c1 ^^^ c2
  (bits_set.getD (((x >>> 56) % 256) &&& 0xff) 0 : Nat) +
  (bits_set.getD (((x >>> 48) % 256) &&& 0xff) 0 : Nat) +
  (bits_set.getD (((x >>> 40) % 256) &&& 0xff) 0 : Nat) +
  (bits_set.getD (((x >>> 32) % 256) &&& 0xff) 0 : Nat) +
  (bits_set.getD (((x >>> 24) % 256) &&& 0xff) 0 : Nat) +
  (bits_set.getD (((x >>> 16) % 256) &&& 0xff) 0 : Nat) +
  (bits_set.getD (((x >>> 8) % 256) &&& 0xff) 0 : Nat) +
  (bits_set.getD (((x >>> 0) % 256) &&& 0xff) 0 : Nat)

/-! ## State of the bit synchroniser and of the frame machine -/

/-- The record `bstat`.  The frame machine only writes `sgI` and `sgQ`; the
floating-point fields are kept at an abstract type `F`. -/
structure bstat_s (F : Type) where
  hsample : List F
  lsample : List F
  isample : List F
  qsample : List F
  csample : List F
  is : Int
  clock : Int
  lin : F
  phih : F
  phil : F
  dfh : F
  dfl : F
  pC : F
  ppC : F
  sgI : Int
  sgQ : Int
  ea : F
  deriving DecidableEq, Repr

/-- The enumeration `STATE`. -/
inductive STATE where
  | HEADL | HEADF | SYNC | TXT | CRC1 | CRC2 | END
  deriving DecidableEq, Repr

/-- The record `m_state` (its three constant members are `errLim`,
`syncBitsLim` and `consecutivePreKeyLim` below). -/
structure m_state_t where
  state : STATE
  syncForming : Nat
  syncBitsHave : Int
  consecutivePreKey : Int
  rawText : List Nat
  crc : Nat
  deriving DecidableEq, Repr

def errLim : Int := 3

def syncBitsLim : Int := 40 + 15

/-- The constant `consecutivePreKeyLim = ( 0.010 * 2400 )` converted to `int`. -/
def consecutivePreKeyLim : Int := 24

/-- The record `msg_t`; the character arrays are lists of their declared
lengths (8, 3, 5, 7 and 256). -/
structure msg_t where
  mode : Nat
  addr : List Nat
  ack : Nat
  label : List Nat
  bid : Nat
  no : List Nat
  fid : List Nat
  txt : List Nat
  crc : Int
  deriving DecidableEq, Repr

/-- The global variables the frame machine works on: `m_state` and `bstat`. -/
structure Globals (F : Type) where
  m_state : m_state_t
  bstat : bstat_s F
  deriving DecidableEq, Repr

/-- The function `_reset_message_state_machine`. -/
def _reset_message_state_machine (m : m_state_t) : m_state_t :=
  { m with
    state := STATE.HEADL
    syncForming := 0
    syncBitsHave := 0
    consecutivePreKey := 0
    crc := 0
    rawText := [] }

/-- The function `_reset_bit_state_machine`. -/
def _reset_bit_state_machine {F : Type} (b : bstat_s F) : bstat_s F :=
  { b with sgI := 0, sgQ := 0 }

/-! ## Message parser `build_mesg` -/

/-- The body of the first loop of `build_mesg`: strip the parity bit and
replace a control character other than CR and LF by `'.'`. -/
def build_mesg_char (b : Nat) : Nat :=
  let r := b &&& 0x7f
  if r < 0x20 ∧ r ≠ CR ∧ r ≠ LF then 0x2e else r

/-- The function `build_mesg`, returning the filled record and the return
value 1.  The result is `none` where the C++ code indexes outside a vector or
array: a frame of fewer than 3 bytes (`txt.size() - 3` wraps around), fewer
than 23 stripped content bytes (the positional reads `m[k++]`), or more than
256 text bytes. -/
def build_mesg (txt : List Nat) : Option (msg_t × Int) :=
  if txt.length < 3 then none
  else
    let m := ((txt.drop 1).take (txt.length - 3 - 1)).map build_mesg_char
    if m.length < 23 then none
    else if m.length - 23 > 256 then none
    else
      some
        ({ mode := m.getD 0 0
           addr := (m.drop 1).take 7 ++ [0]
           ack := m.getD 8 0
           label := (m.drop 9).take 2 ++ [0]
           bid := m.getD 11 0
           no := (m.drop 13).take 4 ++ [0]
           fid := (m.drop 17).take 6 ++ [0]
           txt := m.drop 23 ++ List.replicate (256 - (m.length - 23)) 0
           crc := 0 }, 1)

/-! ## Frame state machine `_getmesg` -/

/-- The constant `syncCheck` of `STATE::SYNC`. -/
def syncCheck : Nat :=
  (_to_odd BIT_SYNC_1 <<< 0) |||
  (_to_odd BIT_SYNC_2 <<< 8) |||
  (_to_odd CHAR_SYNC_1 <<< 16) |||
  (_to_odd CHAR_SYNC_2 <<< 24) |||
  (_to_odd SOH <<< 32)

/-- The macro `BMAX` of `STATE::TXT`. -/
def BMAX : Nat :=
  MODE_BYTES + ADDRESS_BYTES + ACK_NAK_BYTES +
  LABEL_BYTES + BLOCK_ID_BYTES + STX_BYTES +
  SEQ_NUM_BYTES + FLIGHT_NUM_BYTES + MAX_TEXT_BYTES +
  ETX_BYTES

/-- The first statements of the body of the `for` loop of `STATE::SYNC`:
shift `syncForming` right, set bit 39 when bit `i` of `r` is set, and count
the bit in `syncBitsHave`. -/
def sync_add_bit (r i : Nat) (m : m_state_t) : m_state_t :=
  { m with
    syncForming :=
      if mask.getD i 0 &&& r ≠ 0 then (m.syncForming >>> 1) ||| 0x00008000000000
      else m.syncForming >>> 1
    syncBitsHave := m.syncBitsHave + 1 }

/-- The `for` loop of `STATE::SYNC` over the remaining bit indices `i`:
returns the frame state and the function's return value `bitsConsumed`. -/
def sync_loop (r : Nat) : List Nat → m_state_t → Int → m_state_t × Int
  | [], m, bitsConsumed => (m, bitsConsumed)
  | i :: rest, m, bitsConsumed =>
    if (sync_add_bit r i m).syncBitsHave ≥ 40 ∧
        _count_bit_errors (sync_add_bit r i m).syncForming syncCheck ≤ errLim then
      ({ sync_add_bit r i m with state := STATE.TXT, rawText := [_to_odd SOH] },
        bitsConsumed + 1)
    else if (sync_add_bit r i m).syncBitsHave ≥ syncBitsLim then
      ({ sync_add_bit r i m with state := STATE.HEADL }, bitsConsumed + 1)
    else
      sync_loop r rest (sync_add_bit r i m) (bitsConsumed + 1)

/-- The statement `m_state.rawText[i] ^= mask[j]`. -/
def flip_bit (raw : List Nat) (i j : Nat) : List Nat :=
  raw.set i (raw.getD i 0 ^^^ mask.getD j 0)

/-- The inner loop (over `j`) of the one-bit correction of `STATE::END`:
the frame afterwards and whether a flip with zero CRC was found. -/
def correct_j (i : Nat) : List Nat → List Nat → List Nat × Bool
  | [], raw => (raw, false)
  | j :: rest, raw =>
    let raw := flip_bit raw i j
    if gen_crc raw = 0 then (raw, true)
    else correct_j i rest (flip_bit raw i j)

/-- The outer loop (over `i`) of the one-bit correction of `STATE::END`. -/
def correct_i : List Nat → List Nat → List Nat × Bool
  | [], raw => (raw, false)
  | i :: rest, raw =>
    match correct_j i [0, 1, 2, 3, 4, 5, 6, 7] raw with
    | (raw, true) => (raw, true)
    | (raw, false) => correct_i rest raw

/-- Outcome of one pass through the `switch` of `_getmesg`: the function
returns `v`, or control leaves the `switch` and the `do ... while( true )`
loop runs again, or `build_mesg` indexes outside a vector or array, after
which the behaviour of the program is undefined (`fault`).  `msg` is the
record behind the pointer argument (`none` while its content is
indeterminate). -/
inductive Pass (F : Type) where
  | ret (g : Globals F) (msg : Option msg_t) (v : Int)
  | again (g : Globals F) (msg : Option msg_t)
  | fault

/-- One pass through the `switch` of `_getmesg`. -/
def _getmesg_pass {F : Type} (g : Globals F) (r : Nat) (msg : Option msg_t) : Pass F :=
  match g.m_state.state with
  | STATE.HEADL =>
    if r = PRE_KEY_CHAR then
      let m := { g.m_state with consecutivePreKey := g.m_state.consecutivePreKey + 1 }
      let m := if m.consecutivePreKey > consecutivePreKeyLim then
        { m with state := STATE.HEADF } else m
      Pass.ret { g with m_state := m } msg 1
    else
      Pass.ret
        { bstat := _reset_bit_state_machine g.bstat
          m_state := _reset_message_state_machine g.m_state } msg 1
  | STATE.HEADF =>
    if r = PRE_KEY_CHAR then
      Pass.ret g msg 1
    else
      Pass.again
        { g with m_state :=
            { g.m_state with state := STATE.SYNC, syncForming := 0, syncBitsHave := 0 } } msg
  | STATE.SYNC =>
    let res := sync_loop r [0, 1, 2, 3, 4, 5, 6, 7] g.m_state 0
    Pass.ret { g with m_state := res.1 } msg res.2
  | STATE.TXT =>
    let m := { g.m_state with rawText := g.m_state.rawText ++ [r] }
    if m.rawText.length > BMAX then
      Pass.again { g with m_state := { m with state := STATE.HEADL } } msg
    else if r = _to_odd ETX ∨ r = _to_odd ETB then
      Pass.ret { g with m_state := { m with state := STATE.CRC1 } } msg 8
    else
      Pass.ret { g with m_state := m } msg 8
  | STATE.CRC1 =>
    Pass.ret
      { g with m_state :=
          { g.m_state with rawText := g.m_state.rawText ++ [r], state := STATE.CRC2 } } msg 8
  | STATE.CRC2 =>
    Pass.ret
      { g with m_state :=
          { g.m_state with rawText := g.m_state.rawText ++ [r], state := STATE.END } } msg 8
  | STATE.END =>
    let m := { g.m_state with state := STATE.HEADL }
    if gen_crc m.rawText = 0x0000 then
      let m := { m with crc := 0 }
      match build_mesg m.rawText with
      | some p => Pass.ret { g with m_state := m } (some p.1) (-1)
      | none => Pass.fault
    else
      match correct_i (List.range m.rawText.length) m.rawText with
      | (raw, true) =>
        let m := { m with rawText := raw, crc := 0 }
        match build_mesg m.rawText with
        | some p => Pass.ret { g with m_state := m } (some p.1) (-1)
        | none => Pass.fault
      | (raw, false) =>
        Pass.ret { g with m_state := { m with rawText := raw } } msg 8

/-- What a call of `_getmesg` leaves behind: the globals, the record behind
`msg` and the return value. -/
structure Result (F : Type) where
  g : Globals F
  msg : Option msg_t
  ret : Int
  deriving DecidableEq, Repr

/-- The `do ... while( true )` loop of `_getmesg`, run for at most `fuel`
passes.  There is no result (`none`) when a pass faults, and when the fuel
is used up. -/
def _getmesg_loop {F : Type} : Nat → Globals F → Nat → Option msg_t → Option (Result F)
  | 0, _, _, _ => none
  | fuel + 1, g, r, msg =>
    match _getmesg_pass g r msg with
    | Pass.ret g msg v => some { g := g, msg := msg, ret := v }
    | Pass.again g msg => _getmesg_loop fuel g r msg
    | Pass.fault => none

/-- The function `_getmesg`: its loop with fuel for two passes, which is
never used up (a second pass is only made from `HEADF` into `SYNC` and from
`TXT` into `HEADL`, and those two cases always return).  The call has no
result exactly when the pass in `STATE::END` faults. -/
def _getmesg {F : Type} (g : Globals F) (r : Nat) (msg : Option msg_t) : Option (Result F) :=
  _getmesg_loop 2 g r msg

/-- The frame that `STATE::END` hands to `build_mesg`, if any: the raw frame
when its CRC is zero, otherwise the frame as the one-bit correction leaves it
when it has found a flip with zero CRC. -/
def end_frame (raw : List Nat) : Option (List Nat) :=
  if gen_crc raw = 0x0000 then some raw
  else
    match correct_i (List.range raw.length) raw with
    | (raw2, true) => some raw2
    | (_, false) => none

/-- The call of `_getmesg` on these globals faults: the state is `END` and
the frame handed to `build_mesg` is one on which `build_mesg` indexes out of
bounds. -/
def end_faults {F : Type} (g : Globals F) : Prop :=
  g.m_state.state = STATE.END ∧ ∃ f ∈ end_frame g.m_state.rawText, build_mesg f = none

instance end_faults_decidable {F : Type} (g : Globals F) : Decidable (end_faults g) := by
  unfold end_faults
  infer_instance

/-! ## The bit-counting loop of `acars_decode` -/

/-- The variables of `acars_decode`: the globals of the frame machine, the
shift register `rl`, the bit counter `nbitl`, and the records handed to
`print_mesg` so far (oldest first). -/
structure Decoder (F : Type) where
  g : Globals F
  rl : Nat
  nbitl : Int
  printed : List (Option msg_t)
  deriving DecidableEq, Repr

/-- The `do ... while( nbitl >= 8 )` loop of `acars_decode`, run for at most
`fuel` iterations; `msgl` is a fresh local record in each iteration.  There
is no result when a call of `_getmesg` has none, and when the fuel is used
up. -/
def decode_calls {F : Type} : Nat → Decoder F → Option (Decoder F)
  | 0, _ => none
  | fuel + 1, d =>
    match _getmesg d.g d.rl none with
    | none => none
    | some res =>
      let d :=
        if res.ret = -1 then
          { d with g := res.g, printed := d.printed ++ [res.msg], nbitl := 0 }
        else
          { d with g := res.g, nbitl := d.nbitl - res.ret }
      if d.nbitl ≥ 8 then decode_calls fuel d else some d

/-- The statement by which `_getbit` adds a bit to its output byte:
`outbits = ( outbits >> 1 ) | ( bit ? 0x80 : 0 )`. -/
def shift_in (outbits : Nat) (bit : Bool) : Nat :=
  (outbits >>> 1) ||| (if bit then 0x80 else 0)

/-- The body of the sample loop of `acars_decode` for a sample on which
`_getbit` reports a bit: `_getbit` has shifted the bit into `rl` from the
top, then the counter is advanced and the frame machine is called. -/
def decode_bit {F : Type} (d : Decoder F) (bit : Bool) : Option (Decoder F) :=
  let d := { d with rl := shift_in d.rl bit, nbitl := d.nbitl + 1 }
  if d.nbitl ≥ 8 then decode_calls d.nbitl.toNat d else some d

/-- The sample loop of `acars_decode` over the bits `_getbit` reports. -/
def decode_bits {F : Type} : List Bool → Decoder F → Option (Decoder F)
  | [], d => some d
  | b :: rest, d =>
    match decode_bit d b with
    | none => none
    | some d => decode_bits rest d

/-! ## Auxiliary functions of the CRC algebra -/

/-- The XOR of the values `f k` over the set bits `k < 8` of `a`: the shape of
every table that is linear over XOR in its index. -/
def xor_bits8 (f : Nat → Nat) (a : Nat) : Nat :=
  (if a.testBit 0 then f 0 else 0) ^^^ (if a.testBit 1 then f 1 else 0) ^^^
  (if a.testBit 2 then f 2 else 0) ^^^ (if a.testBit 3 then f 3 else 0) ^^^
  (if a.testBit 4 then f 4 else 0) ^^^ (if a.testBit 5 then f 5 else 0) ^^^
  (if a.testBit 6 then f 6 else 0) ^^^ (if a.testBit 7 then f 7 else 0)

/-- Parity of the low 16 bits of a number (`true` for an odd number of ones). -/
def parity16 (n : Nat) : Bool :=
  (List.range 16).foldl (fun acc k => acc != n.testBit k) false

/-- The CRC register after an error pattern `m` in one byte followed by `k`
unchanged bytes, starting from the zero register: by linearity this is what a
flip of the bits `m`, `k` bytes before the end of a frame, adds to the
register. -/
def crc_syndrome (m k : Nat) : Nat :=
  (List.replicate k 0).foldl fold_crc_rev (fold_crc_rev 0 m)

/-- The syndromes of the eight single-bit patterns in the last byte. -/
def syndrome_base : List Nat :=
  mask.map (fun m => fold_crc_rev 0 m)

/-- Check that none of `vals`, nor any of their images under up to `n - 1`
further zero bytes, is a syndrome of a single bit in the last byte. -/
def syndrome_orbit_ok : Nat → List Nat → Bool
  | 0, _ => true
  | n + 1, vals =>
    vals.all (fun v => !(syndrome_base.contains v)) &&
      syndrome_orbit_ok n (vals.map (fun v => fold_crc_rev v 0))

/-! ## Frames on the wire

The transmitter is not part of the program.  The definitions of this section
build the input of the round-trip properties: the bit sequence of a frame
encoded byte for byte from its fields, as the specification describes it. -/

/-- The source fields of a frame, as 7-bit characters. -/
structure Fields where
  mode : Nat
  address : List Nat
  ack : Nat
  label : List Nat
  block_id : Nat
  seq : List Nat
  flight : List Nat
  text : List Nat
  deriving DecidableEq, Repr

/-- The content of a frame between SOH and ETX. -/
def Fields.content (f : Fields) : List Nat :=
  [f.mode] ++ f.address ++ [f.ack] ++ f.label ++ [f.block_id, STX] ++ f.seq ++ f.flight ++ f.text

/-- The bytes of a frame from SOH to ETX, each with odd parity. -/
def Fields.block (f : Fields) : List Nat :=
  ([SOH] ++ f.content ++ [ETX]).map _to_odd

/-- The raw frame: the block followed by the two bytes of its `gen_crc`; the
byte order is a parameter (`true`: high byte first, `false`: low byte
first). -/
def Fields.frame (f : Fields) (high_first : Bool) : List Nat :=
  f.block ++
    (if high_first then [gen_crc f.block / 256, gen_crc f.block % 256]
     else [gen_crc f.block % 256, gen_crc f.block / 256])

/-- The bytes on the wire: 26 pre-key bytes (208 bits), the two bit-sync and
the two character-sync bytes, then the raw frame. -/
def Fields.wire (f : Fields) (high_first : Bool) : List Nat :=
  List.replicate 26 PRE_KEY_CHAR ++
    [_to_odd BIT_SYNC_1, _to_odd BIT_SYNC_2, _to_odd CHAR_SYNC_1, _to_odd CHAR_SYNC_2] ++
    f.frame high_first

/-- The bits of a byte in transmission order, least significant bit first. -/
def byte_bits (b : Nat) : List Bool :=
  [b.testBit 0, b.testBit 1, b.testBit 2, b.testBit 3,
   b.testBit 4, b.testBit 5, b.testBit 6, b.testBit 7]

/-- The bits of a byte sequence in transmission order. -/
def wire_bits : List Nat → List Bool
  | [] => []
  | b :: rest => byte_bits b ++ wire_bits rest

/-- Source fields that make a frame the machine can collect: the fixed-size
fields have their sizes, the text has at most 219 characters, and every
character is a 7-bit character other than ETX and ETB. -/
def Fields.wf (f : Fields) : Prop :=
  f.address.length = 7 ∧ f.label.length = 2 ∧ f.seq.length = 4 ∧ f.flight.length = 6 ∧
  f.text.length ≤ 219 ∧ ∀ c ∈ f.content, c < 128 ∧ c ≠ ETX ∧ c ≠ ETB

instance Fields.wf_decidable (f : Fields) : Decidable f.wf := by
  unfold Fields.wf
  infer_instance

/-- The record `build_mesg` is expected to fill for the source fields: each
character as `build_mesg` stores it (control characters other than CR and LF
shown as `'.'`), the strings zero-terminated in their arrays, `crc` zero. -/
def Fields.parsed (f : Fields) : msg_t :=
  { mode := build_mesg_char f.mode
    addr := f.address.map build_mesg_char ++ [0]
    ack := build_mesg_char f.ack
    label := f.label.map build_mesg_char ++ [0]
    bid := build_mesg_char f.block_id
    no := f.seq.map build_mesg_char ++ [0]
    fid := f.flight.map build_mesg_char ++ [0]
    txt := f.text.map build_mesg_char ++ List.replicate (256 - f.text.length) 0
    crc := 0 }

/-- The fields of the minimum-length frame of the specification. -/
def fields_min : Fields :=
  { mode := 0x32
    address := [0x2e, 0x4e, 0x31, 0x32, 0x33, 0x34, 0x35]
    ack := NAK
    label := [0x48, 0x31]
    block_id := 0x31
    seq := [0x4d, 0x30, 0x31, 0x41]
    flight := [0x41, 0x42, 0x31, 0x32, 0x33, 0x34]
    text := [] }

/-- The fields of the minimum-length frame with a text of `n` characters `X`. -/
def fields_text (n : Nat) : Fields :=
  { fields_min with text := List.replicate n 0x58 }

/-! ## Concrete inputs used by the closed statements -/

/-- The bit-synchroniser record after `init_bits`, with the floating-point
fields at the one-point type. -/
def bstat_init : bstat_s Unit :=
  { hsample := [], lsample := [], isample := [], qsample := [], csample := []
    is := 0, clock := 0, lin := (), phih := (), phil := (), dfh := (), dfl := ()
    pC := (), ppC := (), sgI := 0, sgQ := 0, ea := () }

/-- The frame state after `_reset_message_state_machine`. -/
def m_state_init : m_state_t :=
  { state := STATE.HEADL, syncForming := 0, syncBitsHave := 0, consecutivePreKey := 0
    rawText := [], crc := 0 }

/-- The globals of a freshly reset frame machine. -/
def globals_init : Globals Unit :=
  { m_state := m_state_init, bstat := bstat_init }

/-- The variables of `acars_decode` at program start. -/
def decoder_init : Decoder Unit :=
  { g := globals_init, rl := 0, nbitl := 0, printed := [] }

/-- The frame state of the minimum-length frame of the specification, five
bits before bit and character sync complete: 40 bits collected, of which the
oldest five are pre-key bits. -/
def globals_sync_40 : Globals Unit :=
  { m_state :=
      { state := STATE.SYNC, syncForming := 149296600447, syncBitsHave := 40
        consecutivePreKey := 25, rawText := [], crc := 0 }
    bstat := bstat_init }

/-- A frame machine that has seen 30 pre-key bytes. -/
def globals_headf : Globals Unit :=
  { m_state :=
      { state := STATE.HEADF, syncForming := 0, syncBitsHave := 0
        consecutivePreKey := 25, rawText := [], crc := 0 }
    bstat := bstat_init }

/-- The raw frame of the minimum-length frame of the specification: SOH,
mode `2`, address `.N12345`, NAK, label `H1`, block id `1`, STX, sequence
`M01A`, flight `AB1234`, ETX (all with odd parity) and the two CRC bytes that
make `gen_crc` zero. -/
def frame_min : List Nat :=
  [0x01, 0x32, 0xae, 0xce, 0x31, 0x32, 0xb3, 0x34, 0xb5, 0x15, 0xc8, 0x31, 0x31, 0x02,
   0xcd, 0xb0, 0x31, 0xc1, 0xc1, 0xc2, 0x31, 0x32, 0xb3, 0x34, 0x83, 0xca, 0x2c]

/-- A frame machine in `STATE::END` holding a raw frame. -/
def globals_end (raw : List Nat) : Globals Unit :=
  { m_state :=
      { state := STATE.END, syncForming := 4665518763, syncBitsHave := 45
        consecutivePreKey := 25, rawText := raw, crc := 0 }
    bstat := bstat_init }

/-- The decoder after the pre-key, the sync bytes and SOH of a frame: the
frame machine is in `STATE::SYNC` with 40 bits collected, five bits short of
the complete sync pattern, and five bits are pending in `rl`. -/
def decoder_after_soh : Decoder Unit :=
  { g := globals_sync_40, rl := 0x01, nbitl := 5, printed := [] }

set_option maxRecDepth 1000000

/-! ## Reference notions for the tables and the sanitising loop -/

/-- Number of set bits among the low `w` bits of `x`. -/
def popcount : Nat → Nat → Nat
  | 0, _ => 0
  | w + 1, x => x % 2 + popcount w (x / 2)

/-- Hamming distance of two 64-bit words. -/
def hamming (a b : Nat) : Nat :=
  popcount 64 (a ^^^ b)

/-- Printable 7-bit characters: space up to tilde. -/
def is_printable (c : Nat) : Bool :=
  decide (0x20 ≤ c ∧ c ≤ 0x7e)

/-- Control characters of the 7-bit code: everything below space, and DEL. -/
def is_control (c : Nat) : Bool :=
  decide (c < 0x20 ∨ c = DEL)

/-- One MSB-first shift step of a 16-bit CRC register with polynomial
0x1021: shift left by one and XOR the polynomial in when the bit shifted
out is 1. -/
def crc_shift_step (x : Nat) : Nat :=
  if x &&& 0x8000 ≠ 0 then ((x <<< 1) ^^^ 0x1021) % 65536 else (x <<< 1) % 65536

/-- Bit-at-a-time CRC-16-CCITT update: XOR the byte into the high byte of the
register and perform eight shift steps; no initial and no final XOR. -/
def crc_bitwise (crc b : Nat) : Nat :=
  crc_shift_step^[8] (crc ^^^ (b <<< 8))

/-- Entry `i` of the CRC-16-CCITT table for polynomial 0x1021: the register
after eight shift steps started with `i` in the high byte. -/
def crc_table_entry (i : Nat) : Nat :=
  crc_shift_step^[8] (i <<< 8)

/-! ## Byte sequences fed to the frame machine -/

/-- Consecutive calls of `_getmesg`, one for each byte of the list and each
with a fresh record as in `acars_decode`: the globals after the last call
and the return values of the calls, oldest first. -/
def feed_bytes {F : Type} : List Nat → Globals F → Option (Globals F × List Int)
  | [], g => some (g, [])
  | r :: rest, g =>
    match _getmesg g r none with
    | none => none
    | some res =>
      match feed_bytes rest res.g with
      | none => none
      | some (g2, rets) => some (g2, res.ret :: rets)

/-- The update of the sync word for one received bit, in the words of the
description: shift right by one and set bit 39 when the bit is 1. -/
def sync_push (s : Nat) (bit : Bool) : Nat :=
  (s >>> 1) ||| (if bit then 2 ^ 39 else 0)

/-- The sync word and the bit count after a run of received bits, oldest
first. -/
def sync_feed (m : m_state_t) (bits : List Bool) : m_state_t :=
  { m with
    syncForming := bits.foldl sync_push m.syncForming
    syncBitsHave := m.syncBitsHave + bits.length }

/-- The number a bit sequence spells with its oldest bit at bit 0. -/
def bits_value : List Bool → Nat
  | [] => 0
  | b :: rest => (if b then 1 else 0) + 2 * bits_value rest

/-- The 40-bit window that ends at collected bit `n` (bits counted from 1),
oldest bit at bit 0. -/
def sync_window (bits : List Bool) (n : Nat) : Nat :=
  bits_value ((bits.take n).drop (n - 40))

/-- A frame machine in `STATE::TXT` holding a raw frame, as it is after a
pre-key of 25 characters and the sync pattern. -/
def globals_txt (raw : List Nat) : Globals Unit :=
  { m_state :=
      { state := STATE.TXT, syncForming := 4665518763, syncBitsHave := 45
        consecutivePreKey := 25, rawText := raw, crc := 0 }
    bstat := bstat_init }

/-- A frame machine on entry to `STATE::SYNC`, after a pre-key of 25
characters. -/
def globals_sync_entry : Globals Unit :=
  { m_state :=
      { state := STATE.SYNC, syncForming := 0, syncBitsHave := 0
        consecutivePreKey := 25, rawText := [], crc := 0 }
    bstat := bstat_init }

/-! ## Further states of the frame machine -/

/-- A bit synchroniser that has fixed both signs. -/
def bstat_signed : bstat_s Unit :=
  { bstat_init with sgI := 1, sgQ := -1 }

/-- A frame machine in `STATE::END` holding a raw frame, with both signs of
the bit synchroniser fixed. -/
def globals_end_signed (raw : List Nat) : Globals Unit :=
  { globals_end raw with bstat := bstat_signed }

/-- A frame machine in `STATE::SYNC` with 48 bits collected and both signs of
the bit synchroniser fixed. -/
def globals_sync_48 : Globals Unit :=
  { m_state :=
      { state := STATE.SYNC, syncForming := 0, syncBitsHave := 48
        consecutivePreKey := 25, rawText := [], crc := 0 }
    bstat := bstat_signed }

/-! ## Bit synchroniser `_getbit` -/

/-- The macro `BITLEN`, `int(Fe/1200.0)` with `Fe` 48000.0. -/
def BITLEN : Int := 40

/-- The floating-point operations and constants `_getbit` and `init_bits`
use, kept abstract: conversion from `int`, the literals 0.003 and 0.997, the
macros `Freqh`, `Freql`, `VFOPLL`, `BITPLL`, the constants `fourPI` and
`twoPI`, arithmetic, `std::fabs`, `std::sin`, `std::cos` and the
comparisons `<` and `<=`. -/
structure FloatOps (F : Type) where
  ofInt : Int → F
  k003 : F
  k997 : F
  Freqh : F
  Freql : F
  VFOPLL : F
  BITPLL : F
  fourPI : F
  twoPI : F
  add : F → F → F
  sub : F → F → F
  mul : F → F → F
  div : F → F → F
  neg : F → F
  fabs : F → F
  sin : F → F
  cos : F → F
  lt : F → F → Bool
  le : F → F → Bool

/-- Read of element `i` of a buffer; `none` when `i` is outside the buffer. -/
def buf_get {F : Type} (b : List F) (i : Int) : Option F :=
  if 0 ≤ i ∧ i < b.length then b[i.toNat]? else none

/-- Write of element `i` of a buffer; `none` when `i` is outside the
buffer. -/
def buf_set {F : Type} (b : List F) (i : Int) (v : F) : Option (List F) :=
  if 0 ≤ i ∧ i < b.length then some (b.set i.toNat v) else none

/-- The loops `for( int i = 0; i < n; ++i ) acc += buf[( bstat.is + i ) % BITLEN]`
of `_getbit`; `%` is the C remainder. -/
def ring_sum {F : Type} (ops : FloatOps F) (buf : List F) (idx : Int) (n : Nat) (acc : F) :
    Option F :=
  (List.range n).foldlM
    (fun a (i : Nat) =>
      (buf_get buf (Int.tmod (idx + (i : Int)) BITLEN)).map (fun v => ops.add a v)) acc

/-- The clock filter
`for( int i = 0; i < BITLEN; ++i ) C += h[i] * bstat.csample[( bstat.is + i ) % BITLEN]`. -/
def clock_filter {F : Type} (ops : FloatOps F) (h csample : List F) (idx : Int) : Option F :=
  (List.range BITLEN.toNat).foldlM
    (fun a (i : Nat) =>
      (buf_get h (i : Int)).bind (fun hi =>
        (buf_get csample (Int.tmod (idx + (i : Int)) BITLEN)).map (fun v =>
          ops.add a (ops.mul hi v))))
    (ops.ofInt 0)

/-- The two statements that bound `bstat.ea` after it is set:
`if( ea > 2.0 ) ea = 2.0; if( ea < -2.0 ) ea = -2.0;`. -/
def clamp_ea {F : Type} (ops : FloatOps F) (ea : F) : F :=
  let ea := if ops.lt (ops.ofInt 2) ea then ops.ofInt 2 else ea
  if ops.lt ea (ops.ofInt (-2)) then ops.ofInt (-2) else ea

/-- What a call of `_getbit` leaves behind: the return value, the byte behind
`outbits` and the record `bstat`. -/
structure BitResult (F : Type) where
  bt : Bool
  outbits : Nat
  bstat : bstat_s F
  deriving DecidableEq, Repr

/-- The block `if(( bstat.pC < C ) && ( bstat.pC < bstat.ppC ))` of
`_getbit`: integrate the Q samples, fix the sign `sgQ` if it is still 0,
shift the bit into `outbits` and set the timing adjustment `ea`. -/
def getbit_Q {F : Type} (ops : FloatOps F) (C : F) (r : BitResult F) : Option (BitResult F) :=
  if ops.lt r.bstat.pC C && ops.lt r.bstat.pC r.bstat.ppC then
    (ring_sum ops r.bstat.qsample r.bstat.is BITLEN.toNat (ops.ofInt 0)).map (fun Q =>
      let sgQ :=
        if r.bstat.sgQ = 0 then (if ops.lt Q (ops.ofInt 0) then -1 else 1) else r.bstat.sgQ
      { bt := true
        outbits := shift_in r.outbits (ops.lt (ops.ofInt 0) (ops.mul Q (ops.ofInt sgQ)))
        bstat :=
          { r.bstat with
            sgQ := sgQ
            ea := clamp_ea ops (ops.mul (ops.neg ops.BITPLL) (ops.sub C r.bstat.ppC)) } })
  else some r

/-- The block `if(( bstat.pC > C ) && ( bstat.pC > bstat.ppC ))` of
`_getbit`: the same with the I samples, `sgI` and `BITPLL * ( C - ppC )`. -/
def getbit_I {F : Type} (ops : FloatOps F) (C : F) (r : BitResult F) : Option (BitResult F) :=
  if ops.lt C r.bstat.pC && ops.lt r.bstat.ppC r.bstat.pC then
    (ring_sum ops r.bstat.isample r.bstat.is BITLEN.toNat (ops.ofInt 0)).map (fun I =>
      let sgI :=
        if r.bstat.sgI = 0 then (if ops.lt I (ops.ofInt 0) then -1 else 1) else r.bstat.sgI
      { bt := true
        outbits := shift_in r.outbits (ops.lt (ops.ofInt 0) (ops.mul I (ops.ofInt sgI)))
        bstat :=
          { r.bstat with
            sgI := sgI
            ea := clamp_ea ops (ops.mul ops.BITPLL (ops.sub C r.bstat.ppC)) } })
  else some r

/-- The block under `if( ++bstat.clock >= ( BITLEN/4 + bstat.ea ))`, entered
with the clock already reset: clock filter, the two bit blocks, and the shift
of the correlator history. -/
def getbit_clock {F : Type} (ops : FloatOps F) (h : List F) (r : BitResult F) :
    Option (BitResult F) :=
  (clock_filter ops h r.bstat.csample r.bstat.is).bind (fun C =>
    (getbit_Q ops C r).bind (fun r1 =>
      (getbit_I ops C r1).map (fun r2 =>
        { r2 with bstat := { r2.bstat with ppC := r2.bstat.pC, pC := C } })))

/-- The function `_getbit` on the record `bstat` and the table `h`; `none`
when a buffer is accessed outside its bounds. The assertion on the sample is
not modelled. -/
def _getbit {F : Type} (ops : FloatOps F) (h : List F) (b : bstat_s F) (sample : F)
    (outbits : Nat) : Option (BitResult F) :=
  let is1 := if b.is - 1 < 0 then BITLEN - 1 else b.is - 1
  let lin := ops.add (ops.mul ops.k003 (ops.fabs sample)) (ops.mul ops.k997 b.lin)
  let s := ops.div sample lin
  let s2 := ops.mul s s
  let phih0 := ops.add b.phih (ops.sub ops.Freqh (ops.mul ops.VFOPLL b.dfh))
  let phih := if ops.le ops.fourPI phih0 then ops.sub phih0 ops.fourPI else phih0
  (buf_set b.hsample is1 (ops.mul s2 (ops.sin phih))).bind (fun hsample =>
  (ring_sum ops hsample is1 (BITLEN / 2).toNat (ops.ofInt 0)).bind (fun dfh =>
  let osch := ops.cos (ops.div phih (ops.ofInt 2))
  let phil0 := ops.add b.phil (ops.sub ops.Freql (ops.mul ops.VFOPLL b.dfl))
  let phil := if ops.le ops.fourPI phil0 then ops.sub phil0 ops.fourPI else phil0
  (buf_set b.lsample is1 (ops.mul s2 (ops.sin phil))).bind (fun lsample =>
  (ring_sum ops lsample is1 (BITLEN / 2).toNat (ops.ofInt 0)).bind (fun dfl =>
  let oscl := ops.cos (ops.div phil (ops.ofInt 2))
  (buf_set b.isample is1 (ops.mul s (ops.add oscl osch))).bind (fun isample =>
  (buf_set b.qsample is1 (ops.mul s (ops.sub oscl osch))).bind (fun qsample =>
  (buf_set b.csample is1 (ops.mul oscl osch)).bind (fun csample =>
  let b1 : bstat_s F :=
    { b with
      is := is1, lin := lin, phih := phih, dfh := dfh, hsample := hsample
      phil := phil, lsample := lsample, dfl := dfl
      isample := isample, qsample := qsample, csample := csample }
  if ops.le (ops.add (ops.ofInt (BITLEN / 4)) b.ea) (ops.ofInt (b.clock + 1)) then
    getbit_clock ops h { bt := false, outbits := outbits, bstat := { b1 with clock := 0 } }
  else
    some { bt := false, outbits := outbits, bstat := { b1 with clock := b.clock + 1 } })))))))

/-- The function `init_bits`: the table `h` and the record `bstat` it
leaves. -/
def init_bits {F : Type} (ops : FloatOps F) : List F × bstat_s F :=
  ((List.range BITLEN.toNat).map
      (fun (i : Nat) =>
        ops.sin (ops.div (ops.mul ops.twoPI (ops.ofInt (i : Int))) (ops.ofInt BITLEN))),
    { hsample := List.replicate BITLEN.toNat (ops.ofInt 0)
      lsample := List.replicate BITLEN.toNat (ops.ofInt 0)
      isample := List.replicate BITLEN.toNat (ops.ofInt 0)
      qsample := List.replicate BITLEN.toNat (ops.ofInt 0)
      csample := List.replicate BITLEN.toNat (ops.ofInt 0)
      is := 0, clock := 0, sgI := 0, sgQ := 0
      phih := ops.ofInt 0, phil := ops.ofInt 0, dfh := ops.ofInt 0, dfl := ops.ofInt 0
      pC := ops.ofInt 0, ppC := ops.ofInt 0, ea := ops.ofInt 0, lin := ops.ofInt 1 })

/-- The record `bstat` has its index inside the buffers and its five buffers
have `BITLEN` elements. -/
def bstat_ok {F : Type} (b : bstat_s F) : Prop :=
  0 ≤ b.is ∧ b.is < BITLEN ∧ b.hsample.length = 40 ∧ b.lsample.length = 40 ∧
    b.isample.length = 40 ∧ b.qsample.length = 40 ∧ b.csample.length = 40

instance bstat_ok_decidable {F : Type} (b : bstat_s F) : Decidable (bstat_ok b) := by
  unfold bstat_ok
  infer_instance

/-- Consecutive calls of `_getbit`, one for each sample of the list, on the
same output byte: the byte and the record after the last call. -/
def getbit_calls {F : Type} (ops : FloatOps F) (h : List F) :
    List F → bstat_s F → Nat → Option (Nat × bstat_s F)
  | [], b, outbits => some (outbits, b)
  | s :: rest, b, outbits =>
    (_getbit ops h b s outbits).bind (fun r => getbit_calls ops h rest r.bstat r.outbits)

/-- Integer operations in the place of the floating-point ones, with which
the model of `_getbit` can be evaluated. -/
def int_ops : FloatOps Int :=
  { ofInt := fun i => i, k003 := 0, k997 := 1, Freqh := 2, Freql := 1, VFOPLL := 0
    BITPLL := 1, fourPI := 12, twoPI := 6
    add := fun a b => a + b, sub := fun a b => a - b, mul := fun a b => a * b
    div := fun a b => Int.tdiv a b, neg := fun a => -a
    fabs := fun a => |a|, sin := fun a => Int.tmod a 3 - 1, cos := fun a => 1 - Int.tmod a 3
    lt := fun a b => decide (a < b), le := fun a b => decide (a ≤ b) }

/-! ## Baseband conditioning -/

/-- The body of the loop of `rotate_90` for the group of eight bytes that
starts at `i`; bytes are below 256, so `255 - x` needs no truncation. -/
def rotate_90_group (buf : List Nat) (i : Nat) : List Nat :=
  let tmp := 255 - buf.getD (i + 3) 0
  let buf := buf.set (i + 3) (buf.getD (i + 2) 0)
  let buf := buf.set (i + 2) tmp
  let buf := buf.set (i + 4) (255 - buf.getD (i + 4) 0)
  let buf := buf.set (i + 5) (255 - buf.getD (i + 5) 0)
  let tmp := 255 - buf.getD (i + 6) 0
  let buf := buf.set (i + 6) (buf.getD (i + 7) 0)
  buf.set (i + 7) tmp

/-- The loop `for( uint32_t i = 0; i < len; i += 8 )` of `rotate_90`, run for
at most `fuel` iterations. -/
def rotate_90_loop : Nat → List Nat → Nat → Nat → Option (List Nat)
  | 0, _, _, _ => none
  | fuel + 1, buf, len, i =>
    if i < len then rotate_90_loop fuel (rotate_90_group buf i) len ((i + 8) % 4294967296)
    else some buf

/-- The function `rotate_90` on the buffer `buf` and the length `len`. -/
def rotate_90 (buf : List Nat) (len : Nat) : Option (List Nat) :=
  rotate_90_loop (len / 8 + 2) buf len 0

/-- Negation of an unsigned sample, taken as `255 - x`. -/
def neg_u8 (x : Nat) : Nat :=
  255 - x

/-- An IQ pair multiplied by the `k`-th power of j, with negation taken as
`255 - x`: the factors 1, j, -1 and -j. -/
def mul_j_pow (k : Nat) (p : Nat × Nat) : Nat × Nat :=
  match k % 4 with
  | 0 => p
  | 1 => (neg_u8 p.2, p.1)
  | 2 => (neg_u8 p.1, neg_u8 p.2)
  | _ => (p.2, neg_u8 p.1)

/-- The rotation in the words of the description: every group of eight bytes
`[i0,q0,i1,q1,i2,q2,i3,q3]` becomes
`[i0, q0, 255-q1, i1, 255-i2, 255-q2, q3, 255-i3]`. -/
def rotate_groups : List Nat → List Nat
  | i0 :: q0 :: i1 :: q1 :: i2 :: q2 :: i3 :: q3 :: rest =>
    i0 :: q0 :: (255 - q1) :: i1 :: (255 - i2) :: (255 - q2) :: q3 :: (255 - i3) ::
      rotate_groups rest
  | l => l

/-- The fields of `struct fm_state` that `low_pass`, `am_demod`,
`post_squelch` and `optimal_settings` read or write; the arrays `signal` and
`signal2` are lists of the capacity of the arrays. -/
structure fm_state where
  now_r : Int
  now_j : Int
  prev_index : Int
  downsample : Int
  output_scale : Int
  squelch_level : Int
  squelch_hits : Int
  signal : List Int
  signal2 : List Int
  signal_len : Int
  signal2_len : Int
  freq_now : Int
  sample_rate : Nat
  deriving DecidableEq, Repr

/-- The `while (i < (int)len)` loop of `low_pass` with its local variables
`i`, `i2` and `seq`, run for at most `fuel` iterations; `/` of the source is
the truncating division. -/
def low_pass_loop :
    Nat → fm_state → List Nat → Nat → Nat → Nat → Nat → Option (fm_state × Nat)
  | 0, _, _, _, _, _, _ => none
  | fuel + 1, fm, buf, len, i, i2, seq =>
    if i < len then
      let fm := { fm with now_r := fm.now_r + ((buf.getD i 0 : Int) - 127) }
      let fm := { fm with now_j := fm.now_j + ((buf.getD (i + 1) 0 : Int) - 127) }
      let fm := { fm with prev_index := fm.prev_index + 1 }
      if fm.prev_index < fm.downsample then low_pass_loop fuel fm buf len (i + 2) i2 seq
      else
        let fm :=
          if seq % 2 = 1 then
            { fm with signal :=
                ((fm.signal.set i2 (Int.tdiv (fm.now_r * 5) 8)).set (i2 + 1)
                  (Int.tdiv (fm.now_j * 5) 8)) }
          else
            { fm with signal := (fm.signal.set i2 fm.now_r).set (i2 + 1) fm.now_j }
        low_pass_loop fuel { fm with prev_index := 0, now_r := 0, now_j := 0 } buf len (i + 2)
          (i2 + 2) (seq + 1)
    else some (fm, i2)

/-- The function `low_pass`. -/
def low_pass (fm : fm_state) (buf : List Nat) (len : Nat) : Option fm_state :=
  (low_pass_loop (len / 2 + 2) fm buf len 0 0 0).map
    (fun p => { p.1 with signal_len := (p.2 : Int) })

/-- Conversion of an `int` to `int16_t`: the low 16 bits in two's
complement. -/
def wrap16 (x : Int) : Int :=
  (x + 32768) % 65536 - 32768

/-- The two assignments to `signal2[i/2]` in the loop of `am_demod` for the
pair `(I, Q)`; the square root of the double, truncated by the cast, is the
integer square root. -/
def am_sample (I Q output_scale : Int) : Int :=
  let pcm := I * I
  let pcm := pcm + Q * Q
  let v := wrap16 (wrap16 (Int.sqrt pcm) * output_scale)
  wrap16 (v * 8)

/-- The loop of `am_demod`, run for at most `fuel` iterations. -/
def am_demod_loop : Nat → fm_state → Nat → Option fm_state
  | 0, _, _ => none
  | fuel + 1, fm, i =>
    if (i : Int) < fm.signal_len then
      am_demod_loop fuel
        { fm with signal2 :=
            (fm.signal2.set (i / 2)
              (am_sample (fm.signal.getD i 0) (fm.signal.getD (i + 1) 0) fm.output_scale)) }
        (i + 2)
    else some fm

/-- The function `am_demod`. -/
def am_demod (fm : fm_state) : Option fm_state :=
  (am_demod_loop (fm.signal_len.toNat / 2 + 2) fm 0).map
    (fun r => { r with signal2_len := Int.tdiv r.signal_len 2 })

/-- The loops `for (i=0; i<len; i+=step) sum += f(samples[i])` of `mad`, run
for at most `fuel` iterations. -/
def mad_sum : Nat → List Int → Int → Int → Int → (Int → Int) → Int → Option Int
  | 0, _, _, _, _, _, _ => none
  | fuel + 1, samples, len, step, i, f, sum =>
    if i < len then
      mad_sum fuel samples len step (i + step) f (sum + f (samples.getD i.toNat 0))
    else some sum

/-- The function `mad`; `none` when a loop does not end or a division is by
zero. -/
def mad (samples : List Int) (len step : Int) : Option Int :=
  if len = 0 then some 0
  else
    (mad_sum (len.toNat + 1) samples len step 0 (fun x => x) 0).bind (fun sum =>
      if len * step = 0 then none
      else
        (mad_sum (len.toNat + 1) samples len step 0
            (fun x => (Int.natAbs (x - Int.tdiv sum (len * step)) : Int)) 0).bind (fun sum2 =>
          if Int.tdiv len step = 0 then none else some (Int.tdiv sum2 (Int.tdiv len step))))

/-- The function `post_squelch`: the record it leaves and its return
value. -/
def post_squelch (fm : fm_state) : Option (fm_state × Int) :=
  (mad fm.signal fm.signal_len 2).bind (fun dev_r =>
    (mad (fm.signal.drop 1) fm.signal_len 2).bind (fun dev_j =>
      if dev_r > fm.squelch_level ∨ dev_j > fm.squelch_level then
        some ({ fm with squelch_hits := 0 }, 1)
      else some ({ fm with squelch_hits := fm.squelch_hits + 1 }, 0)))

/-- The assignments of `optimal_settings` to the record; the calls into the
tuner library are not modelled. -/
def optimal_settings (fm : fm_state) (freq : Int) : fm_state :=
  let downsample : Int := ((1000000 / fm.sample_rate + 1 : Nat) : Int)
  let output_scale := Int.tdiv (1 <<< 15 : Nat) (128 * downsample)
  { fm with
    downsample := downsample
    freq_now := freq
    output_scale := if output_scale < 1 then 1 else output_scale }

/-- The samples of a list taken at stride 2, starting with the first. -/
def stride2 : List Int → List Int
  | [] => []
  | [x] => [x]
  | x :: _ :: rest => x :: stride2 rest

/-- Mean absolute deviation in the words of the description: the integer
mean of `|x - m|`, with `m` the integer mean of the same samples. -/
def mean_abs_dev (xs : List Int) : Int :=
  Int.tdiv ((xs.map (fun x => (Int.natAbs (x - Int.tdiv xs.sum xs.length) : Int))).sum) xs.length

/-- The sum of `buf[2*(start+t)+c] - 127` over the `m` IQ pairs from pair
`start` on: the I sums with `c` 0, the Q sums with `c` 1. -/
def window_sum (buf : List Nat) (start c m : Nat) : Int :=
  ((List.range m).map (fun t => ((buf.getD (2 * (start + t) + c) 0 : Nat) : Int) - 127)).sum

/-- Output pair `k` of the decimation in the words of the description: the
window sums, scaled by 5/8 with truncating division when `k` is odd. -/
def low_pass_pair (buf : List Nat) (d k : Nat) : List Int :=
  if k % 2 = 1 then
    [Int.tdiv (window_sum buf (k * d) 0 d * 5) 8, Int.tdiv (window_sum buf (k * d) 1 d * 5) 8]
  else [window_sum buf (k * d) 0 d, window_sum buf (k * d) 1 d]

/-- The first `n` output pairs of the decimation. -/
def low_pass_pairs (buf : List Nat) (d : Nat) : Nat → List Int
  | 0 => []
  | n + 1 => low_pass_pairs buf d n ++ low_pass_pair buf d n

/-- A conditioner as `optimal_settings` leaves it at 48000 samples per
second, with room for four output values. -/
def fm_init : fm_state :=
  optimal_settings
    { now_r := 0, now_j := 0, prev_index := 0, downsample := 0, output_scale := 0
      squelch_level := 10, squelch_hits := 0, signal := [0, 0, 0, 0], signal2 := [0, 0]
      signal_len := 0, signal2_len := 0, freq_now := 0, sample_rate := 48000 } 0

/-- An input block of 21 IQ pairs whose I samples are 19 or 20 above the
mid-scale value 127, about 15 per cent of full scale, and whose Q samples are
at mid-scale. -/
def buf_loud : List Nat :=
  (List.replicate 20 [146, 127]).flatten ++ [147, 127]

/-- The conditioner after `low_pass` on `buf_loud`. -/
def fm_loud : fm_state :=
  { fm_init with signal := [400, 0, 0, 0], signal_len := 2 }

/-- A conditioner holding two IQ pairs, all four values 100. -/
def fm_flat : fm_state :=
  { fm_init with signal := [100, 100, 100, 100], signal_len := 4 }

/-! ## Reference definitions for the CRC, the short frame and repeated rotation -/

/-- One bit step of the reflected CRC-16 register: shift right, and XOR the
reflected polynomial 0x8408 when the bit shifted out was set. -/
def kermit_bit (x : Nat) : Nat :=
  if x % 2 = 1 then (x / 2) ^^^ 0x8408 else x / 2

/-- One byte of the bit-serial reflected CRC-16: XOR the byte into the low
end of the register, then eight bit steps, least significant bit first. -/
def kermit_byte (crc b : Nat) : Nat :=
  kermit_bit^[8] (crc ^^^ b)

/-- The bit-serial reflected CRC-16 of a byte sequence with initial value 0
and no final XOR (CRC-16/KERMIT). -/
def crc16_kermit (s : List Nat) : Nat :=
  s.foldl kermit_byte 0

/-- The ASCII bytes of the check string "123456789". -/
def check_string : List Nat :=
  [0x31, 0x32, 0x33, 0x34, 0x35, 0x36, 0x37, 0x38, 0x39]

/-- A raw frame of four bytes: SOH, ETX with odd parity, and the two bytes
of `gen_crc` over those two, low byte first. -/
def frame_short : List Nat :=
  [0x01, 0x83, 0x4b, 0xaf]

/-- The bytes on the wire that carry `frame_short`: 26 pre-key bytes, the two
bit-sync and the two character-sync bytes, the frame, and one further byte. -/
def wire_short (t : Nat) : List Nat :=
  List.replicate 26 PRE_KEY_CHAR ++
    [_to_odd BIT_SYNC_1, _to_odd BIT_SYNC_2, _to_odd CHAR_SYNC_1, _to_odd CHAR_SYNC_2] ++
    frame_short ++ [t]

/-- The function `rotate_90` applied `n` times to the same buffer. -/
def rotate_90_times : Nat → List Nat → Nat → Option (List Nat)
  | 0, buf, _ => some buf
  | n + 1, buf, len => (rotate_90 buf len).bind (fun b => rotate_90_times n b len)

/-- Every group of four IQ pairs with the bytes of its second and fourth pair
replaced by `255 - x`; bytes after the last whole group are kept. -/
def negate_pairs : List Nat → List Nat
  | i0 :: q0 :: i1 :: q1 :: i2 :: q2 :: i3 :: q3 :: rest =>
    i0 :: q0 :: (255 - i1) :: (255 - q1) :: i2 :: q2 :: (255 - i3) :: (255 - q3) ::
      negate_pairs rest
  | l => l

/-- Consecutive calls of `_getbit`, one for each sample of the list, on the
same output byte, with the bits reported: for every call that returns true,
the bit it has put at the top of the byte, oldest first. -/
def getbit_run {F : Type} (ops : FloatOps F) (h : List F) :
    List F → bstat_s F → Nat → Option (Nat × bstat_s F × List Bool)
  | [], b, outbits => some (outbits, b, [])
  | s :: rest, b, outbits =>
    (_getbit ops h b s outbits).bind (fun r =>
      (getbit_run ops h rest r.bstat r.outbits).map (fun p =>
        (p.1, p.2.1, if r.bt then r.outbits.testBit 7 :: p.2.2 else p.2.2)))

/-- Samples for the integer stand-in: the call for the 20th of them is the
first that reports a bit. -/
def samples_emit : List Int :=
  [5, 7, 3, 9, 100, 2, 3, 4, 5, 6, 7, 8, 9, 1, 2, 3, 4, 5, 6, 7, 8, 9, 3, 2, 1, 4, 6, 8,
    9, 5, 4, 3, 2, 1, 3, 4, 5, 6, 7, 8, 9, 7, 6, 5]

/-- The record `bstat` of the integer stand-in after the first nineteen
samples of `samples_emit`, from `init_bits`. -/
def bstat_emit : bstat_s Int :=
  ((getbit_calls int_ops (init_bits int_ops).1 (samples_emit.take 19)
      (init_bits int_ops).2 0).map Prod.snd).getD (init_bits int_ops).2

/-- Along a run of the frame machine the raw frame stays within the bounds
the states set: at most 244 bytes in `TXT` and `CRC1`, 245 in `CRC2` and 246
in `END`. -/
def frame_bounded {F : Type} (g : Globals F) : Prop :=
  (g.m_state.state = STATE.TXT → g.m_state.rawText.length ≤ 244) ∧
  (g.m_state.state = STATE.CRC1 → g.m_state.rawText.length ≤ 244) ∧
  (g.m_state.state = STATE.CRC2 → g.m_state.rawText.length ≤ 245) ∧
  (g.m_state.state = STATE.END → g.m_state.rawText.length ≤ 246)

instance frame_bounded_decidable {F : Type} (g : Globals F) : Decidable (frame_bounded g) := by
  unfold frame_bounded
  infer_instance

/-! ## CRC engine: basic facts -/

theorem crc_ccitt_length : crc_ccitt.length = 256 := by decide

theorem reverse_bits_length : reverse_bits.length = 256 := by decide

theorem crc_ccitt_lt (i : Nat) : crc_ccitt.getD i 0 < 65536 := by
  by_cases h : i < 256
  · have key : ∀ k : Fin 256, crc_ccitt.getD k.val 0 < 65536 := by decide
    exact key ⟨i, h⟩
  · rw [List.getD_eq_default]
    · decide
    · rw [crc_ccitt_length]; omega

theorem reverse_bits_lt (i : Nat) : reverse_bits.getD i 0 < 256 := by
  by_cases h : i < 256
  · have key : ∀ k : Fin 256, reverse_bits.getD k.val 0 < 256 := by decide
    exact key ⟨i, h⟩
  · rw [List.getD_eq_default]
    · decide
    · rw [reverse_bits_length]; omega

theorem reverse_bits_involutive (b : Nat) (h : b < 256) :
    reverse_bits.getD (reverse_bits.getD b 0) 0 = b := by
  have key : ∀ k : Fin 256, reverse_bits.getD (reverse_bits.getD k.val 0) 0 = k.val := by
    decide
  exact key ⟨b, h⟩

theorem fold_crc_rev_lt (crc c : Nat) : fold_crc_rev crc c < 65536 := by
  unfold fold_crc_rev
  exact Nat.xor_lt_two_pow (n := 16) (Nat.mod_lt _ (by decide)) (crc_ccitt_lt _)

theorem foldl_fold_crc_rev_lt (s : List Nat) (crc : Nat) (h : crc < 65536) :
    s.foldl fold_crc_rev crc < 65536 := by
  induction s generalizing crc with
  | nil => simpa using h
  | cons b t ih => exact ih _ (fold_crc_rev_lt crc b)

/-- The value of `gen_crc` in terms of the folded register, also for the
empty range. -/
theorem gen_crc_eq_reflect (s : List Nat) :
    gen_crc s = crc_reflect (s.foldl fold_crc_rev 0) := by
  cases s with
  | nil => decide
  | cons b t => rfl

theorem crc_reflect_eq (w : Nat) :
    crc_reflect w
      = reverse_bits.getD (w % 256) 0 * 256 + reverse_bits.getD (w / 256 % 256) 0 := by
  unfold crc_reflect
  have h1 : w >>> 0 = w := rfl
  have h2 : ∀ x : Nat, x &&& 0x00ff = x % 256 := fun x => Nat.and_pow_two_sub_one_eq_mod x 8
  rw [h1, h2, h2, Nat.shiftRight_eq_div_pow, Nat.shiftLeft_eq, Nat.shiftLeft_eq]
  have hb := reverse_bits_lt (w / 2 ^ 8 % 256)
  have := Nat.mul_add_lt_is_or (i := 8) hb (reverse_bits.getD (w % 256) 0)
  simp only [Nat.reducePow, Nat.mul_one] at this ⊢
  rw [Nat.mul_comm _ 256, ← this]

theorem crc_reflect_eq_zero {w : Nat} (h : crc_reflect w = 0) (hw : w < 65536) : w = 0 := by
  rw [crc_reflect_eq] at h
  have h1 : reverse_bits.getD (w % 256) 0 = 0 := by omega
  have h2 : reverse_bits.getD (w / 256 % 256) 0 = 0 := by omega
  have e1 := reverse_bits_involutive (w % 256) (Nat.mod_lt _ (by decide))
  have e2 := reverse_bits_involutive (w / 256 % 256) (Nat.mod_lt _ (by decide))
  rw [h1] at e1; rw [h2] at e2
  have z : reverse_bits.getD 0 0 = 0 := by decide
  rw [z] at e1 e2
  omega

theorem fold_crc_rev_eq (crc c : Nat) :
    fold_crc_rev crc c
      = (crc * 256 % 65536) ^^^
          crc_ccitt.getD (((crc / 256) ^^^ reverse_bits.getD c 0) % 256) 0 := by
  unfold fold_crc_rev
  have h2 : ∀ x : Nat, x &&& 0xff = x % 256 := fun x => Nat.and_pow_two_sub_one_eq_mod x 8
  simp only [h2, Nat.shiftRight_eq_div_pow, Nat.shiftLeft_eq, Nat.reducePow]

/-- Feeding the reflected image of the register's high byte clears it. -/
theorem fold_crc_rev_high (w : Nat) (hw : w < 65536) :
    fold_crc_rev w (reverse_bits.getD (w / 256 % 256) 0) = w % 256 * 256 := by
  rw [fold_crc_rev_eq, reverse_bits_involutive _ (Nat.mod_lt _ (by decide))]
  have e : w / 256 % 256 = w / 256 := Nat.mod_eq_of_lt (by omega)
  rw [e, Nat.xor_self]
  have z : crc_ccitt.getD (0 % 256) 0 = 0 := by decide
  rw [z, Nat.xor_zero]; omega

/-- Appending the low byte and then the high byte of `gen_crc` drives the
register to zero. -/
theorem fold_crc_rev_own_crc (w : Nat) (hw : w < 65536) :
    fold_crc_rev (fold_crc_rev w (crc_reflect w % 256)) (crc_reflect w / 256) = 0 := by
  have hb := reverse_bits_lt (w / 256 % 256)
  have ha := reverse_bits_lt (w % 256)
  have e1 : crc_reflect w % 256 = reverse_bits.getD (w / 256 % 256) 0 := by
    rw [crc_reflect_eq]; omega
  have e2 : crc_reflect w / 256 = reverse_bits.getD (w % 256) 0 := by
    rw [crc_reflect_eq]; omega
  rw [e1, e2, fold_crc_rev_high w hw]
  have e3 : w % 256 = (w % 256 * 256) / 256 % 256 := by omega
  have := fold_crc_rev_high (w % 256 * 256) (by omega)
  rw [← e3] at this
  rw [this]; omega

/-- C1 (as the code has it): for every byte sequence `s`, `gen_crc` over `s`
followed by the two bytes of `gen_crc s`, low byte first and then high byte,
is 0. -/
theorem gen_crc_append_own_crc (s : List Nat) :
    gen_crc (s ++ [gen_crc s % 256, gen_crc s / 256]) = 0 := by
  rw [gen_crc_eq_reflect (s ++ _), List.foldl_append, gen_crc_eq_reflect s]
  have hw := foldl_fold_crc_rev_lt s 0 (by decide)
  simp only [List.foldl_cons, List.foldl_nil]
  rw [fold_crc_rev_own_crc _ hw]
  decide

/-- C1 as stated fails: with the high byte of `gen_crc` first and the low
byte second, the CRC over the extended sequence is not 0 for `s = [0x01]`. -/
theorem gen_crc_high_byte_first_nonzero :
    gen_crc ([0x01] ++ [gen_crc [0x01] / 256, gen_crc [0x01] % 256]) ≠ 0 := by
  decide

/-! ## Frame state machine: single calls -/

/-- The `for` loop of `STATE::SYNC` consumes at least one and at most all of
the bit indices it is given. -/
theorem sync_loop_ret (r : Nat) (l : List Nat) (m : m_state_t) (b : Int) (hl : l ≠ []) :
    b + 1 ≤ (sync_loop r l m b).2 ∧ (sync_loop r l m b).2 ≤ b + l.length := by
  induction l generalizing m b with
  | nil => exact absurd rfl hl
  | cons i rest ih =>
    unfold sync_loop
    simp only [List.length_cons]
    push_cast
    split
    · constructor <;> omega
    · split
      · constructor <;> omega
      · cases rest with
        | nil => simp [sync_loop]
        | cons i2 rest2 =>
          have := ih (m := sync_add_bit r i m) (b := b + 1) (by simp)
          simp only [List.length_cons] at this ⊢
          push_cast at this ⊢
          constructor <;> omega

theorem _getmesg_HEADL {F : Type} (g : Globals F) (r : Nat) (msg : Option msg_t)
    (hs : g.m_state.state = STATE.HEADL) :
    _getmesg g r msg = some
      { g :=
          if r = PRE_KEY_CHAR then
            { g with m_state :=
                { g.m_state with
                  consecutivePreKey := g.m_state.consecutivePreKey + 1
                  state :=
                    if g.m_state.consecutivePreKey + 1 > consecutivePreKeyLim then STATE.HEADF
                    else STATE.HEADL } }
          else
            { bstat := _reset_bit_state_machine g.bstat
              m_state := _reset_message_state_machine g.m_state }
        msg := msg
        ret := 1 } := by
  simp only [_getmesg, _getmesg_loop, _getmesg_pass, hs]
  split_ifs <;> simp_all

theorem _getmesg_SYNC {F : Type} (g : Globals F) (r : Nat) (msg : Option msg_t)
    (hs : g.m_state.state = STATE.SYNC) :
    _getmesg g r msg = some
      { g := { g with m_state := (sync_loop r [0, 1, 2, 3, 4, 5, 6, 7] g.m_state 0).1 }
        msg := msg
        ret := (sync_loop r [0, 1, 2, 3, 4, 5, 6, 7] g.m_state 0).2 } := by
  simp only [_getmesg, _getmesg_loop, _getmesg_pass, hs]

theorem _getmesg_HEADF_prekey {F : Type} (g : Globals F) (r : Nat) (msg : Option msg_t)
    (hs : g.m_state.state = STATE.HEADF) (hr : r = PRE_KEY_CHAR) :
    _getmesg g r msg = some { g := g, msg := msg, ret := 1 } := by
  simp only [_getmesg, _getmesg_loop, _getmesg_pass, hs, hr, if_true]

theorem _getmesg_HEADF_other {F : Type} (g : Globals F) (r : Nat) (msg : Option msg_t)
    (hs : g.m_state.state = STATE.HEADF) (hr : r ≠ PRE_KEY_CHAR) :
    _getmesg g r msg =
      _getmesg
        { g with m_state :=
            { g.m_state with state := STATE.SYNC, syncForming := 0, syncBitsHave := 0 } }
        r msg := by
  have h := _getmesg_SYNC
    ({ g with m_state :=
        { g.m_state with state := STATE.SYNC, syncForming := 0, syncBitsHave := 0 } }) r msg rfl
  rw [h]
  simp only [_getmesg, _getmesg_loop, _getmesg_pass, hs, hr, if_false]

theorem _getmesg_TXT {F : Type} (g : Globals F) (r : Nat) (msg : Option msg_t)
    (hs : g.m_state.state = STATE.TXT) :
    _getmesg g r msg =
      if (g.m_state.rawText ++ [r]).length > BMAX then
        _getmesg
          { g with m_state :=
              { g.m_state with rawText := g.m_state.rawText ++ [r], state := STATE.HEADL } }
          r msg
      else
        some
          { g := { g with m_state :=
                { g.m_state with
                  rawText := g.m_state.rawText ++ [r]
                  state := if r = _to_odd ETX ∨ r = _to_odd ETB then STATE.CRC1
                    else STATE.TXT } }
            msg := msg
            ret := 8 } := by
  by_cases h1 : (g.m_state.rawText ++ [r]).length > BMAX
  · have h := _getmesg_HEADL
      ({ g with m_state :=
          { g.m_state with rawText := g.m_state.rawText ++ [r], state := STATE.HEADL } })
      r msg rfl
    rw [if_pos h1, h]
    simp only [_getmesg, _getmesg_loop, _getmesg_pass, hs, h1, if_true]
    split_ifs <;> rfl
  · rw [if_neg h1]
    simp only [_getmesg, _getmesg_loop, _getmesg_pass, hs, h1, if_false]
    split_ifs <;> simp_all

theorem _getmesg_CRC1 {F : Type} (g : Globals F) (r : Nat) (msg : Option msg_t)
    (hs : g.m_state.state = STATE.CRC1) :
    _getmesg g r msg = some
      { g := { g with m_state :=
            { g.m_state with rawText := g.m_state.rawText ++ [r], state := STATE.CRC2 } }
        msg := msg
        ret := 8 } := by
  simp only [_getmesg, _getmesg_loop, _getmesg_pass, hs]

theorem _getmesg_CRC2 {F : Type} (g : Globals F) (r : Nat) (msg : Option msg_t)
    (hs : g.m_state.state = STATE.CRC2) :
    _getmesg g r msg = some
      { g := { g with m_state :=
            { g.m_state with rawText := g.m_state.rawText ++ [r], state := STATE.END } }
        msg := msg
        ret := 8 } := by
  simp only [_getmesg, _getmesg_loop, _getmesg_pass, hs]

theorem _getmesg_END_crc_ok {F : Type} (g : Globals F) (r : Nat) (msg : Option msg_t)
    (hs : g.m_state.state = STATE.END) (hc : gen_crc g.m_state.rawText = 0) :
    _getmesg g r msg = (build_mesg g.m_state.rawText).map (fun p =>
      ({ g := { g with m_state := { g.m_state with state := STATE.HEADL, crc := 0 } }
         msg := some p.1
         ret := -1 } : Result F)) := by
  simp only [_getmesg, _getmesg_loop, _getmesg_pass, hs, hc, if_true]
  cases build_mesg g.m_state.rawText <;> rfl

theorem _getmesg_END_crc_bad {F : Type} (g : Globals F) (r : Nat) (msg : Option msg_t)
    (hs : g.m_state.state = STATE.END) (hc : gen_crc g.m_state.rawText ≠ 0) :
    _getmesg g r msg =
      match correct_i (List.range g.m_state.rawText.length) g.m_state.rawText with
      | (raw, true) =>
        (build_mesg raw).map (fun p =>
          ({ g := { g with m_state :=
                { g.m_state with state := STATE.HEADL, rawText := raw, crc := 0 } }
             msg := some p.1
             ret := -1 } : Result F))
      | (raw, false) =>
        some
          { g := { g with m_state := { g.m_state with state := STATE.HEADL, rawText := raw } }
            msg := msg
            ret := 8 } := by
  simp only [_getmesg, _getmesg_loop, _getmesg_pass, hs, hc, if_false]
  rcases hci : correct_i (List.range g.m_state.rawText.length) g.m_state.rawText with ⟨raw, b⟩
  cases b
  · rfl
  · simp only []
    cases build_mesg raw <;> rfl

/-- The accepting call of `STATE::END` on a frame with zero CRC that
`build_mesg` can read. -/
theorem _getmesg_END_crc_ok_some {F : Type} (g : Globals F) (r : Nat) (msg : Option msg_t)
    (hs : g.m_state.state = STATE.END) (hc : gen_crc g.m_state.rawText = 0)
    (hb : build_mesg g.m_state.rawText ≠ none) :
    _getmesg g r msg = some
      { g := { g with m_state := { g.m_state with state := STATE.HEADL, crc := 0 } }
        msg := (build_mesg g.m_state.rawText).map Prod.fst
        ret := -1 } := by
  rw [_getmesg_END_crc_ok g r msg hs hc]
  cases h : build_mesg g.m_state.rawText with
  | none => exact absurd h hb
  | some p => rfl

/-- The frame lengths on which `build_mesg` indexes within bounds. -/
theorem build_mesg_ne_none (txt : List Nat) :
    build_mesg txt ≠ none ↔ 27 ≤ txt.length ∧ txt.length ≤ 283 := by
  unfold build_mesg
  simp only [List.length_map, List.length_take, List.length_drop]
  split_ifs with h1 h2 h3
  · simp; omega
  · simp; omega
  · simp; omega
  · simp; omega

theorem build_mesg_eq_none (txt : List Nat) :
    build_mesg txt = none ↔ txt.length < 27 ∨ 283 < txt.length := by
  have h := build_mesg_ne_none txt
  constructor
  · intro e
    by_contra hc
    exact (h.mpr (by omega)) e
  · intro e
    by_contra hc
    have := h.mp hc
    omega

/-! ## One-bit correction loops -/

theorem flip_bit_flip_bit (raw : List Nat) (i j : Nat) :
    flip_bit (flip_bit raw i j) i j = raw := by
  induction raw generalizing i with
  | nil => simp [flip_bit]
  | cons x t ih =>
    cases i with
    | zero => simp [flip_bit, Nat.xor_cancel_right]
    | succ k =>
      have := ih k
      simp only [flip_bit, List.set_cons_succ, List.getD_cons_succ] at this ⊢
      rw [this]

theorem correct_j_spec (i : Nat) (js raw : List Nat) :
    ((correct_j i js raw).2 = true →
        gen_crc (correct_j i js raw).1 = 0 ∧
          ∃ j ∈ js, (correct_j i js raw).1 = flip_bit raw i j) ∧
      ((correct_j i js raw).2 = false → (correct_j i js raw).1 = raw) := by
  induction js with
  | nil => simp [correct_j]
  | cons j rest ih =>
    unfold correct_j
    simp only [flip_bit_flip_bit]
    split
    · rename_i h
      exact ⟨fun _ => ⟨h, j, List.mem_cons_self _ _, rfl⟩, fun h => by simp at h⟩
    · refine ⟨fun h => ?_, ih.2⟩
      obtain ⟨h1, j', hj', h2⟩ := ih.1 h
      exact ⟨h1, j', List.mem_cons_of_mem _ hj', h2⟩

theorem correct_i_spec (is raw : List Nat) :
    ((correct_i is raw).2 = true →
        gen_crc (correct_i is raw).1 = 0 ∧
          ∃ i ∈ is, ∃ j ∈ [0, 1, 2, 3, 4, 5, 6, 7], (correct_i is raw).1 = flip_bit raw i j) ∧
      ((correct_i is raw).2 = false → (correct_i is raw).1 = raw) := by
  induction is with
  | nil => simp [correct_i]
  | cons i rest ih =>
    unfold correct_i
    have hj := correct_j_spec i [0, 1, 2, 3, 4, 5, 6, 7] raw
    rcases hc : correct_j i [0, 1, 2, 3, 4, 5, 6, 7] raw with ⟨raw', b⟩
    rw [hc] at hj
    cases b
    · have e : raw' = raw := hj.2 rfl
      subst e
      refine ⟨fun h => ?_, ih.2⟩
      obtain ⟨h1, i', hi', h2⟩ := ih.1 h
      exact ⟨h1, i', List.mem_cons_of_mem _ hi', h2⟩
    · obtain ⟨h1, j, hj1, hj2⟩ := hj.1 rfl
      exact ⟨fun _ => ⟨h1, i, List.mem_cons_self _ _, j, hj1, hj2⟩,
        fun h => Bool.noConfusion h⟩

theorem flip_bit_length (raw : List Nat) (i j : Nat) : (flip_bit raw i j).length = raw.length := by
  simp [flip_bit]

/-- The raw frame after the one-bit correction has the length it had. -/
theorem correct_i_length (is raw : List Nat) : (correct_i is raw).1.length = raw.length := by
  have h := correct_i_spec is raw
  cases hb : (correct_i is raw).2
  · rw [h.2 hb]
  · obtain ⟨_, i, _, j, _, e⟩ := h.1 hb
    rw [e, flip_bit_length]

/-! ## The frame `STATE::END` hands to `build_mesg` -/

theorem end_frame_crc_ok (raw : List Nat) (hc : gen_crc raw = 0) : end_frame raw = some raw := by
  unfold end_frame
  exact if_pos hc

theorem end_frame_crc_bad (raw : List Nat) (hc : gen_crc raw ≠ 0) :
    end_frame raw =
      if (correct_i (List.range raw.length) raw).2 = true then
        some (correct_i (List.range raw.length) raw).1
      else none := by
  unfold end_frame
  rw [if_neg hc]
  rcases correct_i (List.range raw.length) raw with ⟨raw2, b⟩
  cases b <;> rfl

theorem end_frame_length (raw f : List Nat) (h : end_frame raw = some f) :
    f.length = raw.length := by
  by_cases hc : gen_crc raw = 0
  · rw [end_frame_crc_ok raw hc] at h
    rw [← Option.some.inj h]
  · rw [end_frame_crc_bad raw hc] at h
    split_ifs at h
    rw [← Option.some.inj h, correct_i_length]

theorem end_frame_crc (raw f : List Nat) (h : end_frame raw = some f) : gen_crc f = 0 := by
  by_cases hc : gen_crc raw = 0
  · rw [end_frame_crc_ok raw hc] at h
    rw [← Option.some.inj h]
    exact hc
  · rw [end_frame_crc_bad raw hc] at h
    split_ifs at h with hb
    rw [← Option.some.inj h]
    exact ((correct_i_spec _ raw).1 hb).1

/-- What a call in `STATE::END` does, by the frame it hands to `build_mesg`:
with such a frame the call returns -1 with the record `build_mesg` fills,
and has no result when `build_mesg` indexes out of bounds; without one it
returns 8 and leaves record and raw frame alone. -/
theorem _getmesg_END {F : Type} (g : Globals F) (r : Nat) (msg : Option msg_t)
    (hs : g.m_state.state = STATE.END) :
    _getmesg g r msg =
      match end_frame g.m_state.rawText with
      | some f =>
        (build_mesg f).map (fun p =>
          ({ g := { g with m_state :=
                { g.m_state with state := STATE.HEADL, rawText := f, crc := 0 } }
             msg := some p.1
             ret := -1 } : Result F))
      | none =>
        some
          { g := { g with m_state := { g.m_state with state := STATE.HEADL } }
            msg := msg
            ret := 8 } := by
  by_cases hc : gen_crc g.m_state.rawText = 0
  · rw [end_frame_crc_ok _ hc, _getmesg_END_crc_ok g r msg hs hc]
  · rw [end_frame_crc_bad _ hc, _getmesg_END_crc_bad g r msg hs hc]
    have hi := correct_i_spec (List.range g.m_state.rawText.length) g.m_state.rawText
    rcases hci : correct_i (List.range g.m_state.rawText.length) g.m_state.rawText
      with ⟨raw, b⟩
    rw [hci] at hi
    cases b
    · have e : raw = g.m_state.rawText := hi.2 rfl
      subst e
      rfl
    · rfl

theorem _getmesg_END_some {F : Type} (g : Globals F) (r : Nat) (msg : Option msg_t)
    (hs : g.m_state.state = STATE.END) (f : List Nat)
    (hf : end_frame g.m_state.rawText = some f) :
    _getmesg g r msg =
      (build_mesg f).map (fun p =>
        ({ g := { g with m_state :=
              { g.m_state with state := STATE.HEADL, rawText := f, crc := 0 } }
           msg := some p.1
           ret := -1 } : Result F)) := by
  rw [_getmesg_END g r msg hs, hf]

theorem _getmesg_END_none {F : Type} (g : Globals F) (r : Nat) (msg : Option msg_t)
    (hs : g.m_state.state = STATE.END) (hf : end_frame g.m_state.rawText = none) :
    _getmesg g r msg = some
      { g := { g with m_state := { g.m_state with state := STATE.HEADL } }
        msg := msg
        ret := 8 } := by
  rw [_getmesg_END g r msg hs, hf]

/-- The accepting call of `STATE::END` on a frame `build_mesg` can index. -/
theorem _getmesg_END_accept {F : Type} (g : Globals F) (r : Nat) (msg : Option msg_t)
    (hs : g.m_state.state = STATE.END) (f : List Nat)
    (hf : end_frame g.m_state.rawText = some f) (hb : build_mesg f ≠ none) :
    _getmesg g r msg = some
      { g := { g with m_state :=
            { g.m_state with state := STATE.HEADL, rawText := f, crc := 0 } }
        msg := (build_mesg f).map Prod.fst
        ret := -1 } := by
  rw [_getmesg_END_some g r msg hs f hf]
  cases h : build_mesg f with
  | none => exact absurd h hb
  | some p => rfl

/-- The call of `STATE::END` on an accepted frame `build_mesg` cannot index
has no result. -/
theorem _getmesg_END_fault {F : Type} (g : Globals F) (r : Nat) (msg : Option msg_t)
    (hs : g.m_state.state = STATE.END) (f : List Nat)
    (hf : end_frame g.m_state.rawText = some f) (hb : build_mesg f = none) :
    _getmesg g r msg = none := by
  rw [_getmesg_END_some g r msg hs f hf, hb]
  rfl

/-- The results of a call in `STATE::END`. -/
theorem getmesg_END_cases {F : Type} (g : Globals F) (r : Nat) (msg : Option msg_t)
    (hs : g.m_state.state = STATE.END) (res : Result F) (h : _getmesg g r msg = some res) :
    (∃ f p, end_frame g.m_state.rawText = some f ∧ build_mesg f = some p ∧
        res =
          { g := { g with m_state :=
                { g.m_state with state := STATE.HEADL, rawText := f, crc := 0 } }
            msg := some p.1
            ret := -1 }) ∨
      (end_frame g.m_state.rawText = none ∧
        res =
          { g := { g with m_state := { g.m_state with state := STATE.HEADL } }
            msg := msg
            ret := 8 }) := by
  rw [_getmesg_END g r msg hs] at h
  cases hf : end_frame g.m_state.rawText with
  | none =>
    rw [hf] at h
    exact Or.inr ⟨rfl, (Option.some.inj h).symm⟩
  | some f =>
    rw [hf] at h
    dsimp only at h
    cases hb : build_mesg f with
    | none => rw [hb] at h; cases h
    | some p =>
      rw [hb] at h
      exact Or.inl ⟨f, p, rfl, hb, (Option.some.inj h).symm⟩

/-! ## Properties of single calls of the frame machine -/

theorem sync_loop_ret8 (r : Nat) (m : m_state_t) :
    (sync_loop r [0, 1, 2, 3, 4, 5, 6, 7] m 0).2 ≠ -1 ∧
      1 ≤ (sync_loop r [0, 1, 2, 3, 4, 5, 6, 7] m 0).2 ∧
      (sync_loop r [0, 1, 2, 3, 4, 5, 6, 7] m 0).2 ≤ 8 := by
  have := sync_loop_ret r [0, 1, 2, 3, 4, 5, 6, 7] m 0 (by simp)
  simp only [List.length_cons, List.length_nil] at this
  refine ⟨?_, ?_, ?_⟩ <;> omega

/-- The states other than `END` return on every byte. -/
theorem _getmesg_returns_of_ne {F : Type} (g : Globals F) (r : Nat) (msg : Option msg_t)
    (hne : g.m_state.state ≠ STATE.END) : ∃ res, _getmesg g r msg = some res := by
  cases hs : g.m_state.state
  · exact ⟨_, _getmesg_HEADL g r msg hs⟩
  · by_cases hr : r = PRE_KEY_CHAR
    · exact ⟨_, _getmesg_HEADF_prekey g r msg hs hr⟩
    · exact ⟨_, (_getmesg_HEADF_other g r msg hs hr).trans (_getmesg_SYNC _ r msg rfl)⟩
  · exact ⟨_, _getmesg_SYNC g r msg hs⟩
  · by_cases h1 : (g.m_state.rawText ++ [r]).length > BMAX
    · have e := _getmesg_TXT g r msg hs
      rw [if_pos h1] at e
      exact ⟨_, e.trans (_getmesg_HEADL _ r msg rfl)⟩
    · have e := _getmesg_TXT g r msg hs
      rw [if_neg h1] at e
      exact ⟨_, e⟩
  · exact ⟨_, _getmesg_CRC1 g r msg hs⟩
  · exact ⟨_, _getmesg_CRC2 g r msg hs⟩
  · exact absurd hs hne

/-- A call of `_getmesg` has no result exactly when it faults: the fuel of two
loop passes is never used up. -/
theorem getmesg_none_iff {F : Type} (g : Globals F) (r : Nat) (msg : Option msg_t) :
    _getmesg g r msg = none ↔ end_faults g := by
  by_cases hs : g.m_state.state = STATE.END
  · rw [_getmesg_END g r msg hs]
    unfold end_faults
    cases hf : end_frame g.m_state.rawText with
    | none => simp [hs]
    | some f =>
      cases hb : build_mesg f with
      | none => simp [hs, hb]
      | some p => simp [hs, hb]
  · obtain ⟨res, h⟩ := _getmesg_returns_of_ne g r msg hs
    rw [h]
    constructor
    · intro e; cases e
    · intro e; exact absurd e.1 hs

/-- The function `_getmesg` returns for every state and every input byte
on which it does not fault. -/
theorem _getmesg_returns {F : Type} (g : Globals F) (r : Nat) (msg : Option msg_t)
    (h : ¬ end_faults g) : ∃ res, _getmesg g r msg = some res := by
  cases e : _getmesg g r msg with
  | none => exact absurd ((getmesg_none_iff g r msg).mp e) h
  | some res => exact ⟨res, rfl⟩

/-- A call faults exactly in `END` on a frame that is accepted, as it is or
after the one-bit correction, and has fewer than 27 or more than 283 bytes. -/
theorem end_faults_iff {F : Type} (g : Globals F) :
    end_faults g ↔
      g.m_state.state = STATE.END ∧ end_frame g.m_state.rawText ≠ none ∧
        (g.m_state.rawText.length < 27 ∨ 283 < g.m_state.rawText.length) := by
  unfold end_faults
  constructor
  · rintro ⟨hs, f, hf, hb⟩
    have hf2 : end_frame g.m_state.rawText = some f := hf
    have hl := end_frame_length _ f hf2
    rw [build_mesg_eq_none, hl] at hb
    exact ⟨hs, by rw [hf2]; simp, hb⟩
  · rintro ⟨hs, hf, hl⟩
    cases hf2 : end_frame g.m_state.rawText with
    | none => exact absurd hf2 hf
    | some f =>
      refine ⟨hs, f, rfl, ?_⟩
      rw [build_mesg_eq_none, end_frame_length _ f hf2]
      exact hl

/-- C2: for every frame-machine state and every input byte, when `_getmesg`
returns -1 the raw frame held by the machine has `gen_crc` zero and is the
frame the parser was run on; when it returns anything else the parser was not
run (the record behind `msg` is untouched).  So no frame whose CRC is non-zero
after the correction attempt reaches the parser. -/
theorem getmesg_accept_crc_zero {F : Type} (g : Globals F) (r : Nat) (msg : Option msg_t)
    (res : Result F) (h : _getmesg g r msg = some res) :
    (res.ret = -1 →
        gen_crc res.g.m_state.rawText = 0 ∧
          res.msg = (build_mesg res.g.m_state.rawText).map Prod.fst) ∧
      (res.ret ≠ -1 → res.msg = msg) := by
  cases hs : g.m_state.state
  · rw [_getmesg_HEADL g r msg hs] at h
    cases h; simp
  · by_cases hr : r = PRE_KEY_CHAR
    · rw [_getmesg_HEADF_prekey g r msg hs hr] at h
      cases h; simp
    · rw [_getmesg_HEADF_other g r msg hs hr, _getmesg_SYNC _ r msg rfl] at h
      cases h
      exact ⟨fun h1 => absurd h1 (sync_loop_ret8 r _).1, fun _ => rfl⟩
  · rw [_getmesg_SYNC g r msg hs] at h
    cases h
    exact ⟨fun h1 => absurd h1 (sync_loop_ret8 r _).1, fun _ => rfl⟩
  · rw [_getmesg_TXT g r msg hs] at h
    by_cases h1 : (g.m_state.rawText ++ [r]).length > BMAX
    · rw [if_pos h1, _getmesg_HEADL _ r msg rfl] at h
      cases h; simp
    · rw [if_neg h1] at h
      cases h; simp
  · rw [_getmesg_CRC1 g r msg hs] at h
    cases h; simp
  · rw [_getmesg_CRC2 g r msg hs] at h
    cases h; simp
  · rcases getmesg_END_cases g r msg hs res h with ⟨f, p, hf, hb, e⟩ | ⟨_, e⟩
    · subst e
      refine ⟨fun _ => ⟨end_frame_crc _ f hf, ?_⟩, fun h1 => absurd rfl h1⟩
      show some p.1 = (build_mesg f).map Prod.fst
      rw [hb]
      rfl
    · subst e
      exact ⟨fun h1 => absurd h1 (by simp), fun _ => rfl⟩

/-- Witness for C2: the end state holding the minimum-length frame accepts,
and the accepted frame has CRC zero. -/
theorem getmesg_accept_crc_zero_witness :
    ∃ res, _getmesg (globals_end frame_min) 0x7f none = some res ∧ res.ret = -1 ∧
      gen_crc res.g.m_state.rawText = 0 :=
  have h : _getmesg (globals_end frame_min) 0x7f none = some
      { g := { globals_end frame_min with
          m_state := { (globals_end frame_min).m_state with state := STATE.HEADL, crc := 0 } }
        msg := (build_mesg frame_min).map Prod.fst
        ret := -1 } :=
    _getmesg_END_crc_ok_some (globals_end frame_min) 0x7f none rfl (by decide) (by decide)
  ⟨_, h, rfl, ((getmesg_accept_crc_zero (globals_end frame_min) 0x7f none _ h).1 rfl).1⟩

/-- Every value `_getmesg` returns is -1 or a number from 1 to 8. -/
theorem getmesg_ret_bounds {F : Type} (g : Globals F) (r : Nat) (msg : Option msg_t)
    (res : Result F) (h : _getmesg g r msg = some res) :
    (res.ret = -1 ∨ (1 ≤ res.ret ∧ res.ret ≤ 8)) ∧
      (g.m_state.state ≠ STATE.SYNC →
        ¬ (g.m_state.state = STATE.HEADF ∧ r ≠ PRE_KEY_CHAR) →
        res.ret = 1 ∨ res.ret = 8 ∨ res.ret = -1) := by
  cases hs : g.m_state.state
  · rw [_getmesg_HEADL g r msg hs] at h
    cases h; simp
  · by_cases hr : r = PRE_KEY_CHAR
    · rw [_getmesg_HEADF_prekey g r msg hs hr] at h
      cases h; simp
    · rw [_getmesg_HEADF_other g r msg hs hr, _getmesg_SYNC _ r msg rfl] at h
      cases h
      exact ⟨Or.inr (sync_loop_ret8 r _).2, fun _ h2 => absurd ⟨rfl, hr⟩ h2⟩
  · rw [_getmesg_SYNC g r msg hs] at h
    cases h
    exact ⟨Or.inr (sync_loop_ret8 r _).2, fun h1 => absurd rfl h1⟩
  · have e := _getmesg_TXT g r msg hs
    by_cases h1 : (g.m_state.rawText ++ [r]).length > BMAX
    · rw [if_pos h1] at e
      have e3 := e.trans (_getmesg_HEADL _ r msg rfl)
      rw [e3] at h
      cases h; simp
    · rw [if_neg h1] at e
      rw [e] at h
      cases h; simp
  · rw [_getmesg_CRC1 g r msg hs] at h
    cases h; simp
  · rw [_getmesg_CRC2 g r msg hs] at h
    cases h; simp
  · rcases getmesg_END_cases g r msg hs res h with ⟨f, p, _, _, e⟩ | ⟨_, e⟩
    · subst e; simp
    · subst e; simp

/-- C8 (as the code has it): a call of `_getmesg` has a result for every
frame-machine state and every input byte except where it faults, which is in
`STATE::END` on an accepted frame that `build_mesg` cannot index (fewer than
27 or more than 283 bytes); every value returned is -1 or a number of
consumed bits from 1 to 8, and it is one of 1, 8 and -1 whenever the byte is
not processed by `STATE::SYNC` (the state is not `SYNC`, and not `HEADF` with
a byte other than the pre-key character). -/
theorem getmesg_ret_range {F : Type} (g : Globals F) (r : Nat) (msg : Option msg_t) :
    (_getmesg g r msg = none ↔ end_faults g) ∧
    (end_faults g ↔
      g.m_state.state = STATE.END ∧ end_frame g.m_state.rawText ≠ none ∧
        (g.m_state.rawText.length < 27 ∨ 283 < g.m_state.rawText.length)) ∧
    (¬ end_faults g → ∃ res, _getmesg g r msg = some res) ∧
    (∀ res, _getmesg g r msg = some res →
      (res.ret = -1 ∨ (1 ≤ res.ret ∧ res.ret ≤ 8)) ∧
      (g.m_state.state ≠ STATE.SYNC →
        ¬ (g.m_state.state = STATE.HEADF ∧ r ≠ PRE_KEY_CHAR) →
        res.ret = 1 ∨ res.ret = 8 ∨ res.ret = -1)) :=
  ⟨getmesg_none_iff g r msg, end_faults_iff g, _getmesg_returns g r msg,
    fun res h => getmesg_ret_bounds g r msg res h⟩

/-- C8 as stated fails: in `STATE::SYNC`, five bits before the sync words of
the minimum-length frame are complete, the byte 0x40 completes them at its
fifth bit and `_getmesg` returns 5, which is none of 1, 8 and -1. -/
theorem getmesg_sync_returns_five :
    ∃ res, _getmesg globals_sync_40 0x40 none = some res ∧ res.ret = 5 ∧
      res.g.m_state.state = STATE.TXT ∧
      ¬ (res.ret = 1 ∨ res.ret = 8 ∨ res.ret = -1) :=
  ⟨_, _getmesg_SYNC globals_sync_40 0x40 none rfl, by decide, by decide, by decide⟩

/-- C10: in state `HEADF` a byte equal to 0xFF returns 1 and leaves the
globals unchanged; any other byte `r` gives exactly the result and final state
of processing `r` in state `SYNC` from `syncForming = 0` and
`syncBitsHave = 0`: the `for` loop of `STATE::SYNC` runs over all eight bits
of `r` starting at bit 0 with no bit consumed. -/
theorem getmesg_headf {F : Type} (g : Globals F) (r : Nat) (msg : Option msg_t)
    (hs : g.m_state.state = STATE.HEADF) :
    (r = 0xff → _getmesg g r msg = some { g := g, msg := msg, ret := 1 }) ∧
    (r ≠ 0xff →
      _getmesg g r msg =
          _getmesg
            { g with m_state :=
                { g.m_state with state := STATE.SYNC, syncForming := 0, syncBitsHave := 0 } }
            r msg ∧
        _getmesg g r msg = some
          { g := { g with m_state :=
                (sync_loop r [0, 1, 2, 3, 4, 5, 6, 7]
                  { g.m_state with state := STATE.SYNC, syncForming := 0, syncBitsHave := 0 }
                  0).1 }
            msg := msg
            ret :=
              (sync_loop r [0, 1, 2, 3, 4, 5, 6, 7]
                { g.m_state with state := STATE.SYNC, syncForming := 0, syncBitsHave := 0 }
                0).2 }) := by
  refine ⟨fun hr => _getmesg_HEADF_prekey g r msg hs hr, fun hr => ?_⟩
  have h1 := _getmesg_HEADF_other g r msg hs hr
  exact ⟨h1, h1.trans (_getmesg_SYNC _ r msg rfl)⟩

/-- Witness for C10: a machine in `HEADF` fed the byte 0x7F, whose lowest
seven bits are ones: the eight bits enter the sync word and 8 is returned. -/
theorem getmesg_headf_witness :
    ∃ res, _getmesg globals_headf 0x7f none = some res ∧ res.ret = 8 ∧
      res.g.m_state.state = STATE.SYNC ∧ res.g.m_state.syncBitsHave = 8 ∧
      res.g.m_state.syncForming = 0x7f00000000 :=
  ⟨_, ((getmesg_headf globals_headf 0x7f none rfl).2 (by decide)).2,
    by decide, by decide, by decide, by decide⟩

/-! ## The CRC register is linear over XOR -/

theorem ite_bxor (x y : Bool) (t : Nat) :
    (if (x ^^ y) = true then t else 0) = (if x = true then t else 0) ^^^ (if y = true then t else 0) := by
  cases x <;> cases y <;> simp

theorem xor_bits8_xor (f : Nat → Nat) (a b : Nat) :
    xor_bits8 f (a ^^^ b) = xor_bits8 f a ^^^ xor_bits8 f b := by
  simp only [xor_bits8, Nat.testBit_xor, ite_bxor]
  ac_rfl

theorem crc_ccitt_eq_xor_bits8 (a : Nat) (h : a < 256) :
    crc_ccitt.getD a 0 = xor_bits8 (fun k => crc_ccitt.getD (2 ^ k) 0) a := by
  have key : ∀ k : Fin 256,
      crc_ccitt.getD k.val 0 = xor_bits8 (fun k => crc_ccitt.getD (2 ^ k) 0) k.val := by
    decide
  exact key ⟨a, h⟩

theorem reverse_bits_eq_xor_bits8 (a : Nat) (h : a < 256) :
    reverse_bits.getD a 0 = xor_bits8 (fun k => reverse_bits.getD (2 ^ k) 0) a := by
  have key : ∀ k : Fin 256,
      reverse_bits.getD k.val 0 = xor_bits8 (fun k => reverse_bits.getD (2 ^ k) 0) k.val := by
    decide
  exact key ⟨a, h⟩

theorem crc_ccitt_xor (a b : Nat) (ha : a < 256) (hb : b < 256) :
    crc_ccitt.getD (a ^^^ b) 0 = crc_ccitt.getD a 0 ^^^ crc_ccitt.getD b 0 := by
  rw [crc_ccitt_eq_xor_bits8 _ (Nat.xor_lt_two_pow (n := 8) ha hb),
    crc_ccitt_eq_xor_bits8 a ha, crc_ccitt_eq_xor_bits8 b hb, xor_bits8_xor]

theorem reverse_bits_xor (a b : Nat) (ha : a < 256) (hb : b < 256) :
    reverse_bits.getD (a ^^^ b) 0 = reverse_bits.getD a 0 ^^^ reverse_bits.getD b 0 := by
  rw [reverse_bits_eq_xor_bits8 _ (Nat.xor_lt_two_pow (n := 8) ha hb),
    reverse_bits_eq_xor_bits8 a ha, reverse_bits_eq_xor_bits8 b hb, xor_bits8_xor]

theorem xor_mod_two_pow (a b n : Nat) : (a ^^^ b) % 2 ^ n = a % 2 ^ n ^^^ b % 2 ^ n := by
  apply Nat.eq_of_testBit_eq
  intro i
  simp only [Nat.testBit_mod_two_pow, Nat.testBit_xor]
  cases decide (i < n) <;> simp

theorem xor_div_two_pow (a b n : Nat) : (a ^^^ b) / 2 ^ n = a / 2 ^ n ^^^ b / 2 ^ n := by
  apply Nat.eq_of_testBit_eq
  intro i
  simp only [← Nat.shiftRight_eq_div_pow, Nat.testBit_shiftRight, Nat.testBit_xor]

theorem xor_mul_two_pow (a b n : Nat) : (a ^^^ b) * 2 ^ n = a * 2 ^ n ^^^ b * 2 ^ n := by
  apply Nat.eq_of_testBit_eq
  intro i
  simp only [← Nat.shiftLeft_eq, Nat.testBit_shiftLeft, Nat.testBit_xor]
  cases decide (i ≥ n) <;> simp

/-- One step of the CRC is linear over XOR, in the register and in the byte. -/
theorem fold_crc_rev_xor (c d x y : Nat) (hx : x < 256) (hy : y < 256) :
    fold_crc_rev (c ^^^ d) (x ^^^ y) = fold_crc_rev c x ^^^ fold_crc_rev d y := by
  rw [fold_crc_rev_eq, fold_crc_rev_eq, fold_crc_rev_eq, reverse_bits_xor x y hx hy]
  have e1 : (c ^^^ d) * 256 % 65536 = c * 256 % 65536 ^^^ d * 256 % 65536 := by
    have := xor_mul_two_pow c d 8
    have h2 := xor_mod_two_pow (c * 2 ^ 8) (d * 2 ^ 8) 16
    simp only [Nat.reducePow] at this h2
    rw [this, h2]
  have e2 : ((c ^^^ d) / 256 ^^^ (reverse_bits.getD x 0 ^^^ reverse_bits.getD y 0)) % 256
      = ((c / 256 ^^^ reverse_bits.getD x 0) % 256) ^^^
          ((d / 256 ^^^ reverse_bits.getD y 0) % 256) := by
    have := xor_div_two_pow c d 8
    have h2 := xor_mod_two_pow (c / 256 ^^^ reverse_bits.getD x 0)
      (d / 256 ^^^ reverse_bits.getD y 0) 8
    simp only [Nat.reducePow] at this h2
    rw [← h2, this]
    congr 1
    ac_rfl
  rw [e1, e2, crc_ccitt_xor _ _ (Nat.mod_lt _ (by decide)) (Nat.mod_lt _ (by decide))]
  ac_rfl

/-! ## The effect of bit flips on the CRC register -/

/-- A change of the register before a run of bytes shows up as the image of
that change under as many zero bytes. -/
theorem foldl_fold_crc_rev_xor (l : List Nat) (hl : ∀ b ∈ l, b < 256) (c d : Nat) :
    l.foldl fold_crc_rev (c ^^^ d)
      = l.foldl fold_crc_rev c ^^^ (List.replicate l.length 0).foldl fold_crc_rev d := by
  induction l generalizing c d with
  | nil => simp
  | cons x t ih =>
    have hx : x < 256 := hl x (List.mem_cons_self _ _)
    have ht : ∀ b ∈ t, b < 256 := fun b hb => hl b (List.mem_cons_of_mem _ hb)
    simp only [List.foldl_cons, List.length_cons, List.replicate_succ]
    have e := fold_crc_rev_xor c d x 0 hx (by decide)
    rw [Nat.xor_zero] at e
    rw [e, ih ht]

/-- Flipping the bits `m` of byte `i` adds the syndrome of `m` at the byte's
distance from the end of the frame to the register. -/
theorem foldl_fold_crc_rev_set (l : List Nat) (hl : ∀ b ∈ l, b < 256) (c i m : Nat)
    (hi : i < l.length) (hm : m < 256) :
    (l.set i (l.getD i 0 ^^^ m)).foldl fold_crc_rev c
      = l.foldl fold_crc_rev c ^^^ crc_syndrome m (l.length - 1 - i) := by
  induction l generalizing c i with
  | nil => simp at hi
  | cons x t ih =>
    have hx : x < 256 := hl x (List.mem_cons_self _ _)
    have ht : ∀ b ∈ t, b < 256 := fun b hb => hl b (List.mem_cons_of_mem _ hb)
    cases i with
    | zero =>
      simp only [List.set_cons_zero, List.getD_cons_zero, List.foldl_cons, List.length_cons]
      have e := fold_crc_rev_xor c 0 x m hx hm
      rw [Nat.xor_zero] at e
      rw [e, foldl_fold_crc_rev_xor t ht]
      simp [crc_syndrome]
    | succ k =>
      simp only [List.set_cons_succ, List.getD_cons_succ, List.foldl_cons, List.length_cons]
      have hk : k < t.length := by simpa using hi
      rw [ih ht _ k hk]
      congr 2
      omega

theorem mask_lt (j : Nat) : mask.getD j 0 < 256 := by
  by_cases h : j < 8
  · have key : ∀ k : Fin 8, mask.getD k.val 0 < 256 := by decide
    exact key ⟨j, h⟩
  · rw [List.getD_eq_default]
    · decide
    · simp only [mask, List.length_cons, List.length_nil]; omega

theorem flip_bit_lt (raw : List Nat) (hl : ∀ b ∈ raw, b < 256) (i j : Nat) :
    ∀ b ∈ flip_bit raw i j, b < 256 := by
  intro b hb
  unfold flip_bit at hb
  rcases List.mem_or_eq_of_mem_set hb with h | h
  · exact hl b h
  · rw [h]
    by_cases hi : i < raw.length
    · exact Nat.xor_lt_two_pow (n := 8)
        (by rw [List.getD_eq_getElem _ _ hi]; exact hl _ (List.getElem_mem _)) (mask_lt j)
    · rw [List.getD_eq_default _ _ (Nat.le_of_not_lt hi)]
      simpa using mask_lt j

theorem gen_crc_eq_zero_iff (l : List Nat) : gen_crc l = 0 ↔ l.foldl fold_crc_rev 0 = 0 := by
  rw [gen_crc_eq_reflect]
  constructor
  · intro h
    exact crc_reflect_eq_zero h (foldl_fold_crc_rev_lt l 0 (by decide))
  · intro h
    rw [h]; decide

/-- The register of a frame with one bit flipped. -/
theorem foldl_flip_bit (l : List Nat) (hl : ∀ b ∈ l, b < 256) (i j : Nat) (hi : i < l.length) :
    (flip_bit l i j).foldl fold_crc_rev 0
      = l.foldl fold_crc_rev 0 ^^^ crc_syndrome (mask.getD j 0) (l.length - 1 - i) :=
  foldl_fold_crc_rev_set l hl 0 i _ hi (mask_lt j)

/-! ## Parity of the register and syndromes of single bits -/

theorem parity16_eq (n : Nat) :
    parity16 n =
      (((((((((((((((n.testBit 0 != n.testBit 1) != n.testBit 2) != n.testBit 3) != n.testBit 4) != n.testBit 5) != n.testBit 6) != n.testBit 7) != n.testBit 8) != n.testBit 9) != n.testBit 10) != n.testBit 11) != n.testBit 12) != n.testBit 13) != n.testBit 14) != n.testBit 15) := by
  simp only [parity16, List.range, List.range.loop, List.foldl, Bool.false_bne]

theorem bne_bne_bne_comm (a b c d : Bool) : ((a != b) != (c != d)) = ((a != c) != (b != d)) := by
  cases a <;> cases b <;> cases c <;> cases d <;> rfl

theorem bool_bne_comm (a b : Bool) : (a != b) = (b != a) := by
  cases a <;> cases b <;> rfl

theorem bool_bne_left_comm (a b c : Bool) : (a != (b != c)) = (b != (a != c)) := by
  cases a <;> cases b <;> cases c <;> rfl

theorem foldl_bne_testBit_xor (a b : Nat) (ks : List Nat) (x y : Bool) :
    ks.foldl (fun acc k => acc != (a ^^^ b).testBit k) (x != y)
      = (ks.foldl (fun acc k => acc != a.testBit k) x !=
          ks.foldl (fun acc k => acc != b.testBit k) y) := by
  induction ks generalizing x y with
  | nil => rfl
  | cons k t ih =>
    simp only [List.foldl_cons]
    rw [← ih, Nat.testBit_xor]
    exact congrArg (fun z => List.foldl (fun acc k => acc != (a ^^^ b).testBit k) z t)
      (bne_bne_bne_comm x y (a.testBit k) (b.testBit k))

theorem parity16_xor (a b : Nat) : parity16 (a ^^^ b) = (parity16 a != parity16 b) := by
  unfold parity16
  rw [← foldl_bne_testBit_xor]
  rfl

theorem parity16_crc_ccitt (a : Nat) (h : a < 256) :
    parity16 (crc_ccitt.getD a 0) = parity16 a := by
  have key : ∀ k : Fin 256, parity16 (crc_ccitt.getD k.val 0) = parity16 k.val := by decide
  exact key ⟨a, h⟩

theorem parity16_reverse_bits (a : Nat) (h : a < 256) :
    parity16 (reverse_bits.getD a 0) = parity16 a := by
  have key : ∀ k : Fin 256, parity16 (reverse_bits.getD k.val 0) = parity16 k.val := by decide
  exact key ⟨a, h⟩

theorem parity16_low_high (c : Nat) (hc : c < 65536) :
    parity16 c = (parity16 (c * 256 % 65536) != parity16 (c / 256)) := by
  have hhi : ∀ k, 16 ≤ k → c.testBit k = false := fun k hk =>
    Nat.testBit_lt_two_pow (Nat.lt_of_lt_of_le hc (Nat.pow_le_pow_right (n := 2) (by decide) hk))
  have e1 : c * 256 = c <<< 8 := by rw [Nat.shiftLeft_eq]
  have e2 : c / 256 = c >>> 8 := by rw [Nat.shiftRight_eq_div_pow]
  have e3 : (65536 : Nat) = 2 ^ 16 := by norm_num
  rw [e1, e2, e3]
  simp only [parity16_eq, Nat.testBit_mod_two_pow, Nat.testBit_shiftLeft,
    Nat.testBit_shiftRight]
  simp only [Nat.reduceAdd, Nat.reduceSub, Nat.reduceLT, Nat.reduceLeDiff, ge_iff_le,
    decide_True, decide_False, Bool.true_and, Bool.false_and, Bool.false_bne,
    hhi 16 (by decide), hhi 17 (by decide), hhi 18 (by decide), hhi 19 (by decide),
    hhi 20 (by decide), hhi 21 (by decide), hhi 22 (by decide), hhi 23 (by decide),
    Bool.bne_false]
  simp only [Bool.bne_assoc, bool_bne_comm, bool_bne_left_comm]

/-- One step of the CRC adds the parity of the byte to the parity of the
register: the generator polynomial is a multiple of `x + 1`. -/
theorem parity16_fold_crc_rev (c x : Nat) (hc : c < 65536) (hx : x < 256) :
    parity16 (fold_crc_rev c x) = (parity16 c != parity16 x) := by
  have hr := reverse_bits_lt x
  have hh : c / 256 < 256 := by omega
  have hi : c / 256 ^^^ reverse_bits.getD x 0 < 256 := Nat.xor_lt_two_pow (n := 8) hh hr
  rw [fold_crc_rev_eq, parity16_xor, Nat.mod_eq_of_lt hi, parity16_crc_ccitt _ hi,
    parity16_xor, parity16_reverse_bits x hx, parity16_low_high c hc, Bool.bne_assoc]

theorem parity16_foldl_zero (k c : Nat) (hc : c < 65536) :
    parity16 ((List.replicate k 0).foldl fold_crc_rev c) = parity16 c := by
  induction k generalizing c with
  | zero => simp
  | succ n ih =>
    simp only [List.replicate_succ, List.foldl_cons]
    rw [ih _ (fold_crc_rev_lt c 0), parity16_fold_crc_rev c 0 hc (by decide)]
    have : parity16 0 = false := by decide
    rw [this, Bool.bne_false]

/-- The syndrome of a single flipped bit has odd parity. -/
theorem parity16_crc_syndrome (j k : Nat) (hj : j < 8) :
    parity16 (crc_syndrome (mask.getD j 0) k) = true := by
  unfold crc_syndrome
  rw [parity16_foldl_zero _ _ (fold_crc_rev_lt _ _),
    parity16_fold_crc_rev 0 _ (by decide) (mask_lt j)]
  have key : ∀ i : Fin 8, (parity16 0 != parity16 (mask.getD i.val 0)) = true := by decide
  exact key ⟨j, hj⟩

theorem crc_syndrome_lt (m k : Nat) : crc_syndrome m k < 65536 :=
  foldl_fold_crc_rev_lt _ _ (fold_crc_rev_lt _ _)

theorem parity16_true_ne_zero {n : Nat} (h : parity16 n = true) : n ≠ 0 := by
  intro h0
  rw [h0] at h
  exact absurd h (by decide)

/-! ## Syndromes of single bits are pairwise different -/

theorem fold_crc_rev_zero_eq_zero (c : Nat) (hc : c < 65536) (h : fold_crc_rev c 0 = 0) :
    c = 0 := by
  rw [fold_crc_rev_eq] at h
  have z : reverse_bits.getD 0 0 = 0 := by decide
  rw [z, Nat.xor_zero, Nat.xor_eq_zero] at h
  have key : ∀ k : Fin 256, crc_ccitt.getD k.val 0 % 256 = 0 → k.val = 0 := by decide
  have h1 : crc_ccitt.getD (c / 256 % 256) 0 % 256 = 0 := by rw [← h]; omega
  have h2 := key ⟨c / 256 % 256, Nat.mod_lt _ (by decide)⟩ h1
  simp only at h2
  rw [h2] at h
  have z2 : crc_ccitt.getD 0 0 = 0 := by decide
  rw [z2] at h
  omega

theorem fold_crc_rev_zero_inj (c d : Nat) (hc : c < 65536) (hd : d < 65536)
    (h : fold_crc_rev c 0 = fold_crc_rev d 0) : c = d := by
  have e := fold_crc_rev_xor c d 0 0 (by decide) (by decide)
  rw [h, Nat.xor_self, Nat.xor_self] at e
  have := fold_crc_rev_zero_eq_zero (c ^^^ d) (Nat.xor_lt_two_pow (n := 16) hc hd) e
  exact Nat.xor_eq_zero.mp this

theorem foldl_zero_inj (k c d : Nat) (hc : c < 65536) (hd : d < 65536)
    (h : (List.replicate k 0).foldl fold_crc_rev c = (List.replicate k 0).foldl fold_crc_rev d) :
    c = d := by
  induction k generalizing c d with
  | zero => simpa using h
  | succ n ih =>
    simp only [List.replicate_succ, List.foldl_cons] at h
    exact fold_crc_rev_zero_inj c d hc hd (ih _ _ (fold_crc_rev_lt c 0) (fold_crc_rev_lt d 0) h)

theorem crc_syndrome_add (m a b : Nat) :
    crc_syndrome m (a + b) = (List.replicate b 0).foldl fold_crc_rev (crc_syndrome m a) := by
  simp only [crc_syndrome, List.replicate_add, List.foldl_append]

theorem syndrome_orbit_ok_spec (n : Nat) (vals : List Nat) (h : syndrome_orbit_ok n vals = true)
    (d : Nat) (hd : d < n) (v : Nat) (hv : v ∈ vals) :
    (List.replicate d 0).foldl fold_crc_rev v ∉ syndrome_base := by
  induction n generalizing vals d v with
  | zero => omega
  | succ n ih =>
    simp only [syndrome_orbit_ok, Bool.and_eq_true, List.all_eq_true] at h
    cases d with
    | zero => simpa using h.1 v hv
    | succ e =>
      simp only [List.replicate_succ, List.foldl_cons]
      exact ih _ h.2 e (by omega) _ (List.mem_map_of_mem _ hv)

theorem syndrome_orbit_checked :
    syndrome_orbit_ok 246 (syndrome_base.map (fun v => fold_crc_rev v 0)) = true := by
  decide!

theorem mem_syndrome_base (j : Nat) (hj : j < 8) :
    fold_crc_rev 0 (mask.getD j 0) ∈ syndrome_base := by
  have hm : mask.getD j 0 ∈ mask := by
    have hl : j < mask.length := by simpa [mask] using hj
    rw [List.getD_eq_getElem _ _ hl]
    exact List.getElem_mem _
  exact List.mem_map_of_mem _ hm

theorem syndrome_base_inj (j j' : Nat) (hj : j < 8) (hj' : j' < 8)
    (h : fold_crc_rev 0 (mask.getD j 0) = fold_crc_rev 0 (mask.getD j' 0)) : j = j' := by
  have key : ∀ a b : Fin 8,
      fold_crc_rev 0 (mask.getD a.val 0) = fold_crc_rev 0 (mask.getD b.val 0) → a.val = b.val := by
    decide
  exact key ⟨j, hj⟩ ⟨j', hj'⟩ h

/-- A single bit `k + d + 1` bytes before the end and a single bit `k` bytes
before the end never have the same syndrome, up to 246 bytes apart. -/
theorem crc_syndrome_ne_of_lt (j j' k d : Nat) (hj : j < 8) (hj' : j' < 8) (hd : d < 246) :
    crc_syndrome (mask.getD j 0) k ≠ crc_syndrome (mask.getD j' 0) (d + 1 + k) := by
  intro h
  rw [crc_syndrome_add] at h
  have h0 : crc_syndrome (mask.getD j 0) k
      = (List.replicate k 0).foldl fold_crc_rev (crc_syndrome (mask.getD j 0) 0) := by
    have := crc_syndrome_add (mask.getD j 0) 0 k
    rwa [Nat.zero_add] at this
  rw [h0] at h
  have h1 := foldl_zero_inj k _ _ (crc_syndrome_lt _ _) (crc_syndrome_lt _ _) h
  have h2 : crc_syndrome (mask.getD j' 0) (d + 1)
      = (List.replicate d 0).foldl fold_crc_rev (fold_crc_rev (fold_crc_rev 0 (mask.getD j' 0)) 0) := by
    rw [Nat.add_comm d 1]
    simp only [crc_syndrome, List.replicate_add, List.foldl_append, List.replicate_one,
      List.foldl_cons, List.foldl_nil]
  have h3 := syndrome_orbit_ok_spec 246 _ syndrome_orbit_checked d hd
    (fold_crc_rev (fold_crc_rev 0 (mask.getD j' 0)) 0)
    (List.mem_map_of_mem (fun v => fold_crc_rev v 0) (mem_syndrome_base j' hj'))
  rw [← h2, ← h1] at h3
  exact h3 (mem_syndrome_base j hj)

/-- In a frame of at most 247 bytes two single-bit errors with the same
syndrome are the same bit. -/
theorem crc_syndrome_inj (j j' k k' : Nat) (hj : j < 8) (hj' : j' < 8) (hk : k ≤ 246)
    (hk' : k' ≤ 246) (h : crc_syndrome (mask.getD j 0) k = crc_syndrome (mask.getD j' 0) k') :
    j = j' ∧ k = k' := by
  rcases Nat.lt_trichotomy k k' with hlt | heq | hgt
  · obtain ⟨d, rfl⟩ : ∃ d, k' = d + 1 + k := ⟨k' - k - 1, by omega⟩
    exact absurd h (crc_syndrome_ne_of_lt j j' k d hj hj' (by omega))
  · subst heq
    refine ⟨?_, rfl⟩
    have e1 := crc_syndrome_add (mask.getD j 0) 0 k
    have e2 := crc_syndrome_add (mask.getD j' 0) 0 k
    rw [Nat.zero_add] at e1 e2
    rw [e1, e2] at h
    exact syndrome_base_inj j j' hj hj'
      (foldl_zero_inj k _ _ (fold_crc_rev_lt _ _) (fold_crc_rev_lt _ _) h)
  · obtain ⟨d, rfl⟩ : ∃ d, k = d + 1 + k' := ⟨k - k' - 1, by omega⟩
    exact absurd h.symm (crc_syndrome_ne_of_lt j' j k' d hj' hj (by omega))

/-! ## The one-bit correction of `STATE::END` -/

theorem correct_j_skip (i : Nat) (js raw : List Nat)
    (h : ∀ j ∈ js, gen_crc (flip_bit raw i j) ≠ 0) : correct_j i js raw = (raw, false) := by
  induction js with
  | nil => rfl
  | cons j rest ih =>
    unfold correct_j
    simp only [flip_bit_flip_bit]
    rw [if_neg (h j (List.mem_cons_self _ _))]
    exact ih (fun j' hj' => h j' (List.mem_cons_of_mem _ hj'))

theorem correct_j_unique (i j : Nat) (js raw : List Nat) (hj : j ∈ js)
    (h0 : gen_crc (flip_bit raw i j) = 0)
    (h : ∀ j' ∈ js, j' ≠ j → gen_crc (flip_bit raw i j') ≠ 0) :
    correct_j i js raw = (flip_bit raw i j, true) := by
  induction js with
  | nil => simp at hj
  | cons x rest ih =>
    unfold correct_j
    simp only [flip_bit_flip_bit]
    by_cases hx : x = j
    · subst hx
      rw [if_pos h0]
    · rw [if_neg (h x (List.mem_cons_self _ _) hx)]
      rcases List.mem_cons.mp hj with e | e
      · exact absurd e.symm hx
      · exact ih e (fun j' hj' => h j' (List.mem_cons_of_mem _ hj'))

theorem correct_i_skip (is raw : List Nat)
    (h : ∀ i ∈ is, ∀ j ∈ [0, 1, 2, 3, 4, 5, 6, 7], gen_crc (flip_bit raw i j) ≠ 0) :
    correct_i is raw = (raw, false) := by
  induction is with
  | nil => rfl
  | cons i rest ih =>
    unfold correct_i
    rw [correct_j_skip i _ raw (h i (List.mem_cons_self _ _))]
    exact ih (fun i' hi' => h i' (List.mem_cons_of_mem _ hi'))

theorem correct_i_unique (i j : Nat) (is raw : List Nat) (hi : i ∈ is)
    (hj : j ∈ [0, 1, 2, 3, 4, 5, 6, 7]) (h0 : gen_crc (flip_bit raw i j) = 0)
    (h : ∀ i' ∈ is, ∀ j' ∈ [0, 1, 2, 3, 4, 5, 6, 7], ¬ (i' = i ∧ j' = j) →
      gen_crc (flip_bit raw i' j') ≠ 0) :
    correct_i is raw = (flip_bit raw i j, true) := by
  induction is with
  | nil => simp at hi
  | cons x rest ih =>
    unfold correct_i
    by_cases hx : x = i
    · subst hx
      rw [correct_j_unique x j _ raw hj h0
        (fun j' hj' hne => h x (List.mem_cons_self _ _) j' hj' (fun hc => hne hc.2))]
    · rw [correct_j_skip x _ raw
        (fun j' hj' => h x (List.mem_cons_self _ _) j' hj' (fun hc => hx hc.1))]
      rcases List.mem_cons.mp hi with e | e
      · exact absurd e.symm hx
      · exact ih e (fun i' hi' => h i' (List.mem_cons_of_mem _ hi'))

theorem mem_bit_indices {j : Nat} : j ∈ [0, 1, 2, 3, 4, 5, 6, 7] ↔ j < 8 := by
  simp only [List.mem_cons, List.mem_singleton, List.not_mem_nil, or_false]
  omega

/-- A frame with zero CRC and one bit flipped has a non-zero CRC. -/
theorem gen_crc_flip_one (frame : List Nat) (hb : ∀ b ∈ frame, b < 256)
    (hcrc : gen_crc frame = 0) (i j : Nat) (hi : i < frame.length) (hj : j < 8) :
    gen_crc (flip_bit frame i j) ≠ 0 := by
  rw [Ne, gen_crc_eq_zero_iff, foldl_flip_bit frame hb i j hi,
    (gen_crc_eq_zero_iff frame).mp hcrc, Nat.zero_xor]
  exact parity16_true_ne_zero (parity16_crc_syndrome j _ hj)

/-- A frame of at most 247 bytes with zero CRC and two different bits flipped
has a non-zero CRC. -/
theorem gen_crc_flip_two (frame : List Nat) (hb : ∀ b ∈ frame, b < 256)
    (hlen : frame.length ≤ 247) (hcrc : gen_crc frame = 0) (i j i' j' : Nat)
    (hi : i < frame.length) (hj : j < 8) (hi' : i' < frame.length) (hj' : j' < 8)
    (hne : ¬ (i' = i ∧ j' = j)) :
    gen_crc (flip_bit (flip_bit frame i j) i' j') ≠ 0 := by
  rw [Ne, gen_crc_eq_zero_iff,
    foldl_flip_bit _ (flip_bit_lt frame hb i j) i' j' (by rw [flip_bit_length]; exact hi'),
    foldl_flip_bit frame hb i j hi, (gen_crc_eq_zero_iff frame).mp hcrc, Nat.zero_xor,
    flip_bit_length, Nat.xor_eq_zero]
  intro h
  have := crc_syndrome_inj j j' _ _ hj hj' (by omega) (by omega) h
  exact hne ⟨by omega, this.1.symm⟩

/-- A frame with zero CRC and three bit flips (at any positions, repeated or
not) has a non-zero CRC: the register has odd parity. -/
theorem gen_crc_flip_three (frame : List Nat) (hb : ∀ b ∈ frame, b < 256)
    (hcrc : gen_crc frame = 0) (i1 j1 i2 j2 i3 j3 : Nat)
    (hi1 : i1 < frame.length) (hj1 : j1 < 8) (hi2 : i2 < frame.length) (hj2 : j2 < 8)
    (hi3 : i3 < frame.length) (hj3 : j3 < 8) :
    gen_crc (flip_bit (flip_bit (flip_bit frame i1 j1) i2 j2) i3 j3) ≠ 0 := by
  have hb1 := flip_bit_lt frame hb i1 j1
  have hb2 := flip_bit_lt _ hb1 i2 j2
  rw [Ne, gen_crc_eq_zero_iff,
    foldl_flip_bit _ hb2 i3 j3 (by rw [flip_bit_length, flip_bit_length]; exact hi3),
    foldl_flip_bit _ hb1 i2 j2 (by rw [flip_bit_length]; exact hi2),
    foldl_flip_bit frame hb i1 j1 hi1, (gen_crc_eq_zero_iff frame).mp hcrc, Nat.zero_xor]
  apply parity16_true_ne_zero
  rw [parity16_xor, parity16_xor, parity16_crc_syndrome j1 _ hj1,
    parity16_crc_syndrome j2 _ hj2, parity16_crc_syndrome j3 _ hj3]
  rfl

/-- The one-bit correction locates a single flipped bit: for a frame of at
most 247 bytes with zero CRC and one bit flipped, the frame `STATE::END`
hands to `build_mesg` is the frame without the flip. -/
theorem end_frame_single_bit (frame : List Nat) (i j : Nat)
    (hlen : frame.length ≤ 247) (hb : ∀ b ∈ frame, b < 256) (hcrc : gen_crc frame = 0)
    (hi : i < frame.length) (hj : j < 8) :
    gen_crc (flip_bit frame i j) ≠ 0 ∧ end_frame (flip_bit frame i j) = some frame := by
  have hbad := gen_crc_flip_one frame hb hcrc i j hi hj
  have hfix : correct_i (List.range frame.length) (flip_bit frame i j) = (frame, true) := by
    have h := correct_i_unique i j (List.range frame.length) (flip_bit frame i j)
      (List.mem_range.mpr hi) (mem_bit_indices.mpr hj)
      (by rw [flip_bit_flip_bit]; exact hcrc)
      (fun i' hi' j' hj' hne =>
        gen_crc_flip_two frame hb hlen hcrc i j i' j' hi hj (List.mem_range.mp hi')
          (mem_bit_indices.mp hj') hne)
    rwa [flip_bit_flip_bit] at h
  refine ⟨hbad, ?_⟩
  rw [end_frame_crc_bad _ hbad, flip_bit_length, hfix]
  rfl

/-- C4, with the case in which the code fails: for every raw frame of at most
247 bytes with `gen_crc` zero and every bit position `(i, j)` in it, when
`STATE::END` processes the frame with bit `j` of byte `i` flipped, the CRC is
non-zero, the one-bit correction undoes exactly that flip and the frame handed
to `build_mesg` is the original frame.  When that frame has at least 27 bytes
`_getmesg` returns -1 with the record `build_mesg` fills, and nothing else in
the globals changes except the state (`HEADL`) and the CRC flag (0); when it
has fewer than 27 bytes `build_mesg` indexes out of bounds and the call has no
result. -/
theorem end_corrects_single_bit {F : Type} (g : Globals F) (r : Nat) (msg : Option msg_t)
    (frame : List Nat) (i j : Nat)
    (hs : g.m_state.state = STATE.END) (hraw : g.m_state.rawText = flip_bit frame i j)
    (hlen : frame.length ≤ 247) (hb : ∀ b ∈ frame, b < 256) (hcrc : gen_crc frame = 0)
    (hi : i < frame.length) (hj : j < 8) :
    gen_crc g.m_state.rawText ≠ 0 ∧
    end_frame g.m_state.rawText = some frame ∧
    (27 ≤ frame.length →
      _getmesg g r msg = some
        { g := { g with m_state :=
              { g.m_state with state := STATE.HEADL, rawText := frame, crc := 0 } }
          msg := (build_mesg frame).map Prod.fst
          ret := -1 } ∧
      build_mesg frame ≠ none) ∧
    (frame.length < 27 →
      _getmesg g r msg = none ∧ build_mesg frame = none ∧ end_faults g) := by
  obtain ⟨hbad, hfr⟩ := end_frame_single_bit frame i j hlen hb hcrc hi hj
  rw [← hraw] at hbad hfr
  refine ⟨hbad, hfr, fun h27 => ?_, fun h27 => ?_⟩
  · have hne : build_mesg frame ≠ none := (build_mesg_ne_none frame).mpr ⟨h27, by omega⟩
    exact ⟨_getmesg_END_accept g r msg hs frame hfr hne, hne⟩
  · have hn : build_mesg frame = none := (build_mesg_eq_none frame).mpr (Or.inl h27)
    exact ⟨_getmesg_END_fault g r msg hs frame hfr hn, hn, hs, frame, hfr, hn⟩

/-- C4 at work and at the failing input: the minimum-length frame with bit 0
of byte 14 flipped is corrected and accepted; the four-byte frame
`frame_short` with bit 0 of its first CRC byte flipped (0x4A for 0x4B) is
corrected and handed to `build_mesg`, and the call has no result; the
machine collects that damaged frame from the bits of pre-key, sync pattern
and the four bytes, and the run has no result at the byte after them. -/
theorem end_corrects_single_bit_witness :
    (_getmesg (globals_end (flip_bit frame_min 14 0)) 0x7f none = some
      { g := { globals_end (flip_bit frame_min 14 0) with m_state :=
            { (globals_end (flip_bit frame_min 14 0)).m_state with
              state := STATE.HEADL, rawText := frame_min, crc := 0 } }
        msg := (build_mesg frame_min).map Prod.fst
        ret := -1 } ∧
      build_mesg frame_min ≠ none) ∧
    flip_bit frame_short 2 0 = [0x01, 0x83, 0x4a, 0xaf] ∧
    end_frame (globals_end (flip_bit frame_short 2 0)).m_state.rawText = some frame_short ∧
    (_getmesg (globals_end (flip_bit frame_short 2 0)) 0x7f none = none ∧
      build_mesg frame_short = none ∧ end_faults (globals_end (flip_bit frame_short 2 0))) ∧
    (decode_bits
        (wire_bits
          (List.replicate 26 PRE_KEY_CHAR ++
            [_to_odd BIT_SYNC_1, _to_odd BIT_SYNC_2, _to_odd CHAR_SYNC_1, _to_odd CHAR_SYNC_2] ++
            flip_bit frame_short 2 0))
        decoder_init).map (fun d => (d.g.m_state.state, d.g.m_state.rawText)) =
      some (STATE.END, flip_bit frame_short 2 0) ∧
    decode_bits
        (wire_bits
          (List.replicate 26 PRE_KEY_CHAR ++
            [_to_odd BIT_SYNC_1, _to_odd BIT_SYNC_2, _to_odd CHAR_SYNC_1, _to_odd CHAR_SYNC_2] ++
            flip_bit frame_short 2 0 ++ [DEL]))
        decoder_init = none :=
  ⟨(end_corrects_single_bit (globals_end (flip_bit frame_min 14 0)) 0x7f none frame_min 14 0
      rfl rfl (by decide) (by decide) (by decide) (by decide) (by decide)).2.2.1 (by decide),
    by decide,
    (end_corrects_single_bit (globals_end (flip_bit frame_short 2 0)) 0x7f none frame_short 2 0
      rfl rfl (by decide) (by decide) (by decide) (by decide) (by decide)).2.1,
    (end_corrects_single_bit (globals_end (flip_bit frame_short 2 0)) 0x7f none frame_short 2 0
      rfl rfl (by decide) (by decide) (by decide) (by decide) (by decide)).2.2.2 (by decide),
    by decide, by decide⟩

/-- C6: for every raw frame of at most 247 bytes with `gen_crc` zero and
every two distinct bit positions in it, when `STATE::END` processes the frame
with both bits flipped, no single-bit flip makes `gen_crc` zero, `_getmesg`
returns 8, the record behind `msg` is not written (no message is built), the
state is `HEADL` and the rest of the globals is unchanged. -/
theorem end_drops_double_bit {F : Type} (g : Globals F) (r : Nat) (msg : Option msg_t)
    (frame : List Nat) (i1 j1 i2 j2 : Nat)
    (hs : g.m_state.state = STATE.END)
    (hraw : g.m_state.rawText = flip_bit (flip_bit frame i1 j1) i2 j2)
    (hlen : frame.length ≤ 247) (hb : ∀ b ∈ frame, b < 256) (hcrc : gen_crc frame = 0)
    (hi1 : i1 < frame.length) (hj1 : j1 < 8) (hi2 : i2 < frame.length) (hj2 : j2 < 8)
    (hne : ¬ (i2 = i1 ∧ j2 = j1)) :
    gen_crc g.m_state.rawText ≠ 0 ∧
    (∀ i j, i < g.m_state.rawText.length → j < 8 →
      gen_crc (flip_bit g.m_state.rawText i j) ≠ 0) ∧
    _getmesg g r msg = some
      { g := { g with m_state := { g.m_state with state := STATE.HEADL } }
        msg := msg
        ret := 8 } := by
  have hbad : gen_crc g.m_state.rawText ≠ 0 := by
    rw [hraw]; exact gen_crc_flip_two frame hb hlen hcrc i1 j1 i2 j2 hi1 hj1 hi2 hj2 hne
  have hall : ∀ i j, i < g.m_state.rawText.length → j < 8 →
      gen_crc (flip_bit g.m_state.rawText i j) ≠ 0 := by
    intro i j hi hj
    rw [hraw, flip_bit_length, flip_bit_length] at hi
    rw [hraw]
    exact gen_crc_flip_three frame hb hcrc i1 j1 i2 j2 i j hi1 hj1 hi2 hj2 hi hj
  refine ⟨hbad, hall, ?_⟩
  rw [_getmesg_END_crc_bad g r msg hs hbad]
  have hskip := correct_i_skip (List.range g.m_state.rawText.length) g.m_state.rawText
    (fun i hi j hj => hall i j (List.mem_range.mp hi) (mem_bit_indices.mp hj))
  rw [hskip]

/-- Witness for C6: the minimum-length frame with bit 0 of byte 14 and bit
3 of byte 20 flipped. -/
theorem end_drops_double_bit_witness :
    _getmesg (globals_end (flip_bit (flip_bit frame_min 14 0) 20 3)) 0x7f none = some
      { g := { globals_end (flip_bit (flip_bit frame_min 14 0) 20 3) with m_state :=
            { (globals_end (flip_bit (flip_bit frame_min 14 0) 20 3)).m_state with
              state := STATE.HEADL } }
        msg := none
        ret := 8 } :=
  (end_drops_double_bit (globals_end (flip_bit (flip_bit frame_min 14 0) 20 3)) 0x7f none
    frame_min 14 0 20 3 rfl rfl (by decide) (by decide) (by decide) (by decide) (by decide)
    (by decide) (by decide) (by decide)).2.2

/-! ## The CRC flag of an accepted message -/

theorem build_mesg_crc (txt : List Nat) (m : msg_t) (v : Int)
    (h : build_mesg txt = some (m, v)) : m.crc = 0 ∧ v = 1 := by
  simp only [build_mesg] at h
  split_ifs at h
  simp only [Option.some.injEq, Prod.mk.injEq] at h
  obtain ⟨h1, h2⟩ := h
  rw [← h1, ← h2]
  exact ⟨rfl, rfl⟩

/-- C5, what the code does: whenever `_getmesg` accepts a frame (returns
-1), with or without a corrected bit, the CRC flag `m_state.crc` is 0 and the
member `crc` of the record filled by `build_mesg` is 0; a corrected message is
not marked. -/
theorem getmesg_accept_flag_zero {F : Type} (g : Globals F) (r : Nat) (msg : Option msg_t)
    (res : Result F) (h : _getmesg g r msg = some res) (hret : res.ret = -1) :
    res.g.m_state.crc = 0 ∧ ∀ m, res.msg = some m → m.crc = 0 := by
  cases hs : g.m_state.state
  · rw [_getmesg_HEADL g r msg hs] at h
    cases h; simp at hret
  · by_cases hr : r = PRE_KEY_CHAR
    · rw [_getmesg_HEADF_prekey g r msg hs hr] at h
      cases h; simp at hret
    · rw [_getmesg_HEADF_other g r msg hs hr, _getmesg_SYNC _ r msg rfl] at h
      cases h
      exact absurd hret (sync_loop_ret8 r _).1
  · rw [_getmesg_SYNC g r msg hs] at h
    cases h
    exact absurd hret (sync_loop_ret8 r _).1
  · rw [_getmesg_TXT g r msg hs] at h
    by_cases h1 : (g.m_state.rawText ++ [r]).length > BMAX
    · rw [if_pos h1, _getmesg_HEADL _ r msg rfl] at h
      cases h; simp at hret
    · rw [if_neg h1] at h
      cases h; simp at hret
  · rw [_getmesg_CRC1 g r msg hs] at h
    cases h; simp at hret
  · rw [_getmesg_CRC2 g r msg hs] at h
    cases h; simp at hret
  · rcases getmesg_END_cases g r msg hs res h with ⟨f, p, _, hb, e⟩ | ⟨_, e⟩
    · subst e
      refine ⟨rfl, fun m hm => ?_⟩
      have e2 : p.1 = m := Option.some.inj hm
      rw [← e2]
      exact (build_mesg_crc f p.1 p.2 hb).1
    · subst e
      simp at hret

/-- C5 at the failing input: the end state holds the minimum-length frame
with bit 0 of byte 14 flipped.  The CRC of that frame is not zero, the
correction restores the frame and `_getmesg` accepts it, yet the CRC flag and
the record's `crc` are 0, and the record is the very record produced for the
undamaged frame. -/
theorem getmesg_corrected_not_marked :
    gen_crc (flip_bit frame_min 14 0) ≠ 0 ∧
    ∃ res, _getmesg (globals_end (flip_bit frame_min 14 0)) 0x7f none = some res ∧
      res.ret = -1 ∧ res.g.m_state.rawText = frame_min ∧
      res.g.m_state.crc = 0 ∧ (∀ m, res.msg = some m → m.crc = 0) ∧
      ∃ res', _getmesg (globals_end frame_min) 0x7f none = some res' ∧ res'.msg = res.msg :=
  have h : _getmesg (globals_end (flip_bit frame_min 14 0)) 0x7f none = some
      { g := { globals_end (flip_bit frame_min 14 0) with m_state :=
            { (globals_end (flip_bit frame_min 14 0)).m_state with
              state := STATE.HEADL, rawText := frame_min, crc := 0 } }
        msg := (build_mesg frame_min).map Prod.fst
        ret := -1 } := by decide!
  have h' : _getmesg (globals_end frame_min) 0x7f none = some
      { g := { globals_end frame_min with m_state :=
            { (globals_end frame_min).m_state with state := STATE.HEADL, crc := 0 } }
        msg := (build_mesg frame_min).map Prod.fst
        ret := -1 } := by decide!
  ⟨by decide, _, h, rfl, rfl,
    (getmesg_accept_flag_zero _ _ _ _ h rfl).1, (getmesg_accept_flag_zero _ _ _ _ h rfl).2,
    _, h', rfl⟩

/-! ## Whole frames through the bit-counting loop -/

/-- The raw frame `frame_min` is the frame encoded from `fields_min` with the
low CRC byte first. -/
theorem frame_min_eq : fields_min.frame false = frame_min := by decide

/-- C7 at the failing input: the frame with the maximum text of 220
characters `X`, with valid header, ETX and CRC (in the byte order that makes
`gen_crc` zero) and followed by a further byte, is discarded: nothing is handed
to `print_mesg` and the machine is back in `HEADL`; the same frame with 219
characters is accepted with its text. -/
theorem max_text_frame_dropped :
    (decode_bits (wire_bits ((fields_text 220).wire false ++ [DEL])) decoder_init).map
        (fun d => (d.printed, d.g.m_state.state)) = some ([], STATE.HEADL) ∧
    (decode_bits (wire_bits ((fields_text 219).wire false ++ [DEL])) decoder_init).map
        (fun d => d.printed.map (fun m => m.map (fun x => x.txt.take 220)))
      = some [some (List.replicate 219 0x58 ++ [0])] := by
  constructor <;> decide!

/-- C7, the cause: in `STATE::TXT` with 244 bytes collected (SOH, the 23
header bytes and 220 text bytes) the next byte, here ETX, makes the raw frame
245 bytes long, which exceeds `BMAX = 244`: the state becomes `HEADL`, where
the byte is processed again, the machine is reset and 1 is returned. -/
theorem txt_overflow_at_etx {F : Type} (g : Globals F) (msg : Option msg_t)
    (hs : g.m_state.state = STATE.TXT) (hlen : g.m_state.rawText.length = 244) :
    _getmesg g (_to_odd ETX) msg = some
      { g :=
          { m_state :=
              { state := STATE.HEADL, syncForming := 0, syncBitsHave := 0
                consecutivePreKey := 0, crc := 0, rawText := [] }
            bstat := { g.bstat with sgI := 0, sgQ := 0 } }
        msg := msg
        ret := 1 } := by
  have h1 : (g.m_state.rawText ++ [_to_odd ETX]).length > BMAX := by
    rw [List.length_append, hlen]; decide
  rw [_getmesg_TXT g _ msg hs, if_pos h1, _getmesg_HEADL _ _ msg rfl]
  have h2 : ¬ _to_odd ETX = PRE_KEY_CHAR := by decide
  rw [if_neg h2]
  rfl

/-- C3 as stated fails: after exactly the bits of the minimum-length frame,
from the pre-key to the second CRC byte, no message has been accepted; the
machine sits in `STATE::END` and evaluates the frame only on the next call,
when eight more bits have arrived.  This holds for either order of the two
CRC bytes. -/
theorem exact_frame_bits_not_accepted :
    (decode_bits (wire_bits (fields_min.wire false)) decoder_init).map
        (fun d => (d.printed, d.g.m_state.state)) = some ([], STATE.END) ∧
    (decode_bits (wire_bits (fields_min.wire true)) decoder_init).map
        (fun d => (d.printed, d.g.m_state.state)) = some ([], STATE.END) := by
  constructor <;> decide!

/-! ## The bit-counting loop on whole bytes -/

theorem decode_bits_append {F : Type} (a b : List Bool) (d : Decoder F) :
    decode_bits (a ++ b) d = (decode_bits a d).bind (decode_bits b) := by
  induction a generalizing d with
  | nil => rfl
  | cons x t ih =>
    simp only [List.cons_append, decode_bits]
    cases decode_bit d x with
    | none => rfl
    | some d' => exact ih d'

theorem wire_bits_append (a b : List Nat) : wire_bits (a ++ b) = wire_bits a ++ wire_bits b := by
  induction a with
  | nil => rfl
  | cons x t ih =>
    show byte_bits x ++ wire_bits (t ++ b) = (byte_bits x ++ wire_bits t) ++ wire_bits b
    rw [ih, List.append_assoc]

/-- From the freshly reset decoder a run of one bits leaves `HEADL` exactly
with the 32nd bit: the first call is made on the eighth bit, one call follows
on every further bit, and the 25th call is the first to take
`consecutivePreKey` above 24. -/
theorem decode_prekey_run : ∀ n : Fin 48,
    (decode_bits (List.replicate n.val true) decoder_init).map
        (fun d => (d.g.m_state.state, d.g.m_state.consecutivePreKey))
      = some (if n.val < 32 then STATE.HEADL else STATE.HEADF,
          if n.val < 32 then ((n.val - 7 : Nat) : Int) else 25) := by
  decide!

/-- The pre-key, the sync bytes and SOH take the freshly reset decoder to
`decoder_after_soh`. -/
theorem decode_preamble :
    decode_bits
        (wire_bits (List.replicate 26 PRE_KEY_CHAR ++
          [_to_odd BIT_SYNC_1, _to_odd BIT_SYNC_2, _to_odd CHAR_SYNC_1, _to_odd CHAR_SYNC_2] ++
          [_to_odd SOH]))
        decoder_init
      = some decoder_after_soh := by
  decide!

theorem decode_first_byte_fin : ∀ k : Fin 256,
    decode_bits (byte_bits k.val) decoder_after_soh = some
      { g :=
          { m_state :=
              { state := if k.val = _to_odd ETX ∨ k.val = _to_odd ETB then STATE.CRC1
                  else STATE.TXT
                syncForming := 4665518763, syncBitsHave := 45, consecutivePreKey := 25
                rawText := [_to_odd SOH, k.val], crc := 0 }
            bstat := bstat_init }
        rl := k.val, nbitl := 0, printed := [] } := by
  decide!

/-- The first byte after SOH: its third bit triggers the call that completes
sync (five bits consumed), its last bit the call that stores the byte. -/
theorem decode_first_byte (b : Nat) (hb : b < 256) :
    decode_bits (byte_bits b) decoder_after_soh = some
      { g :=
          { m_state :=
              { state := if b = _to_odd ETX ∨ b = _to_odd ETB then STATE.CRC1 else STATE.TXT
                syncForming := 4665518763, syncBitsHave := 45, consecutivePreKey := 25
                rawText := [_to_odd SOH, b], crc := 0 }
            bstat := bstat_init }
        rl := b, nbitl := 0, printed := [] } :=
  decode_first_byte_fin ⟨b, hb⟩

theorem testBit_ite_128 (c : Bool) (i : Nat) :
    (if c = true then 0x80 else 0 : Nat).testBit i = (c && decide (i = 7)) := by
  cases c
  · simp
  · have : (0x80 : Nat) = 2 ^ 7 := by norm_num
    simp only [if_true, this, Nat.testBit_two_pow, Bool.true_and]
    congr 1
    exact propext ⟨fun h => h.symm, fun h => h.symm⟩

/-- Eight bits shifted into the 8-bit register `rl` from the top leave the
byte they were taken from. -/
theorem shift_in_byte (rl b : Nat) (hrl : rl < 256) (hb : b < 256) :
    shift_in (shift_in (shift_in (shift_in (shift_in (shift_in (shift_in (shift_in rl
      (b.testBit 0)) (b.testBit 1)) (b.testBit 2)) (b.testBit 3)) (b.testBit 4))
      (b.testBit 5)) (b.testBit 6)) (b.testBit 7) = b := by
  unfold shift_in
  apply Nat.eq_of_testBit_eq
  intro i
  simp only [Nat.testBit_or, Nat.testBit_shiftRight, testBit_ite_128]
  have h1 : ∀ k, 8 ≤ k → rl.testBit k = false := fun k hk =>
    Nat.testBit_lt_two_pow (Nat.lt_of_lt_of_le hrl (Nat.pow_le_pow_right (n := 2) (by decide) hk))
  have h2 : ∀ k, 8 ≤ k → b.testBit k = false := fun k hk =>
    Nat.testBit_lt_two_pow (Nat.lt_of_lt_of_le hb (Nat.pow_le_pow_right (n := 2) (by decide) hk))
  rw [h1 _ (by omega)]
  by_cases hi : i < 8
  · interval_cases i <;> simp
  · rw [h2 i (by omega)]
    have e : ∀ n : Nat, decide (1 + n = 7) = decide (n = 6) := fun n => by
      congr 1; exact propext ⟨fun h => by omega, fun h => by omega⟩
    simp
    omega

theorem decode_bit_pending {F : Type} (d : Decoder F) (bit : Bool) (h : d.nbitl + 1 < 8) :
    decode_bit d bit = some { d with rl := shift_in d.rl bit, nbitl := d.nbitl + 1 } := by
  unfold decode_bit
  exact if_neg (by simp only [ge_iff_le, not_le]; exact h)

theorem decode_bit_full {F : Type} (d : Decoder F) (bit : Bool) (h : d.nbitl + 1 = 8) :
    decode_bit d bit
      = decode_calls 8 { d with rl := shift_in d.rl bit, nbitl := d.nbitl + 1 } := by
  unfold decode_bit
  simp only [h]
  exact if_pos (le_refl _)

/-- Bits that do not fill the counter are only shifted into `rl`. -/
theorem decode_bits_pending {F : Type} (bs : List Bool) (d : Decoder F)
    (h : d.nbitl + bs.length < 8) :
    decode_bits bs d
      = some { d with rl := bs.foldl shift_in d.rl, nbitl := d.nbitl + bs.length } := by
  induction bs generalizing d with
  | nil => simp [decode_bits]
  | cons x t ih =>
    simp only [List.length_cons, Nat.cast_add, Nat.cast_one] at h
    rw [decode_bits, decode_bit_pending d x (by omega)]
    simp only
    rw [ih _ (by simp only; omega)]
    simp only [List.foldl_cons, List.length_cons, Nat.cast_add, Nat.cast_one]
    congr 2
    omega

theorem foldl_shift_in_byte (rl b : Nat) (hrl : rl < 256) (hb : b < 256) :
    (byte_bits b).foldl shift_in rl = b := by
  simp only [byte_bits, List.foldl_cons, List.foldl_nil]
  exact shift_in_byte rl b hrl hb

theorem decode_calls_consumed {F : Type} (fuel : Nat) (d : Decoder F) (res : Result F)
    (h : _getmesg d.g d.rl none = some res) (hret : res.ret = 8) (hn : d.nbitl = 8) :
    decode_calls (fuel + 1) d = some { d with g := res.g, nbitl := 0 } := by
  have e : ¬ ((8 : Int) = -1) := by decide
  rw [decode_calls, h]
  simp only [hret, e, if_false, hn, sub_self]
  exact if_neg (by decide)

theorem decode_calls_accepted {F : Type} (fuel : Nat) (d : Decoder F) (res : Result F)
    (h : _getmesg d.g d.rl none = some res) (hret : res.ret = -1) :
    decode_calls (fuel + 1) d
      = some { d with g := res.g, printed := d.printed ++ [res.msg], nbitl := 0 } := by
  rw [decode_calls, h]
  simp only [hret, if_true]
  exact if_neg (by decide)

theorem byte_bits_split (b : Nat) :
    byte_bits b
      = [b.testBit 0, b.testBit 1, b.testBit 2, b.testBit 3, b.testBit 4, b.testBit 5,
          b.testBit 6] ++ [b.testBit 7] := rfl

/-- A whole byte fed to a decoder with no pending bit: the byte ends up in
`rl` and the frame machine is called once with it. -/
theorem decode_byte_calls {F : Type} (d : Decoder F) (b : Nat)
    (hn : d.nbitl = 0) (hrl : d.rl < 256) (hb : b < 256) :
    decode_bits (byte_bits b) d = decode_calls 8 { d with rl := b, nbitl := 8 } := by
  have h7 := decode_bits_pending
    [b.testBit 0, b.testBit 1, b.testBit 2, b.testBit 3, b.testBit 4, b.testBit 5, b.testBit 6]
    d (by rw [hn]; simp)
  have e := foldl_shift_in_byte d.rl b hrl hb
  simp only [byte_bits, List.foldl_cons, List.foldl_nil] at e
  have e7 : (7 : Int) + 1 = 8 := by decide
  simp only [hn, List.length_cons, List.length_nil, Nat.zero_add, Nat.reduceAdd, Nat.cast_ofNat,
    zero_add, List.foldl_cons, List.foldl_nil] at h7
  rw [byte_bits_split, decode_bits_append, h7]
  simp only [Option.some_bind, decode_bits]
  rw [decode_bit_full _ _ e7]
  simp only [e, e7]
  cases decode_calls 8 { g := d.g, rl := b, nbitl := 8, printed := d.printed } <;> rfl

/-- A whole byte for which the frame machine returns 8. -/
theorem decode_byte_consumed {F : Type} (d : Decoder F) (b : Nat) (res : Result F)
    (hn : d.nbitl = 0) (hrl : d.rl < 256) (hb : b < 256)
    (h : _getmesg d.g b none = some res) (hret : res.ret = 8) :
    decode_bits (byte_bits b) d = some { d with g := res.g, rl := b, nbitl := 0 } := by
  rw [decode_byte_calls d b hn hrl hb]
  exact decode_calls_consumed 7 _ res h hret rfl

/-- A whole byte for which the frame machine returns -1: the record goes to
`print_mesg`. -/
theorem decode_byte_accepted {F : Type} (d : Decoder F) (b : Nat) (res : Result F)
    (hn : d.nbitl = 0) (hrl : d.rl < 256) (hb : b < 256)
    (h : _getmesg d.g b none = some res) (hret : res.ret = -1) :
    decode_bits (byte_bits b) d = some
      { d with g := res.g, rl := b, nbitl := 0, printed := d.printed ++ [res.msg] } := by
  rw [decode_byte_calls d b hn hrl hb]
  exact decode_calls_accepted 7 _ res h hret

/-! ## A frame through the machine, byte by byte -/

theorem to_odd_char (c : Nat) (hc : c < 128) :
    _to_odd c < 256 ∧ build_mesg_char (_to_odd c) = build_mesg_char c ∧
      (_to_odd c = _to_odd ETX → c = ETX) ∧ (_to_odd c = _to_odd ETB → c = ETB) := by
  have key : ∀ k : Fin 128,
      _to_odd k.val < 256 ∧ build_mesg_char (_to_odd k.val) = build_mesg_char k.val ∧
        (_to_odd k.val = _to_odd ETX → k.val = ETX) ∧
        (_to_odd k.val = _to_odd ETB → k.val = ETB) := by
    decide
  exact key ⟨c, hc⟩

theorem wire_bits_singleton (b : Nat) : wire_bits [b] = byte_bits b := by
  simp [wire_bits]

/-- A byte stored by `STATE::TXT`: the raw frame grows by the byte, nothing
else changes. -/
theorem decode_text_byte {F : Type} (d : Decoder F) (b : Nat)
    (hs : d.g.m_state.state = STATE.TXT) (hn : d.nbitl = 0) (hrl : d.rl < 256) (hb : b < 256)
    (hlen : d.g.m_state.rawText.length + 1 ≤ 244) :
    decode_bits (byte_bits b) d = some
      { d with
        g := { d.g with m_state :=
          { d.g.m_state with
            rawText := d.g.m_state.rawText ++ [b]
            state := if b = _to_odd ETX ∨ b = _to_odd ETB then STATE.CRC1 else STATE.TXT } }
        rl := b, nbitl := 0 } := by
  have h := _getmesg_TXT d.g b none hs
  have h1 : ¬ (d.g.m_state.rawText ++ [b]).length > BMAX := by
    rw [List.length_append, List.length_singleton]
    have : BMAX = 244 := by decide
    omega
  rw [if_neg h1] at h
  exact decode_byte_consumed d b _ hn hrl hb h rfl

/-- A run of bytes other than ETX and ETB stored by `STATE::TXT`. -/
theorem decode_text_run {F : Type} (bs : List Nat) (d : Decoder F)
    (hs : d.g.m_state.state = STATE.TXT) (hn : d.nbitl = 0) (hrl : d.rl < 256)
    (hbs : ∀ b ∈ bs, b < 256 ∧ b ≠ _to_odd ETX ∧ b ≠ _to_odd ETB)
    (hlen : d.g.m_state.rawText.length + bs.length ≤ 244) :
    ∃ d', decode_bits (wire_bits bs) d = some d' ∧
      d'.g = { d.g with m_state :=
        { d.g.m_state with rawText := d.g.m_state.rawText ++ bs } } ∧
      d'.nbitl = 0 ∧ d'.rl < 256 ∧ d'.printed = d.printed := by
  induction bs generalizing d with
  | nil =>
    refine ⟨d, rfl, ?_, hn, hrl, rfl⟩
    simp
  | cons b t ih =>
    obtain ⟨hb1, hb2, hb3⟩ := hbs b (List.mem_cons_self _ _)
    simp only [List.length_cons] at hlen
    have hstep := decode_text_byte d b hs hn hrl hb1 (by omega)
    have hne : ¬ (b = _to_odd ETX ∨ b = _to_odd ETB) := fun h => h.elim hb2 hb3
    rw [if_neg hne] at hstep
    obtain ⟨d', h1, h2, h3, h4, h5⟩ := ih
      { d with
        g := { d.g with m_state :=
          { d.g.m_state with rawText := d.g.m_state.rawText ++ [b], state := STATE.TXT } }
        rl := b, nbitl := 0 }
      rfl rfl hb1 (fun x hx => hbs x (List.mem_cons_of_mem _ hx))
      (by simp only [List.length_append, List.length_singleton]; omega)
    refine ⟨d', ?_, ?_, h3, h4, h5⟩
    · rw [wire_bits, decode_bits_append, hstep]
      exact h1
    · rw [h2]
      simp only [List.append_assoc, List.singleton_append]
      congr 2
      rw [← hs]

theorem to_odd_ETX_lt : _to_odd ETX < 256 := by decide

/-- The end of a frame: ETX closes the text, the two CRC bytes are stored,
and the byte after them makes `STATE::END` check the frame, which is accepted
when its CRC is zero. -/
theorem decode_frame_tail {F : Type} (d : Decoder F) (c1 c2 t : Nat)
    (hs : d.g.m_state.state = STATE.TXT) (hn : d.nbitl = 0) (hrl : d.rl < 256)
    (hc1 : c1 < 256) (hc2 : c2 < 256) (ht : t < 256)
    (hlen : d.g.m_state.rawText.length + 1 ≤ 244)
    (hcrc : gen_crc (d.g.m_state.rawText ++ [_to_odd ETX] ++ [c1] ++ [c2]) = 0)
    (hbm : build_mesg (d.g.m_state.rawText ++ [_to_odd ETX] ++ [c1] ++ [c2]) ≠ none) :
    decode_bits (byte_bits (_to_odd ETX) ++ (byte_bits c1 ++ (byte_bits c2 ++ byte_bits t))) d
      = some
        { g := { d.g with m_state :=
            { d.g.m_state with
              rawText := d.g.m_state.rawText ++ [_to_odd ETX] ++ [c1] ++ [c2]
              state := STATE.HEADL
              crc := 0 } }
          rl := t
          nbitl := 0
          printed := d.printed ++
            [(build_mesg (d.g.m_state.rawText ++ [_to_odd ETX] ++ [c1] ++ [c2])).map Prod.fst] } := by
  have s1 := decode_text_byte d (_to_odd ETX) hs hn hrl to_odd_ETX_lt hlen
  rw [if_pos (Or.inl rfl)] at s1
  have s2 := decode_byte_consumed
    ({ d with
        g := { d.g with m_state :=
          { d.g.m_state with
            rawText := d.g.m_state.rawText ++ [_to_odd ETX], state := STATE.CRC1 } }
        rl := _to_odd ETX, nbitl := 0 } : Decoder F)
    c1 _ rfl to_odd_ETX_lt hc1 (_getmesg_CRC1 _ c1 none rfl) rfl
  have s3 := decode_byte_consumed
    ({ d with
        g := { d.g with m_state :=
          { d.g.m_state with
            rawText := d.g.m_state.rawText ++ [_to_odd ETX] ++ [c1], state := STATE.CRC2 } }
        rl := c1, nbitl := 0 } : Decoder F)
    c2 _ rfl hc1 hc2 (_getmesg_CRC2 _ c2 none rfl) rfl
  have s4 := decode_byte_accepted
    ({ d with
        g := { d.g with m_state :=
          { d.g.m_state with
            rawText := d.g.m_state.rawText ++ [_to_odd ETX] ++ [c1] ++ [c2]
            state := STATE.END } }
        rl := c2, nbitl := 0 } : Decoder F)
    t _ rfl hc2 ht (_getmesg_END_crc_ok_some _ t none rfl hcrc hbm) rfl
  rw [decode_bits_append, s1, Option.some_bind, decode_bits_append, s2, Option.some_bind,
    decode_bits_append, s3, Option.some_bind, s4]

/-! ## The round trip of a frame -/

theorem length_succ_cases {α : Type} (l : List α) (n : Nat) (h : l.length = n + 1) :
    ∃ a t, l = a :: t ∧ t.length = n := by
  cases l with
  | nil => simp at h
  | cons a t => exact ⟨a, t, rfl, by simpa using h⟩

/-- The record `build_mesg` fills for a frame made of a first byte, at least
23 content bytes and three closing bytes. -/
theorem build_mesg_of_content (h0 : Nat) (m0 tail3 : List Nat) (ht : tail3.length = 3)
    (hm : 23 ≤ m0.length) (hm2 : m0.length - 23 ≤ 256) :
    build_mesg (h0 :: (m0 ++ tail3)) = some
      ({ mode := (m0.map build_mesg_char).getD 0 0
         addr := ((m0.map build_mesg_char).drop 1).take 7 ++ [0]
         ack := (m0.map build_mesg_char).getD 8 0
         label := ((m0.map build_mesg_char).drop 9).take 2 ++ [0]
         bid := (m0.map build_mesg_char).getD 11 0
         no := ((m0.map build_mesg_char).drop 13).take 4 ++ [0]
         fid := ((m0.map build_mesg_char).drop 17).take 6 ++ [0]
         txt := (m0.map build_mesg_char).drop 23 ++ List.replicate (256 - (m0.length - 23)) 0
         crc := 0 }, 1) := by
  have hl : (h0 :: (m0 ++ tail3)).length = m0.length + 4 := by
    simp only [List.length_cons, List.length_append, ht]
  have e : ((h0 :: (m0 ++ tail3)).drop 1).take ((h0 :: (m0 ++ tail3)).length - 3 - 1) = m0 := by
    rw [hl]
    simp only [List.drop_succ_cons, List.drop_zero]
    exact List.take_left' (by omega)
  simp only [build_mesg]
  rw [e, if_neg (by rw [hl]; omega), if_neg (by rw [List.length_map]; omega),
    if_neg (by rw [List.length_map]; omega), List.length_map]

theorem block_eq (f : Fields) :
    f.block = _to_odd SOH :: (f.content.map _to_odd ++ [_to_odd ETX]) := by
  simp [Fields.block]

/-- The parser applied to the raw frame of well-formed fields returns the
expected record. -/
theorem build_mesg_frame (f : Fields) (hwf : f.wf) (c1 c2 : Nat) :
    build_mesg (f.block ++ [c1] ++ [c2]) = some (f.parsed, 1) := by
  obtain ⟨ha, hl, hsq, hfl, htx, hch⟩ := hwf
  have hodd : f.content.map (fun c => build_mesg_char (_to_odd c))
      = f.content.map build_mesg_char :=
    List.map_congr_left (fun c hc => (to_odd_char c (hch c hc).1).2.1)
  have hclen : f.content.length = 23 + f.text.length := by
    simp only [Fields.content, List.length_append, List.length_cons, List.length_nil, ha, hl,
      hsq, hfl]
  have e : f.block ++ [c1] ++ [c2]
      = _to_odd SOH :: (f.content.map _to_odd ++ [_to_odd ETX, c1, c2]) := by
    rw [block_eq]; simp
  rw [e, build_mesg_of_content _ _ [_to_odd ETX, c1, c2] rfl (by rw [List.length_map]; omega)
    (by rw [List.length_map]; omega), List.map_map]
  have hcomp : (build_mesg_char ∘ _to_odd) = fun c => build_mesg_char (_to_odd c) := rfl
  rw [hcomp, hodd, List.length_map, hclen]
  obtain ⟨mode, address, ack, label, block_id, seq, flight, text⟩ := f
  simp only at ha hl hsq hfl
  obtain ⟨a1, ar0, rfl, ha0⟩ := length_succ_cases address 6 ha
  obtain ⟨a2, ar1, rfl, ha1⟩ := length_succ_cases ar0 5 ha0
  obtain ⟨a3, ar2, rfl, ha2⟩ := length_succ_cases ar1 4 ha1
  obtain ⟨a4, ar3, rfl, ha3⟩ := length_succ_cases ar2 3 ha2
  obtain ⟨a5, ar4, rfl, ha4⟩ := length_succ_cases ar3 2 ha3
  obtain ⟨a6, ar5, rfl, ha5⟩ := length_succ_cases ar4 1 ha4
  obtain ⟨a7, ar6, rfl, ha6⟩ := length_succ_cases ar5 0 ha5
  obtain rfl := List.length_eq_zero.mp ha6
  obtain ⟨l1, lr0, rfl, hl0⟩ := length_succ_cases label 1 hl
  obtain ⟨l2, lr1, rfl, hl1⟩ := length_succ_cases lr0 0 hl0
  obtain rfl := List.length_eq_zero.mp hl1
  obtain ⟨s1, sr0, rfl, hsq0⟩ := length_succ_cases seq 3 hsq
  obtain ⟨s2, sr1, rfl, hsq1⟩ := length_succ_cases sr0 2 hsq0
  obtain ⟨s3, sr2, rfl, hsq2⟩ := length_succ_cases sr1 1 hsq1
  obtain ⟨s4, sr3, rfl, hsq3⟩ := length_succ_cases sr2 0 hsq2
  obtain rfl := List.length_eq_zero.mp hsq3
  obtain ⟨f1, fr0, rfl, hfl0⟩ := length_succ_cases flight 5 hfl
  obtain ⟨f2, fr1, rfl, hfl1⟩ := length_succ_cases fr0 4 hfl0
  obtain ⟨f3, fr2, rfl, hfl2⟩ := length_succ_cases fr1 3 hfl1
  obtain ⟨f4, fr3, rfl, hfl3⟩ := length_succ_cases fr2 2 hfl2
  obtain ⟨f5, fr4, rfl, hfl4⟩ := length_succ_cases fr3 1 hfl3
  obtain ⟨f6, fr5, rfl, hfl5⟩ := length_succ_cases fr4 0 hfl4
  obtain rfl := List.length_eq_zero.mp hfl5
  simp [Fields.content, Fields.parsed]

theorem gen_crc_lt (s : List Nat) : gen_crc s < 65536 := by
  rw [gen_crc_eq_reflect, crc_reflect_eq]
  have h1 := reverse_bits_lt (List.foldl fold_crc_rev 0 s % 256)
  have h2 := reverse_bits_lt (List.foldl fold_crc_rev 0 s / 256 % 256)
  omega

theorem gen_crc_with_crc_bytes (s : List Nat) :
    gen_crc (s ++ [gen_crc s % 256] ++ [gen_crc s / 256]) = 0 := by
  rw [gen_crc_eq_reflect (s ++ _ ++ _), List.foldl_append, List.foldl_append,
    gen_crc_eq_reflect s]
  simp only [List.foldl_cons, List.foldl_nil]
  rw [fold_crc_rev_own_crc _ (foldl_fold_crc_rev_lt s 0 (by decide))]
  decide

theorem wire_split (f : Fields) (t : Nat) :
    f.wire false ++ [t]
      = (List.replicate 26 PRE_KEY_CHAR ++
          [_to_odd BIT_SYNC_1, _to_odd BIT_SYNC_2, _to_odd CHAR_SYNC_1, _to_odd CHAR_SYNC_2] ++
          [_to_odd SOH]) ++
        ([_to_odd f.mode] ++ (f.content.tail.map _to_odd ++
          ([_to_odd ETX] ++ ([gen_crc f.block % 256] ++ ([gen_crc f.block / 256] ++ [t]))))) := by
  have hc : f.content = f.mode :: f.content.tail := rfl
  have hb : f.block = [_to_odd SOH] ++ ([_to_odd f.mode] ++
      (f.content.tail.map _to_odd ++ [_to_odd ETX])) := by
    rw [block_eq, hc]; simp
  simp only [Fields.wire, Fields.frame, Bool.false_eq_true, if_false]
  rw [hb]
  simp only [List.append_assoc, List.singleton_append, List.cons_append, List.nil_append]

/-- C3 (as the code has it): for every frame encoded byte for byte from
well-formed source fields (26 pre-key bytes, the sync bytes, SOH, the
odd-parity body, odd-parity ETX and the two bytes of `gen_crc` over SOH..ETX,
low byte first), feeding those bits and then the eight bits of one further
byte through the bit-counting loop into a freshly reset machine yields
exactly one message for `print_mesg`.  Its fields are the source fields as
`build_mesg` stores them (a control character other than CR and LF, such as
NAK, reads `'.'`), its `crc` member and the machine's CRC flag are 0, and the
machine holds the raw frame in state `HEADL`. -/
theorem frame_round_trip (f : Fields) (hwf : f.wf) (t : Nat) (ht : t < 256) :
    decode_bits (wire_bits (f.wire false ++ [t])) decoder_init = some
      { g :=
          { m_state :=
              { state := STATE.HEADL, syncForming := 4665518763, syncBitsHave := 45
                consecutivePreKey := 25, rawText := f.frame false, crc := 0 }
            bstat := bstat_init }
        rl := t, nbitl := 0, printed := [some f.parsed] } := by
  have hch := hwf.2.2.2.2.2
  have hc : f.content = f.mode :: f.content.tail := rfl
  have hmode := hch f.mode (by rw [hc]; exact List.mem_cons_self _ _)
  have hm := to_odd_char f.mode hmode.1
  have hclen : f.content.length = 23 + f.text.length := by
    simp only [Fields.content, List.length_append, List.length_cons, List.length_nil,
      hwf.1, hwf.2.1, hwf.2.2.1, hwf.2.2.2.1]
  have htl : f.content.tail.length = 22 + f.text.length := by
    rw [List.length_tail, hclen]; omega
  have htx := hwf.2.2.2.2.1
  -- the first byte
  have hB := decode_first_byte (_to_odd f.mode) hm.1
  rw [if_neg (fun h => h.elim (fun e => hmode.2.1 (hm.2.2.1 e)) (fun e => hmode.2.2 (hm.2.2.2 e)))]
    at hB
  -- the rest of the body
  obtain ⟨d2, hC, hg, hn2, hrl2, hp2⟩ := decode_text_run (f.content.tail.map _to_odd)
    { g :=
        { m_state :=
            { state := STATE.TXT, syncForming := 4665518763, syncBitsHave := 45
              consecutivePreKey := 25, rawText := [_to_odd SOH, _to_odd f.mode], crc := 0 }
          bstat := bstat_init }
      rl := _to_odd f.mode, nbitl := 0, printed := [] }
    rfl rfl hm.1
    (fun b hb => by
      obtain ⟨c, hcm, rfl⟩ := List.mem_map.mp hb
      have hcc := hch c (by rw [hc]; exact List.mem_cons_of_mem _ hcm)
      have ho := to_odd_char c hcc.1
      exact ⟨ho.1, fun e => hcc.2.1 (ho.2.2.1 e), fun e => hcc.2.2 (ho.2.2.2 e)⟩)
    (by simp only [List.length_cons, List.length_nil, List.length_map, htl]; omega)
  -- the block collected so far is the frame's block without ETX
  have hraw : d2.g.m_state.rawText ++ [_to_odd ETX] = f.block := by
    rw [hg, block_eq, hc]; simp
  have hst : d2.g.m_state.state = STATE.TXT := by rw [hg]
  have hlen2 : d2.g.m_state.rawText.length + 1 ≤ 244 := by
    rw [hg]
    simp only [List.length_cons, List.length_nil, List.length_append, List.length_map, htl]
    omega
  have hD := decode_frame_tail d2 (gen_crc f.block % 256) (gen_crc f.block / 256) t hst hn2 hrl2
    (Nat.mod_lt _ (by decide)) (by have := gen_crc_lt f.block; omega) ht hlen2
    (by rw [hraw]; exact gen_crc_with_crc_bytes f.block)
    (by rw [hraw, build_mesg_frame f hwf]; simp)
  rw [wire_split, wire_bits_append, decode_bits_append, decode_preamble, Option.some_bind,
    wire_bits_append, wire_bits_singleton, decode_bits_append, hB, Option.some_bind,
    wire_bits_append, decode_bits_append, hC, Option.some_bind,
    wire_bits_append, wire_bits_singleton, wire_bits_append, wire_bits_singleton,
    wire_bits_append, wire_bits_singleton, wire_bits_singleton, hD]
  have hfr : f.frame false = f.block ++ [gen_crc f.block % 256] ++ [gen_crc f.block / 256] := by
    simp [Fields.frame]
  rw [hraw, build_mesg_frame f hwf, hp2, ← hfr, hg]
  rfl

/-- Witness for C3: the minimum-length frame of the specification followed by
DEL. -/
theorem frame_round_trip_witness :
    decode_bits (wire_bits (fields_min.wire false ++ [DEL])) decoder_init = some
      { g :=
          { m_state :=
              { state := STATE.HEADL, syncForming := 4665518763, syncBitsHave := 45
                consecutivePreKey := 25, rawText := fields_min.frame false, crc := 0 }
            bstat := bstat_init }
        rl := DEL, nbitl := 0, printed := [some fields_min.parsed] } :=
  frame_round_trip fields_min (by decide) DEL (by decide)

/-! ## The parity table, the bit-reversal table and the sanitising loop -/

/-- C18: for every c below 128 the entry parity_bit[c] is 0x80 exactly when
the number of set bits of c is even (and 0 otherwise), so that
`_to_odd c = c | parity_bit[c & 0x7f]` has an odd number of set bits and
the same low seven bits as c. -/
theorem to_odd_parity (c : Nat) (h : c < 128) :
    (parity_bit.getD c 0 = 0x80 ↔ popcount 7 c % 2 = 0) ∧
    (parity_bit.getD c 0 = 0x80 ∨ parity_bit.getD c 0 = 0) ∧
    _to_odd c = c ||| parity_bit.getD (c &&& 0x7f) 0 ∧
    popcount 8 (_to_odd c) % 2 = 1 ∧
    _to_odd c % 128 = c := by
  have key : ∀ k : Fin 128,
      (parity_bit.getD k.val 0 = 0x80 ↔ popcount 7 k.val % 2 = 0) ∧
      (parity_bit.getD k.val 0 = 0x80 ∨ parity_bit.getD k.val 0 = 0) ∧
      _to_odd k.val = k.val ||| parity_bit.getD (k.val &&& 0x7f) 0 ∧
      popcount 8 (_to_odd k.val) % 2 = 1 ∧
      _to_odd k.val % 128 = k.val := by decide
  exact key ⟨c, h⟩

theorem to_odd_parity_witness :
    (parity_bit.getD 0x41 0 = 0x80 ↔ popcount 7 0x41 % 2 = 0) ∧
    (parity_bit.getD 0x41 0 = 0x80 ∨ parity_bit.getD 0x41 0 = 0) ∧
    _to_odd 0x41 = 0x41 ||| parity_bit.getD (0x41 &&& 0x7f) 0 ∧
    popcount 8 (_to_odd 0x41) % 2 = 1 ∧
    _to_odd 0x41 % 128 = 0x41 :=
  to_odd_parity 0x41 (by decide)

/-- C19: for every byte b, reverse_bits[reverse_bits[b]] = b, and
reverse_bits[b] is the byte whose bit k is bit 7-k of b. -/
theorem reverse_bits_spec (b : Nat) (h : b < 256) :
    reverse_bits.getD (reverse_bits.getD b 0) 0 = b ∧
    reverse_bits.getD b 0 < 256 ∧
    ∀ k, k < 8 → (reverse_bits.getD b 0).testBit k = b.testBit (7 - k) := by
  have key : ∀ i : Fin 256,
      reverse_bits.getD (reverse_bits.getD i.val 0) 0 = i.val ∧
      reverse_bits.getD i.val 0 < 256 ∧
      ∀ k : Fin 8, (reverse_bits.getD i.val 0).testBit k.val = i.val.testBit (7 - k.val) := by
    decide
  obtain ⟨h1, h2, h3⟩ := key ⟨b, h⟩
  exact ⟨h1, h2, fun k hk => h3 ⟨k, hk⟩⟩

theorem reverse_bits_spec_witness :
    reverse_bits.getD (reverse_bits.getD 0x2b 0) 0 = 0x2b ∧
    reverse_bits.getD 0x2b 0 < 256 ∧
    ∀ k, k < 8 → (reverse_bits.getD 0x2b 0).testBit k = (0x2b).testBit (7 - k) :=
  reverse_bits_spec 0x2b (by decide)

/-- C17, as the code has it: the stored character never has bit 7 set; it is
the content byte with the parity bit stripped when that value is printable,
CR, LF or DEL, and a full stop for the remaining control characters; so the
stored character is printable, CR, LF or DEL. -/
theorem build_mesg_char_spec (b : Nat) :
    build_mesg_char b < 128 ∧
    (build_mesg_char b = b &&& 0x7f ↔
      (is_printable (b &&& 0x7f) = true ∨ b &&& 0x7f = CR ∨ b &&& 0x7f = LF ∨
        b &&& 0x7f = DEL)) ∧
    (build_mesg_char b = b &&& 0x7f ∨ build_mesg_char b = 0x2e) ∧
    (is_printable (build_mesg_char b) = true ∨ build_mesg_char b = CR ∨
      build_mesg_char b = LF ∨ build_mesg_char b = DEL) := by
  have hlt : b &&& 0x7f < 128 := Nat.and_lt_two_pow b (by decide : 0x7f < 2 ^ 7)
  have key : ∀ r : Fin 128,
      (if r.val < 0x20 ∧ r.val ≠ CR ∧ r.val ≠ LF then 0x2e else r.val) < 128 ∧
      ((if r.val < 0x20 ∧ r.val ≠ CR ∧ r.val ≠ LF then 0x2e else r.val) = r.val ↔
        (is_printable r.val = true ∨ r.val = CR ∨ r.val = LF ∨ r.val = DEL)) ∧
      ((if r.val < 0x20 ∧ r.val ≠ CR ∧ r.val ≠ LF then 0x2e else r.val) = r.val ∨
        (if r.val < 0x20 ∧ r.val ≠ CR ∧ r.val ≠ LF then 0x2e else r.val) = 0x2e) ∧
      (is_printable (if r.val < 0x20 ∧ r.val ≠ CR ∧ r.val ≠ LF then 0x2e else r.val) = true ∨
        (if r.val < 0x20 ∧ r.val ≠ CR ∧ r.val ≠ LF then 0x2e else r.val) = CR ∨
        (if r.val < 0x20 ∧ r.val ≠ CR ∧ r.val ≠ LF then 0x2e else r.val) = LF ∨
        (if r.val < 0x20 ∧ r.val ≠ CR ∧ r.val ≠ LF then 0x2e else r.val) = DEL) := by
    decide
  exact key ⟨b &&& 0x7f, hlt⟩

/-- C17 as stated fails: the content bytes 0x7f and 0xff are stored as DEL,
which is not printable and is a control character other than CR and LF. -/
theorem build_mesg_char_del :
    build_mesg_char 0x7f = 0x7f ∧ build_mesg_char 0xff = 0x7f ∧
    is_printable 0x7f = false ∧ is_control 0x7f = true ∧
    (0x7f : Nat) ≠ CR ∧ (0x7f : Nat) ≠ LF ∧ build_mesg_char 0x7f ≠ 0x2e := by
  decide

/-! ## `STATE::END` and the positional parser -/

/-- C15, with the case in which the code fails: in state END a call that
returns leaves the state HEADL.  When the CRC over the whole raw frame is 0
the parser is run on the unmodified frame: for a frame of 27 to 283 bytes the
call returns -1 with the record `build_mesg` fills, and for a frame of fewer
than 27 bytes `build_mesg` indexes out of bounds and the call has no result.
When the CRC is non-zero and no single-bit flip makes it zero the call returns
8, the record behind `msg` is left alone and the frame is unchanged.  The call
has no result exactly when it faults. -/
theorem getmesg_end {F : Type} (g : Globals F) (r : Nat) (msg : Option msg_t)
    (hs : g.m_state.state = STATE.END) :
    (gen_crc g.m_state.rawText = 0 →
      end_frame g.m_state.rawText = some g.m_state.rawText ∧
      (27 ≤ g.m_state.rawText.length → g.m_state.rawText.length ≤ 283 →
        build_mesg g.m_state.rawText ≠ none ∧
        _getmesg g r msg = some
          { g := { g with m_state := { g.m_state with state := STATE.HEADL, crc := 0 } }
            msg := (build_mesg g.m_state.rawText).map Prod.fst
            ret := -1 }) ∧
      (g.m_state.rawText.length < 27 →
        build_mesg g.m_state.rawText = none ∧ _getmesg g r msg = none)) ∧
    (gen_crc g.m_state.rawText ≠ 0 →
      (∀ i, i < g.m_state.rawText.length → ∀ j, j < 8 →
        gen_crc (flip_bit g.m_state.rawText i j) ≠ 0) →
      _getmesg g r msg = some
        { g := { g with m_state := { g.m_state with state := STATE.HEADL } }
          msg := msg
          ret := 8 }) ∧
    (∀ res, _getmesg g r msg = some res → res.g.m_state.state = STATE.HEADL) ∧
    (_getmesg g r msg = none ↔ end_faults g) := by
  refine ⟨fun hc => ?_, fun hc hall => ?_, fun res h => ?_, getmesg_none_iff g r msg⟩
  · have hf := end_frame_crc_ok _ hc
    refine ⟨hf, fun h27 h283 => ?_, fun h27 => ?_⟩
    · have hne := (build_mesg_ne_none g.m_state.rawText).mpr ⟨h27, h283⟩
      exact ⟨hne, _getmesg_END_crc_ok_some g r msg hs hc hne⟩
    · have hn := (build_mesg_eq_none g.m_state.rawText).mpr (Or.inl h27)
      exact ⟨hn, _getmesg_END_fault g r msg hs _ hf hn⟩
  · have hskip := correct_i_skip (List.range g.m_state.rawText.length) g.m_state.rawText
      (fun i hi j hj => hall i (List.mem_range.mp hi) j (mem_bit_indices.mp hj))
    have hf : end_frame g.m_state.rawText = none := by
      rw [end_frame_crc_bad _ hc, hskip]
      rfl
    exact _getmesg_END_none g r msg hs hf
  · rcases getmesg_END_cases g r msg hs res h with ⟨f, p, _, _, e⟩ | ⟨_, e⟩
    · rw [e]
    · rw [e]

/-- C15 at work and at the failing input: the minimum-length frame is
accepted; for the four-byte frame `frame_short`, whose CRC is zero, the parser
is invoked and the call has no result. -/
theorem getmesg_end_witness :
    (build_mesg (globals_end frame_min).m_state.rawText ≠ none ∧
      _getmesg (globals_end frame_min) 0x7f none = some
        { g := { globals_end frame_min with m_state :=
            { (globals_end frame_min).m_state with state := STATE.HEADL, crc := 0 } }
          msg := (build_mesg (globals_end frame_min).m_state.rawText).map Prod.fst
          ret := -1 }) ∧
    gen_crc frame_short = 0 ∧
    (build_mesg (globals_end frame_short).m_state.rawText = none ∧
      _getmesg (globals_end frame_short) 0x7f none = none) :=
  ⟨((getmesg_end (globals_end frame_min) 0x7f none rfl).1 (by decide)).2.1
      (by decide) (by decide),
    by decide,
    ((getmesg_end (globals_end frame_short) 0x7f none rfl).1 (by decide)).2.2 (by decide)⟩

/-- Taking a slice out of a list that is followed by further elements. -/
theorem take_drop_append (m t : List Nat) (a b : Nat) (h : a + b ≤ m.length) :
    ((m ++ t).drop a).take b = (m.drop a).take b := by
  rw [List.drop_append_of_le_length (by omega)]
  exact List.take_append_of_le_length (by rw [List.length_drop]; omega)

theorem getD_append_left (m t : List Nat) (i : Nat) (h : i < m.length) :
    (m ++ t).getD i 0 = m.getD i 0 := by
  rw [List.getD_eq_getElem _ _ (by rw [List.length_append]; omega), List.getD_eq_getElem _ _ h]
  exact List.getElem_append_left h

theorem getD_map_char (m : List Nat) (i : Nat) (h : i < m.length) :
    (m.map build_mesg_char).getD i 0 = build_mesg_char (m.getD i 0) := by
  rw [List.getD_eq_getElem _ _ (by rw [List.length_map]; exact h), List.getD_eq_getElem _ _ h]
  exact List.getElem_map _

/-- A list of at least four elements is its head, a middle part and its last
three elements. -/
theorem split_frame (txt : List Nat) (h : 4 ≤ txt.length) :
    ∃ h0 m0 tail3, txt = h0 :: (m0 ++ tail3) ∧ tail3.length = 3 ∧
      m0.length = txt.length - 4 := by
  cases txt with
  | nil => simp at h
  | cons h0 rest =>
    refine ⟨h0, rest.take (rest.length - 3), rest.drop (rest.length - 3), ?_, ?_, ?_⟩
    · rw [List.take_append_drop]
    · rw [List.length_drop]; simp only [List.length_cons] at h; omega
    · rw [List.length_take]; simp only [List.length_cons] at h ⊢; omega

/-- For a raw frame of at least 27 and at most 283 bytes `build_mesg` returns
1 and fills the record positionally from the content bytes that follow SOH,
each passed through the sanitising step. -/
theorem build_mesg_fields (txt : List Nat) (h1 : 27 ≤ txt.length)
    (h2 : txt.length ≤ 283) :
    build_mesg txt = some
      ({ mode := build_mesg_char ((txt.drop 1).getD 0 0)
         addr := (((txt.drop 1).drop 1).take 7).map build_mesg_char ++ [0]
         ack := build_mesg_char ((txt.drop 1).getD 8 0)
         label := (((txt.drop 1).drop 9).take 2).map build_mesg_char ++ [0]
         bid := build_mesg_char ((txt.drop 1).getD 11 0)
         no := (((txt.drop 1).drop 13).take 4).map build_mesg_char ++ [0]
         fid := (((txt.drop 1).drop 17).take 6).map build_mesg_char ++ [0]
         txt := (((txt.drop 1).drop 23).take (txt.length - 27)).map build_mesg_char ++
           List.replicate (256 - (txt.length - 27)) 0
         crc := 0 }, 1) := by
  obtain ⟨h0, m0, tail3, rfl, ht, hm⟩ := split_frame txt (by omega)
  have hl : (h0 :: (m0 ++ tail3)).length = m0.length + 4 := by
    simp only [List.length_cons, List.length_append, ht]
  rw [hl] at h1 h2
  rw [build_mesg_of_content h0 m0 tail3 ht (by omega) (by omega), hl]
  simp only [List.drop_succ_cons, List.drop_zero]
  rw [getD_append_left m0 tail3 0 (by omega), getD_append_left m0 tail3 8 (by omega),
    getD_append_left m0 tail3 11 (by omega),
    take_drop_append m0 tail3 1 7 (by omega), take_drop_append m0 tail3 9 2 (by omega),
    take_drop_append m0 tail3 13 4 (by omega), take_drop_append m0 tail3 17 6 (by omega),
    take_drop_append m0 tail3 23 (m0.length + 4 - 27) (by omega),
    getD_map_char m0 0 (by omega), getD_map_char m0 8 (by omega),
    getD_map_char m0 11 (by omega)]
  have e : (m0.drop 23).take (m0.length + 4 - 27) = m0.drop 23 :=
    List.take_of_length_le (by rw [List.length_drop]; omega)
  have e2 : m0.length + 4 - 27 = m0.length - 23 := by omega
  rw [e, e2]
  simp only [List.map_take, List.map_drop]

/-! ## The table `crc_ccitt` against the bit-at-a-time CRC -/

theorem and_two_pow_eq (x n : Nat) : x &&& 2 ^ n = if x.testBit n then 2 ^ n else 0 := by
  apply Nat.eq_of_testBit_eq
  intro i
  rw [Nat.testBit_and, Nat.testBit_two_pow]
  by_cases h : n = i
  · subst h
    cases hx : x.testBit n <;> simp
  · cases hx : x.testBit n <;> simp [h, Nat.testBit_two_pow]

theorem crc_shift_step_eq (x : Nat) :
    crc_shift_step x = (x * 2 ^ 1) % 2 ^ 16 ^^^ (if x.testBit 15 then 0x1021 else 0) := by
  unfold crc_shift_step
  have h := and_two_pow_eq x 15
  have e : (0x8000 : Nat) = 2 ^ 15 := by norm_num
  rw [e, h, Nat.shiftLeft_eq]
  cases hx : x.testBit 15
  · simp
  · have e2 : (65536 : Nat) = 2 ^ 16 := by norm_num
    simp only [if_true, e2]
    rw [xor_mod_two_pow]
    simp

theorem crc_shift_step_xor (x y : Nat) :
    crc_shift_step (x ^^^ y) = crc_shift_step x ^^^ crc_shift_step y := by
  simp only [crc_shift_step_eq, Nat.testBit_xor, ite_bxor, xor_mul_two_pow, xor_mod_two_pow]
  ac_rfl

theorem crc_shift_iterate_xor (n x y : Nat) :
    crc_shift_step^[n] (x ^^^ y) = crc_shift_step^[n] x ^^^ crc_shift_step^[n] y := by
  induction n generalizing x y with
  | zero => rfl
  | succ n ih =>
    rw [Function.iterate_succ_apply, Function.iterate_succ_apply, Function.iterate_succ_apply,
      crc_shift_step_xor, ih]

theorem crc_table_entry_eq (i : Nat) (h : i < 256) : crc_ccitt.getD i 0 = crc_table_entry i := by
  have key : ∀ k : Fin 256, crc_ccitt.getD k.val 0 = crc_table_entry k.val := by decide
  exact key ⟨i, h⟩

theorem crc_shift_low_byte (l : Nat) (h : l < 256) : crc_shift_step^[8] l = l <<< 8 := by
  have key : ∀ k : Fin 256, crc_shift_step^[8] k.val = k.val <<< 8 := by decide
  exact key ⟨l, h⟩

theorem split_register (crc b : Nat) :
    crc ^^^ (b <<< 8) = (((crc >>> 8) ^^^ b) <<< 8) ^^^ (crc % 2 ^ 8) := by
  apply Nat.eq_of_testBit_eq
  intro i
  simp only [Nat.testBit_xor, Nat.testBit_shiftLeft, Nat.testBit_shiftRight,
    Nat.testBit_mod_two_pow]
  by_cases h : 8 ≤ i
  · have h2 : ¬ i < 8 := by omega
    have h3 : 8 + (i - 8) = i := by omega
    simp [h, h2, h3]
  · have h2 : i < 8 := by omega
    simp [h, h2]

theorem shift_register_mod (crc : Nat) : (crc <<< 8) % 65536 = (crc % 2 ^ 8) <<< 8 := by
  rw [Nat.shiftLeft_eq, Nat.shiftLeft_eq]
  omega

/-- C20: `crc_ccitt` is the CRC-16-CCITT table for polynomial 0x1021 (entry i
is the register after eight MSB-first shift steps started with i in the high
byte), and for every 16-bit register and byte `fold_crc`, which is
`(crc << 8) ^ crc_ccitt[(crc >> 8) ^ b]` truncated to 16 bits, equals XOR-ing
the byte into the high byte of the register and doing eight shift steps, with
no initial and no final XOR. -/
theorem fold_crc_bitwise (crc b i : Nat) (hc : crc < 65536) (hb : b < 256) (hi : i < 256) :
    crc_ccitt.length = 256 ∧
    crc_ccitt.getD i 0 = crc_table_entry i ∧
    fold_crc crc b = ((crc <<< 8) ^^^ crc_ccitt.getD ((crc >>> 8) ^^^ b) 0) % 65536 ∧
    fold_crc crc b = crc_bitwise crc b := by
  have hhi : crc >>> 8 < 2 ^ 8 := by
    rw [Nat.shiftRight_eq_div_pow]
    omega
  have hpos : (crc >>> 8) ^^^ b < 2 ^ 8 := Nat.xor_lt_two_pow hhi hb
  have hand : ((crc >>> 8) ^^^ b) &&& 0xff = (crc >>> 8) ^^^ b :=
    Nat.and_pow_two_sub_one_of_lt_two_pow hpos
  have hf : fold_crc crc b = ((crc <<< 8) % 65536) ^^^ crc_ccitt.getD ((crc >>> 8) ^^^ b) 0 := by
    simp only [fold_crc, hand]
  refine ⟨crc_ccitt_length, crc_table_entry_eq i hi, ?_, ?_⟩
  · have e2 : (65536 : Nat) = 2 ^ 16 := by norm_num
    rw [hf, e2, xor_mod_two_pow, Nat.mod_eq_of_lt (a := crc_ccitt.getD _ 0)]
    rw [← e2]
    exact crc_ccitt_lt _
  · rw [hf, crc_bitwise, split_register, crc_shift_iterate_xor,
      crc_shift_low_byte (crc % 2 ^ 8) (Nat.mod_lt _ (by norm_num)), shift_register_mod,
      crc_table_entry_eq _ hpos, crc_table_entry, Nat.xor_comm]

theorem fold_crc_bitwise_witness :
    crc_ccitt.length = 256 ∧
    crc_ccitt.getD 0x01 0 = crc_table_entry 0x01 ∧
    fold_crc 0x1d0f 0x31 =
      ((0x1d0f <<< 8) ^^^ crc_ccitt.getD ((0x1d0f >>> 8) ^^^ 0x31) 0) % 65536 ∧
    fold_crc 0x1d0f 0x31 = crc_bitwise 0x1d0f 0x31 :=
  fold_crc_bitwise 0x1d0f 0x31 0x01 (by decide) (by decide) (by decide)

/-! ## `STATE::TXT` and the way into `STATE::END` -/

theorem BMAX_eq : BMAX = 244 ∧ BMAX = 1 + 7 + 1 + 2 + 1 + 1 + 4 + 6 + 220 + 1 := by decide

theorem to_odd_ETX_ETB : _to_odd ETX = 0x83 ∧ _to_odd ETB = 0x97 := by decide

/-- C13, as the code has it: in state TXT the byte is appended to the raw
frame. When the length after the append is at most 244 the state stays TXT,
or advances to CRC1 on 0x83 and 0x97, and the call returns 8. When it
exceeds 244 the state is set to HEADL and the same byte is handled by the
HEADL case within the call, which returns 1: a byte other than 0xff resets
the machine (state HEADL, raw frame emptied), the byte 0xff is counted as a
pre-key character and the state after the call is HEADF when the counter
then exceeds 24 and HEADL otherwise. The state after the call is TXT or
CRC1 exactly when the length after the append is at most 244. -/
theorem getmesg_txt {F : Type} (g : Globals F) (r : Nat) (msg : Option msg_t)
    (hs : g.m_state.state = STATE.TXT) :
    ∃ res, _getmesg g r msg = some res ∧
      (g.m_state.rawText.length + 1 ≤ 1 + 7 + 1 + 2 + 1 + 1 + 4 + 6 + 220 + 1 →
        res = { g := { g with m_state :=
                  { g.m_state with
                    rawText := g.m_state.rawText ++ [r]
                    state := if r = 0x83 ∨ r = 0x97 then STATE.CRC1 else STATE.TXT } }
                msg := msg
                ret := 8 }) ∧
      (1 + 7 + 1 + 2 + 1 + 1 + 4 + 6 + 220 + 1 < g.m_state.rawText.length + 1 →
        res = { g :=
                  if r = 0xff then
                    { g with m_state :=
                        { g.m_state with
                          rawText := g.m_state.rawText ++ [r]
                          consecutivePreKey := g.m_state.consecutivePreKey + 1
                          state :=
                            if g.m_state.consecutivePreKey + 1 > 24 then STATE.HEADF
                            else STATE.HEADL } }
                  else
                    { bstat := _reset_bit_state_machine g.bstat
                      m_state :=
                        { g.m_state with
                          state := STATE.HEADL, syncForming := 0, syncBitsHave := 0
                          consecutivePreKey := 0, crc := 0, rawText := [] } }
                msg := msg
                ret := 1 }) ∧
      ((res.g.m_state.state = STATE.TXT ∨ res.g.m_state.state = STATE.CRC1) ↔
        g.m_state.rawText.length + 1 ≤ 1 + 7 + 1 + 2 + 1 + 1 + 4 + 6 + 220 + 1) := by
  have e := _getmesg_TXT g r msg hs
  have hlen : (g.m_state.rawText ++ [r]).length = g.m_state.rawText.length + 1 := by simp
  rw [hlen, BMAX_eq.1, to_odd_ETX_ETB.1, to_odd_ETX_ETB.2] at e
  by_cases h1 : g.m_state.rawText.length + 1 > 244
  · rw [if_pos h1] at e
    have e2 := e.trans (_getmesg_HEADL _ r msg rfl)
    refine ⟨_, e2, fun h => absurd h (by omega), fun _ => ?_, ?_⟩
    · by_cases hr : r = 0xff
      · have hr2 : r = PRE_KEY_CHAR := hr
        simp only [hr2, if_true]
        rfl
      · have hr2 : ¬ r = PRE_KEY_CHAR := hr
        simp only [hr2, if_false]
        rw [if_neg hr]
        rfl
    · constructor
      · intro h
        exfalso
        by_cases hr : r = PRE_KEY_CHAR
        · simp only [hr, if_true] at h
          split_ifs at h <;> simp at h
        · simp only [hr, if_false, _reset_message_state_machine] at h
          simp at h
      · intro h
        omega
  · rw [if_neg h1] at e
    refine ⟨_, e, fun _ => rfl, fun h => absurd h (by omega), ?_⟩
    constructor
    · intro _
      omega
    · intro _
      by_cases hr : r = 0x83 ∨ r = 0x97
      · right
        simp only [hr, if_true]
      · left
        simp only [hr, if_false]

theorem getmesg_txt_witness :
    (globals_txt [0x01, 0x32]).m_state.state = STATE.TXT ∧
    ∃ res, _getmesg (globals_txt [0x01, 0x32]) 0x83 none = some res ∧
      ((globals_txt [0x01, 0x32]).m_state.rawText.length + 1 ≤
          1 + 7 + 1 + 2 + 1 + 1 + 4 + 6 + 220 + 1 →
        res = { g := { globals_txt [0x01, 0x32] with m_state :=
                  { (globals_txt [0x01, 0x32]).m_state with
                    rawText := (globals_txt [0x01, 0x32]).m_state.rawText ++ [0x83]
                    state := if (0x83 : Nat) = 0x83 ∨ (0x83 : Nat) = 0x97 then STATE.CRC1
                      else STATE.TXT } }
                msg := none
                ret := 8 }) ∧
      (1 + 7 + 1 + 2 + 1 + 1 + 4 + 6 + 220 + 1 <
          (globals_txt [0x01, 0x32]).m_state.rawText.length + 1 →
        res = { g :=
                  if (0x83 : Nat) = 0xff then
                    { globals_txt [0x01, 0x32] with m_state :=
                        { (globals_txt [0x01, 0x32]).m_state with
                          rawText := (globals_txt [0x01, 0x32]).m_state.rawText ++ [0x83]
                          consecutivePreKey :=
                            (globals_txt [0x01, 0x32]).m_state.consecutivePreKey + 1
                          state :=
                            if (globals_txt [0x01, 0x32]).m_state.consecutivePreKey + 1 > 24
                            then STATE.HEADF
                            else STATE.HEADL } }
                  else
                    { bstat := _reset_bit_state_machine (globals_txt [0x01, 0x32]).bstat
                      m_state :=
                        { (globals_txt [0x01, 0x32]).m_state with
                          state := STATE.HEADL, syncForming := 0, syncBitsHave := 0
                          consecutivePreKey := 0, crc := 0, rawText := [] } }
                msg := none
                ret := 1 }) ∧
      ((res.g.m_state.state = STATE.TXT ∨ res.g.m_state.state = STATE.CRC1) ↔
        (globals_txt [0x01, 0x32]).m_state.rawText.length + 1 ≤
          1 + 7 + 1 + 2 + 1 + 1 + 4 + 6 + 220 + 1) :=
  ⟨rfl, getmesg_txt (globals_txt [0x01, 0x32]) 0x83 none rfl⟩

/-- C13 as stated fails: with 244 bytes in the raw frame and the pre-key
counter at 25, the overflowing byte 0xff leaves the machine in HEADF, not in
HEADL. -/
theorem txt_overflow_prekey_headf :
    (globals_txt (0x01 :: List.replicate 243 0x41)).m_state.state = STATE.TXT ∧
    (globals_txt (0x01 :: List.replicate 243 0x41)).m_state.rawText.length + 1 > 244 ∧
    (_getmesg (globals_txt (0x01 :: List.replicate 243 0x41)) 0xff none).map
      (fun res => (res.g.m_state.state, res.ret)) = some (STATE.HEADF, 1) := by
  decide

theorem sync_add_bit_state (r i : Nat) (m : m_state_t) :
    (sync_add_bit r i m).state = m.state := rfl

/-- The loop of `STATE::SYNC` leaves the state alone or sets it to TXT or to
HEADL. -/
theorem sync_loop_state (r : Nat) (l : List Nat) (m : m_state_t) (b : Int) :
    (sync_loop r l m b).1.state = m.state ∨ (sync_loop r l m b).1.state = STATE.TXT ∨
      (sync_loop r l m b).1.state = STATE.HEADL := by
  induction l generalizing m b with
  | nil => exact Or.inl rfl
  | cons i rest ih =>
    unfold sync_loop
    split
    · exact Or.inr (Or.inl rfl)
    · split
      · exact Or.inr (Or.inr rfl)
      · have h := ih (sync_add_bit r i m) (b + 1)
        rw [sync_add_bit_state] at h
        exact h

/-- The states a call can leave behind when it does not start in CRC1, in
CRC2 or in TXT with room for the byte. -/
theorem getmesg_other_states {F : Type} (g : Globals F) (r : Nat) (msg : Option msg_t)
    (res : Result F) (h : _getmesg g r msg = some res)
    (h1 : g.m_state.state ≠ STATE.CRC1) (h2 : g.m_state.state ≠ STATE.CRC2)
    (h3 : ¬ (g.m_state.state = STATE.TXT ∧ g.m_state.rawText.length + 1 ≤ 244)) :
    res.g.m_state.state = STATE.HEADL ∨ res.g.m_state.state = STATE.HEADF ∨
      res.g.m_state.state = STATE.SYNC ∨ res.g.m_state.state = STATE.TXT := by
  cases hs : g.m_state.state
  · rw [_getmesg_HEADL g r msg hs] at h
    have e := (Option.some.inj h).symm
    subst e
    by_cases hr : r = PRE_KEY_CHAR
    · simp only [hr, if_true]
      split_ifs
      · exact Or.inr (Or.inl rfl)
      · exact Or.inl rfl
    · simp only [hr, if_false]
      exact Or.inl rfl
  · by_cases hr : r = PRE_KEY_CHAR
    · rw [_getmesg_HEADF_prekey g r msg hs hr] at h
      have e := (Option.some.inj h).symm
      subst e
      exact Or.inr (Or.inl hs)
    · rw [(_getmesg_HEADF_other g r msg hs hr).trans (_getmesg_SYNC _ r msg rfl)] at h
      have e := (Option.some.inj h).symm
      subst e
      rcases sync_loop_state r [0, 1, 2, 3, 4, 5, 6, 7]
        { g.m_state with state := STATE.SYNC, syncForming := 0, syncBitsHave := 0 } 0
        with h4 | h4 | h4
      · exact Or.inr (Or.inr (Or.inl h4))
      · exact Or.inr (Or.inr (Or.inr h4))
      · exact Or.inl h4
  · rw [_getmesg_SYNC g r msg hs] at h
    have e := (Option.some.inj h).symm
    subst e
    rcases sync_loop_state r [0, 1, 2, 3, 4, 5, 6, 7] g.m_state 0 with h4 | h4 | h4
    · exact Or.inr (Or.inr (Or.inl (h4.trans hs)))
    · exact Or.inr (Or.inr (Or.inr h4))
    · exact Or.inl h4
  · have e := _getmesg_TXT g r msg hs
    have hlen : (g.m_state.rawText ++ [r]).length = g.m_state.rawText.length + 1 := by simp
    have hlt : g.m_state.rawText.length + 1 > 244 := by
      by_contra hle
      exact h3 ⟨hs, by omega⟩
    rw [hlen, BMAX_eq.1, if_pos hlt] at e
    have e3 := e.trans (_getmesg_HEADL _ r msg rfl)
    rw [h] at e3
    have e := e3
    have e2 := Option.some.inj e
    subst e2
    by_cases hr : r = PRE_KEY_CHAR
    · simp only [hr, if_true]
      split_ifs
      · exact Or.inr (Or.inl rfl)
      · exact Or.inl rfl
    · simp only [hr, if_false]
      exact Or.inl rfl
  · exact absurd hs h1
  · exact absurd hs h2
  · rcases getmesg_END_cases g r msg hs res h with ⟨f, p, _, _, e⟩ | ⟨_, e⟩
    · subst e
      exact Or.inl rfl
    · subst e
      exact Or.inl rfl

/-- A call in TXT with room for the byte. -/
theorem getmesg_txt_room {F : Type} (g : Globals F) (r : Nat) (msg : Option msg_t)
    (hs : g.m_state.state = STATE.TXT) (hl : g.m_state.rawText.length + 1 ≤ 244) :
    _getmesg g r msg = some
      { g := { g with m_state :=
            { g.m_state with
              rawText := g.m_state.rawText ++ [r]
              state := if r = _to_odd ETX ∨ r = _to_odd ETB then STATE.CRC1 else STATE.TXT } }
        msg := msg
        ret := 8 } := by
  have e := _getmesg_TXT g r msg hs
  have hlen : (g.m_state.rawText ++ [r]).length = g.m_state.rawText.length + 1 := by simp
  rw [hlen, BMAX_eq.1, if_neg (by omega)] at e
  exact e

/-- Only CRC2 leads into END. -/
theorem getmesg_into_END {F : Type} (g : Globals F) (r : Nat) (msg : Option msg_t)
    (res : Result F) (h : _getmesg g r msg = some res)
    (he : res.g.m_state.state = STATE.END) :
    g.m_state.state = STATE.CRC2 ∧ res.g.m_state.rawText = g.m_state.rawText ++ [r] ∧
      res.ret = 8 := by
  by_cases h2 : g.m_state.state = STATE.CRC2
  · rw [_getmesg_CRC2 g r msg h2] at h
    have e := (Option.some.inj h).symm
    subst e
    exact ⟨h2, rfl, rfl⟩
  · exfalso
    by_cases h1 : g.m_state.state = STATE.CRC1
    · rw [_getmesg_CRC1 g r msg h1] at h
      have e := (Option.some.inj h).symm
      subst e
      simp at he
    · by_cases h3 : g.m_state.state = STATE.TXT ∧ g.m_state.rawText.length + 1 ≤ 244
      · rw [getmesg_txt_room g r msg h3.1 h3.2] at h
        have e := (Option.some.inj h).symm
        subst e
        simp only at he
        split_ifs at he
      · rcases getmesg_other_states g r msg res h h1 h2 h3 with h4 | h4 | h4 | h4 <;>
          rw [h4] at he <;> simp at he

/-- Only CRC1 leads into CRC2. -/
theorem getmesg_into_CRC2 {F : Type} (g : Globals F) (r : Nat) (msg : Option msg_t)
    (res : Result F) (h : _getmesg g r msg = some res)
    (he : res.g.m_state.state = STATE.CRC2) :
    g.m_state.state = STATE.CRC1 ∧ res.g.m_state.rawText = g.m_state.rawText ++ [r] ∧
      res.ret = 8 := by
  by_cases h1 : g.m_state.state = STATE.CRC1
  · rw [_getmesg_CRC1 g r msg h1] at h
    have e := (Option.some.inj h).symm
    subst e
    exact ⟨h1, rfl, rfl⟩
  · exfalso
    by_cases h2 : g.m_state.state = STATE.CRC2
    · rw [_getmesg_CRC2 g r msg h2] at h
      have e := (Option.some.inj h).symm
      subst e
      simp at he
    · by_cases h3 : g.m_state.state = STATE.TXT ∧ g.m_state.rawText.length + 1 ≤ 244
      · rw [getmesg_txt_room g r msg h3.1 h3.2] at h
        have e := (Option.some.inj h).symm
        subst e
        simp only at he
        split_ifs at he
      · rcases getmesg_other_states g r msg res h h1 h2 h3 with h4 | h4 | h4 | h4 <;>
          rw [h4] at he <;> simp at he

/-- Only TXT, on ETX or ETB and with room for it, leads into CRC1. -/
theorem getmesg_into_CRC1 {F : Type} (g : Globals F) (r : Nat) (msg : Option msg_t)
    (res : Result F) (h : _getmesg g r msg = some res)
    (he : res.g.m_state.state = STATE.CRC1) :
    g.m_state.state = STATE.TXT ∧ g.m_state.rawText.length + 1 ≤ 244 ∧
      (r = _to_odd ETX ∨ r = _to_odd ETB) ∧
      res.g.m_state.rawText = g.m_state.rawText ++ [r] ∧ res.ret = 8 := by
  by_cases h3 : g.m_state.state = STATE.TXT ∧ g.m_state.rawText.length + 1 ≤ 244
  · rw [getmesg_txt_room g r msg h3.1 h3.2] at h
    have e := (Option.some.inj h).symm
    subst e
    simp only at he
    by_cases hr : r = _to_odd ETX ∨ r = _to_odd ETB
    · exact ⟨h3.1, h3.2, hr, rfl, rfl⟩
    · rw [if_neg hr] at he
      simp at he
  · exfalso
    by_cases h1 : g.m_state.state = STATE.CRC1
    · rw [_getmesg_CRC1 g r msg h1] at h
      have e := (Option.some.inj h).symm
      subst e
      simp at he
    · by_cases h2 : g.m_state.state = STATE.CRC2
      · rw [_getmesg_CRC2 g r msg h2] at h
        have e := (Option.some.inj h).symm
        subst e
        simp at he
      · rcases getmesg_other_states g r msg res h h1 h2 h3 with h4 | h4 | h4 | h4 <;>
          rw [h4] at he <;> simp at he

/-! ## Byte sequences fed to the frame machine -/

theorem feed_bytes_cons {F : Type} (g : Globals F) (r : Nat) (rest : List Nat)
    (res : Result F) (h : _getmesg g r none = some res) :
    feed_bytes (r :: rest) g =
      (feed_bytes rest res.g).map (fun p => (p.1, res.ret :: p.2)) := by
  simp only [feed_bytes, h]
  cases feed_bytes rest res.g <;> rfl

theorem feed_bytes_cons_none {F : Type} (g : Globals F) (r : Nat) (rest : List Nat)
    (h : _getmesg g r none = none) : feed_bytes (r :: rest) g = none := by
  simp only [feed_bytes, h]

/-- Feeding a sequence in two parts. -/
theorem feed_bytes_append_eq {F : Type} (a b : List Nat) (g : Globals F) :
    feed_bytes (a ++ b) g =
      (feed_bytes a g).bind (fun p =>
        (feed_bytes b p.1).map (fun q => (q.1, p.2 ++ q.2))) := by
  induction a generalizing g with
  | nil =>
    simp only [List.nil_append, feed_bytes, Option.some_bind, List.nil_append]
    cases feed_bytes b g <;> rfl
  | cons r rest ih =>
    cases h : _getmesg g r none with
    | none =>
      rw [List.cons_append, feed_bytes_cons_none g r _ h, feed_bytes_cons_none g r _ h]
      rfl
    | some res =>
      rw [List.cons_append, feed_bytes_cons g r _ res h, feed_bytes_cons g r _ res h, ih]
      cases feed_bytes rest res.g with
      | none => rfl
      | some p =>
        simp only [Option.some_bind, Option.map_some']
        cases feed_bytes b p.1 <;> rfl

theorem feed_bytes_append {F : Type} (a b : List Nat) (g g1 g2 : Globals F)
    (r1 r2 : List Int) (h1 : feed_bytes a g = some (g1, r1))
    (h2 : feed_bytes b g1 = some (g2, r2)) :
    feed_bytes (a ++ b) g = some (g2, r1 ++ r2) := by
  rw [feed_bytes_append_eq, h1, Option.some_bind, h2]
  rfl

theorem feed_bytes_one {F : Type} (g : Globals F) (c : Nat) :
    feed_bytes [c] g = (_getmesg g c none).map (fun res => (res.g, [res.ret])) := by
  cases h : _getmesg g c none with
  | none => rw [feed_bytes_cons_none g c _ h]; rfl
  | some res => rw [feed_bytes_cons g c _ res h]; rfl

/-- Feeding a sequence with a last byte is feeding the sequence and then
calling the machine with the last byte. -/
theorem feed_bytes_concat {F : Type} (a : List Nat) (c : Nat) (g g2 : Globals F)
    (rets : List Int) (h : feed_bytes (a ++ [c]) g = some (g2, rets)) :
    ∃ g1 r1 res, feed_bytes a g = some (g1, r1) ∧ _getmesg g1 c none = some res ∧
      g2 = res.g ∧ rets = r1 ++ [res.ret] := by
  rw [feed_bytes_append_eq] at h
  cases h1 : feed_bytes a g with
  | none => rw [h1] at h; cases h
  | some p =>
    rw [h1, Option.some_bind, feed_bytes_one] at h
    cases h3 : _getmesg p.1 c none with
    | none => rw [h3] at h; cases h
    | some res =>
      rw [h3] at h
      simp only [Option.map_some', Option.some.injEq, Prod.mk.injEq] at h
      exact ⟨p.1, p.2, res, rfl, h3, h.1.symm, h.2.symm⟩

/-- A run of calls has a result unless one of its calls faults. -/
theorem feed_bytes_none {F : Type} (bs : List Nat) (g : Globals F)
    (h : feed_bytes bs g = none) :
    ∃ pre c post g1 r1, bs = pre ++ c :: post ∧ feed_bytes pre g = some (g1, r1) ∧
      end_faults g1 := by
  induction bs generalizing g with
  | nil => simp [feed_bytes] at h
  | cons r rest ih =>
    cases h1 : _getmesg g r none with
    | none =>
      exact ⟨[], r, rest, g, [], rfl, rfl, (getmesg_none_iff g r none).mp h1⟩
    | some res =>
      rw [feed_bytes_cons g r rest res h1] at h
      cases h2 : feed_bytes rest res.g with
      | some p => rw [h2] at h; cases h
      | none =>
        obtain ⟨pre, c, post, g1, r1, e, hp, hf⟩ := ih res.g h2
        refine ⟨r :: pre, c, post, g1, res.ret :: r1, by rw [e]; rfl, ?_, hf⟩
        rw [feed_bytes_cons g r pre res h1, hp]
        rfl

/-- From TXT an ETX or ETB that fits and two further bytes lead to END, the
three bytes appended to the raw frame and the three calls returning 8. -/
theorem feed_bytes_etx {F : Type} (g : Globals F) (e c1 c2 : Nat)
    (hs : g.m_state.state = STATE.TXT) (hl : g.m_state.rawText.length + 1 ≤ 244)
    (he : e = _to_odd ETX ∨ e = _to_odd ETB) :
    feed_bytes [e, c1, c2] g = some
      ({ g with m_state :=
          { g.m_state with rawText := g.m_state.rawText ++ [e, c1, c2], state := STATE.END } },
        [8, 8, 8]) := by
  rw [feed_bytes_cons g e _ _ (getmesg_txt_room g e none hs hl), if_pos he,
    feed_bytes_cons _ c1 _ _ (_getmesg_CRC1 _ c1 none rfl),
    feed_bytes_cons _ c2 _ _ (_getmesg_CRC2 _ c2 none rfl)]
  simp [feed_bytes]

/-- C14: for every byte sequence fed to the machine starting in TXT, the
state after the last call is END exactly when the sequence ends with a byte
0x83 (ETX) or 0x97 (ETB) that was received in TXT with room in the raw frame
and was followed by exactly two further bytes.  And whenever it ends so, the
run has a result: the state is END, the three bytes are the end of the raw
frame, verbatim, nothing else has changed since the ETX or ETB arrived, and
the three calls returned 8. -/
theorem end_iff_etx_and_two_bytes {F : Type} (g : Globals F) (bs : List Nat)
    (hs : g.m_state.state = STATE.TXT) :
    _to_odd ETX = 0x83 ∧ _to_odd ETB = 0x97 ∧
    (∀ g2 rets, feed_bytes bs g = some (g2, rets) →
      (g2.m_state.state = STATE.END ↔
        ∃ pre e c1 c2 g1 rets1, bs = pre ++ [e, c1, c2] ∧
          feed_bytes pre g = some (g1, rets1) ∧ g1.m_state.state = STATE.TXT ∧
          (e = _to_odd ETX ∨ e = _to_odd ETB) ∧
          g1.m_state.rawText.length + 1 ≤ 244)) ∧
    (∀ pre e c1 c2 g1 rets1, bs = pre ++ [e, c1, c2] →
      feed_bytes pre g = some (g1, rets1) → g1.m_state.state = STATE.TXT →
      (e = _to_odd ETX ∨ e = _to_odd ETB) →
      g1.m_state.rawText.length + 1 ≤ 244 →
      feed_bytes bs g = some
        ({ g1 with m_state :=
            { g1.m_state with
              rawText := g1.m_state.rawText ++ [e, c1, c2], state := STATE.END } },
          rets1 ++ [8, 8, 8])) := by
  refine ⟨to_odd_ETX_ETB.1, to_odd_ETX_ETB.2, fun g2 rets h => ⟨?_, ?_⟩, ?_⟩
  · intro hend
    -- the last byte was received in CRC2
    rcases List.eq_nil_or_concat bs with e0 | ⟨bs1, c2, e0⟩
    · subst e0
      simp only [feed_bytes, Option.some.injEq, Prod.mk.injEq] at h
      rw [← h.1, hs] at hend
      simp at hend
    subst e0
    rw [List.concat_eq_append] at h
    obtain ⟨ga, ra, resa, ha, hca, ega, era⟩ := feed_bytes_concat bs1 c2 g g2 rets h
    subst ega
    obtain ⟨sa, rawa, reta⟩ := getmesg_into_END ga c2 none resa hca hend
    -- the byte before it in CRC1
    rcases List.eq_nil_or_concat bs1 with e1 | ⟨bs2, c1, e1⟩
    · subst e1
      simp only [feed_bytes, Option.some.injEq, Prod.mk.injEq] at ha
      rw [← ha.1, hs] at sa
      simp at sa
    subst e1
    rw [List.concat_eq_append] at ha
    obtain ⟨gb, rb, resb, hb, hcb, egb, erb⟩ := feed_bytes_concat bs2 c1 g ga ra ha
    subst egb
    obtain ⟨sb, rawb, retb⟩ := getmesg_into_CRC2 gb c1 none resb hcb sa
    -- and the byte before that in TXT
    rcases List.eq_nil_or_concat bs2 with e2 | ⟨pre, e, e2⟩
    · subst e2
      simp only [feed_bytes, Option.some.injEq, Prod.mk.injEq] at hb
      rw [← hb.1, hs] at sb
      simp at sb
    subst e2
    rw [List.concat_eq_append] at hb
    obtain ⟨g1, r1, resc, hc, hcc, egc, erc⟩ := feed_bytes_concat pre e g gb rb hb
    subst egc
    obtain ⟨sc, hroom, hetx, rawc, retc⟩ := getmesg_into_CRC1 g1 e none resc hcc sb
    refine ⟨pre, e, c1, c2, g1, r1, ?_, hc, sc, hetx, hroom⟩
    simp [List.concat_eq_append]
  · rintro ⟨pre, e, c1, c2, g1, rets1, ebs, hpre, hs1, hetx, hroom⟩
    have h3 := feed_bytes_etx g1 e c1 c2 hs1 hroom hetx
    have h4 := feed_bytes_append pre [e, c1, c2] g g1 _ rets1 [8, 8, 8] hpre h3
    rw [← ebs, h] at h4
    simp only [Option.some.injEq, Prod.mk.injEq] at h4
    rw [h4.1]
  · intro pre e c1 c2 g1 rets1 ebs hpre hs1 hetx hroom
    have h3 := feed_bytes_etx g1 e c1 c2 hs1 hroom hetx
    rw [ebs]
    exact feed_bytes_append pre [e, c1, c2] g g1 _ rets1 [8, 8, 8] hpre h3

/-- Witness for C14: a text byte, ETX and two further bytes fed in TXT lead to
END with the three bytes appended and every call returning 8. -/
theorem end_iff_etx_and_two_bytes_witness :
    feed_bytes [0x41, 0x83, 0x10, 0x20] (globals_txt [0x01, 0x32]) = some
      ({ globals_txt [0x01, 0x32, 0x41] with m_state :=
          { (globals_txt [0x01, 0x32, 0x41]).m_state with
            rawText := (globals_txt [0x01, 0x32, 0x41]).m_state.rawText ++ [0x83, 0x10, 0x20]
            state := STATE.END } },
        [8] ++ [8, 8, 8]) :=
  (end_iff_etx_and_two_bytes (globals_txt [0x01, 0x32]) [0x41, 0x83, 0x10, 0x20] rfl).2.2.2
    [0x41] 0x83 0x10 0x20 (globals_txt [0x01, 0x32, 0x41]) [8] rfl (by decide) rfl
    (Or.inl (by decide)) (by decide)

/-- A run of the text machine that reaches END: a text byte, ETX and two CRC
bytes fed in TXT. -/
theorem feed_bytes_reaches_end :
    (feed_bytes [0x41, 0x83, 0x10, 0x20] (globals_txt [0x01, 0x32])).map
      (fun p => (p.1.m_state.state, p.1.m_state.rawText, p.2)) =
      some (STATE.END, [0x01, 0x32, 0x41, 0x83, 0x10, 0x20], [8, 8, 8, 8]) := by
  decide

/-! ## Bit counting and the sync word -/

theorem bits_set_eq_popcount (i : Nat) (h : i < 256) : bits_set.getD i 0 = popcount 8 i := by
  have key : ∀ k : Fin 256, bits_set.getD k.val 0 = popcount 8 k.val := by decide
  exact key ⟨i, h⟩

theorem popcount_add (a b x : Nat) :
    popcount (a + b) x = popcount a x + popcount b (x / 2 ^ a) := by
  induction a generalizing x with
  | zero => simp [popcount]
  | succ a ih =>
    have e : a + 1 + b = (a + b) + 1 := by omega
    rw [e, popcount, popcount, ih (x / 2), Nat.div_div_eq_div_mul, pow_succ, Nat.mul_comm 2]
    omega

theorem popcount_mod (w x : Nat) : popcount w (x % 2 ^ w) = popcount w x := by
  induction w generalizing x with
  | zero => rfl
  | succ w ih =>
    have e1 : x % 2 ^ (w + 1) % 2 = x % 2 := by
      rw [pow_succ, Nat.mul_comm, Nat.mod_mul_right_mod]
    have e2 : x % 2 ^ (w + 1) / 2 = x / 2 % 2 ^ w := by
      rw [pow_succ, Nat.mul_comm, Nat.mod_mul_right_div_self]
    rw [popcount, popcount, e1, e2, ih]

theorem bits_set_byte (x : Nat) :
    bits_set.getD ((x % 256) &&& 0xff) 0 = popcount 8 x := by
  have h : x % 256 < 2 ^ 8 := Nat.mod_lt _ (by norm_num)
  rw [show (0xff : Nat) = 2 ^ 8 - 1 from rfl, Nat.and_pow_two_sub_one_of_lt_two_pow h,
    bits_set_eq_popcount _ h, show (256 : Nat) = 2 ^ 8 from rfl, popcount_mod]

/-- The function `_count_bit_errors` on 64-bit words is the Hamming
distance. -/
theorem count_bit_errors_eq (a b : Nat) : _count_bit_errors a b = (hamming a b : Int) := by
  have h1 := popcount_add 8 56 (a ^^^ b)
  have h2 := popcount_add 8 48 ((a ^^^ b) / 2 ^ 8)
  have h3 := popcount_add 8 40 ((a ^^^ b) / 2 ^ 8 / 2 ^ 8)
  have h4 := popcount_add 8 32 ((a ^^^ b) / 2 ^ 8 / 2 ^ 8 / 2 ^ 8)
  have h5 := popcount_add 8 24 ((a ^^^ b) / 2 ^ 8 / 2 ^ 8 / 2 ^ 8 / 2 ^ 8)
  have h6 := popcount_add 8 16 ((a ^^^ b) / 2 ^ 8 / 2 ^ 8 / 2 ^ 8 / 2 ^ 8 / 2 ^ 8)
  have h7 := popcount_add 8 8 ((a ^^^ b) / 2 ^ 8 / 2 ^ 8 / 2 ^ 8 / 2 ^ 8 / 2 ^ 8 / 2 ^ 8)
  simp only [Nat.div_div_eq_div_mul, Nat.reduceAdd, Nat.reducePow, Nat.reduceMul] at h1 h2 h3 h4 h5 h6 h7
  simp only [_count_bit_errors, bits_set_byte, hamming, Nat.shiftRight_eq_div_pow,
    Nat.reducePow, Nat.div_one]
  omega

theorem syncCheck_eq :
    syncCheck = 0x0116162AAB ∧
    syncCheck = _to_odd 0x2b ||| (_to_odd 0x2a <<< 8) ||| (_to_odd SYN <<< 16) |||
      (_to_odd SYN <<< 24) ||| (_to_odd SOH <<< 32) := by
  decide

theorem mask_and_ne_zero (r i : Nat) (h : i < 8) :
    (mask.getD i 0 &&& r ≠ 0) ↔ r.testBit i = true := by
  have key : ∀ k : Fin 8, mask.getD k.val 0 = 2 ^ k.val := by decide
  rw [key ⟨i, h⟩, Nat.and_comm, and_two_pow_eq]
  cases r.testBit i <;> simp

/-- One pass of the bit loop of `STATE::SYNC` feeds bit `i` of the byte. -/
theorem sync_add_bit_eq (r i : Nat) (m : m_state_t) (h : i < 8) :
    sync_add_bit r i m = sync_feed m [r.testBit i] := by
  unfold sync_add_bit sync_feed
  have e := mask_and_ne_zero r i h
  cases hb : r.testBit i
  · have e2 : ¬ (mask.getD i 0 &&& r ≠ 0) := by rw [e, hb]; simp
    rw [if_neg e2]
    simp [sync_push]
  · have e2 : mask.getD i 0 &&& r ≠ 0 := by rw [e, hb]
    rw [if_pos e2]
    simp [sync_push]

theorem sync_feed_append (m : m_state_t) (a b : List Bool) :
    sync_feed (sync_feed m a) b = sync_feed m (a ++ b) := by
  simp only [sync_feed, List.foldl_append, List.length_append]
  congr 1
  push_cast
  ring

/-! ## The bit loop of `STATE::SYNC` -/

theorem sync_feed_nil (m : m_state_t) : sync_feed m [] = m := by
  cases m
  simp [sync_feed]

theorem sync_feed_cons (m : m_state_t) (b : Bool) (bs : List Bool) :
    sync_feed (sync_feed m [b]) bs = sync_feed m (b :: bs) :=
  sync_feed_append m [b] bs

/-- A bit that neither completes the sync pattern nor uses up the bit limit
lets the loop go on with the next bit. -/
theorem sync_loop_cons_quiet (r i : Nat) (rest : List Nat) (m : m_state_t) (c : Int)
    (hi : i < 8)
    (h1 : ¬ ((sync_feed m [r.testBit i]).syncBitsHave ≥ 40 ∧
      _count_bit_errors (sync_feed m [r.testBit i]).syncForming syncCheck ≤ errLim))
    (h2 : ¬ (sync_feed m [r.testBit i]).syncBitsHave ≥ syncBitsLim) :
    sync_loop r (i :: rest) m c = sync_loop r rest (sync_feed m [r.testBit i]) (c + 1) := by
  rw [sync_loop, sync_add_bit_eq r i m hi, if_neg h1, if_neg h2]

/-- After `k` quiet bits the loop stands at bit `k`. -/
theorem sync_loop_skip (r : Nat) (l : List Nat) (hl : ∀ i ∈ l, i < 8) (k : Nat)
    (m : m_state_t) (c : Int) (hk : k ≤ l.length)
    (hq : ∀ j, j < k →
      ¬ ((sync_feed m ((l.take (j + 1)).map r.testBit)).syncBitsHave ≥ 40 ∧
        _count_bit_errors (sync_feed m ((l.take (j + 1)).map r.testBit)).syncForming
          syncCheck ≤ errLim) ∧
      ¬ (sync_feed m ((l.take (j + 1)).map r.testBit)).syncBitsHave ≥ syncBitsLim) :
    sync_loop r l m c =
      sync_loop r (l.drop k) (sync_feed m ((l.take k).map r.testBit)) (c + k) := by
  induction l generalizing k m c with
  | nil =>
    have e : k = 0 := by simpa using hk
    subst e
    simp [sync_feed_nil]
  | cons i rest ih =>
    cases k with
    | zero => simp [sync_feed_nil]
    | succ k =>
      have hi : i < 8 := hl i (List.mem_cons_self _ _)
      have h0 := hq 0 (by omega)
      simp only [List.take_succ_cons, List.take_zero, List.map_cons, List.map_nil,
        Nat.zero_add] at h0
      rw [sync_loop_cons_quiet r i rest m c hi h0.1 h0.2,
        ih (fun i2 h2 => hl i2 (List.mem_cons_of_mem _ h2)) k _ _
          (by simpa using hk)
          (fun j hj => by
            have h := hq (j + 1) (by omega)
            simp only [List.take_succ_cons, List.map_cons] at h
            rw [sync_feed_cons]
            exact h)]
      simp only [List.drop_succ_cons, List.take_succ_cons, List.map_cons, sync_feed_cons]
      congr 1
      push_cast
      ring

theorem map_testBit_take (r k : Nat) :
    ([0, 1, 2, 3, 4, 5, 6, 7].take k).map r.testBit = (byte_bits r).take k := by
  rw [List.map_take]
  rfl

theorem sync_match_iff (m : m_state_t) (bits : List Bool) :
    ((sync_feed m bits).syncBitsHave ≥ 40 ∧
      _count_bit_errors (sync_feed m bits).syncForming syncCheck ≤ errLim) ↔
    (40 ≤ m.syncBitsHave + bits.length ∧
      hamming (bits.foldl sync_push m.syncForming) 0x0116162AAB ≤ 3) := by
  rw [count_bit_errors_eq, syncCheck_eq.1]
  simp only [sync_feed, errLim, ge_iff_le]
  constructor
  · rintro ⟨h1, h2⟩
    exact ⟨h1, by exact_mod_cast h2⟩
  · rintro ⟨h1, h2⟩
    exact ⟨h1, by exact_mod_cast h2⟩

theorem sync_timeout_iff (m : m_state_t) (bits : List Bool) :
    (sync_feed m bits).syncBitsHave ≥ syncBitsLim ↔ 55 ≤ m.syncBitsHave + bits.length := by
  simp only [sync_feed, syncBitsLim, ge_iff_le]
  norm_num

theorem byte_bits_take_length (r j : Nat) (h : j ≤ 8) : ((byte_bits r).take j).length = j := by
  rw [List.length_take]
  simp only [byte_bits, List.length_cons, List.length_nil]
  omega

theorem bit_indices_drop (k : Nat) (h : k < 8) :
    [0, 1, 2, 3, 4, 5, 6, 7].drop k = k :: [0, 1, 2, 3, 4, 5, 6, 7].drop (k + 1) := by
  interval_cases k <;> rfl

theorem byte_bits_take_succ (r k : Nat) (h : k < 8) :
    (byte_bits r).take k ++ [r.testBit k] = (byte_bits r).take (k + 1) := by
  interval_cases k <;> rfl

/-- A call in `STATE::SYNC` whose first `k` bits are quiet stands at bit `k`
of its loop with these bits fed. -/
theorem getmesg_sync_skip {F : Type} (g : Globals F) (r : Nat) (msg : Option msg_t) (k : Nat)
    (hs : g.m_state.state = STATE.SYNC) (hk : k ≤ 8)
    (hq : ∀ j, j < k →
      ¬ (40 ≤ g.m_state.syncBitsHave + ((j + 1 : Nat) : Int) ∧
        hamming (((byte_bits r).take (j + 1)).foldl sync_push g.m_state.syncForming)
          0x0116162AAB ≤ 3))
    (ht : g.m_state.syncBitsHave + (k : Int) < 55) :
    _getmesg g r msg = some
      { g := { g with m_state :=
          (sync_loop r ([0, 1, 2, 3, 4, 5, 6, 7].drop k)
            (sync_feed g.m_state ((byte_bits r).take k)) k).1 }
        msg := msg
        ret := (sync_loop r ([0, 1, 2, 3, 4, 5, 6, 7].drop k)
            (sync_feed g.m_state ((byte_bits r).take k)) k).2 } := by
  rw [_getmesg_SYNC g r msg hs,
    sync_loop_skip r [0, 1, 2, 3, 4, 5, 6, 7] (by decide) k g.m_state 0 (by simpa using hk)
      (fun j hj => by
        rw [map_testBit_take, sync_match_iff, sync_timeout_iff,
          byte_bits_take_length r (j + 1) (by omega)]
        refine ⟨hq j hj, ?_⟩
        push_cast
        omega),
    map_testBit_take, Int.zero_add]

/-- A call in `STATE::SYNC` none of whose eight bits completes the sync
pattern or uses up the bit limit: the eight bits are fed, the state stays
SYNC and the call returns 8. -/
theorem getmesg_sync_quiet {F : Type} (g : Globals F) (r : Nat) (msg : Option msg_t)
    (hs : g.m_state.state = STATE.SYNC)
    (hq : ∀ j, j < 8 →
      ¬ (40 ≤ g.m_state.syncBitsHave + ((j + 1 : Nat) : Int) ∧
        hamming (((byte_bits r).take (j + 1)).foldl sync_push g.m_state.syncForming)
          0x0116162AAB ≤ 3))
    (ht : g.m_state.syncBitsHave + 8 < 55) :
    _getmesg g r msg = some
      { g := { g with m_state := sync_feed g.m_state (byte_bits r) }
        msg := msg
        ret := 8 } := by
  rw [getmesg_sync_skip g r msg 8 hs (by omega) hq (by simpa using ht)]
  rfl

/-- A call in `STATE::SYNC` whose bit `k` is the first to use up the bit
limit, without completing the sync pattern: the state becomes HEADL and the
call returns `k + 1`. -/
theorem getmesg_sync_timeout {F : Type} (g : Globals F) (r : Nat) (msg : Option msg_t)
    (k : Nat) (hs : g.m_state.state = STATE.SYNC) (hk : k < 8)
    (hq : ∀ j, j < k + 1 →
      ¬ (40 ≤ g.m_state.syncBitsHave + ((j + 1 : Nat) : Int) ∧
        hamming (((byte_bits r).take (j + 1)).foldl sync_push g.m_state.syncForming)
          0x0116162AAB ≤ 3))
    (ht : g.m_state.syncBitsHave + (k : Int) < 55)
    (hl : 55 ≤ g.m_state.syncBitsHave + ((k + 1 : Nat) : Int)) :
    _getmesg g r msg = some
      { g := { g with m_state :=
          { sync_feed g.m_state ((byte_bits r).take (k + 1)) with state := STATE.HEADL } }
        msg := msg
        ret := (k : Int) + 1 } := by
  have h1 : ¬ ((sync_feed g.m_state ((byte_bits r).take (k + 1))).syncBitsHave ≥ 40 ∧
      _count_bit_errors (sync_feed g.m_state ((byte_bits r).take (k + 1))).syncForming
        syncCheck ≤ errLim) := by
    rw [sync_match_iff, byte_bits_take_length r (k + 1) (by omega)]
    exact hq k (by omega)
  have h2 : (sync_feed g.m_state ((byte_bits r).take (k + 1))).syncBitsHave ≥ syncBitsLim := by
    rw [sync_timeout_iff, byte_bits_take_length r (k + 1) (by omega)]
    exact hl
  rw [getmesg_sync_skip g r msg k hs (by omega) (fun j hj => hq j (by omega)) ht,
    bit_indices_drop k hk, sync_loop, sync_add_bit_eq r k _ hk, sync_feed_append,
    byte_bits_take_succ r k hk, if_neg h1, if_pos h2]

/-- The same when bit `k` completes the sync pattern. -/
theorem getmesg_sync_match {F : Type} (g : Globals F) (r : Nat) (msg : Option msg_t)
    (k : Nat) (hs : g.m_state.state = STATE.SYNC) (hk : k < 8)
    (hq : ∀ j, j < k →
      ¬ (40 ≤ g.m_state.syncBitsHave + ((j + 1 : Nat) : Int) ∧
        hamming (((byte_bits r).take (j + 1)).foldl sync_push g.m_state.syncForming)
          0x0116162AAB ≤ 3))
    (ht : g.m_state.syncBitsHave + (k : Int) < 55)
    (hm : 40 ≤ g.m_state.syncBitsHave + ((k + 1 : Nat) : Int) ∧
      hamming (((byte_bits r).take (k + 1)).foldl sync_push g.m_state.syncForming)
        0x0116162AAB ≤ 3) :
    _getmesg g r msg = some
      { g := { g with m_state :=
          { sync_feed g.m_state ((byte_bits r).take (k + 1)) with
            state := STATE.TXT, rawText := [_to_odd SOH] } }
        msg := msg
        ret := (k : Int) + 1 } := by
  have h1 : (sync_feed g.m_state ((byte_bits r).take (k + 1))).syncBitsHave ≥ 40 ∧
      _count_bit_errors (sync_feed g.m_state ((byte_bits r).take (k + 1))).syncForming
        syncCheck ≤ errLim := by
    rw [sync_match_iff, byte_bits_take_length r (k + 1) (by omega)]
    exact hm
  rw [getmesg_sync_skip g r msg k hs (by omega) hq ht,
    bit_indices_drop k hk, sync_loop, sync_add_bit_eq r k _ hk, sync_feed_append,
    byte_bits_take_succ r k hk, if_pos h1]

/-- C11: in state SYNC the bits of the byte are taken LSB first, each one
shifting the sync word right by one and setting bit 39 when the bit is 1. At
the first bit (bit k of the byte, bits 0 to k-1 neither matching nor using up
the limit of 55 bits) after which at least 40 bits have been collected and
the Hamming distance of the sync word to syncCheck = 0x0116162AAB is at most
3, the state becomes TXT, the raw frame becomes the single byte
odd(SOH) = 0x01, and the call returns k + 1, the number of bits of this byte
consumed so far. -/
theorem getmesg_sync_accepts {F : Type} (g : Globals F) (r : Nat) (msg : Option msg_t)
    (k : Nat) (hs : g.m_state.state = STATE.SYNC) (hk : k < 8)
    (hq : ∀ j, j < k →
      ¬ (40 ≤ g.m_state.syncBitsHave + ((j + 1 : Nat) : Int) ∧
        hamming (((byte_bits r).take (j + 1)).foldl sync_push g.m_state.syncForming)
          0x0116162AAB ≤ 3))
    (ht : g.m_state.syncBitsHave + (k : Int) < 55)
    (hm : 40 ≤ g.m_state.syncBitsHave + ((k + 1 : Nat) : Int) ∧
      hamming (((byte_bits r).take (k + 1)).foldl sync_push g.m_state.syncForming)
        0x0116162AAB ≤ 3) :
    syncCheck = 0x0116162AAB ∧
    syncCheck = _to_odd 0x2b ||| (_to_odd 0x2a <<< 8) ||| (_to_odd SYN <<< 16) |||
      (_to_odd SYN <<< 24) ||| (_to_odd SOH <<< 32) ∧
    _getmesg g r msg = some
      { g := { g with m_state :=
          { g.m_state with
            syncForming := ((byte_bits r).take (k + 1)).foldl sync_push g.m_state.syncForming
            syncBitsHave := g.m_state.syncBitsHave + ((k + 1 : Nat) : Int)
            state := STATE.TXT
            rawText := [0x01] } }
        msg := msg
        ret := (k : Int) + 1 } := by
  refine ⟨syncCheck_eq.1, syncCheck_eq.2, ?_⟩
  rw [getmesg_sync_match g r msg k hs hk hq ht hm]
  simp only [sync_feed, byte_bits_take_length r (k + 1) (by omega)]
  rfl

theorem getmesg_sync_accepts_witness :
    globals_sync_40.m_state.state = STATE.SYNC ∧
    _getmesg globals_sync_40 0x40 none = some
      { g := { globals_sync_40 with m_state :=
          { globals_sync_40.m_state with
            syncForming := 0x0116162AAB
            syncBitsHave := 45
            state := STATE.TXT
            rawText := [0x01] } }
        msg := none
        ret := 5 } :=
  ⟨rfl, (getmesg_sync_accepts globals_sync_40 0x40 none 4 rfl (by decide) (by decide)
    (by decide) (by decide)).2.2⟩

/-! ## The sync word as a window of the received bits -/

theorem sync_push_eq (s : Nat) (b : Bool) (h : s < 2 ^ 40) :
    sync_push s b = (s + 2 ^ 40 * (if b then 1 else 0)) / 2 := by
  unfold sync_push
  cases b
  · simp [Nat.shiftRight_eq_div_pow]
  · have h2 : s / 2 < 2 ^ 39 := by omega
    have e := Nat.mul_add_lt_is_or h2 1
    simp only [if_true, Nat.shiftRight_eq_div_pow, pow_one, Nat.mul_one] at e ⊢
    rw [Nat.or_comm, ← e]
    omega

theorem sync_push_lt (s : Nat) (b : Bool) (h : s < 2 ^ 40) : sync_push s b < 2 ^ 40 := by
  rw [sync_push_eq s b h]
  cases b <;> simp <;> omega

theorem foldl_sync_push (l : List Bool) (s : Nat) (h : s < 2 ^ 40) :
    l.foldl sync_push s = (s + 2 ^ 40 * bits_value l) / 2 ^ l.length := by
  induction l generalizing s with
  | nil => simp [bits_value]
  | cons b rest ih =>
    have e : 2 ^ (rest.length + 1) = 2 * 2 ^ rest.length := by rw [pow_succ, Nat.mul_comm]
    rw [List.foldl_cons, ih _ (sync_push_lt s b h), sync_push_eq s b h, List.length_cons,
      bits_value, e, ← Nat.div_div_eq_div_mul]
    congr 1
    cases b <;> simp <;> omega

theorem bits_value_drop (l : List Bool) (k : Nat) :
    bits_value (l.drop k) = bits_value l / 2 ^ k := by
  induction k generalizing l with
  | zero => simp
  | succ k ih =>
    cases l with
    | nil => simp [bits_value]
    | cons b rest =>
      have e : 2 ^ (k + 1) = 2 * 2 ^ k := by rw [pow_succ, Nat.mul_comm]
      rw [List.drop_succ_cons, ih, bits_value, e, ← Nat.div_div_eq_div_mul]
      congr 1
      cases b
      · simp
      · simp
        omega

/-- Once 40 bits have been fed the sync word is the window of the last 40
bits. -/
theorem foldl_sync_push_window (bits : List Bool) (n s : Nat) (h : s < 2 ^ 40)
    (h1 : 40 ≤ n) (h2 : n ≤ bits.length) :
    (bits.take n).foldl sync_push s = sync_window bits n := by
  have hl : (bits.take n).length = n := by rw [List.length_take]; omega
  rw [foldl_sync_push _ s h, sync_window, bits_value_drop, hl]
  have e : 2 ^ n = 2 ^ 40 * 2 ^ (n - 40) := by
    rw [← pow_add]
    congr 1
    omega
  rw [e, ← Nat.div_div_eq_div_mul]
  congr 1
  rw [Nat.add_mul_div_left _ _ (by norm_num), Nat.div_eq_of_lt h, Nat.zero_add]

theorem wire_bits_length (l : List Nat) : (wire_bits l).length = 8 * l.length := by
  induction l with
  | nil => rfl
  | cons b rest ih =>
    simp only [wire_bits, List.length_append, ih, List.length_cons, byte_bits, List.length_nil]
    omega

/-- The first bits of a byte sequence that reach into its last byte. -/
theorem wire_bits_take_last (pre : List Nat) (r j : Nat) :
    (wire_bits (pre ++ [r])).take (8 * pre.length + j) =
      wire_bits pre ++ (byte_bits r).take j := by
  rw [wire_bits_append, wire_bits_singleton, ← wire_bits_length pre, List.take_append]

theorem sync_window_append_left (a b : List Bool) (n : Nat) (h : n ≤ a.length) :
    sync_window (a ++ b) n = sync_window a n := by
  rw [sync_window, sync_window, List.take_append_of_le_length h]

/-! ## The sync search over consecutive calls -/

theorem last_byte_fold (s : Nat) (pre : List Nat) (r j : Nat) :
    ((byte_bits r).take j).foldl sync_push ((wire_bits pre).foldl sync_push s) =
      ((wire_bits (pre ++ [r])).take (8 * pre.length + j)).foldl sync_push s := by
  rw [wire_bits_take_last, List.foldl_append]

theorem last_byte_window (s : Nat) (pre : List Nat) (r j : Nat) (h : s < 2 ^ 40) (hj : j ≤ 8)
    (h40 : 40 ≤ 8 * pre.length + j) :
    ((byte_bits r).take j).foldl sync_push ((wire_bits pre).foldl sync_push s) =
      sync_window (wire_bits (pre ++ [r])) (8 * pre.length + j) := by
  rw [last_byte_fold, foldl_sync_push_window _ _ _ h h40
    (by rw [wire_bits_length, List.length_append, List.length_singleton]; omega)]

/-- In the call that follows the bytes `pre` fed from the entry to SYNC, the
first `k` bits of the byte do not complete the sync pattern when none of the
windows that end in them is within distance 3 of it. -/
theorem last_byte_quiet (m : m_state_t) (pre : List Nat) (r k : Nat)
    (hh : m.syncBitsHave = 0) (hf : m.syncForming < 2 ^ 40) (hk : k ≤ 8)
    (hq : ∀ n, 40 ≤ n → n ≤ 8 * pre.length + k →
      3 < hamming (sync_window (wire_bits (pre ++ [r])) n) 0x0116162AAB) :
    ∀ j, j < k →
      ¬ (40 ≤ (sync_feed m (wire_bits pre)).syncBitsHave + ((j + 1 : Nat) : Int) ∧
        hamming (((byte_bits r).take (j + 1)).foldl sync_push
          (sync_feed m (wire_bits pre)).syncForming) 0x0116162AAB ≤ 3) := by
  intro j hj
  rintro ⟨h1, h2⟩
  have e1 : (sync_feed m (wire_bits pre)).syncBitsHave = ((8 * pre.length : Nat) : Int) := by
    simp only [sync_feed, hh, wire_bits_length]
    simp
  have e2 : (sync_feed m (wire_bits pre)).syncForming =
      (wire_bits pre).foldl sync_push m.syncForming := rfl
  rw [e1] at h1
  have h40 : 40 ≤ 8 * pre.length + (j + 1) := by exact_mod_cast h1
  rw [e2, last_byte_window _ pre r (j + 1) hf (by omega) h40] at h2
  have := hq (8 * pre.length + (j + 1)) h40 (by omega)
  omega

theorem globals_eta {F : Type} (g : Globals F) :
    ({ g with m_state := sync_feed g.m_state [] } : Globals F) = g := by
  rw [sync_feed_nil]

theorem feed_bytes_single {F : Type} (g : Globals F) (r : Nat) (res : Result F)
    (h : _getmesg g r none = some res) : feed_bytes [r] g = some (res.g, [res.ret]) := by
  rw [feed_bytes_cons g r [] res h]
  rfl

/-- Whole bytes fed from the entry to SYNC while fewer than 55 bits are
collected and no window matches: every call returns 8 and the state stays
SYNC. -/
theorem feed_bytes_sync_quiet {F : Type} (g : Globals F) (bs : List Nat)
    (hs : g.m_state.state = STATE.SYNC) (hh : g.m_state.syncBitsHave = 0)
    (hf : g.m_state.syncForming < 2 ^ 40) (hlen : 8 * bs.length < 55)
    (hq : ∀ n, 40 ≤ n → n ≤ 8 * bs.length →
      3 < hamming (sync_window (wire_bits bs) n) 0x0116162AAB) :
    feed_bytes bs g = some
      ({ g with m_state := sync_feed g.m_state (wire_bits bs) }, List.replicate bs.length 8) := by
  induction bs using List.reverseRecOn with
  | nil =>
    simp only [feed_bytes, wire_bits, List.length_nil, List.replicate_zero]
    rw [globals_eta]
  | append_singleton pre r ih =>
    rw [List.length_append, List.length_singleton] at hlen hq
    have ihp := ih (by omega) (fun n h1 h2 => by
      have := hq n h1 (by omega)
      rw [wire_bits_append, sync_window_append_left _ _ _ (by rw [wire_bits_length]; exact h2)] at this
      exact this)
    have hq1 := last_byte_quiet g.m_state pre r 8 hh hf (by omega)
      (fun n h1 h2 => hq n h1 (by omega))
    have e1 : (sync_feed g.m_state (wire_bits pre)).syncBitsHave =
        ((8 * pre.length : Nat) : Int) := by
      simp only [sync_feed, hh, wire_bits_length]
      simp
    have hcall := getmesg_sync_quiet
      ({ g with m_state := sync_feed g.m_state (wire_bits pre) }) r none hs hq1
      (by rw [e1]; push_cast; omega)
    rw [feed_bytes_append pre [r] g _ _ _ _ ihp (feed_bytes_single _ r _ hcall),
      List.length_append, List.length_singleton, List.replicate_succ', wire_bits_append,
      wire_bits_singleton]
    simp only [sync_feed_append]

/-- C12: from the entry to SYNC (no bits collected), when none of the 40-bit
windows ending at collected bits 40 to 54 is within Hamming distance 3 of
syncCheck, the first six calls consume eight bits each and leave the state
SYNC, and the seventh call stops at its seventh bit, the 55th collected: if
the window ending there is not within distance 3 either the state becomes
HEADL, and if it is the pattern is still accepted (state TXT, raw frame
0x01). -/
theorem sync_search_ends_at_55 {F : Type} (g : Globals F) (pre : List Nat) (r : Nat)
    (hs : g.m_state.state = STATE.SYNC) (hh : g.m_state.syncBitsHave = 0)
    (hf : g.m_state.syncForming < 2 ^ 40) (hp : pre.length = 6)
    (hq : ∀ n, n < 55 → 40 ≤ n →
      3 < hamming (sync_window (wire_bits (pre ++ [r])) n) 0x0116162AAB) :
    syncCheck = 0x0116162AAB ∧
    ∃ g6 g7, feed_bytes pre g = some (g6, [8, 8, 8, 8, 8, 8]) ∧
      g6.m_state.state = STATE.SYNC ∧ g6.m_state.syncBitsHave = 48 ∧
      feed_bytes (pre ++ [r]) g = some (g7, [8, 8, 8, 8, 8, 8, 7]) ∧
      g7.m_state.syncBitsHave = 55 ∧
      (3 < hamming (sync_window (wire_bits (pre ++ [r])) 55) 0x0116162AAB →
        g7.m_state.state = STATE.HEADL) ∧
      (hamming (sync_window (wire_bits (pre ++ [r])) 55) 0x0116162AAB ≤ 3 →
        g7.m_state.state = STATE.TXT ∧ g7.m_state.rawText = [0x01]) := by
  refine ⟨syncCheck_eq.1, ?_⟩
  have h6 := feed_bytes_sync_quiet g pre hs hh hf (by omega) (fun n h1 h2 => by
    have := hq n (by omega) h1
    rw [wire_bits_append, sync_window_append_left _ _ _ (by rw [wire_bits_length]; exact h2)] at this
    exact this)
  rw [hp] at h6
  have e1 : (sync_feed g.m_state (wire_bits pre)).syncBitsHave = 48 := by
    simp only [sync_feed, hh, wire_bits_length, hp]
    norm_num
  have e2 : (sync_feed g.m_state (wire_bits pre)).syncForming =
      (wire_bits pre).foldl sync_push g.m_state.syncForming := rfl
  have hw : ((byte_bits r).take 7).foldl sync_push
      (sync_feed g.m_state (wire_bits pre)).syncForming =
      sync_window (wire_bits (pre ++ [r])) 55 := by
    rw [e2, last_byte_window _ pre r 7 hf (by omega) (by omega), hp]
  by_cases hm : hamming (sync_window (wire_bits (pre ++ [r])) 55) 0x0116162AAB ≤ 3
  · have hq1 := last_byte_quiet g.m_state pre r 6 hh hf (by omega)
      (fun n h1 h2 => hq n (by omega) h1)
    have hcall := getmesg_sync_match
      ({ g with m_state := sync_feed g.m_state (wire_bits pre) }) r none 6 hs (by omega) hq1
      (by rw [e1]; norm_num) ⟨by rw [e1]; norm_num, by rw [hw]; exact hm⟩
    refine ⟨{ g with m_state := sync_feed g.m_state (wire_bits pre) },
      { g with m_state :=
          { sync_feed (sync_feed g.m_state (wire_bits pre)) ((byte_bits r).take 7) with
            state := STATE.TXT, rawText := [_to_odd SOH] } },
      h6, hs, e1, ?_, ?_, fun h => absurd hm (by omega), fun _ => ⟨rfl, rfl⟩⟩
    · rw [feed_bytes_append pre [r] g _ _ _ _ h6 (feed_bytes_single _ r _ hcall)]
      rfl
    · show (sync_feed (sync_feed g.m_state (wire_bits pre)) ((byte_bits r).take 7)).syncBitsHave
        = 55
      simp only [sync_feed] at e1 ⊢
      rw [e1, byte_bits_take_length r 7 (by omega)]
      norm_num
  · have hq1 := last_byte_quiet g.m_state pre r 7 hh hf (by omega)
      (fun n h1 h2 => by
        by_cases hn : n < 55
        · exact hq n hn h1
        · have e : n = 55 := by omega
          rw [e]
          omega)
    have hcall := getmesg_sync_timeout
      ({ g with m_state := sync_feed g.m_state (wire_bits pre) }) r none 6 hs (by omega) hq1
      (by rw [e1]; norm_num) (by rw [e1]; norm_num)
    refine ⟨{ g with m_state := sync_feed g.m_state (wire_bits pre) },
      { g with m_state :=
          { sync_feed (sync_feed g.m_state (wire_bits pre)) ((byte_bits r).take 7) with
            state := STATE.HEADL } },
      h6, hs, e1, ?_, ?_, fun _ => rfl, fun h => absurd h hm⟩
    · rw [feed_bytes_append pre [r] g _ _ _ _ h6 (feed_bytes_single _ r _ hcall)]
      rfl
    · show (sync_feed (sync_feed g.m_state (wire_bits pre)) ((byte_bits r).take 7)).syncBitsHave
        = 55
      simp only [sync_feed] at e1 ⊢
      rw [e1, byte_bits_take_length r 7 (by omega)]
      norm_num

theorem sync_search_ends_at_55_witness :
    globals_sync_entry.m_state.state = STATE.SYNC ∧
    globals_sync_entry.m_state.syncBitsHave = 0 ∧
    (∀ n, n < 55 → 40 ≤ n →
      3 < hamming (sync_window (wire_bits ([0x00, 0x80, 0x55, 0x15, 0x0b, 0x8b] ++ [0x00])) n)
        0x0116162AAB) ∧
    hamming (sync_window (wire_bits ([0x00, 0x80, 0x55, 0x15, 0x0b, 0x8b] ++ [0x00])) 55)
      0x0116162AAB ≤ 3 ∧
    ∃ g6 g7, feed_bytes [0x00, 0x80, 0x55, 0x15, 0x0b, 0x8b] globals_sync_entry =
        some (g6, [8, 8, 8, 8, 8, 8]) ∧
      g6.m_state.state = STATE.SYNC ∧ g6.m_state.syncBitsHave = 48 ∧
      feed_bytes ([0x00, 0x80, 0x55, 0x15, 0x0b, 0x8b] ++ [0x00]) globals_sync_entry =
        some (g7, [8, 8, 8, 8, 8, 8, 7]) ∧
      g7.m_state.syncBitsHave = 55 ∧
      (3 < hamming (sync_window (wire_bits ([0x00, 0x80, 0x55, 0x15, 0x0b, 0x8b] ++ [0x00])) 55)
          0x0116162AAB →
        g7.m_state.state = STATE.HEADL) ∧
      (hamming (sync_window (wire_bits ([0x00, 0x80, 0x55, 0x15, 0x0b, 0x8b] ++ [0x00])) 55)
          0x0116162AAB ≤ 3 →
        g7.m_state.state = STATE.TXT ∧ g7.m_state.rawText = [0x01]) :=
  ⟨rfl, rfl, by decide, by decide,
    (sync_search_ends_at_55 globals_sync_entry [0x00, 0x80, 0x55, 0x15, 0x0b, 0x8b] 0x00
      rfl rfl (by decide) rfl (by decide)).2⟩

/-- Seven zero bytes fed from the entry to SYNC: the search is given up at
the 55th bit, in the seventh call, which returns 7. -/
theorem sync_search_times_out :
    (feed_bytes [0, 0, 0, 0, 0, 0, 0] globals_sync_entry).map
      (fun p => (p.1.m_state.state, p.1.m_state.syncBitsHave, p.2)) =
      some (STATE.HEADL, 55, [8, 8, 8, 8, 8, 8, 7]) ∧
    (feed_bytes [0, 0, 0, 0, 0, 0] globals_sync_entry).map
      (fun p => (p.1.m_state.state, p.1.m_state.syncBitsHave, p.2)) =
      some (STATE.SYNC, 48, [8, 8, 8, 8, 8, 8]) := by
  decide

/-- The sync pattern completed by the 55th bit is accepted. -/
theorem sync_search_accepts_at_55 :
    (feed_bytes [0x00, 0x80, 0x55, 0x15, 0x0b, 0x8b, 0x00] globals_sync_entry).map
      (fun p => (p.1.m_state.state, p.1.m_state.syncBitsHave, p.1.m_state.rawText, p.2)) =
      some (STATE.TXT, 55, [0x01], [8, 8, 8, 8, 8, 8, 7]) := by
  decide

/-! ## The scan order of the one-bit correction -/

/-- The inner loop stops at the lowest bit index whose flip gives a zero
CRC. -/
theorem correct_j_first (i j : Nat) (js raw : List Nat) (hj : j ∈ js)
    (hsort : js.Pairwise (fun a b => a < b))
    (h0 : gen_crc (flip_bit raw i j) = 0)
    (h : ∀ j2 ∈ js, j2 < j → gen_crc (flip_bit raw i j2) ≠ 0) :
    correct_j i js raw = (flip_bit raw i j, true) := by
  induction js with
  | nil => simp at hj
  | cons x rest ih =>
    unfold correct_j
    simp only [flip_bit_flip_bit]
    by_cases hx : x = j
    · subst hx
      rw [if_pos h0]
    · rcases List.mem_cons.mp hj with e | e
      · exact absurd e.symm hx
      · have hlt : x < j := (List.pairwise_cons.mp hsort).1 j e
        rw [if_neg (h x (List.mem_cons_self _ _) hlt)]
        exact ih e (List.pairwise_cons.mp hsort).2
          (fun j2 hj2 => h j2 (List.mem_cons_of_mem _ hj2))

/-- The outer loop stops at the lowest byte index that has such a bit. -/
theorem correct_i_first (i j : Nat) (is raw : List Nat) (hi : i ∈ is)
    (hsort : is.Pairwise (fun a b => a < b))
    (hj : j ∈ [0, 1, 2, 3, 4, 5, 6, 7]) (h0 : gen_crc (flip_bit raw i j) = 0)
    (h : ∀ i2 ∈ is, ∀ j2 ∈ [0, 1, 2, 3, 4, 5, 6, 7], (i2 < i ∨ (i2 = i ∧ j2 < j)) →
      gen_crc (flip_bit raw i2 j2) ≠ 0) :
    correct_i is raw = (flip_bit raw i j, true) := by
  induction is with
  | nil => simp at hi
  | cons x rest ih =>
    unfold correct_i
    by_cases hx : x = i
    · subst hx
      rw [correct_j_first x j _ raw hj (by decide) h0
        (fun j2 hj2 hlt => h x (List.mem_cons_self _ _) j2 hj2 (Or.inr ⟨rfl, hlt⟩))]
    · rcases List.mem_cons.mp hi with e | e
      · exact absurd e.symm hx
      · have hlt : x < i := (List.pairwise_cons.mp hsort).1 i e
        rw [correct_j_skip x _ raw
          (fun j2 hj2 => h x (List.mem_cons_self _ _) j2 hj2 (Or.inl hlt))]
        exact ih e (List.pairwise_cons.mp hsort).2
          (fun i2 hi2 => h i2 (List.mem_cons_of_mem _ hi2))

theorem mask_eq_two_pow (j : Nat) (h : j < 8) : mask.getD j 0 = 2 ^ j := by
  have key : ∀ k : Fin 8, mask.getD k.val 0 = 2 ^ k.val := by decide
  exact key ⟨j, h⟩

theorem flip_bit_getD_self (raw : List Nat) (i j : Nat) (hi : i < raw.length) (hj : j < 8) :
    (flip_bit raw i j).getD i 0 = raw.getD i 0 ^^^ 2 ^ j := by
  simp only [flip_bit, mask_eq_two_pow j hj]
  rw [List.getD_eq_getElem _ _ (by rw [List.length_set]; exact hi), List.getElem_set_self]

theorem flip_bit_getD_other (raw : List Nat) (i j k : Nat) (hk : k ≠ i) :
    (flip_bit raw i j).getD k 0 = raw.getD k 0 := by
  simp only [flip_bit, List.getD_eq_getElem?_getD]
  rw [List.getElem?_set_ne (Ne.symm hk)]

/-- C25: when the raw frame in END has a non-zero CRC and the flip of bit j
of byte i is the first, in the order byte index ascending and within a byte
bit index ascending from bit 0, that makes the CRC zero, the frame handed to
`build_mesg` is the raw frame with exactly that bit flipped: the call is
`build_mesg` on that frame followed, when `build_mesg` comes back, by the
return of -1 with that frame kept.  It comes back, and the call returns -1,
when the frame has 27 to 283 bytes; with fewer than 27 bytes `build_mesg`
indexes out of bounds and the call has no result. -/
theorem end_corrects_first_flip {F : Type} (g : Globals F) (r : Nat) (msg : Option msg_t)
    (i j : Nat) (hs : g.m_state.state = STATE.END) (hc : gen_crc g.m_state.rawText ≠ 0)
    (hi : i < g.m_state.rawText.length) (hj : j < 8)
    (h0 : gen_crc (flip_bit g.m_state.rawText i j) = 0)
    (hfirst : ∀ i2, i2 < g.m_state.rawText.length → ∀ j2, j2 < 8 →
      (i2 < i ∨ (i2 = i ∧ j2 < j)) → gen_crc (flip_bit g.m_state.rawText i2 j2) ≠ 0) :
    end_frame g.m_state.rawText = some (flip_bit g.m_state.rawText i j) ∧
    _getmesg g r msg =
      (build_mesg (flip_bit g.m_state.rawText i j)).map (fun p =>
        ({ g := { g with m_state :=
              { g.m_state with
                state := STATE.HEADL, rawText := flip_bit g.m_state.rawText i j, crc := 0 } }
           msg := some p.1
           ret := -1 } : Result F)) ∧
    (27 ≤ g.m_state.rawText.length → g.m_state.rawText.length ≤ 283 →
      _getmesg g r msg = some
        { g := { g with m_state :=
              { g.m_state with
                state := STATE.HEADL, rawText := flip_bit g.m_state.rawText i j, crc := 0 } }
          msg := (build_mesg (flip_bit g.m_state.rawText i j)).map Prod.fst
          ret := -1 } ∧
      build_mesg (flip_bit g.m_state.rawText i j) ≠ none) ∧
    (g.m_state.rawText.length < 27 → _getmesg g r msg = none) ∧
    (flip_bit g.m_state.rawText i j).getD i 0 = g.m_state.rawText.getD i 0 ^^^ 2 ^ j ∧
    ∀ k, k ≠ i → (flip_bit g.m_state.rawText i j).getD k 0 = g.m_state.rawText.getD k 0 := by
  have hfr : end_frame g.m_state.rawText = some (flip_bit g.m_state.rawText i j) := by
    rw [end_frame_crc_bad _ hc,
      correct_i_first i j (List.range g.m_state.rawText.length) g.m_state.rawText
        (List.mem_range.mpr hi) (List.pairwise_lt_range _) (mem_bit_indices.mpr hj) h0
        (fun i2 hi2 j2 hj2 hlt =>
          hfirst i2 (List.mem_range.mp hi2) j2 (mem_bit_indices.mp hj2) hlt)]
    rfl
  refine ⟨hfr, _getmesg_END_some g r msg hs _ hfr, fun h27 h283 => ?_, fun h27 => ?_,
    flip_bit_getD_self _ i j hi hj, fun k hk => flip_bit_getD_other _ i j k hk⟩
  · have hne : build_mesg (flip_bit g.m_state.rawText i j) ≠ none :=
      (build_mesg_ne_none _).mpr (by rw [flip_bit_length]; exact ⟨h27, h283⟩)
    exact ⟨_getmesg_END_accept g r msg hs _ hfr hne, hne⟩
  · exact _getmesg_END_fault g r msg hs _ hfr
      ((build_mesg_eq_none _).mpr (by rw [flip_bit_length]; exact Or.inl h27))

/-- Witness for C25: the minimum-length frame with bit 5 of byte 3 flipped;
the frame handed to `build_mesg` is the minimum-length frame and the call
returns -1. -/
theorem end_corrects_first_flip_witness :
    end_frame (globals_end (flip_bit frame_min 3 5)).m_state.rawText =
      some (flip_bit (globals_end (flip_bit frame_min 3 5)).m_state.rawText 3 5) ∧
    flip_bit (globals_end (flip_bit frame_min 3 5)).m_state.rawText 3 5 = frame_min ∧
    (_getmesg (globals_end (flip_bit frame_min 3 5)) 0x7f none = some
      { g := { globals_end (flip_bit frame_min 3 5) with m_state :=
            { (globals_end (flip_bit frame_min 3 5)).m_state with
              state := STATE.HEADL
              rawText := flip_bit (globals_end (flip_bit frame_min 3 5)).m_state.rawText 3 5
              crc := 0 } }
        msg := (build_mesg
          (flip_bit (globals_end (flip_bit frame_min 3 5)).m_state.rawText 3 5)).map Prod.fst
        ret := -1 } ∧
      build_mesg (flip_bit (globals_end (flip_bit frame_min 3 5)).m_state.rawText 3 5)
        ≠ none) :=
  ⟨(end_corrects_first_flip (globals_end (flip_bit frame_min 3 5)) 0x7f none 3 5 rfl
      (by decide) (by decide) (by decide) (by decide) (by decide)).1,
    by decide,
    (end_corrects_first_flip (globals_end (flip_bit frame_min 3 5)) 0x7f none 3 5 rfl
      (by decide) (by decide) (by decide) (by decide) (by decide)).2.2.1
      (by decide) (by decide)⟩

/-! ## What a call does to the raw frame and to the bit synchroniser -/

theorem sync_add_bit_rawText (r i : Nat) (m : m_state_t) :
    (sync_add_bit r i m).rawText = m.rawText := rfl

/-- The loop of `STATE::SYNC` either accepts the sync pattern, and the raw
frame is the single byte SOH, or leaves the raw frame alone. -/
theorem sync_loop_rawText (r : Nat) (l : List Nat) (m : m_state_t) (b : Int) :
    ((sync_loop r l m b).1.state = STATE.TXT ∧ (sync_loop r l m b).1.rawText = [_to_odd SOH]) ∨
    (((sync_loop r l m b).1.state = m.state ∨ (sync_loop r l m b).1.state = STATE.HEADL) ∧
      (sync_loop r l m b).1.rawText = m.rawText) := by
  induction l generalizing m b with
  | nil => exact Or.inr ⟨Or.inl rfl, rfl⟩
  | cons i rest ih =>
    unfold sync_loop
    split
    · exact Or.inl ⟨rfl, rfl⟩
    · split
      · exact Or.inr ⟨Or.inr rfl, rfl⟩
      · have h := ih (sync_add_bit r i m) (b + 1)
        rw [sync_add_bit_state, sync_add_bit_rawText] at h
        exact h

/-- The first call in SYNC, entered from HEADF: eight bits are collected and
nothing else changes. -/
theorem getmesg_headf_enters_sync {F : Type} (g : Globals F) (r : Nat) (msg : Option msg_t)
    (hs : g.m_state.state = STATE.HEADF) (hr : r ≠ PRE_KEY_CHAR) :
    _getmesg g r msg = some
      { g := { g with m_state :=
            (sync_feed
              { g.m_state with state := STATE.SYNC, syncForming := 0, syncBitsHave := 0 }
              (byte_bits r)) }
        msg := msg
        ret := 8 } := by
  rw [_getmesg_HEADF_other g r msg hs hr]
  exact getmesg_sync_quiet _ r msg rfl
    (fun j hj h => by
      have h1 := h.1
      simp only [] at h1
      push_cast at h1
      omega)
    (by simp)

/-- C22, as the code has it: a call zeroes `sgI` and `sgQ` exactly when it
handles a byte other than 0xff in HEADL, which includes the byte that has
just overflowed TXT; every other call, also the ones that take the machine
back to HEADL from the SYNC timeout and from END, leaves the whole record
`bstat` as it was. The reset changes no field other than `sgI` and `sgQ`.
The call has a result except where it faults, which happens only in END. -/
theorem getmesg_bit_reset {F : Type} (g : Globals F) (r : Nat) (msg : Option msg_t) :
    (_getmesg g r msg = none ↔ end_faults g) ∧
    (end_faults g → g.m_state.state = STATE.END) ∧
    (¬ end_faults g →
    ∃ res, _getmesg g r msg = some res ∧
      res.g.bstat =
        (if (g.m_state.state = STATE.HEADL ∨
              (g.m_state.state = STATE.TXT ∧ 244 < g.m_state.rawText.length + 1)) ∧
            r ≠ 0xff
          then _reset_bit_state_machine g.bstat else g.bstat) ∧
      (_reset_bit_state_machine g.bstat).sgI = 0 ∧
      (_reset_bit_state_machine g.bstat).sgQ = 0 ∧
      (_reset_bit_state_machine g.bstat).hsample = g.bstat.hsample ∧
      (_reset_bit_state_machine g.bstat).lsample = g.bstat.lsample ∧
      (_reset_bit_state_machine g.bstat).isample = g.bstat.isample ∧
      (_reset_bit_state_machine g.bstat).qsample = g.bstat.qsample ∧
      (_reset_bit_state_machine g.bstat).csample = g.bstat.csample ∧
      (_reset_bit_state_machine g.bstat).is = g.bstat.is ∧
      (_reset_bit_state_machine g.bstat).clock = g.bstat.clock ∧
      (_reset_bit_state_machine g.bstat).lin = g.bstat.lin ∧
      (_reset_bit_state_machine g.bstat).phih = g.bstat.phih ∧
      (_reset_bit_state_machine g.bstat).phil = g.bstat.phil ∧
      (_reset_bit_state_machine g.bstat).dfh = g.bstat.dfh ∧
      (_reset_bit_state_machine g.bstat).dfl = g.bstat.dfl ∧
      (_reset_bit_state_machine g.bstat).pC = g.bstat.pC ∧
      (_reset_bit_state_machine g.bstat).ppC = g.bstat.ppC ∧
      (_reset_bit_state_machine g.bstat).ea = g.bstat.ea) := by
  refine ⟨getmesg_none_iff g r msg, fun h => h.1, fun hnf => ?_⟩
  obtain ⟨res, hres⟩ := _getmesg_returns g r msg hnf
  refine ⟨res, hres, ?_, rfl, rfl, rfl, rfl, rfl, rfl, rfl, rfl, rfl, rfl, rfl, rfl, rfl, rfl,
    rfl, rfl, rfl⟩
  cases hs : g.m_state.state
  · rw [_getmesg_HEADL g r msg hs] at hres
    have e := (Option.some.inj hres).symm
    subst e
    by_cases hr : r = 0xff
    · simp [PRE_KEY_CHAR, hr]
    · simp [PRE_KEY_CHAR, hr]
  · by_cases hr : r = PRE_KEY_CHAR
    · rw [_getmesg_HEADF_prekey g r msg hs hr] at hres
      have e := (Option.some.inj hres).symm
      subst e
      simp
    · rw [getmesg_headf_enters_sync g r msg hs hr] at hres
      have e := (Option.some.inj hres).symm
      subst e
      simp
  · rw [_getmesg_SYNC g r msg hs] at hres
    have e := (Option.some.inj hres).symm
    subst e
    simp
  · by_cases hlen : 244 < g.m_state.rawText.length + 1
    · have e := _getmesg_TXT g r msg hs
      have hl : (g.m_state.rawText ++ [r]).length = g.m_state.rawText.length + 1 := by simp
      rw [hl, BMAX_eq.1, if_pos hlen] at e
      have e3 := e.trans (_getmesg_HEADL _ r msg rfl)
      rw [hres] at e3
      have e4 := Option.some.inj e3
      subst e4
      by_cases hr : r = 0xff
      · simp [PRE_KEY_CHAR, hr]
      · simp [PRE_KEY_CHAR, hr, hlen]
    · rw [getmesg_txt_room g r msg hs (by omega)] at hres
      have e := (Option.some.inj hres).symm
      subst e
      simp [hlen]
  · rw [_getmesg_CRC1 g r msg hs] at hres
    have e := (Option.some.inj hres).symm
    subst e
    simp
  · rw [_getmesg_CRC2 g r msg hs] at hres
    have e := (Option.some.inj hres).symm
    subst e
    simp
  · rcases getmesg_END_cases g r msg hs res hres with ⟨f, p, _, _, e⟩ | ⟨_, e⟩
    · subst e
      simp
    · subst e
      simp

/-- C22 as stated fails: END and the SYNC timeout take the machine back to
HEADL with `sgI` and `sgQ` as they were, here 1 and -1. -/
theorem signs_kept_on_return_to_headl :
    (_getmesg (globals_end_signed frame_min) 0x7f none).map
      (fun res => (res.g.m_state.state, res.g.bstat.sgI, res.g.bstat.sgQ)) =
      some (STATE.HEADL, 1, -1) ∧
    (_getmesg globals_sync_48 0x00 none).map
      (fun res => (res.g.m_state.state, res.ret, res.g.bstat.sgI, res.g.bstat.sgQ)) =
      some (STATE.HEADL, 7, 1, -1) := by
  decide

/-! ## The bit synchroniser: buffer index and output byte -/

theorem ring_index (idx : Int) (i : Nat) (h : 0 ≤ idx) :
    0 ≤ Int.tmod (idx + (i : Int)) BITLEN ∧ Int.tmod (idx + (i : Int)) BITLEN < BITLEN :=
  ⟨Int.tmod_nonneg _ (by omega), Int.tmod_lt_of_pos _ (by decide)⟩

theorem buf_get_some {F : Type} (b : List F) (i : Int) (h0 : 0 ≤ i) (h1 : i < b.length) :
    ∃ v, buf_get b i = some v := by
  unfold buf_get
  rw [if_pos ⟨h0, h1⟩]
  have hlt : i.toNat < b.length := by omega
  exact ⟨b[i.toNat], List.getElem?_eq_getElem hlt⟩

theorem buf_set_some {F : Type} (b : List F) (i : Int) (v : F) (h0 : 0 ≤ i)
    (h1 : i < b.length) :
    ∃ b2, buf_set b i v = some b2 ∧ b2.length = b.length := by
  unfold buf_set
  rw [if_pos ⟨h0, h1⟩]
  exact ⟨_, rfl, List.length_set _ _ _⟩

/-- A monadic fold whose step always gives a value gives a value. -/
theorem foldlM_some {A B : Type} (f : A → B → Option A) (hf : ∀ a b, ∃ v, f a b = some v)
    (l : List B) (a : A) : ∃ v, l.foldlM f a = some v := by
  induction l generalizing a with
  | nil => exact ⟨a, rfl⟩
  | cons x rest ih =>
    obtain ⟨v, hv⟩ := hf a x
    obtain ⟨w, hw⟩ := ih v
    exact ⟨w, by rw [List.foldlM_cons, hv]; exact hw⟩

theorem ring_sum_some {F : Type} (ops : FloatOps F) (buf : List F) (idx : Int) (n : Nat)
    (acc : F) (hl : buf.length = 40) (h0 : 0 ≤ idx) :
    ∃ v, ring_sum ops buf idx n acc = some v := by
  unfold ring_sum
  refine foldlM_some _ (fun a i => ?_) _ _
  obtain ⟨v, hv⟩ := buf_get_some buf (Int.tmod (idx + (i : Int)) BITLEN) (ring_index idx i h0).1
    (by rw [hl]; exact (ring_index idx i h0).2)
  exact ⟨_, by rw [hv]; rfl⟩

theorem clock_filter_some {F : Type} (ops : FloatOps F) (h csample : List F) (idx : Int)
    (hh : h.length = 40) (hl : csample.length = 40) (h0 : 0 ≤ idx) :
    ∃ v, clock_filter ops h csample idx = some v := by
  unfold clock_filter
  have key : ∀ (l : List Nat) (a : F), (∀ i ∈ l, i < 40) →
      ∃ v, l.foldlM
        (fun a (i : Nat) =>
          (buf_get h (i : Int)).bind (fun hi =>
            (buf_get csample (Int.tmod (idx + (i : Int)) BITLEN)).map (fun v =>
              ops.add a (ops.mul hi v)))) a = some v := by
    intro l
    induction l with
    | nil => exact fun a _ => ⟨a, rfl⟩
    | cons x rest ih =>
      intro a hx
      have hx40 : x < 40 := hx x (List.mem_cons_self _ _)
      obtain ⟨v1, hv1⟩ := buf_get_some h (x : Int) (by omega) (by rw [hh]; omega)
      obtain ⟨v2, hv2⟩ := buf_get_some csample (Int.tmod (idx + (x : Int)) BITLEN)
        (ring_index idx x h0).1 (by rw [hl]; exact (ring_index idx x h0).2)
      obtain ⟨w, hw⟩ := ih (ops.add a (ops.mul v1 v2))
        (fun i hi => hx i (List.mem_cons_of_mem _ hi))
      refine ⟨w, ?_⟩
      rw [List.foldlM_cons, hv1, hv2]
      exact hw
  exact key _ _ (fun i hi => by
    have := List.mem_range.mp hi
    simpa [BITLEN] using this)

/-- The Q block keeps the record well formed and its index, and either
leaves the output byte alone or shifts one bit into it. -/
theorem getbit_Q_some {F : Type} (ops : FloatOps F) (C : F) (r : BitResult F)
    (hb : bstat_ok r.bstat) :
    ∃ r2, getbit_Q ops C r = some r2 ∧ bstat_ok r2.bstat ∧ r2.bstat.is = r.bstat.is ∧
      ((r2.outbits = r.outbits ∧ r2.bt = r.bt) ∨
        (∃ bit, r2.outbits = shift_in r.outbits bit) ∧ r2.bt = true) := by
  unfold getbit_Q
  split
  · obtain ⟨Q, hQ⟩ := ring_sum_some ops r.bstat.qsample r.bstat.is BITLEN.toNat (ops.ofInt 0)
      hb.2.2.2.2.2.1 hb.1
    rw [hQ]
    exact ⟨_, rfl, hb, rfl, Or.inr ⟨⟨_, rfl⟩, rfl⟩⟩
  · exact ⟨r, rfl, hb, rfl, Or.inl ⟨rfl, rfl⟩⟩

/-- The same for the I block. -/
theorem getbit_I_some {F : Type} (ops : FloatOps F) (C : F) (r : BitResult F)
    (hb : bstat_ok r.bstat) :
    ∃ r2, getbit_I ops C r = some r2 ∧ bstat_ok r2.bstat ∧ r2.bstat.is = r.bstat.is ∧
      ((r2.outbits = r.outbits ∧ r2.bt = r.bt) ∨
        (∃ bit, r2.outbits = shift_in r.outbits bit) ∧ r2.bt = true) := by
  unfold getbit_I
  split
  · obtain ⟨I, hI⟩ := ring_sum_some ops r.bstat.isample r.bstat.is BITLEN.toNat (ops.ofInt 0)
      hb.2.2.2.2.1 hb.1
    rw [hI]
    exact ⟨_, rfl, hb, rfl, Or.inr ⟨⟨_, rfl⟩, rfl⟩⟩
  · exact ⟨r, rfl, hb, rfl, Or.inl ⟨rfl, rfl⟩⟩

/-- The clocked block, entered with no bit reported: the record stays well
formed, the index is kept, and the output byte has had as many bits shifted
in as the two bit blocks ran; a bit is reported exactly when one ran. -/
theorem getbit_clock_some {F : Type} (ops : FloatOps F) (h : List F) (r : BitResult F)
    (hh : h.length = 40) (hb : bstat_ok r.bstat) (hbt : r.bt = false) :
    ∃ r2, getbit_clock ops h r = some r2 ∧ bstat_ok r2.bstat ∧ r2.bstat.is = r.bstat.is ∧
      ∃ bits : List Bool, bits.length ≤ 2 ∧ r2.outbits = bits.foldl shift_in r.outbits ∧
        (r2.bt = true ↔ bits ≠ []) := by
  unfold getbit_clock
  obtain ⟨C, hC⟩ := clock_filter_some ops h r.bstat.csample r.bstat.is hh hb.2.2.2.2.2.2 hb.1
  obtain ⟨r1, h1, ok1, is1, o1⟩ := getbit_Q_some ops C r hb
  obtain ⟨r2, h2, ok2, is2, o2⟩ := getbit_I_some ops C r1 ok1
  rw [hC, Option.some_bind, h1, Option.some_bind, h2]
  refine ⟨_, rfl, ok2, is2.trans is1, ?_⟩
  rcases o1 with ⟨e1, b1⟩ | ⟨⟨bit1, e1⟩, b1⟩ <;> rcases o2 with ⟨e2, b2⟩ | ⟨⟨bit2, e2⟩, b2⟩
  · exact ⟨[], by simp, by simp [e2, e1], by simp [b2, b1, hbt]⟩
  · exact ⟨[bit2], by simp, by simp [e2, e1], by simp [b2]⟩
  · exact ⟨[bit1], by simp, by simp [e2, e1], by simp [b2, b1]⟩
  · exact ⟨[bit1, bit2], by simp, by simp [e2, e1], by simp [b2]⟩

/-- A bind gives a value when its argument does and the function does on
that value. -/
theorem bind_some {A B : Type} (x : Option A) (f : A → Option B) (Q : A → Prop)
    (P : B → Prop) (hx : ∃ a, x = some a ∧ Q a) (hf : ∀ a, Q a → ∃ b, f a = some b ∧ P b) :
    ∃ b, x.bind f = some b ∧ P b := by
  obtain ⟨a, e, q⟩ := hx
  rw [e, Option.some_bind]
  exact hf a q

theorem ring_sum_some_true {F : Type} (ops : FloatOps F) (buf : List F) (idx : Int) (n : Nat)
    (acc : F) (hl : buf.length = 40) (h0 : 0 ≤ idx) :
    ∃ v, ring_sum ops buf idx n acc = some v ∧ True := by
  obtain ⟨v, hv⟩ := ring_sum_some ops buf idx n acc hl h0
  exact ⟨v, hv, trivial⟩

/-- A call of `_getbit` on a well-formed record makes no access outside a
buffer: it steps the index down by one, wrapping from 0 to 39, keeps the
record well formed, and shifts into the output byte one bit for each bit
block that runs; it reports a bit exactly when one ran. -/
theorem getbit_some {F : Type} (ops : FloatOps F) (h : List F) (b : bstat_s F) (sample : F)
    (outbits : Nat) (hh : h.length = 40) (hb : bstat_ok b) :
    ∃ res, _getbit ops h b sample outbits = some res ∧ (bstat_ok res.bstat ∧
      res.bstat.is = (if b.is - 1 < 0 then BITLEN - 1 else b.is - 1) ∧
      ∃ bits : List Bool, bits.length ≤ 2 ∧ res.outbits = bits.foldl shift_in outbits ∧
        (res.bt = true ↔ bits ≠ [])) := by
  obtain ⟨h0, h1, l1, l2, l3, l4, l5⟩ := hb
  have hB : BITLEN = 40 := rfl
  have i0 : 0 ≤ (if b.is - 1 < 0 then BITLEN - 1 else b.is - 1) := by
    split <;> omega
  have i1 : (if b.is - 1 < 0 then BITLEN - 1 else b.is - 1) < 40 := by
    split <;> omega
  unfold _getbit
  simp only []
  refine bind_some _ _ (fun x => x.length = 40) _
    (by
      obtain ⟨x, e, k⟩ := buf_set_some b.hsample _ _ i0 (by rw [l1]; exact_mod_cast i1)
      exact ⟨x, e, k.trans l1⟩)
    (fun hs k1 => ?_)
  refine bind_some _ _ (fun _ => True) _ (ring_sum_some_true ops hs _ _ _ k1 i0) (fun dfh _ => ?_)
  refine bind_some _ _ (fun x => x.length = 40) _
    (by
      obtain ⟨x, e, k⟩ := buf_set_some b.lsample _ _ i0 (by rw [l2]; exact_mod_cast i1)
      exact ⟨x, e, k.trans l2⟩)
    (fun ls k2 => ?_)
  refine bind_some _ _ (fun _ => True) _ (ring_sum_some_true ops ls _ _ _ k2 i0) (fun dfl _ => ?_)
  refine bind_some _ _ (fun x => x.length = 40) _
    (by
      obtain ⟨x, e, k⟩ := buf_set_some b.isample _ _ i0 (by rw [l3]; exact_mod_cast i1)
      exact ⟨x, e, k.trans l3⟩)
    (fun is2 k3 => ?_)
  refine bind_some _ _ (fun x => x.length = 40) _
    (by
      obtain ⟨x, e, k⟩ := buf_set_some b.qsample _ _ i0 (by rw [l4]; exact_mod_cast i1)
      exact ⟨x, e, k.trans l4⟩)
    (fun qs k4 => ?_)
  refine bind_some _ _ (fun x => x.length = 40) _
    (by
      obtain ⟨x, e, k⟩ := buf_set_some b.csample _ _ i0 (by rw [l5]; exact_mod_cast i1)
      exact ⟨x, e, k.trans l5⟩)
    (fun cs k5 => ?_)
  split
  · exact getbit_clock_some ops h _ hh ⟨i0, by rw [hB]; exact i1, k1, k2, k3, k4, k5⟩ rfl
  · exact ⟨_, rfl, ⟨i0, by rw [hB]; exact i1, k1, k2, k3, k4, k5⟩, rfl, [], by simp, rfl,
      by simp⟩

theorem init_bits_ok {F : Type} (ops : FloatOps F) :
    (init_bits ops).1.length = 40 ∧ bstat_ok (init_bits ops).2 := by
  refine ⟨?_, le_refl _, ?_, ?_, ?_, ?_, ?_, ?_⟩ <;>
    simp [init_bits, BITLEN]

/-- Any number of calls of `_getbit` from a well-formed record make no
access outside a buffer and end in a well-formed record. -/
theorem getbit_calls_some {F : Type} (ops : FloatOps F) (h : List F) (samples : List F)
    (b : bstat_s F) (outbits : Nat) (hh : h.length = 40) (hb : bstat_ok b) :
    ∃ out b2, getbit_calls ops h samples b outbits = some (out, b2) ∧ bstat_ok b2 := by
  induction samples generalizing b outbits with
  | nil => exact ⟨outbits, b, rfl, hb⟩
  | cons s rest ih =>
    obtain ⟨res, e, ok, _⟩ := getbit_some ops h b s outbits hh hb
    obtain ⟨out, b2, e2, ok2⟩ := ih res.bstat res.outbits ok
    exact ⟨out, b2, by rw [getbit_calls, e, Option.some_bind]; exact e2, ok2⟩

/-- C23: starting from `init_bits`, where the index `is` is 0, any number of
calls of `_getbit` on any samples run without a buffer access outside
`[0, BITLEN)` (the model has no result otherwise), and afterwards
`0 <= is < BITLEN = 40`, so that every index `(is + i) % BITLEN` of the next
call is inside `[0, BITLEN)` too. -/
theorem getbit_index_in_range {F : Type} (ops : FloatOps F) (samples : List F)
    (outbits : Nat) :
    BITLEN = 40 ∧ (init_bits ops).2.is = 0 ∧
    ∃ out b, getbit_calls ops (init_bits ops).1 samples (init_bits ops).2 outbits =
        some (out, b) ∧
      0 ≤ b.is ∧ b.is < BITLEN ∧
      ∀ i : Nat, 0 ≤ Int.tmod (b.is + (i : Int)) BITLEN ∧
        Int.tmod (b.is + (i : Int)) BITLEN < BITLEN := by
  obtain ⟨out, b, e, ok⟩ := getbit_calls_some ops (init_bits ops).1 samples (init_bits ops).2
    outbits (init_bits_ok ops).1 (init_bits_ok ops).2
  exact ⟨rfl, rfl, out, b, e, ok.1, ok.2.1, fun i => ring_index b.is i ok.1⟩

theorem bits_value_byte :
    ∀ b0 b1 b2 b3 b4 b5 b6 b7 : Bool,
      bits_value [b0, b1, b2, b3, b4, b5, b6, b7] < 256 ∧
      byte_bits (bits_value [b0, b1, b2, b3, b4, b5, b6, b7]) =
        [b0, b1, b2, b3, b4, b5, b6, b7] ∧
      bits_value [b0, b1, b2, b3, b4, b5, b6, b7] =
        ((if b0 then 1 else 0) <<< 0) + ((if b1 then 1 else 0) <<< 1) +
        ((if b2 then 1 else 0) <<< 2) + ((if b3 then 1 else 0) <<< 3) +
        ((if b4 then 1 else 0) <<< 4) + ((if b5 then 1 else 0) <<< 5) +
        ((if b6 then 1 else 0) <<< 6) + ((if b7 then 1 else 0) <<< 7) := by
  decide

/-- Forty-four calls of `_getbit` on the integer stand-in, evaluated: the
index has gone round once, 44 steps down from 0 are 36. -/
theorem getbit_calls_example :
    (getbit_calls int_ops (init_bits int_ops).1
        [5, 7, 3, 9, 100, 2, 3, 4, 5, 6, 7, 8, 9, 1, 2, 3, 4, 5, 6, 7, 8, 9, 3, 2, 1, 4, 6, 8,
          9, 5, 4, 3, 2, 1, 3, 4, 5, 6, 7, 8, 9, 7, 6, 5]
        (init_bits int_ops).2 0).map (fun r => (r.1, r.2.is, r.2.clock)) =
      some (96, 36, 5) := by
  decide

/-! ## `rotate_90` -/

theorem getD_append_add (pre l : List Nat) (k : Nat) :
    (pre ++ l).getD (pre.length + k) 0 = l.getD k 0 := by
  rw [List.getD_append_right _ _ _ _ (by omega)]
  congr 1
  omega

theorem set_append_add (pre l : List Nat) (k v : Nat) :
    (pre ++ l).set (pre.length + k) v = pre ++ l.set k v := by
  rw [List.set_append_right _ _ (by omega)]
  congr 2
  omega

/-- The loop body works on the group at `i` only. -/
theorem rotate_90_group_append (pre l : List Nat) :
    rotate_90_group (pre ++ l) pre.length = pre ++ rotate_90_group l 0 := by
  simp only [rotate_90_group, getD_append_add, set_append_add, Nat.zero_add]

theorem rotate_90_group_cons (a0 a1 a2 a3 a4 a5 a6 a7 : Nat) (rest : List Nat) :
    rotate_90_group (a0 :: a1 :: a2 :: a3 :: a4 :: a5 :: a6 :: a7 :: rest) 0 =
      a0 :: a1 :: (255 - a3) :: a2 :: (255 - a4) :: (255 - a5) :: a7 :: (255 - a6) :: rest := by
  rfl

theorem length_eight (l : List Nat) (h : 8 ≤ l.length) :
    ∃ a0 a1 a2 a3 a4 a5 a6 a7 t, l = a0 :: a1 :: a2 :: a3 :: a4 :: a5 :: a6 :: a7 :: t := by
  match l, h with
  | a0 :: a1 :: a2 :: a3 :: a4 :: a5 :: a6 :: a7 :: t, _ =>
    exact ⟨a0, a1, a2, a3, a4, a5, a6, a7, t, rfl⟩

theorem rotate_groups_length (l : List Nat) : (rotate_groups l).length = l.length := by
  induction l using rotate_groups.induct with
  | case1 i0 q0 i1 q1 i2 q2 i3 q3 rest ih =>
    simp only [rotate_groups, List.length_cons, ih]
  | case2 l h =>
    rw [rotate_groups]
    intro i0 q0 i1 q1 i2 q2 i3 q3 rest e
    exact h i0 q0 i1 q1 i2 q2 i3 q3 rest e

/-- The loop of `rotate_90` standing at the start of the bytes `todo`, a
whole number of groups: the groups still to do are rotated, what is before
and after them is left alone. -/
theorem rotate_90_loop_spec (fuel : Nat) (done todo rest : List Nat)
    (h8 : todo.length % 8 = 0) (hlen : done.length + todo.length < 4294967296)
    (hfuel : todo.length / 8 + 1 ≤ fuel) :
    rotate_90_loop fuel (done ++ (todo ++ rest)) (done.length + todo.length) done.length =
      some (done ++ (rotate_groups todo ++ rest)) := by
  induction fuel generalizing done todo with
  | zero => omega
  | succ fuel ih =>
    rw [rotate_90_loop]
    by_cases h0 : todo.length = 0
    · have e : todo = [] := List.length_eq_zero.mp h0
      subst e
      rw [if_neg (by simp)]
      rfl
    · obtain ⟨a0, a1, a2, a3, a4, a5, a6, a7, t, e⟩ := length_eight todo (by omega)
      subst e
      rw [if_pos (by simp), rotate_90_group_append, List.cons_append, List.cons_append,
        List.cons_append, List.cons_append, List.cons_append, List.cons_append,
        List.cons_append, List.cons_append, rotate_90_group_cons]
      simp only [List.length_cons] at h8 hlen hfuel
      have hi : (done.length + 8) % 4294967296 = done.length + 8 :=
        Nat.mod_eq_of_lt (by omega)
      have key := ih
        (done ++ [a0, a1, 255 - a3, a2, 255 - a4, 255 - a5, a7, 255 - a6]) t
        (by omega) (by simp only [List.length_append, List.length_cons, List.length_nil]; omega)
        (by omega)
      simp only [List.length_append, List.length_cons, List.length_nil, List.append_assoc,
        List.cons_append, List.nil_append, Nat.zero_add] at key
      have e1 : done.length + (a0 :: a1 :: a2 :: a3 :: a4 :: a5 :: a6 :: a7 :: t).length =
          done.length + (1 + 1 + 1 + 1 + 1 + 1 + 1 + 1) + t.length := by
        simp only [List.length_cons]
        omega
      have e2 : done.length + 8 = done.length + (1 + 1 + 1 + 1 + 1 + 1 + 1 + 1) := rfl
      rw [hi, e1, e2, key, rotate_groups]
      rfl

/-- C27: for a buffer whose length is a multiple of 8 (and fits the 32-bit
length), `rotate_90` returns and maps every group of eight bytes
`[i0,q0,i1,q1,i2,q2,i3,q3]` to
`[i0, q0, 255-q1, i1, 255-i2, 255-q2, q3, 255-i3]`, that is the four IQ pairs
times 1, j, -1, -j with negation as `255 - x`; the length is unchanged and
the bytes after the buffer are left alone. -/
theorem rotate_90_groups (buf rest : List Nat) (h8 : buf.length % 8 = 0)
    (hlen : buf.length < 4294967296) :
    rotate_90 (buf ++ rest) buf.length = some (rotate_groups buf ++ rest) ∧
    (rotate_groups buf).length = buf.length ∧
    ∀ i0 q0 i1 q1 i2 q2 i3 q3 : Nat, ∀ l : List Nat,
      rotate_groups (i0 :: q0 :: i1 :: q1 :: i2 :: q2 :: i3 :: q3 :: l) =
        (mul_j_pow 0 (i0, q0)).1 :: (mul_j_pow 0 (i0, q0)).2 ::
        (mul_j_pow 1 (i1, q1)).1 :: (mul_j_pow 1 (i1, q1)).2 ::
        (mul_j_pow 2 (i2, q2)).1 :: (mul_j_pow 2 (i2, q2)).2 ::
        (mul_j_pow 3 (i3, q3)).1 :: (mul_j_pow 3 (i3, q3)).2 :: rotate_groups l := by
  refine ⟨?_, rotate_groups_length buf, fun i0 q0 i1 q1 i2 q2 i3 q3 l => ?_⟩
  · have key := rotate_90_loop_spec (buf.length / 8 + 2) [] buf rest h8 (by simpa using hlen)
      (by omega)
    simpa [rotate_90] using key
  · rw [rotate_groups]
    rfl

theorem rotate_90_groups_witness :
    [10, 20, 30, 40, 50, 60, 70, 80].length % 8 = 0 ∧
    rotate_90 ([10, 20, 30, 40, 50, 60, 70, 80] ++ [99]) [10, 20, 30, 40, 50, 60, 70, 80].length =
      some (rotate_groups [10, 20, 30, 40, 50, 60, 70, 80] ++ [99]) ∧
    (rotate_groups [10, 20, 30, 40, 50, 60, 70, 80]).length =
      [10, 20, 30, 40, 50, 60, 70, 80].length ∧
    ∀ i0 q0 i1 q1 i2 q2 i3 q3 : Nat, ∀ l : List Nat,
      rotate_groups (i0 :: q0 :: i1 :: q1 :: i2 :: q2 :: i3 :: q3 :: l) =
        (mul_j_pow 0 (i0, q0)).1 :: (mul_j_pow 0 (i0, q0)).2 ::
        (mul_j_pow 1 (i1, q1)).1 :: (mul_j_pow 1 (i1, q1)).2 ::
        (mul_j_pow 2 (i2, q2)).1 :: (mul_j_pow 2 (i2, q2)).2 ::
        (mul_j_pow 3 (i3, q3)).1 :: (mul_j_pow 3 (i3, q3)).2 :: rotate_groups l :=
  ⟨by decide, rotate_90_groups [10, 20, 30, 40, 50, 60, 70, 80] [99] (by decide) (by decide)⟩

/-- The rotation of one group and of two, evaluated. -/
theorem rotate_90_example :
    rotate_90 [10, 20, 30, 40, 50, 60, 70, 80, 1, 2, 3, 4, 5, 6, 7, 8, 99] 16 =
      some [10, 20, 215, 30, 205, 195, 80, 185, 1, 2, 251, 3, 250, 249, 8, 248, 99] := by
  decide

/-! ## `low_pass` -/

theorem window_sum_succ (buf : List Nat) (p c m : Nat) :
    window_sum buf p c (m + 1) =
      (((buf.getD (2 * p + c) 0 : Nat) : Int) - 127) + window_sum buf (p + 1) c m := by
  simp only [window_sum, List.range_succ_eq_map, List.map_cons, List.sum_cons, List.map_map,
    Nat.add_zero]
  congr 2
  apply List.map_congr_left
  intro t _
  simp only [Function.comp]
  congr 3
  omega

theorem window_sum_zero (buf : List Nat) (p c : Nat) : window_sum buf p c 0 = 0 := rfl

/-- One window of the loop of `low_pass`: `m + 1` further IQ pairs complete
the window, the sums are stored, as they are or scaled by 5/8, and the
accumulators and the counter are cleared. -/
theorem low_pass_window (m : Nat) :
    ∀ (fuel : Nat) (fm : fm_state) (buf : List Nat) (len p i2 seq : Nat),
      fm.prev_index + (m : Int) + 1 = fm.downsample → 2 * (p + m + 1) ≤ len →
      low_pass_loop (m + 1 + fuel) fm buf len (2 * p) i2 seq =
        low_pass_loop fuel
          { fm with
            prev_index := 0, now_r := 0, now_j := 0
            signal :=
              (if seq % 2 = 1 then
                (fm.signal.set i2
                  (Int.tdiv ((fm.now_r + window_sum buf p 0 (m + 1)) * 5) 8)).set (i2 + 1)
                  (Int.tdiv ((fm.now_j + window_sum buf p 1 (m + 1)) * 5) 8)
              else
                (fm.signal.set i2 (fm.now_r + window_sum buf p 0 (m + 1))).set (i2 + 1)
                  (fm.now_j + window_sum buf p 1 (m + 1))) }
          buf len (2 * (p + m + 1)) (i2 + 2) (seq + 1) := by
  induction m with
  | zero =>
    intro fuel fm buf len p i2 seq hd hlen
    have e : 0 + 1 + fuel = fuel + 1 := by omega
    rw [e, low_pass_loop, if_pos (by omega)]
    simp only []
    rw [if_neg (by omega)]
    simp only [window_sum_succ, window_sum_zero, Nat.add_zero, Int.add_zero]
    have e2 : 2 * p + 2 = 2 * (p + 0 + 1) := by omega
    rw [e2]
    by_cases hs : seq % 2 = 1
    · simp only [hs, if_true]
    · simp only [hs, if_false]
  | succ m ih =>
    intro fuel fm buf len p i2 seq hd hlen
    have e : m + 1 + 1 + fuel = (m + 1 + fuel) + 1 := by omega
    rw [e, low_pass_loop, if_pos (by omega)]
    simp only []
    rw [if_pos (by push_cast at hd; omega)]
    have e2 : 2 * p + 2 = 2 * (p + 1) := by omega
    rw [e2, ih fuel _ buf len (p + 1) i2 seq (by push_cast at hd ⊢; omega)
      (by omega)]
    have e3 : 2 * (p + 1 + m + 1) = 2 * (p + (m + 1) + 1) := by omega
    rw [e3, window_sum_succ buf p 0 (m + 1), window_sum_succ buf p 1 (m + 1)]
    simp only [Nat.add_zero, Int.add_assoc]

theorem take_set_pair (S : List Int) (n : Nat) (a b : Int) (h : n + 2 ≤ S.length) :
    ((S.set n a).set (n + 1) b).take (n + 2) = S.take n ++ [a, b] := by
  induction n generalizing S with
  | zero =>
    match S, h with
    | x :: y :: T, _ => rfl
  | succ n ih =>
    match S, h with
    | x :: T, h =>
      simp only [List.length_cons] at h
      simp only [List.set_cons_succ, List.take_succ_cons, List.cons_append]
      rw [ih T (by omega)]

theorem low_pass_pairs_length (buf : List Nat) (d n : Nat) :
    (low_pass_pairs buf d n).length = 2 * n := by
  induction n with
  | zero => rfl
  | succ n ih =>
    rw [low_pass_pairs, List.length_append, ih]
    unfold low_pass_pair
    split <;> simp <;> omega

/-- The loop of `low_pass` standing at the start of window `k` with `w`
whole windows to go: it ends with `2 * (k + w)` values stored, the windows
`k` to `k + w - 1` added to what was stored before, and changes nothing but
the array `signal`. -/
theorem low_pass_windows (w : Nat) :
    ∀ (fuel : Nat) (fm : fm_state) (buf : List Nat) (d k : Nat),
      1 ≤ d → fm.downsample = (d : Int) → fm.prev_index = 0 → fm.now_r = 0 → fm.now_j = 0 →
      fm.signal.take (2 * k) = low_pass_pairs buf d k → 2 * (k + w) ≤ fm.signal.length →
      ∃ sig, low_pass_loop (w * d + 1 + fuel) fm buf (2 * ((k + w) * d)) (2 * (k * d)) (2 * k) k =
          some ({ fm with signal := sig }, 2 * (k + w)) ∧
        sig.take (2 * (k + w)) = low_pass_pairs buf d (k + w) ∧
        sig.length = fm.signal.length := by
  induction w with
  | zero =>
    intro fuel fm buf d k hd1 hd hp hr hj htake hcap
    refine ⟨fm.signal, ?_, htake, rfl⟩
    have e : 0 * d + 1 + fuel = fuel + 1 := by omega
    rw [e, low_pass_loop, Nat.add_zero, if_neg (by omega)]
  | succ w ih =>
    intro fuel fm buf d k hd1 hd hp hr hj htake hcap
    have m1 : (k + (w + 1)) * d = k * d + w * d + d := by
      rw [Nat.add_mul, Nat.add_mul, Nat.one_mul, Nat.add_assoc]
    have m2 : (w + 1) * d = w * d + d := by rw [Nat.add_mul, Nat.one_mul]
    have m3 : (k + 1) * d = k * d + d := by rw [Nat.add_mul, Nat.one_mul]
    have m4 : (k + 1 + w) * d = k * d + w * d + d := by
      rw [Nat.add_mul, Nat.add_mul, Nat.one_mul]
      omega
    have e : (w + 1) * d + 1 + fuel = (d - 1) + 1 + (w * d + 1 + fuel) := by omega
    have hcast : ((d - 1 : Nat) : Int) = (d : Int) - 1 := by omega
    rw [e, low_pass_window (d - 1) _ fm buf _ (k * d) (2 * k) k
      (by rw [hp, hd, hcast]; omega) (by omega)]
    have e2 : 2 * (k * d + (d - 1) + 1) = 2 * ((k + 1) * d) := by omega
    have e3 : 2 * k + 2 = 2 * (k + 1) := by omega
    have e4 : 2 * ((k + (w + 1)) * d) = 2 * ((k + 1 + w) * d) := by omega
    have e5 : d - 1 + 1 = d := by omega
    rw [e2, e3, e4, e5, hr, hj]
    simp only [Int.zero_add]
    have hpair : ((if k % 2 = 1 then
          (fm.signal.set (2 * k) (Int.tdiv (window_sum buf (k * d) 0 d * 5) 8)).set (2 * k + 1)
            (Int.tdiv (window_sum buf (k * d) 1 d * 5) 8)
        else
          (fm.signal.set (2 * k) (window_sum buf (k * d) 0 d)).set (2 * k + 1)
            (window_sum buf (k * d) 1 d)) : List Int).take (2 * (k + 1)) =
        low_pass_pairs buf d (k + 1) ∧
        ((if k % 2 = 1 then
          (fm.signal.set (2 * k) (Int.tdiv (window_sum buf (k * d) 0 d * 5) 8)).set (2 * k + 1)
            (Int.tdiv (window_sum buf (k * d) 1 d * 5) 8)
        else
          (fm.signal.set (2 * k) (window_sum buf (k * d) 0 d)).set (2 * k + 1)
            (window_sum buf (k * d) 1 d)) : List Int).length = fm.signal.length := by
      rw [low_pass_pairs, low_pass_pair, ← htake, ← e3]
      by_cases hs : k % 2 = 1
      · simp only [hs, if_true]
        exact ⟨take_set_pair _ _ _ _ (by omega), by simp⟩
      · simp only [hs, if_false]
        exact ⟨take_set_pair _ _ _ _ (by omega), by simp⟩
    obtain ⟨sig, hloop, hsig, hlen⟩ := ih fuel
      { fm with
        prev_index := 0, now_r := 0, now_j := 0
        signal :=
          (if k % 2 = 1 then
            (fm.signal.set (2 * k) (Int.tdiv (window_sum buf (k * d) 0 d * 5) 8)).set
              (2 * k + 1) (Int.tdiv (window_sum buf (k * d) 1 d * 5) 8)
          else
            (fm.signal.set (2 * k) (window_sum buf (k * d) 0 d)).set (2 * k + 1)
              (window_sum buf (k * d) 1 d)) }
      buf d (k + 1) hd1 hd rfl rfl rfl hpair.1 (by rw [hpair.2]; omega)
    have e6 : k + (w + 1) = k + 1 + w := by omega
    refine ⟨sig, ?_, by rw [e6]; exact hsig, by rw [hlen, hpair.2]⟩
    rw [hloop, e6]
    congr 2
    cases fm
    simp_all

theorem low_pass_pairs_take (buf : List Nat) (d n k : Nat) (h : k ≤ n) :
    (low_pass_pairs buf d n).take (2 * k) = low_pass_pairs buf d k := by
  induction n with
  | zero =>
    have e : k = 0 := by omega
    subst e
    rfl
  | succ n ih =>
    by_cases hk : k = n + 1
    · subst hk
      exact List.take_of_length_le (by rw [low_pass_pairs_length])
    · rw [low_pass_pairs, List.take_append_of_le_length (by rw [low_pass_pairs_length]; omega)]
      exact ih (by omega)

/-- Output pair `k` sits at the indices `2 * k` and `2 * k + 1`. -/
theorem low_pass_pairs_pair (buf : List Nat) (d n k : Nat) (sig : List Int)
    (hsig : sig.take (2 * n) = low_pass_pairs buf d n) (h : k < n) :
    [sig.getD (2 * k) 0, sig.getD (2 * k + 1) 0] = low_pass_pair buf d k := by
  have h1 : sig.take (2 * (k + 1)) = low_pass_pairs buf d (k + 1) := by
    rw [← low_pass_pairs_take buf d n (k + 1) (by omega), ← hsig, List.take_take]
    congr 1
    omega
  have h2 : (low_pass_pair buf d k).length = 2 := by
    unfold low_pass_pair
    split <;> rfl
  have h3 := low_pass_pairs_length buf d k
  rw [low_pass_pairs] at h1
  have g0 : sig.getD (2 * k) 0 = (low_pass_pair buf d k).getD 0 0 := by
    have := congrArg (fun l => l.getD (2 * k) 0) h1
    simp only [List.getD_eq_getElem?_getD, List.getElem?_take] at this
    rw [if_pos (by omega), List.getElem?_append_right (by omega), h3, Nat.sub_self] at this
    simpa [List.getD_eq_getElem?_getD] using this
  have g1 : sig.getD (2 * k + 1) 0 = (low_pass_pair buf d k).getD 1 0 := by
    have := congrArg (fun l => l.getD (2 * k + 1) 0) h1
    simp only [List.getD_eq_getElem?_getD, List.getElem?_take] at this
    rw [if_pos (by omega), List.getElem?_append_right (by omega), h3,
      show 2 * k + 1 - 2 * k = 1 by omega] at this
    simpa [List.getD_eq_getElem?_getD] using this
  rw [g0, g1]
  match hl : low_pass_pair buf d k, h2 with
  | [a, b], _ => rfl

/-- C28: for a conditioner with `prev_index` 0 and both accumulators 0, a
decimation factor `d` of at least 1 and an input of `2 * d * n` bytes,
`low_pass` returns with exactly `n` output pairs stored (`signal_len = 2n`):
output pair `k` is the pair of sums of `I - 127` and of `Q - 127` over its
window of `d` inputs, as they are when `k` is even and replaced by
`(sum * 5) / 8` with truncating division when `k` is odd; afterwards
`prev_index` and both accumulators are 0 again and nothing but `signal` and
`signal_len` has changed. -/
theorem low_pass_decimates (fm : fm_state) (buf : List Nat) (d n : Nat) (hd1 : 1 ≤ d)
    (hd : fm.downsample = (d : Int)) (hp : fm.prev_index = 0) (hr : fm.now_r = 0)
    (hj : fm.now_j = 0) (hbuf : buf.length = 2 * d * n) (hcap : 2 * n ≤ fm.signal.length) :
    ∃ res, low_pass fm buf (2 * d * n) = some res ∧
      res = { fm with signal := res.signal, signal_len := ((2 * n : Nat) : Int) } ∧
      res.signal.length = fm.signal.length ∧
      res.signal.take (2 * n) = low_pass_pairs buf d n ∧
      (∀ k, k < n →
        [res.signal.getD (2 * k) 0, res.signal.getD (2 * k + 1) 0] =
          (if k % 2 = 1 then
            [Int.tdiv (window_sum buf (k * d) 0 d * 5) 8,
              Int.tdiv (window_sum buf (k * d) 1 d * 5) 8]
          else [window_sum buf (k * d) 0 d, window_sum buf (k * d) 1 d])) ∧
      res.prev_index = 0 ∧ res.now_r = 0 ∧ res.now_j = 0 := by
  obtain ⟨sig, hloop, hsig, hlen⟩ := low_pass_windows n 1 fm buf d 0 hd1 hd hp hr hj rfl
    (by omega)
  have e1 : 2 * d * n / 2 + 2 = n * d + 1 + 1 := by
    rw [Nat.mul_assoc, Nat.mul_div_cancel_left _ (by omega : 0 < 2), Nat.mul_comm d n]
  have e2 : 2 * d * n = 2 * ((0 + n) * d) := by
    rw [Nat.zero_add, Nat.mul_assoc, Nat.mul_comm d n]
  simp only [Nat.zero_add, Nat.zero_mul, Nat.mul_zero] at hloop hsig
  refine ⟨{ fm with signal := sig, signal_len := ((2 * n : Nat) : Int) }, ?_, rfl, hlen, hsig,
    fun k hk => low_pass_pairs_pair buf d n k sig hsig hk, hp, hr, hj⟩
  rw [low_pass, e1, e2, Nat.zero_add, hloop]
  rfl

theorem low_pass_decimates_witness :
    ∃ res, low_pass { fm_init with downsample := 2 }
        [130, 120, 140, 100, 0, 255, 1, 250] (2 * 2 * 2) = some res ∧
      res = { { fm_init with downsample := 2 } with
              signal := res.signal, signal_len := ((2 * 2 : Nat) : Int) } ∧
      res.signal.length = ({ fm_init with downsample := 2 } : fm_state).signal.length ∧
      res.signal.take (2 * 2) = low_pass_pairs [130, 120, 140, 100, 0, 255, 1, 250] 2 2 ∧
      (∀ k, k < 2 →
        [res.signal.getD (2 * k) 0, res.signal.getD (2 * k + 1) 0] =
          (if k % 2 = 1 then
            [Int.tdiv (window_sum [130, 120, 140, 100, 0, 255, 1, 250] (k * 2) 0 2 * 5) 8,
              Int.tdiv (window_sum [130, 120, 140, 100, 0, 255, 1, 250] (k * 2) 1 2 * 5) 8]
          else
            [window_sum [130, 120, 140, 100, 0, 255, 1, 250] (k * 2) 0 2,
              window_sum [130, 120, 140, 100, 0, 255, 1, 250] (k * 2) 1 2])) ∧
      res.prev_index = 0 ∧ res.now_r = 0 ∧ res.now_j = 0 :=
  low_pass_decimates { fm_init with downsample := 2 } [130, 120, 140, 100, 0, 255, 1, 250] 2 2
    (by decide) rfl rfl rfl rfl rfl (by decide)

/-- The decimation by 2 of four IQ pairs, evaluated: the second output pair
is scaled by 5/8 with truncation towards zero. -/
theorem low_pass_example :
    (low_pass { fm_init with downsample := 2 } [130, 120, 140, 100, 0, 255, 1, 250] 8).map
      (fun res => (res.signal, res.signal_len, res.prev_index, res.now_r, res.now_j)) =
      some ([16, -34, -158, 156], 4, 0, 0, 0) := by
  decide

/-! ## `am_demod`, `mad` and `post_squelch` -/

theorem wrap16_modEq (x : Int) : wrap16 x ≡ x [ZMOD 65536] := by
  unfold wrap16 Int.ModEq
  omega

theorem wrap16_congr (x y : Int) (h : x ≡ y [ZMOD 65536]) : wrap16 x = wrap16 y := by
  unfold wrap16
  unfold Int.ModEq at h
  omega

theorem wrap16_of_lt (x : Int) (h0 : 0 ≤ x) (h1 : x < 32768) : wrap16 x = x := by
  unfold wrap16
  omega

/-- The sample `am_demod` stores for an IQ pair is the low 16 bits, in two's
complement, of the integer square root of `I*I + Q*Q` times `output_scale`
times 8. -/
theorem am_sample_eq (I Q s : Int) (h : Int.sqrt (I * I + Q * Q) < 32768) :
    am_sample I Q s = wrap16 (Int.sqrt (I * I + Q * Q) * s * 8) := by
  unfold am_sample
  simp only []
  rw [wrap16_of_lt _ (Int.sqrt_nonneg _) h]
  exact wrap16_congr _ _ ((wrap16_modEq _).mul_right 8)

/-- The stored sample is the product itself when the product fits 16 bits. -/
theorem am_sample_small (I Q s : Int) (h0 : 0 ≤ s)
    (h : Int.sqrt (I * I + Q * Q) * s * 8 < 32768) (h2 : Int.sqrt (I * I + Q * Q) < 32768) :
    am_sample I Q s = Int.sqrt (I * I + Q * Q) * s * 8 := by
  rw [am_sample_eq I Q s h2]
  exact wrap16_of_lt _
    (Int.mul_nonneg (Int.mul_nonneg (Int.sqrt_nonneg _) h0) (by decide)) h

theorem sqrt_160000 : Int.sqrt (400 * 400 + 0 * 0) = 400 := by
  show ((Nat.sqrt (Int.toNat (400 * 400 + 0 * 0)) : Nat) : Int) = 400
  have h : Nat.sqrt 160000 = 400 := by simpa using Nat.sqrt_eq' 400
  simp [h]

/-- C29 at the failing input: with the settings for 48000 samples per second
(`downsample` 21, `output_scale` 12), the block `buf_loud` is decimated by
`low_pass` to the IQ pair (400, 0), and `am_demod` stores -27136 for it, not
`floor(sqrt(400*400 + 0*0)) * 12 * 8 = 38400`, which does not fit a signed
16-bit sample; `signal2_len` is `signal_len / 2`. -/
theorem am_demod_overflows :
    fm_init.downsample = 21 ∧ fm_init.output_scale = 12 ∧
    low_pass fm_init buf_loud 42 = some fm_loud ∧
    (am_demod fm_loud).map (fun r => (r.signal2.getD 0 0, r.signal2_len)) =
      some (-27136, 1) ∧
    Int.sqrt (400 * 400 + 0 * 0) * 12 * 8 = 38400 ∧ ¬ ((38400 : Int) ≤ 32767) := by
  refine ⟨by decide, by decide, by decide, ?_, by rw [sqrt_160000]; decide, by decide⟩
  have hs : am_sample 400 0 12 = -27136 := by
    unfold am_sample
    simp only []
    rw [sqrt_160000]
    decide
  have h0 : fm_loud.signal_len = 2 := rfl
  have h1 : fm_loud.signal = [400, 0, 0, 0] := rfl
  have h2 : fm_loud.output_scale = 12 := by decide
  have h3 : fm_loud.signal2 = [0, 0] := by decide
  simp [am_demod, am_demod_loop, h0, h1, h2, h3, hs]

/-- C30 at the failing input: for two IQ pairs with all four values 100,
`mad` at stride 2 returns 75, because it divides the sum of the samples by
`len * step` and not by their number `len / step`; the mean absolute
deviation of the equal samples is 0. So `post_squelch` with
`squelch_level` 10 reports a signal (returns 1 and clears `squelch_hits`)
although both deviations are 0. -/
theorem mad_wrong_mean :
    mad [100, 100, 100, 100] 4 2 = some 75 ∧
    mean_abs_dev (stride2 [100, 100, 100, 100]) = 0 ∧
    fm_flat.squelch_level = 10 ∧
    (post_squelch fm_flat).map (fun p => (p.2, p.1.squelch_hits)) = some (1, 0) ∧
    mean_abs_dev (stride2 fm_flat.signal) ≤ fm_flat.squelch_level ∧
    mean_abs_dev (stride2 (fm_flat.signal.drop 1)) ≤ fm_flat.squelch_level := by
  decide

/-! ## Bit counting, loop passes and the `CRC2`/`END` calls -/

/-- C39: for all words `a` and `b` below `2^64` the 64-bit
`_count_bit_errors(a, b)` is the Hamming distance, the number of set bits
among the 64 low bits of `a XOR b`; `bits_set[x]` is the number of set bits of
`x` for every `x` in `[0, 256)`; and the 8-bit overload on bytes `c1`, `c2`
returns the number of set bits of `c1 XOR c2`. -/
theorem count_bit_errors_popcount :
    (∀ a b : Nat, a < 2 ^ 64 → b < 2 ^ 64 →
      _count_bit_errors a b = (popcount 64 (a ^^^ b) : Int)) ∧
    (∀ x : Nat, x < 256 → bits_set.getD x 0 = popcount 8 x) ∧
    (∀ c1 c2 : Nat, c1 < 256 → c2 < 256 →
      _count_bit_errors_u8 c1 c2 = (popcount 8 (c1 ^^^ c2) : Int)) := by
  refine ⟨fun a b _ _ => ?_, fun x hx => bits_set_eq_popcount x hx, fun c1 c2 h1 h2 => ?_⟩
  · rw [count_bit_errors_eq]; rfl
  · unfold _count_bit_errors_u8
    rw [bits_set_eq_popcount _ (Nat.xor_lt_two_pow (n := 8) h1 h2)]

theorem _getmesg_loop_succ {F : Type} (n : Nat) (g : Globals F) (r : Nat) (msg : Option msg_t)
    (res : Result F) (h : _getmesg_loop n g r msg = some res) :
    _getmesg_loop (n + 1) g r msg = some res := by
  induction n generalizing g msg with
  | zero => simp [_getmesg_loop] at h
  | succ n ih =>
    rw [_getmesg_loop] at h ⊢
    cases hp : _getmesg_pass g r msg with
    | ret g2 m2 v => rw [hp] at h; exact h
    | again g2 m2 => rw [hp] at h; exact ih g2 m2 h
    | fault => rw [hp] at h; cases h

theorem _getmesg_loop_add {F : Type} (n k : Nat) (g : Globals F) (r : Nat) (msg : Option msg_t)
    (res : Result F) (h : _getmesg_loop n g r msg = some res) :
    _getmesg_loop (n + k) g r msg = some res := by
  induction k with
  | zero => exact h
  | succ k ih => exact _getmesg_loop_succ _ g r msg res ih

/-- A pass of the `switch` leaves it without returning exactly in `HEADF` on a
byte other than the pre-key character and in `TXT` on overflow. -/
theorem getmesg_pass_again {F : Type} (g : Globals F) (r : Nat) (msg : Option msg_t)
    (g2 : Globals F) (m2 : Option msg_t) (h : _getmesg_pass g r msg = Pass.again g2 m2) :
    (g.m_state.state = STATE.HEADF ∧ r ≠ PRE_KEY_CHAR ∧ g2.m_state.state = STATE.SYNC) ∨
      (g.m_state.state = STATE.TXT ∧ (g.m_state.rawText ++ [r]).length > BMAX ∧
        g2.m_state.state = STATE.HEADL) := by
  unfold _getmesg_pass at h
  cases hs : g.m_state.state <;> rw [hs] at h <;> simp only [] at h
  · split_ifs at h
  · split_ifs at h with h1
    cases h
    exact Or.inl ⟨rfl, h1, rfl⟩
  · cases h
  · split_ifs at h with h1
    cases h
    exact Or.inr ⟨rfl, h1, rfl⟩
  · cases h
  · cases h
  · split_ifs at h
    · split at h <;> cases h
    · split at h
      · split at h <;> cases h
      · cases h

theorem getmesg_pass_SYNC_ret {F : Type} (g : Globals F) (r : Nat) (msg : Option msg_t)
    (hs : g.m_state.state = STATE.SYNC) :
    ∃ g3 m3 v, _getmesg_pass g r msg = Pass.ret g3 m3 v := by
  unfold _getmesg_pass
  rw [hs]
  exact ⟨_, _, _, rfl⟩

theorem getmesg_pass_HEADL_ret {F : Type} (g : Globals F) (r : Nat) (msg : Option msg_t)
    (hs : g.m_state.state = STATE.HEADL) :
    ∃ g3 m3, _getmesg_pass g r msg = Pass.ret g3 m3 1 := by
  unfold _getmesg_pass
  rw [hs]
  simp only []
  split_ifs <;> exact ⟨_, _, rfl⟩

/-- A pass of the `switch` faults exactly when the call does. -/
theorem getmesg_pass_fault_iff {F : Type} (g : Globals F) (r : Nat) (msg : Option msg_t) :
    _getmesg_pass g r msg = Pass.fault ↔ end_faults g := by
  rw [← getmesg_none_iff g r msg]
  unfold _getmesg
  constructor
  · intro h
    simp only [_getmesg_loop, h]
  · intro h
    cases hp : _getmesg_pass g r msg with
    | fault => rfl
    | ret g2 m2 v =>
      simp only [_getmesg_loop, hp] at h
      cases h
    | again g2 m2 =>
      exfalso
      rcases getmesg_pass_again g r msg g2 m2 hp with ⟨_, _, c⟩ | ⟨_, _, c⟩
      · obtain ⟨g3, m3, v, e⟩ := getmesg_pass_SYNC_ret g2 r m2 c
        simp only [_getmesg_loop, hp, e] at h
        cases h
      · obtain ⟨g3, m3, e⟩ := getmesg_pass_HEADL_ret g2 r m2 c
        simp only [_getmesg_loop, hp, e] at h
        cases h

theorem _getmesg_loop_fault {F : Type} (n : Nat) (g : Globals F) (r : Nat) (msg : Option msg_t)
    (h : _getmesg_pass g r msg = Pass.fault) : _getmesg_loop n g r msg = none := by
  cases n with
  | zero => rfl
  | succ n => simp only [_getmesg_loop, h]

/-- C38, with the case in which the code fails: the loop of `_getmesg` never
makes a third pass.  A pass ends without returning exactly in `HEADF` on a
byte other than 0xFF, which goes on in `SYNC`, and in `TXT` on overflow of the
raw frame, which goes on in `HEADL`; the pass after it always returns, and
after text overflow the value returned is 1.  So two passes of fuel give the
result of the call whenever there is one, and more fuel gives the same.  The
call has no result exactly when its first pass faults: in `END`, on an
accepted frame that `build_mesg` cannot index (fewer than 27 or more than 283
bytes); no amount of fuel gives a result then. -/
theorem getmesg_two_passes {F : Type} (g : Globals F) (r : Nat) (msg : Option msg_t) :
    (_getmesg g r msg = none ↔ end_faults g) ∧
    (_getmesg_pass g r msg = Pass.fault ↔ end_faults g) ∧
    (end_faults g ↔
      g.m_state.state = STATE.END ∧ end_frame g.m_state.rawText ≠ none ∧
        (g.m_state.rawText.length < 27 ∨ 283 < g.m_state.rawText.length)) ∧
    (end_faults g → ∀ n, _getmesg_loop n g r msg = none) ∧
    (¬ end_faults g →
      ∃ res, _getmesg_loop 2 g r msg = some res ∧ _getmesg g r msg = some res ∧
        ∀ n, _getmesg_loop (2 + n) g r msg = some res) ∧
    ((∃ g2 m2, _getmesg_pass g r msg = Pass.again g2 m2) ↔
      ((g.m_state.state = STATE.HEADF ∧ r ≠ PRE_KEY_CHAR) ∨
        (g.m_state.state = STATE.TXT ∧ (g.m_state.rawText ++ [r]).length > BMAX))) ∧
    (∀ g2 m2, _getmesg_pass g r msg = Pass.again g2 m2 →
      ∃ g3 m3 v, _getmesg_pass g2 r m2 = Pass.ret g3 m3 v ∧
        _getmesg_loop 1 g r msg = none ∧
        _getmesg_loop 2 g r msg = some { g := g3, msg := m3, ret := v } ∧
        ((g.m_state.state = STATE.HEADF ∧ g2.m_state.state = STATE.SYNC) ∨
          (g.m_state.state = STATE.TXT ∧ g2.m_state.state = STATE.HEADL ∧ v = 1))) ∧
    (∀ g3 m3 v, _getmesg_pass g r msg = Pass.ret g3 m3 v →
      _getmesg_loop 1 g r msg = some { g := g3, msg := m3, ret := v }) := by
  refine ⟨getmesg_none_iff g r msg, getmesg_pass_fault_iff g r msg, end_faults_iff g,
    fun hf n => _getmesg_loop_fault n g r msg ((getmesg_pass_fault_iff g r msg).mpr hf),
    fun hnf => ?_, ⟨fun ⟨g2, m2, h⟩ => ?_, fun h => ?_⟩, fun g2 m2 h => ?_, fun g3 m3 v h => ?_⟩
  · obtain ⟨res, h⟩ := _getmesg_returns g r msg hnf
    exact ⟨res, h, h, fun n => _getmesg_loop_add 2 n g r msg res h⟩
  · rcases getmesg_pass_again g r msg g2 m2 h with ⟨a, b, _⟩ | ⟨a, b, _⟩
    · exact Or.inl ⟨a, b⟩
    · exact Or.inr ⟨a, b⟩
  · rcases h with ⟨hs, hr⟩ | ⟨hs, hr⟩
    · exact ⟨_, _, by unfold _getmesg_pass; rw [hs]; exact if_neg hr⟩
    · exact ⟨_, _, by unfold _getmesg_pass; rw [hs]; exact if_pos hr⟩
  · rcases getmesg_pass_again g r msg g2 m2 h with ⟨a, _, c⟩ | ⟨a, _, c⟩
    · obtain ⟨g3, m3, v, e⟩ := getmesg_pass_SYNC_ret g2 r m2 c
      refine ⟨g3, m3, v, e, ?_, ?_, Or.inl ⟨a, c⟩⟩
      · simp only [_getmesg_loop, h]
      · simp only [_getmesg_loop, h, e]
    · obtain ⟨g3, m3, e⟩ := getmesg_pass_HEADL_ret g2 r m2 c
      refine ⟨g3, m3, 1, e, ?_, ?_, Or.inr ⟨a, c, rfl⟩⟩
      · simp only [_getmesg_loop, h]
      · simp only [_getmesg_loop, h, e]
  · simp only [_getmesg_loop, h]

/-- C38 at the failing input: in `END` with the four-byte frame
`frame_short`, whose CRC is zero, the first pass faults in `build_mesg` and
the call has no result, with any amount of fuel. -/
theorem getmesg_two_passes_witness :
    end_faults (globals_end frame_short) ∧
    _getmesg_pass (globals_end frame_short) 0x7f none = Pass.fault ∧
    _getmesg (globals_end frame_short) 0x7f none = none ∧
    ∀ n, _getmesg_loop n (globals_end frame_short) 0x7f none = none :=
  ⟨by decide,
    (getmesg_two_passes (globals_end frame_short) 0x7f none).2.1.mpr (by decide),
    (getmesg_two_passes (globals_end frame_short) 0x7f none).1.mpr (by decide),
    (getmesg_two_passes (globals_end frame_short) 0x7f none).2.2.2.1 (by decide)⟩

/-- Acceptance is reported only by a call made in `STATE::END`. -/
theorem getmesg_accept_state {F : Type} (g : Globals F) (r : Nat) (msg : Option msg_t)
    (res : Result F) (h : _getmesg g r msg = some res) (hret : res.ret = -1) :
    g.m_state.state = STATE.END := by
  cases hs : g.m_state.state
  · rw [_getmesg_HEADL g r msg hs] at h
    cases h; simp at hret
  · by_cases hr : r = PRE_KEY_CHAR
    · rw [_getmesg_HEADF_prekey g r msg hs hr] at h
      cases h; simp at hret
    · rw [_getmesg_HEADF_other g r msg hs hr, _getmesg_SYNC _ r msg rfl] at h
      cases h
      exact absurd hret (sync_loop_ret8 r _).1
  · rw [_getmesg_SYNC g r msg hs] at h
    cases h
    exact absurd hret (sync_loop_ret8 r _).1
  · have e := _getmesg_TXT g r msg hs
    by_cases h1 : (g.m_state.rawText ++ [r]).length > BMAX
    · rw [if_pos h1] at e
      have e3 := e.trans (_getmesg_HEADL _ r msg rfl)
      rw [e3] at h
      cases h; simp at hret
    · rw [if_neg h1] at e
      rw [e] at h
      cases h; simp at hret
  · rw [_getmesg_CRC1 g r msg hs] at h
    cases h; simp at hret
  · rw [_getmesg_CRC2 g r msg hs] at h
    cases h; simp at hret
  · rfl

theorem getmesg_END_any_byte {F : Type} (g : Globals F) (r1 r2 : Nat) (msg : Option msg_t)
    (hs : g.m_state.state = STATE.END) : _getmesg g r1 msg = _getmesg g r2 msg := by
  rw [_getmesg_END g r1 msg hs, _getmesg_END g r2 msg hs]

theorem getmesg_END_length {F : Type} (g : Globals F) (r : Nat) (msg : Option msg_t)
    (hs : g.m_state.state = STATE.END) (hnf : ¬ end_faults g) :
    ∃ res, _getmesg g r msg = some res ∧
      res.g.m_state.rawText.length = g.m_state.rawText.length ∧
      res.g.m_state.state = STATE.HEADL := by
  obtain ⟨res, h⟩ := _getmesg_returns g r msg hnf
  rcases getmesg_END_cases g r msg hs res h with ⟨f, p, hf, _, e⟩ | ⟨_, e⟩
  · exact ⟨res, h, by rw [e]; exact end_frame_length _ f hf, by rw [e]⟩
  · exact ⟨res, h, by rw [e], by rw [e]⟩

/-- C34: the call made in `STATE::CRC2` returns 8, never -1, appends its byte
and leaves the machine in `END`; a call that returns -1 was made in `END`;
and a call made in `END` gives the same outcome (globals, record and return
value, or none where the call faults) for any two input bytes, with a raw
frame of unchanged length whenever there is a result, so the byte is neither
appended nor used by the CRC check or the parser. -/
theorem getmesg_crc2_then_end {F : Type} (g : Globals F) (r r2 : Nat) (msg : Option msg_t) :
    (g.m_state.state = STATE.CRC2 →
      ∃ res, _getmesg g r msg = some res ∧ res.ret = 8 ∧ res.ret ≠ -1 ∧
        res.g.m_state.state = STATE.END ∧
        res.g.m_state.rawText = g.m_state.rawText ++ [r]) ∧
    (∀ res, _getmesg g r msg = some res → res.ret = -1 → g.m_state.state = STATE.END) ∧
    (g.m_state.state = STATE.END →
      _getmesg g r msg = _getmesg g r2 msg ∧
      (_getmesg g r msg = none ↔ end_faults g) ∧
      (¬ end_faults g →
        ∃ res, _getmesg g r msg = some res ∧
          res.g.m_state.rawText.length = g.m_state.rawText.length ∧
          res.g.m_state.state = STATE.HEADL)) := by
  refine ⟨fun hs => ?_, fun res h hret => getmesg_accept_state g r msg res h hret,
    fun hs => ⟨getmesg_END_any_byte g r r2 msg hs, getmesg_none_iff g r msg,
      getmesg_END_length g r msg hs⟩⟩
  exact ⟨_, _getmesg_CRC2 g r msg hs, rfl, by simp, rfl, rfl⟩

/-! ## Uniqueness of the corrected bit, leading zero bytes, repeated rotation -/

/-- C31: in a raw frame of at most 247 bytes there is at most one bit
position `(i, j)` whose flip gives `gen_crc` zero: two positions that both do
are the same, and the one-bit correction of `STATE::END` returns the frame
flipped at that position. -/
theorem crc_single_candidate (raw : List Nat) (hb : ∀ b ∈ raw, b < 256)
    (hlen : raw.length ≤ 247) (i j i2 j2 : Nat)
    (hi : i < raw.length) (hj : j < 8) (hi2 : i2 < raw.length) (hj2 : j2 < 8)
    (h1 : gen_crc (flip_bit raw i j) = 0) (h2 : gen_crc (flip_bit raw i2 j2) = 0) :
    (i2 = i ∧ j2 = j) ∧
      correct_i (List.range raw.length) raw = (flip_bit raw i j, true) := by
  have key : ∀ i3 j3 : Nat, i3 < raw.length → j3 < 8 → ¬ (i3 = i ∧ j3 = j) →
      gen_crc (flip_bit raw i3 j3) ≠ 0 := by
    intro i3 j3 hi3 hj3 hne
    have h := gen_crc_flip_two (flip_bit raw i j) (flip_bit_lt raw hb i j)
      (by rw [flip_bit_length]; exact hlen) h1 i j i3 j3
      (by rw [flip_bit_length]; exact hi) hj (by rw [flip_bit_length]; exact hi3) hj3 hne
    rw [flip_bit_flip_bit] at h
    exact h
  refine ⟨?_, ?_⟩
  · by_contra hne
    exact key i2 j2 hi2 hj2 hne h2
  · have hmem : ∀ j3 : Nat, j3 ∈ [0, 1, 2, 3, 4, 5, 6, 7] → j3 < 8 := by
      intro j3 h
      simp only [List.mem_cons, List.mem_singleton, List.not_mem_nil, or_false] at h
      omega
    have hj3 : j ∈ [0, 1, 2, 3, 4, 5, 6, 7] := by
      simp only [List.mem_cons, List.mem_singleton, List.not_mem_nil, or_false]
      omega
    exact correct_i_unique i j _ raw (List.mem_range.mpr hi) hj3 h1
      (fun i3 hi3 j3 hj3 hne => key i3 j3 (List.mem_range.mp hi3) (hmem j3 hj3) hne)

theorem crc_single_candidate_witness :
    ((1 = 1 ∧ 3 = 3) ∧
      correct_i (List.range [0x01, 0x8b, 0x4b, 0xaf].length) [0x01, 0x8b, 0x4b, 0xaf] =
        (flip_bit [0x01, 0x8b, 0x4b, 0xaf] 1 3, true)) ∧
    gen_crc [0x01, 0x8b, 0x4b, 0xaf] ≠ 0 :=
  ⟨crc_single_candidate [0x01, 0x8b, 0x4b, 0xaf] (by decide) (by decide) 1 3 1 3
    (by decide) (by decide) (by decide) (by decide) (by decide) (by decide), by decide⟩

theorem foldl_fold_crc_rev_zeros (k : Nat) :
    (List.replicate k 0).foldl fold_crc_rev 0 = 0 := by
  induction k with
  | zero => rfl
  | succ k ih =>
    rw [List.replicate_succ, List.foldl_cons]
    have e : fold_crc_rev 0 0 = 0 := by decide
    rw [e, ih]

theorem foldl_fold_crc_zeros (k : Nat) :
    (List.replicate k 0).foldl fold_crc 0 = 0 := by
  induction k with
  | zero => rfl
  | succ k ih =>
    rw [List.replicate_succ, List.foldl_cons]
    have e : fold_crc 0 0 = 0 := by decide
    rw [e, ih]

theorem check_crc_eq (s : List Nat) : check_crc s = (s.foldl fold_crc 0 == 0) := by
  cases s with
  | nil => rfl
  | cons b t => rfl

/-- C33: for every byte sequence `s` and every `k`, `gen_crc` of `k` bytes
0x00 followed by `s` equals `gen_crc s`, and `check_crc` gives the same
verdict on both. -/
theorem crc_leading_zeros (k : Nat) (s : List Nat) :
    gen_crc (List.replicate k 0 ++ s) = gen_crc s ∧
      check_crc (List.replicate k 0 ++ s) = check_crc s := by
  constructor
  · rw [gen_crc_eq_reflect, gen_crc_eq_reflect, List.foldl_append, foldl_fold_crc_rev_zeros]
  · rw [check_crc_eq, check_crc_eq, List.foldl_append, foldl_fold_crc_zeros]

/-! ## Repeated `rotate_90` -/

theorem rotate_90_eq (buf rest : List Nat) (h8 : buf.length % 8 = 0)
    (hlen : buf.length < 4294967296) :
    rotate_90 (buf ++ rest) buf.length = some (rotate_groups buf ++ rest) := by
  have key := rotate_90_loop_spec (buf.length / 8 + 2) [] buf rest h8 (by simpa using hlen)
    (by omega)
  simpa [rotate_90] using key

theorem rotate_groups_twice (l : List Nat) (hb : ∀ b ∈ l, b < 256) :
    rotate_groups (rotate_groups l) = negate_pairs l := by
  induction l using rotate_groups.induct with
  | case1 i0 q0 i1 q1 i2 q2 i3 q3 rest ih =>
    have h2 : i2 < 256 := hb i2 (by simp)
    have h3 : q2 < 256 := hb q2 (by simp)
    have e2 : 255 - (255 - i2) = i2 := by omega
    have e3 : 255 - (255 - q2) = q2 := by omega
    have hr : ∀ b ∈ rest, b < 256 := fun b h => hb b (by simp [h])
    rw [rotate_groups, rotate_groups, negate_pairs, ih hr, e2, e3]
  | case2 l h =>
    have e1 : rotate_groups l = l := by
      rw [rotate_groups]
      intro i0 q0 i1 q1 i2 q2 i3 q3 rest e
      exact h i0 q0 i1 q1 i2 q2 i3 q3 rest e
    have e2 : negate_pairs l = l := by
      rw [negate_pairs]
      intro i0 q0 i1 q1 i2 q2 i3 q3 rest e
      exact h i0 q0 i1 q1 i2 q2 i3 q3 rest e
    rw [e1, e1, e2]

theorem negate_pairs_twice (l : List Nat) (hb : ∀ b ∈ l, b < 256) :
    negate_pairs (negate_pairs l) = l := by
  induction l using negate_pairs.induct with
  | case1 i0 q0 i1 q1 i2 q2 i3 q3 rest ih =>
    have h0 : i1 < 256 := hb i1 (by simp)
    have h1 : q1 < 256 := hb q1 (by simp)
    have h2 : i3 < 256 := hb i3 (by simp)
    have h3 : q3 < 256 := hb q3 (by simp)
    have e0 : 255 - (255 - i1) = i1 := by omega
    have e1 : 255 - (255 - q1) = q1 := by omega
    have e2 : 255 - (255 - i3) = i3 := by omega
    have e3 : 255 - (255 - q3) = q3 := by omega
    have hr : ∀ b ∈ rest, b < 256 := fun b h => hb b (by simp [h])
    rw [negate_pairs, negate_pairs, ih hr, e0, e1, e2, e3]
  | case2 l h =>
    have e2 : negate_pairs l = l := by
      rw [negate_pairs]
      intro i0 q0 i1 q1 i2 q2 i3 q3 rest e
      exact h i0 q0 i1 q1 i2 q2 i3 q3 rest e
    rw [e2, e2]

theorem negate_pairs_lt (l : List Nat) (hb : ∀ b ∈ l, b < 256) :
    ∀ b ∈ negate_pairs l, b < 256 := by
  induction l using negate_pairs.induct with
  | case1 i0 q0 i1 q1 i2 q2 i3 q3 rest ih =>
    have hr : ∀ b ∈ rest, b < 256 := fun b h => hb b (by simp [h])
    have h0 := hb i0 (by simp)
    have h1 := hb q0 (by simp)
    have h2 := hb i2 (by simp)
    have h3 := hb q2 (by simp)
    intro b hm
    rw [negate_pairs] at hm
    simp only [List.mem_cons] at hm
    rcases hm with h | h | h | h | h | h | h | h | h
    · omega
    · omega
    · omega
    · omega
    · omega
    · omega
    · omega
    · omega
    · exact ih hr b h
  | case2 l h =>
    have e2 : negate_pairs l = l := by
      rw [negate_pairs]
      intro i0 q0 i1 q1 i2 q2 i3 q3 rest e
      exact h i0 q0 i1 q1 i2 q2 i3 q3 rest e
    rw [e2]
    exact hb

theorem rotate_90_twice (buf rest : List Nat) (h8 : buf.length % 8 = 0)
    (hlen : buf.length < 4294967296) (hb : ∀ b ∈ buf, b < 256) :
    (rotate_90 (buf ++ rest) buf.length).bind (fun b => rotate_90 b buf.length) =
      some (negate_pairs buf ++ rest) := by
  have hl := rotate_groups_length buf
  have e2 := rotate_90_eq (rotate_groups buf) rest (by rw [hl]; exact h8) (by rw [hl]; exact hlen)
  rw [hl] at e2
  rw [rotate_90_eq buf rest h8 hlen, Option.some_bind, e2, rotate_groups_twice buf hb]

theorem negate_pairs_length (l : List Nat) : (negate_pairs l).length = l.length := by
  induction l using negate_pairs.induct with
  | case1 i0 q0 i1 q1 i2 q2 i3 q3 rest ih =>
    simp only [negate_pairs, List.length_cons, ih]
  | case2 l h =>
    rw [negate_pairs]
    intro i0 q0 i1 q1 i2 q2 i3 q3 rest e
    exact h i0 q0 i1 q1 i2 q2 i3 q3 rest e

/-- C40: for a buffer of bytes whose length is a multiple of 8 (and fits the
32-bit length), four applications of `rotate_90` give back the buffer, and two
applications replace, in every group of four IQ pairs, exactly the bytes of
the second and of the fourth pair by `255 - x`; the bytes after the buffer are
left alone. -/
theorem rotate_90_four_times (buf rest : List Nat) (h8 : buf.length % 8 = 0)
    (hlen : buf.length < 4294967296) (hb : ∀ b ∈ buf, b < 256) :
    rotate_90_times 4 (buf ++ rest) buf.length = some (buf ++ rest) ∧
    rotate_90_times 2 (buf ++ rest) buf.length = some (negate_pairs buf ++ rest) ∧
    ∀ i0 q0 i1 q1 i2 q2 i3 q3 : Nat, ∀ l : List Nat,
      negate_pairs (i0 :: q0 :: i1 :: q1 :: i2 :: q2 :: i3 :: q3 :: l) =
        i0 :: q0 :: (255 - i1) :: (255 - q1) :: i2 :: q2 :: (255 - i3) :: (255 - q3) ::
          negate_pairs l := by
  have t2 : ∀ b : List Nat, rotate_90_times 2 b buf.length =
      (rotate_90 b buf.length).bind (fun c => rotate_90 c buf.length) := by
    intro b
    simp only [rotate_90_times]
    cases rotate_90 b buf.length with
    | none => rfl
    | some c =>
      simp only [Option.some_bind]
      cases rotate_90 c buf.length <;> rfl
  have t4 : ∀ b : List Nat, rotate_90_times 4 b buf.length =
      (rotate_90_times 2 b buf.length).bind (fun c => rotate_90_times 2 c buf.length) := by
    intro b
    simp only [rotate_90_times]
    cases rotate_90 b buf.length with
    | none => rfl
    | some c =>
      simp only [Option.some_bind]
      cases rotate_90 c buf.length with
      | none => rfl
      | some d => simp only [Option.some_bind, Option.bind_some]
  have h2 := rotate_90_twice buf rest h8 hlen hb
  have hl := negate_pairs_length buf
  have h4 := rotate_90_twice (negate_pairs buf) rest (by rw [hl]; exact h8)
    (by rw [hl]; exact hlen) (negate_pairs_lt buf hb)
  rw [hl, negate_pairs_twice buf hb] at h4
  refine ⟨?_, ?_, fun i0 q0 i1 q1 i2 q2 i3 q3 l => by rw [negate_pairs]⟩
  · rw [t4, t2, h2, Option.some_bind, t2, h4]
  · rw [t2, h2]

theorem rotate_90_four_times_witness :
    rotate_90_times 4 ([10, 20, 30, 40, 50, 60, 70, 80] ++ [99])
        [10, 20, 30, 40, 50, 60, 70, 80].length =
      some ([10, 20, 30, 40, 50, 60, 70, 80] ++ [99]) ∧
    rotate_90_times 2 ([10, 20, 30, 40, 50, 60, 70, 80] ++ [99])
        [10, 20, 30, 40, 50, 60, 70, 80].length =
      some (negate_pairs [10, 20, 30, 40, 50, 60, 70, 80] ++ [99]) ∧
    ∀ i0 q0 i1 q1 i2 q2 i3 q3 : Nat, ∀ l : List Nat,
      negate_pairs (i0 :: q0 :: i1 :: q1 :: i2 :: q2 :: i3 :: q3 :: l) =
        i0 :: q0 :: (255 - i1) :: (255 - q1) :: i2 :: q2 :: (255 - i3) :: (255 - q3) ::
          negate_pairs l :=
  rotate_90_four_times [10, 20, 30, 40, 50, 60, 70, 80] [99] (by decide) (by decide) (by decide)

/-- Two and four rotations of two groups, evaluated. -/
theorem rotate_90_times_example :
    rotate_90_times 2 [10, 20, 30, 40, 50, 60, 70, 80, 1, 2, 3, 4, 5, 6, 7, 8, 99] 16 =
      some [10, 20, 225, 215, 50, 60, 185, 175, 1, 2, 252, 251, 5, 6, 248, 247, 99] ∧
    rotate_90_times 4 [10, 20, 30, 40, 50, 60, 70, 80, 1, 2, 3, 4, 5, 6, 7, 8, 99] 16 =
      some [10, 20, 30, 40, 50, 60, 70, 80, 1, 2, 3, 4, 5, 6, 7, 8, 99] := by
  decide

/-! ## The bit counter of `acars_decode` -/

/-- With eight bits pending the `do ... while( nbitl >= 8 )` loop of
`acars_decode` makes one call of `_getmesg` and stops, or has no result when
that call has none. -/
theorem decode_calls_once {F : Type} (d : Decoder F) (hn : d.nbitl = 8) (res : Result F)
    (h : _getmesg d.g d.rl none = some res) :
    (res.ret = -1 ∨ (1 ≤ res.ret ∧ res.ret ≤ 8)) ∧
      ∀ fuel, decode_calls (fuel + 1) d = some
        (if res.ret = -1 then
          { d with g := res.g, printed := d.printed ++ [res.msg], nbitl := 0 }
        else { d with g := res.g, nbitl := 8 - res.ret }) := by
  have hr := (getmesg_ret_bounds d.g d.rl none res h).1
  refine ⟨hr, fun fuel => ?_⟩
  rw [decode_calls, h]
  simp only [hn]
  by_cases h1 : res.ret = -1
  · simp only [h1, if_true]
    exact if_neg (by decide)
  · simp only [h1, if_false]
    have h2 : ¬ ((8 : Int) - res.ret ≥ 8) := by
      rcases hr with h | h
      · exact absurd h h1
      · omega
    exact if_neg h2

theorem decode_calls_none {F : Type} (d : Decoder F) (fuel : Nat)
    (h : _getmesg d.g d.rl none = none) : decode_calls fuel d = none := by
  cases fuel with
  | zero => rfl
  | succ n => rw [decode_calls, h]

/-- One reported bit, from a counter within 0..7: there is no result exactly
when seven bits were pending and the call of `_getmesg` faults; a result has
its counter within 0..7. -/
theorem decode_bit_range {F : Type} (d : Decoder F) (bit : Bool)
    (h0 : 0 ≤ d.nbitl) (h7 : d.nbitl ≤ 7) :
    (decode_bit d bit = none ↔ d.nbitl = 7 ∧ end_faults d.g) ∧
      ∀ d2, decode_bit d bit = some d2 → 0 ≤ d2.nbitl ∧ d2.nbitl ≤ 7 := by
  by_cases h : d.nbitl + 1 < 8
  · rw [decode_bit_pending d bit h]
    refine ⟨⟨fun e => ?_, fun e => ?_⟩, fun d2 e => ?_⟩
    · cases e
    · exact absurd e.1 (by omega)
    rw [← Option.some.inj e]
    constructor
    · show 0 ≤ d.nbitl + 1
      omega
    · show d.nbitl + 1 ≤ 7
      omega
  · have h8 : d.nbitl + 1 = 8 := by omega
    have hfull := decode_bit_full d bit h8
    cases hm : _getmesg d.g (shift_in d.rl bit) none with
    | none =>
      have hn := decode_calls_none
        ({ d with rl := shift_in d.rl bit, nbitl := d.nbitl + 1 } : Decoder F) 8 hm
      rw [hfull, hn]
      refine ⟨⟨fun _ => ⟨?_, (getmesg_none_iff _ _ _).mp hm⟩, fun _ => rfl⟩, fun d2 e => ?_⟩
      · omega
      · cases e
    | some res =>
      obtain ⟨hr, hc⟩ := decode_calls_once
        ({ d with rl := shift_in d.rl bit, nbitl := d.nbitl + 1 } : Decoder F) h8 res hm
      rw [hfull, hc 7]
      refine ⟨⟨fun e => ?_, fun e => ?_⟩, fun d2 e => ?_⟩
      · cases e
      · have := (getmesg_none_iff d.g (shift_in d.rl bit) none).mpr e.2
        rw [hm] at this
        cases this
      · rw [← Option.some.inj e]
        by_cases h1 : res.ret = -1
        · rw [if_pos h1]
          constructor
          · show (0 : Int) ≤ 0
            decide
          · show (0 : Int) ≤ 7
            decide
        · rw [if_neg h1]
          constructor
          · show 0 ≤ 8 - res.ret
            rcases hr with h | h
            · exact absurd h h1
            · omega
          · show 8 - res.ret ≤ 7
            rcases hr with h | h
            · exact absurd h h1
            · omega

/-- A run of reported bits, from a counter within 0..7: it ends with the
counter within 0..7, or it stops at a bit whose call of `_getmesg` faults,
with seven bits pending before it. -/
theorem decode_bits_range {F : Type} (bs : List Bool) (d : Decoder F)
    (h0 : 0 ≤ d.nbitl) (h7 : d.nbitl ≤ 7) :
    (∃ d2, decode_bits bs d = some d2 ∧ 0 ≤ d2.nbitl ∧ d2.nbitl ≤ 7) ∨
      (∃ k d1, k < bs.length ∧ decode_bits (bs.take k) d = some d1 ∧
        d1.nbitl = 7 ∧ end_faults d1.g ∧ decode_bits (bs.take (k + 1)) d = none) := by
  induction bs generalizing d with
  | nil => exact Or.inl ⟨d, rfl, h0, h7⟩
  | cons b rest ih =>
    have hb := decode_bit_range d b h0 h7
    cases e1 : decode_bit d b with
    | none =>
      refine Or.inr ⟨0, d, by simp, rfl, ((hb.1).mp e1).1, ((hb.1).mp e1).2, ?_⟩
      simp only [List.take_succ_cons, List.take_zero, decode_bits, e1]
    | some d1 =>
      obtain ⟨a, c⟩ := hb.2 d1 e1
      rcases ih d1 a c with ⟨d2, e2, a2, c2⟩ | ⟨k, d3, hk, e3, n3, f3, z3⟩
      · refine Or.inl ⟨d2, ?_, a2, c2⟩
        rw [decode_bits, e1]
        exact e2
      · refine Or.inr ⟨k + 1, d3, by simp only [List.length_cons]; omega, ?_, n3, f3, ?_⟩
        · rw [List.take_succ_cons, decode_bits, e1]
          exact e3
        · rw [List.take_succ_cons, decode_bits, e1]
          exact z3

/-- C37: in the sample loop of `acars_decode`, from a counter `nbitl` within
0..7 every reported bit that is processed leaves the counter within 0..7, and
so does every run of bits.  Below seven pending bits the bit is only counted
(no call of `_getmesg`, the machine and the printed records are unchanged).
At seven pending bits the counter reaches 8 and the `do ... while` loop runs
exactly one iteration (one pass of fuel is enough): its one call of
`_getmesg` returns -1, after which the counter is 0, or a value from 1 to 8,
which is subtracted from 8.  The only bits that are not processed to the end
are those whose call of `_getmesg` faults (in `END`, inside `build_mesg`): a
bit has no result exactly then, and a run either ends within the range or
stops at such a bit. -/
theorem decode_counter_range {F : Type} (d : Decoder F) (bit : Bool) (bs : List Bool)
    (h0 : 0 ≤ d.nbitl) (h7 : d.nbitl ≤ 7) :
    (decode_bit d bit = none ↔ d.nbitl = 7 ∧ end_faults d.g) ∧
    (∀ d2, decode_bit d bit = some d2 → 0 ≤ d2.nbitl ∧ d2.nbitl ≤ 7) ∧
    (d.nbitl < 7 →
      decode_bit d bit = some { d with rl := shift_in d.rl bit, nbitl := d.nbitl + 1 }) ∧
    (d.nbitl = 7 →
      (_getmesg d.g (shift_in d.rl bit) none = none ↔ end_faults d.g) ∧
      ∀ res, _getmesg d.g (shift_in d.rl bit) none = some res →
        (res.ret = -1 ∨ (1 ≤ res.ret ∧ res.ret ≤ 8)) ∧
        decode_calls 1 { d with rl := shift_in d.rl bit, nbitl := 8 } =
          decode_bit d bit ∧
        decode_bit d bit = some
          (if res.ret = -1 then
            { d with rl := shift_in d.rl bit, g := res.g,
                     printed := d.printed ++ [res.msg], nbitl := 0 }
          else { d with rl := shift_in d.rl bit, g := res.g, nbitl := 8 - res.ret })) ∧
    (∀ n,
      (∃ d2, decode_bits (bs.take n) d = some d2 ∧ 0 ≤ d2.nbitl ∧ d2.nbitl ≤ 7) ∨
      (∃ k d1, k < (bs.take n).length ∧ decode_bits ((bs.take n).take k) d = some d1 ∧
        d1.nbitl = 7 ∧ end_faults d1.g ∧
        decode_bits ((bs.take n).take (k + 1)) d = none)) := by
  have hb := decode_bit_range d bit h0 h7
  refine ⟨hb.1, hb.2, fun hlt => decode_bit_pending d bit (by omega), fun h => ?_,
    fun n => decode_bits_range (bs.take n) d h0 h7⟩
  have h8 : d.nbitl + 1 = 8 := by omega
  refine ⟨getmesg_none_iff _ _ _, fun res hres => ?_⟩
  obtain ⟨hr, hc⟩ := decode_calls_once
    ({ d with rl := shift_in d.rl bit, nbitl := d.nbitl + 1 } : Decoder F) h8 res hres
  have e2 := (decode_bit_full d bit h8).trans (hc 7)
  have e3 := hc 0
  simp only [h8, Nat.zero_add] at e3 e2
  exact ⟨hr, by rw [e3, e2], e2⟩

/-- Witness for C37: the freshly reset decoder and a pre-key byte; the run
of its eight bits ends with seven bits pending. -/
theorem decode_counter_range_witness :
    decode_bit decoder_init true = some
      { decoder_init with rl := shift_in decoder_init.rl true,
                          nbitl := decoder_init.nbitl + 1 } ∧
    ((∃ d2, decode_bits ([true, true, true, true, true, true, true, true].take 8)
          decoder_init = some d2 ∧ 0 ≤ d2.nbitl ∧ d2.nbitl ≤ 7) ∨
      (∃ k d1, k < ([true, true, true, true, true, true, true, true].take 8).length ∧
        decode_bits (([true, true, true, true, true, true, true, true].take 8).take k)
          decoder_init = some d1 ∧
        d1.nbitl = 7 ∧ end_faults d1.g ∧
        decode_bits (([true, true, true, true, true, true, true, true].take 8).take (k + 1))
          decoder_init = none)) :=
  ⟨(decode_counter_range decoder_init true [true, true, true, true, true, true, true, true]
      (by decide) (by decide)).2.2.1 (by decide),
    (decode_counter_range decoder_init true [true, true, true, true, true, true, true, true]
      (by decide) (by decide)).2.2.2.2 8⟩

/-- The counter at work: seven bits are pending after seven bits, and the
eighth makes the one call, which in `HEADL` consumes one bit and leaves seven
pending again. -/
theorem decode_counter_example :
    (decode_bits [true, true, true, true, true, true, true] decoder_init).map
        (fun d => (d.nbitl, d.rl, d.g.m_state.consecutivePreKey)) = some (7, 254, 0) ∧
    (decode_bits [true, true, true, true, true, true, true, true] decoder_init).map
        (fun d => (d.nbitl, d.rl, d.g.m_state.consecutivePreKey)) = some (7, 255, 1) := by
  decide

/-! ## A four-byte frame reaches the parser; a negative sample leaves `am_demod` -/

/-- C35 at the failing input: the four bytes SOH, ETX (odd parity), 0x4B, 0xAF
have `gen_crc` zero, the frame machine collects exactly them from `STATE::TXT`
(returning 8, 8, 8) and stands in `STATE::END`; from a freshly reset decoder
the bits of pre-key, sync pattern and these four bytes do the same.  The call
for the next byte hands the four-byte raw frame to `build_mesg`: the stripped
content is empty, so every positional read is outside it, and the call, and
with it the run, has no result. -/
theorem end_builds_short_frame :
    frame_short.length = 4 ∧ ¬ (27 ≤ frame_short.length) ∧ gen_crc frame_short = 0 ∧
    (feed_bytes [0x83, 0x4b, 0xaf] (globals_txt [SOH])).map
        (fun p => (p.2, p.1.m_state.rawText, p.1.m_state.state)) =
      some ([8, 8, 8], frame_short, STATE.END) ∧
    (decode_bits (wire_bits (wire_short DEL).dropLast) decoder_init).map
        (fun d => (d.printed, d.g.m_state.rawText, d.g.m_state.state, d.nbitl)) =
      some ([], frame_short, STATE.END, 0) ∧
    end_frame frame_short = some frame_short ∧
    ((frame_short.drop 1).take (frame_short.length - 3 - 1)).length = 0 ∧
    build_mesg frame_short = none ∧
    end_faults (globals_end frame_short) ∧
    _getmesg (globals_end frame_short) DEL none = none ∧
    feed_bytes [0x83, 0x4b, 0xaf, DEL] (globals_txt [SOH]) = none ∧
    decode_bits (wire_bits (wire_short DEL)) decoder_init = none := by
  refine ⟨by decide, by decide, by decide, by decide, by decide, by decide, by decide,
    by decide, by decide, by decide, by decide, by decide⟩

/-- C36 at the failing input: with `downsample` 21 and `output_scale` 12, the
values `optimal_settings` derives for 48000 samples per second, `low_pass`
decimates the block `buf_loud` to the IQ pair (400, 0), and the one sample
`am_demod` writes to `signal2` for it is -27136, which is negative. -/
theorem am_demod_negative_sample :
    fm_init.sample_rate = 48000 ∧ fm_init.downsample = 21 ∧ fm_init.output_scale = 12 ∧
    (∀ b ∈ buf_loud, b < 256) ∧
    low_pass fm_init buf_loud 42 = some fm_loud ∧
    ∃ r, am_demod fm_loud = some r ∧ r.signal2_len = 1 ∧
      r.signal2.getD 0 0 = -27136 ∧ ¬ (0 ≤ r.signal2.getD 0 0) := by
  refine ⟨by decide, by decide, by decide, by decide, by decide, ?_⟩
  have hs : am_sample 400 0 12 = -27136 := by
    unfold am_sample
    simp only []
    rw [sqrt_160000]
    decide
  have h0 : fm_loud.signal_len = 2 := rfl
  have h1 : fm_loud.signal = [400, 0, 0, 0] := rfl
  have h2 : fm_loud.output_scale = 12 := by decide
  have h3 : fm_loud.signal2 = [0, 0] := by decide
  simp [am_demod, am_demod_loop, h0, h1, h2, h3, hs]

/-! ## `gen_crc` against the bit-serial reflected CRC-16 -/

theorem kermit_bit_eq (x : Nat) :
    kermit_bit x = x / 2 ^ 1 ^^^ (if x.testBit 0 then 0x8408 else 0) := by
  unfold kermit_bit
  rw [Nat.testBit_zero]
  by_cases h : x % 2 = 1
  · simp [h]
  · simp [h]

theorem kermit_bit_xor (x y : Nat) :
    kermit_bit (x ^^^ y) = kermit_bit x ^^^ kermit_bit y := by
  simp only [kermit_bit_eq, Nat.testBit_xor, ite_bxor, xor_div_two_pow]
  ac_rfl

theorem kermit_iterate_xor (n x y : Nat) :
    kermit_bit^[n] (x ^^^ y) = kermit_bit^[n] x ^^^ kermit_bit^[n] y := by
  induction n generalizing x y with
  | zero => rfl
  | succ n ih =>
    rw [Function.iterate_succ_apply, Function.iterate_succ_apply, Function.iterate_succ_apply,
      kermit_bit_xor, ih]

/-- Eight bit steps move a high byte down unchanged. -/
theorem kermit_high_byte (y : Nat) (h : y < 256) : kermit_bit^[8] (y * 256) = y := by
  have key : ∀ k : Fin 256, kermit_bit^[8] (k.val * 256) = k.val := by decide
  exact key ⟨y, h⟩

/-- The table `crc_ccitt`, reflected, is the table of the reflected CRC. -/
theorem crc_reflect_table (p : Nat) (h : p < 256) :
    crc_reflect (crc_ccitt.getD p 0) = kermit_bit^[8] (reverse_bits.getD p 0) := by
  have key : ∀ k : Fin 256,
      crc_reflect (crc_ccitt.getD k.val 0) = kermit_bit^[8] (reverse_bits.getD k.val 0) := by
    decide
  exact key ⟨p, h⟩

theorem low_xor (A u v : Nat) (hu : u < 256) (hv : v < 256) :
    u ^^^ (A * 256 + v) = A * 256 + (u ^^^ v) := by
  have h1 := xor_mod_two_pow u (A * 256 + v) 8
  have h2 := xor_div_two_pow u (A * 256 + v) 8
  have h3 : u ^^^ v < 2 ^ 8 := Nat.xor_lt_two_pow (n := 8) hu hv
  have e1 : u % 2 ^ 8 = u := Nat.mod_eq_of_lt hu
  have e2 : (A * 256 + v) % 2 ^ 8 = v := by omega
  have e3 : u / 2 ^ 8 = 0 := by omega
  have e4 : (A * 256 + v) / 2 ^ 8 = A := by omega
  rw [e1, e2] at h1
  rw [e3, e4, Nat.zero_xor] at h2
  omega

/-- One table step of `gen_crc`, seen through the final reflection, is one
byte of the bit-serial reflected CRC. -/
theorem crc_reflect_fold (c b : Nat) (hc : c < 65536) (hb : b < 256) :
    crc_reflect (fold_crc_rev c b) = kermit_byte (crc_reflect c) b := by
  have hhi : c / 256 < 256 := by omega
  have hlo : c % 256 < 256 := Nat.mod_lt _ (by decide)
  have hrb := reverse_bits_lt b
  have hp : c / 256 ^^^ reverse_bits.getD b 0 < 256 := Nat.xor_lt_two_pow (n := 8) hhi hrb
  have hY := crc_ccitt_lt (c / 256 ^^^ reverse_bits.getD b 0)
  -- the right-hand side
  have hz : reverse_bits.getD (c / 256) 0 ^^^ b < 256 :=
    Nat.xor_lt_two_pow (n := 8) (reverse_bits_lt _) hb
  have hpz : reverse_bits.getD (reverse_bits.getD (c / 256) 0 ^^^ b) 0
      = c / 256 ^^^ reverse_bits.getD b 0 := by
    rw [reverse_bits_xor _ _ (reverse_bits_lt _) hb, reverse_bits_involutive _ hhi]
  have hK : kermit_bit^[8] (reverse_bits.getD (c / 256) 0 ^^^ b)
      = crc_reflect (crc_ccitt.getD (c / 256 ^^^ reverse_bits.getD b 0) 0) := by
    rw [crc_reflect_table _ hp, ← hpz, reverse_bits_involutive _ hz]
  have hR : kermit_byte (crc_reflect c) b
      = reverse_bits.getD (c % 256) 0 ^^^
          crc_reflect (crc_ccitt.getD (c / 256 ^^^ reverse_bits.getD b 0) 0) := by
    unfold kermit_byte
    rw [crc_reflect_eq c, Nat.mod_eq_of_lt hhi]
    have hz2 : b ^^^ reverse_bits.getD (c / 256) 0 < 256 :=
      Nat.xor_lt_two_pow (n := 8) hb (reverse_bits_lt _)
    have s1 : (reverse_bits.getD (c % 256) 0 * 256 + reverse_bits.getD (c / 256) 0) ^^^ b
        = reverse_bits.getD (c % 256) 0 * 256 + (b ^^^ reverse_bits.getD (c / 256) 0) := by
      rw [Nat.xor_comm]
      exact low_xor (reverse_bits.getD (c % 256) 0) b (reverse_bits.getD (c / 256) 0) hb
        (reverse_bits_lt _)
    have s2 : (b ^^^ reverse_bits.getD (c / 256) 0) ^^^ (reverse_bits.getD (c % 256) 0 * 256)
        = reverse_bits.getD (c % 256) 0 * 256 + (b ^^^ reverse_bits.getD (c / 256) 0) := by
      have h := low_xor (reverse_bits.getD (c % 256) 0) (b ^^^ reverse_bits.getD (c / 256) 0) 0
        hz2 (by decide)
      rw [Nat.add_zero, Nat.xor_zero] at h
      exact h
    rw [s1, ← s2, kermit_iterate_xor, kermit_high_byte _ (reverse_bits_lt _), Nat.xor_comm b, hK]
    exact Nat.xor_comm _ _
  -- the left-hand side
  have hX : c * 256 % 65536 = c % 256 * 256 := by omega
  have hL : crc_reflect (fold_crc_rev c b)
      = reverse_bits.getD (crc_ccitt.getD (c / 256 ^^^ reverse_bits.getD b 0) 0 % 256) 0 * 256 +
          (reverse_bits.getD (c % 256) 0 ^^^
            reverse_bits.getD (crc_ccitt.getD (c / 256 ^^^ reverse_bits.getD b 0) 0 / 256) 0) := by
    rw [fold_crc_rev_eq, Nat.mod_eq_of_lt hp, hX, crc_reflect_eq]
    have h1 := xor_mod_two_pow (c % 256 * 256)
      (crc_ccitt.getD (c / 256 ^^^ reverse_bits.getD b 0) 0) 8
    have h2 := xor_div_two_pow (c % 256 * 256)
      (crc_ccitt.getD (c / 256 ^^^ reverse_bits.getD b 0) 0) 8
    have e1 : c % 256 * 256 % 2 ^ 8 = 0 := by omega
    have e2 : c % 256 * 256 / 2 ^ 8 = c % 256 := by omega
    rw [e1, Nat.zero_xor] at h1
    rw [e2] at h2
    have e3 : (2 : Nat) ^ 8 = 256 := by norm_num
    rw [e3] at h1 h2
    have hq : crc_ccitt.getD (c / 256 ^^^ reverse_bits.getD b 0) 0 / 256 < 256 := by omega
    have h4 : c % 256 ^^^ crc_ccitt.getD (c / 256 ^^^ reverse_bits.getD b 0) 0 / 256 < 256 :=
      Nat.xor_lt_two_pow (n := 8) hlo hq
    rw [h1, h2, Nat.mod_eq_of_lt h4, reverse_bits_xor _ _ hlo hq]
  rw [hL, hR, crc_reflect_eq,
    Nat.mod_eq_of_lt (by omega :
      crc_ccitt.getD (c / 256 ^^^ reverse_bits.getD b 0) 0 / 256 < 256),
    low_xor _ _ _ (reverse_bits_lt _) (reverse_bits_lt _)]

theorem crc_reflect_foldl (s : List Nat) (c : Nat) (hc : c < 65536) (hb : ∀ b ∈ s, b < 256) :
    crc_reflect (s.foldl fold_crc_rev c) = s.foldl kermit_byte (crc_reflect c) := by
  induction s generalizing c with
  | nil => rfl
  | cons b t ih =>
    rw [List.foldl_cons, List.foldl_cons,
      ih _ (fold_crc_rev_lt c b) (fun x hx => hb x (List.mem_cons_of_mem _ hx)),
      crc_reflect_fold c b hc (hb b (List.mem_cons_self _ _))]

/-- C32: for every sequence `s` of bytes, empty or not, `gen_crc s` is the
bit-serial reflected CRC-16 of `s`, computed least significant bit first with
the reflected polynomial 0x8408, initial value 0 and no final XOR
(CRC-16/KERMIT); on the ASCII bytes of "123456789" both give 0x2189, and
`gen_crc` of the empty range is 0. -/
theorem gen_crc_kermit (s : List Nat) (hb : ∀ b ∈ s, b < 256) :
    gen_crc s = crc16_kermit s ∧
    gen_crc check_string = 0x2189 ∧ crc16_kermit check_string = 0x2189 ∧
    gen_crc [] = 0 := by
  refine ⟨?_, by decide, by decide, by decide⟩
  have h0 : crc_reflect 0 = 0 := by decide
  rw [gen_crc_eq_reflect, crc_reflect_foldl s 0 (by decide) hb, h0]
  rfl

/-- Witness for C32: the check string "123456789". -/
theorem gen_crc_kermit_witness :
    gen_crc check_string = crc16_kermit check_string ∧
    gen_crc check_string = 0x2189 ∧ crc16_kermit check_string = 0x2189 ∧
    gen_crc [] = 0 :=
  gen_crc_kermit check_string (by decide)

/-! ## Runs of pre-key bytes in `HEADL` -/

/-- A shift puts the bit at the top of the byte and keeps it a byte. -/
theorem shift_in_top (o : Nat) (bit : Bool) (ho : o < 256) :
    shift_in o bit < 256 ∧ (shift_in o bit).testBit 7 = bit := by
  have key : ∀ k : Fin 256, ∀ b : Bool,
      shift_in k.val b < 256 ∧ (shift_in k.val b).testBit 7 = b := by decide
  exact key ⟨o, ho⟩ bit

/-- The clocked block, entered with no bit reported, with a comparison `<`
that never holds both ways: at most one of the two bit blocks runs, so the
output byte is left alone and no bit is reported, or exactly one bit is
shifted in and a bit is reported. -/
theorem getbit_clock_one {F : Type} (ops : FloatOps F) (h : List F) (r : BitResult F)
    (hh : h.length = 40) (hb : bstat_ok r.bstat) (hbt : r.bt = false)
    (hasym : ∀ a b, ops.lt a b = true → ops.lt b a = false) :
    ∃ r2, getbit_clock ops h r = some r2 ∧ bstat_ok r2.bstat ∧
      ((r2.bt = false ∧ r2.outbits = r.outbits) ∨
        (r2.bt = true ∧ ∃ bit, r2.outbits = shift_in r.outbits bit)) := by
  unfold getbit_clock
  obtain ⟨C, hC⟩ := clock_filter_some ops h r.bstat.csample r.bstat.is hh hb.2.2.2.2.2.2 hb.1
  rw [hC, Option.some_bind]
  obtain ⟨Q, hQ⟩ := ring_sum_some ops r.bstat.qsample r.bstat.is BITLEN.toNat (ops.ofInt 0)
    hb.2.2.2.2.2.1 hb.1
  obtain ⟨I, hI⟩ := ring_sum_some ops r.bstat.isample r.bstat.is BITLEN.toNat (ops.ofInt 0)
    hb.2.2.2.2.1 hb.1
  by_cases hq : (ops.lt r.bstat.pC C && ops.lt r.bstat.pC r.bstat.ppC) = true
  · have hq1 : ops.lt r.bstat.pC C = true := by
      cases e : ops.lt r.bstat.pC C
      · rw [e] at hq; simp at hq
      · rfl
    have hi : ¬ ((ops.lt C r.bstat.pC && ops.lt r.bstat.ppC r.bstat.pC) = true) := by
      rw [hasym _ _ hq1]
      simp
    have eQ : ∃ r1, getbit_Q ops C r = some r1 ∧ r1.bt = true ∧
        (∃ bit, r1.outbits = shift_in r.outbits bit) ∧ r1.bstat.pC = r.bstat.pC ∧
        r1.bstat.ppC = r.bstat.ppC ∧ bstat_ok r1.bstat := by
      unfold getbit_Q
      rw [if_pos hq, hQ]
      exact ⟨_, rfl, rfl, ⟨_, rfl⟩, rfl, rfl, hb⟩
    obtain ⟨r1, e1, b1, o1, p1, pp1, ok1⟩ := eQ
    have eI : getbit_I ops C r1 = some r1 := by
      unfold getbit_I
      rw [p1, pp1]
      exact if_neg hi
    rw [e1, Option.some_bind, eI]
    exact ⟨_, rfl, ok1, Or.inr ⟨b1, o1⟩⟩
  · have eQ : getbit_Q ops C r = some r := by
      unfold getbit_Q
      exact if_neg hq
    rw [eQ, Option.some_bind]
    by_cases hi : (ops.lt C r.bstat.pC && ops.lt r.bstat.ppC r.bstat.pC) = true
    · have eI : ∃ r2, getbit_I ops C r = some r2 ∧ r2.bt = true ∧
          (∃ bit, r2.outbits = shift_in r.outbits bit) ∧ bstat_ok r2.bstat := by
        unfold getbit_I
        rw [if_pos hi, hI]
        exact ⟨_, rfl, rfl, ⟨_, rfl⟩, hb⟩
      obtain ⟨r2, e2, b2, o2, ok2⟩ := eI
      rw [e2]
      exact ⟨_, rfl, ok2, Or.inr ⟨b2, o2⟩⟩
    · have eI : getbit_I ops C r = some r := by
        unfold getbit_I
        exact if_neg hi
      rw [eI]
      exact ⟨_, rfl, hb, Or.inl ⟨hbt, rfl⟩⟩

/-- A call of `_getbit` on a well-formed record, with a comparison `<` that
never holds both ways: it returns false and leaves the output byte alone, or
it returns true and has shifted exactly one bit into the byte. -/
theorem getbit_one {F : Type} (ops : FloatOps F) (h : List F) (b : bstat_s F) (sample : F)
    (outbits : Nat) (hh : h.length = 40) (hb : bstat_ok b)
    (hasym : ∀ a b, ops.lt a b = true → ops.lt b a = false) :
    ∃ res, _getbit ops h b sample outbits = some res ∧ (bstat_ok res.bstat ∧
      ((res.bt = false ∧ res.outbits = outbits) ∨
        (res.bt = true ∧ ∃ bit, res.outbits = shift_in outbits bit))) := by
  obtain ⟨h0, h1, l1, l2, l3, l4, l5⟩ := hb
  have hB : BITLEN = 40 := rfl
  have i0 : 0 ≤ (if b.is - 1 < 0 then BITLEN - 1 else b.is - 1) := by
    split <;> omega
  have i1 : (if b.is - 1 < 0 then BITLEN - 1 else b.is - 1) < 40 := by
    split <;> omega
  unfold _getbit
  simp only []
  refine bind_some _ _ (fun x => x.length = 40) _
    (by
      obtain ⟨x, e, k⟩ := buf_set_some b.hsample _ _ i0 (by rw [l1]; exact_mod_cast i1)
      exact ⟨x, e, k.trans l1⟩)
    (fun hs k1 => ?_)
  refine bind_some _ _ (fun _ => True) _ (ring_sum_some_true ops hs _ _ _ k1 i0) (fun dfh _ => ?_)
  refine bind_some _ _ (fun x => x.length = 40) _
    (by
      obtain ⟨x, e, k⟩ := buf_set_some b.lsample _ _ i0 (by rw [l2]; exact_mod_cast i1)
      exact ⟨x, e, k.trans l2⟩)
    (fun ls k2 => ?_)
  refine bind_some _ _ (fun _ => True) _ (ring_sum_some_true ops ls _ _ _ k2 i0) (fun dfl _ => ?_)
  refine bind_some _ _ (fun x => x.length = 40) _
    (by
      obtain ⟨x, e, k⟩ := buf_set_some b.isample _ _ i0 (by rw [l3]; exact_mod_cast i1)
      exact ⟨x, e, k.trans l3⟩)
    (fun is2 k3 => ?_)
  refine bind_some _ _ (fun x => x.length = 40) _
    (by
      obtain ⟨x, e, k⟩ := buf_set_some b.qsample _ _ i0 (by rw [l4]; exact_mod_cast i1)
      exact ⟨x, e, k.trans l4⟩)
    (fun qs k4 => ?_)
  refine bind_some _ _ (fun x => x.length = 40) _
    (by
      obtain ⟨x, e, k⟩ := buf_set_some b.csample _ _ i0 (by rw [l5]; exact_mod_cast i1)
      exact ⟨x, e, k.trans l5⟩)
    (fun cs k5 => ?_)
  split
  · exact getbit_clock_one ops h _ hh ⟨i0, by rw [hB]; exact i1, k1, k2, k3, k4, k5⟩ rfl hasym
  · exact ⟨_, rfl, ⟨i0, by rw [hB]; exact i1, k1, k2, k3, k4, k5⟩, Or.inl ⟨rfl, rfl⟩⟩

/-- A run of calls of `_getbit`: the output byte afterwards is the byte
before with the reported bits shifted in, in the order of the calls. -/
theorem getbit_run_spec {F : Type} (ops : FloatOps F) (h : List F) (samples : List F)
    (b : bstat_s F) (outbits : Nat) (hh : h.length = 40) (hb : bstat_ok b)
    (ho : outbits < 256) (hasym : ∀ a b, ops.lt a b = true → ops.lt b a = false) :
    ∃ o2 b2 bits, getbit_run ops h samples b outbits = some (o2, b2, bits) ∧
      o2 = bits.foldl shift_in outbits ∧ o2 < 256 ∧ bits.length ≤ samples.length := by
  induction samples generalizing b outbits with
  | nil => exact ⟨outbits, b, [], rfl, rfl, ho, le_refl _⟩
  | cons s rest ih =>
    obtain ⟨res, e, ok, hcase⟩ := getbit_one ops h b s outbits hh hb hasym
    rcases hcase with ⟨hbt, hout⟩ | ⟨hbt, bit, hout⟩
    · obtain ⟨o2, b2, bits, e2, hf, hlt, hlen⟩ := ih res.bstat res.outbits ok (by rw [hout]; exact ho)
      refine ⟨o2, b2, bits, ?_, by rw [hf, hout], hlt, by simp only [List.length_cons]; omega⟩
      rw [getbit_run, e, Option.some_bind, e2]
      simp [hbt]
    · have htop := shift_in_top outbits bit ho
      obtain ⟨o2, b2, bits, e2, hf, hlt, hlen⟩ :=
        ih res.bstat res.outbits ok (by rw [hout]; exact htop.1)
      refine ⟨o2, b2, bit :: bits, ?_, by rw [hf, hout]; rfl, hlt,
        by simp only [List.length_cons]; omega⟩
      rw [getbit_run, e, Option.some_bind, e2]
      simp [hbt, hout, htop.2]

theorem foldl_shift_in_lt (bits : List Bool) (o : Nat) (ho : o < 256) :
    bits.foldl shift_in o < 256 := by
  induction bits generalizing o with
  | nil => exact ho
  | cons b rest ih => exact ih _ (shift_in_top o b ho).1

/-- C26: a call of `_getbit` (on a well-formed record, with a comparison `<`
that never holds both ways, as that of the floating-point numbers) either
returns false and leaves the output byte as it was, or returns true and has
shifted exactly one bit into it, the byte becoming
`(outbits >> 1) | (bit ? 0x80 : 0)` with the bit at its top.  Over a run of
calls the byte is the byte before with the reported bits shifted in, in
order; so when the last eight reported bits are c0..c7 (c0 first) the byte
is the sum of `c_k << k`, whatever the byte was before and whatever was
reported earlier: the bit received first is the least significant one. -/
theorem getbit_shift_register {F : Type} (ops : FloatOps F) (h : List F) (b : bstat_s F)
    (sample : F) (outbits : Nat) (samples : List F) (c0 c1 c2 c3 c4 c5 c6 c7 : Bool)
    (hh : h.length = 40) (hb : bstat_ok b) (ho : outbits < 256)
    (hasym : ∀ x y, ops.lt x y = true → ops.lt y x = false) :
    (∃ res, _getbit ops h b sample outbits = some res ∧
      ((res.bt = false ∧ res.outbits = outbits) ∨
        (res.bt = true ∧
          res.outbits = (outbits >>> 1) ||| (if res.outbits.testBit 7 then 0x80 else 0) ∧
          ∃ bit, res.outbits = shift_in outbits bit ∧ res.outbits.testBit 7 = bit))) ∧
    (∃ o2 bs2 bits, getbit_run ops h samples b outbits = some (o2, bs2, bits) ∧
      o2 = bits.foldl shift_in outbits ∧ bits.length ≤ samples.length ∧
      (∀ pre, bits = pre ++ [c0, c1, c2, c3, c4, c5, c6, c7] →
        o2 =
          ((if c0 then 1 else 0) <<< 0) + ((if c1 then 1 else 0) <<< 1) +
          ((if c2 then 1 else 0) <<< 2) + ((if c3 then 1 else 0) <<< 3) +
          ((if c4 then 1 else 0) <<< 4) + ((if c5 then 1 else 0) <<< 5) +
          ((if c6 then 1 else 0) <<< 6) + ((if c7 then 1 else 0) <<< 7))) ∧
    (∀ bit, shift_in outbits bit = (outbits >>> 1) ||| (if bit then 0x80 else 0)) := by
  refine ⟨?_, ?_, fun bit => rfl⟩
  · obtain ⟨res, e, _, hcase⟩ := getbit_one ops h b sample outbits hh hb hasym
    refine ⟨res, e, ?_⟩
    rcases hcase with hc | ⟨hbt, bit, hout⟩
    · exact Or.inl hc
    · have htop := (shift_in_top outbits bit ho).2
      rw [← hout] at htop
      refine Or.inr ⟨hbt, ?_, bit, hout, htop⟩
      rw [htop]
      exact hout
  · obtain ⟨o2, bs2, bits, e, hf, _, hlen⟩ := getbit_run_spec ops h samples b outbits hh hb ho hasym
    refine ⟨o2, bs2, bits, e, hf, hlen, fun pre hpre => ?_⟩
    obtain ⟨hlt, hbb, hsum⟩ := bits_value_byte c0 c1 c2 c3 c4 c5 c6 c7
    have key := foldl_shift_in_byte (pre.foldl shift_in outbits) _
      (foldl_shift_in_lt pre outbits ho) hlt
    rw [hbb] at key
    rw [hf, hpre, List.foldl_append, key]
    exact hsum

theorem int_ops_lt_asymm (x y : Int) (h : int_ops.lt x y = true) : int_ops.lt y x = false := by
  simp only [int_ops, decide_eq_true_eq, decide_eq_false_iff_not] at h ⊢
  omega

/-- Witness for C26: on the integer stand-in, the call for the 20th sample of
`samples_emit` reports a bit, a 1, and turns the byte 0x5A into 0xAD; the run
of the samples from there on reports the bits 1, 1, 0 and leaves 0x6B. -/
theorem getbit_shift_register_witness :
    (∃ res, _getbit int_ops (init_bits int_ops).1 bstat_emit 7 0x5a = some res ∧
      ((res.bt = false ∧ res.outbits = 0x5a) ∨
        (res.bt = true ∧
          res.outbits = (0x5a >>> 1) ||| (if res.outbits.testBit 7 then 0x80 else 0) ∧
          ∃ bit, res.outbits = shift_in 0x5a bit ∧ res.outbits.testBit 7 = bit))) ∧
    (_getbit int_ops (init_bits int_ops).1 bstat_emit 7 0x5a).map
        (fun r => (r.bt, r.outbits)) = some (true, 0xad) ∧
    (getbit_run int_ops (init_bits int_ops).1 (samples_emit.drop 19) bstat_emit 0x5a).map
        (fun p => (p.1, p.2.2)) = some (0x6b, [true, true, false]) :=
  ⟨(getbit_shift_register int_ops (init_bits int_ops).1 bstat_emit 7 0x5a
      (samples_emit.drop 19) true true false true false true false false
      (init_bits_ok int_ops).1 (by decide) (by decide) int_ops_lt_asymm).1,
    by decide, by decide⟩

/-! ## The frames `build_mesg` is handed -/

/-- A call of `_getmesg` keeps the raw frame within the bounds of the
states. -/
theorem getmesg_frame_bounded {F : Type} (g : Globals F) (r : Nat) (msg : Option msg_t)
    (res : Result F) (hb : frame_bounded g) (h : _getmesg g r msg = some res) :
    frame_bounded res.g := by
  have vac : ∀ g2 : Globals F,
      (g2.m_state.state = STATE.HEADL ∨ g2.m_state.state = STATE.HEADF ∨
        g2.m_state.state = STATE.SYNC) → frame_bounded g2 := by
    intro g2 h2
    refine ⟨fun e => ?_, fun e => ?_, fun e => ?_, fun e => ?_⟩ <;>
      · rw [e] at h2
        simp at h2
  have hsync : ∀ m : m_state_t,
      (m.state = STATE.HEADL ∨ m.state = STATE.HEADF ∨ m.state = STATE.SYNC) →
      frame_bounded
        ({ g with m_state := (sync_loop r [0, 1, 2, 3, 4, 5, 6, 7] m 0).1 } : Globals F) := by
    intro m hm
    rcases sync_loop_rawText r [0, 1, 2, 3, 4, 5, 6, 7] m 0 with ⟨h1, h2⟩ | ⟨h1 | h1, _⟩
    · refine ⟨fun _ => ?_, fun e => ?_, fun e => ?_, fun e => ?_⟩
      · show (sync_loop r [0, 1, 2, 3, 4, 5, 6, 7] m 0).1.rawText.length ≤ 244
        rw [h2]
        decide
      · have e2 : (sync_loop r [0, 1, 2, 3, 4, 5, 6, 7] m 0).1.state = STATE.CRC1 := e
        rw [h1] at e2
        cases e2
      · have e2 : (sync_loop r [0, 1, 2, 3, 4, 5, 6, 7] m 0).1.state = STATE.CRC2 := e
        rw [h1] at e2
        cases e2
      · have e2 : (sync_loop r [0, 1, 2, 3, 4, 5, 6, 7] m 0).1.state = STATE.END := e
        rw [h1] at e2
        cases e2
    · apply vac
      show (sync_loop r [0, 1, 2, 3, 4, 5, 6, 7] m 0).1.state = STATE.HEADL ∨ _
      rw [h1]
      exact hm
    · apply vac
      exact Or.inl h1
  cases hs : g.m_state.state
  · rw [_getmesg_HEADL g r msg hs] at h
    cases h
    apply vac
    simp only []
    split_ifs
    · exact Or.inr (Or.inl rfl)
    · exact Or.inl rfl
    · exact Or.inl rfl
  · by_cases hr : r = PRE_KEY_CHAR
    · rw [_getmesg_HEADF_prekey g r msg hs hr] at h
      cases h
      exact vac g (Or.inr (Or.inl hs))
    · rw [_getmesg_HEADF_other g r msg hs hr, _getmesg_SYNC _ r msg rfl] at h
      cases h
      exact hsync _ (Or.inr (Or.inr rfl))
  · rw [_getmesg_SYNC g r msg hs] at h
    cases h
    exact hsync _ (Or.inr (Or.inr hs))
  · have e := _getmesg_TXT g r msg hs
    by_cases h1 : (g.m_state.rawText ++ [r]).length > BMAX
    · rw [if_pos h1] at e
      have e3 := e.trans (_getmesg_HEADL _ r msg rfl)
      rw [e3] at h
      cases h
      apply vac
      simp only []
      split_ifs
      · exact Or.inr (Or.inl rfl)
      · exact Or.inl rfl
      · exact Or.inl rfl
    · rw [if_neg h1] at e
      rw [e] at h
      cases h
      have hl : (g.m_state.rawText ++ [r]).length ≤ 244 := by
        have := BMAX_eq.1
        omega
      refine ⟨fun _ => hl, fun _ => hl, fun e2 => ?_, fun e2 => ?_⟩
      · have e3 : (if r = _to_odd ETX ∨ r = _to_odd ETB then STATE.CRC1 else STATE.TXT)
            = STATE.CRC2 := e2
        split_ifs at e3
      · have e3 : (if r = _to_odd ETX ∨ r = _to_odd ETB then STATE.CRC1 else STATE.TXT)
            = STATE.END := e2
        split_ifs at e3
  · rw [_getmesg_CRC1 g r msg hs] at h
    cases h
    have hl := hb.2.1 hs
    refine ⟨fun e => ?_, fun e => ?_, fun _ => ?_, fun e => ?_⟩
    · cases e
    · cases e
    rotate_left
    · cases e
    show (g.m_state.rawText ++ [r]).length ≤ 245
    rw [List.length_append]
    simp only [List.length_cons, List.length_nil]
    omega
  · rw [_getmesg_CRC2 g r msg hs] at h
    cases h
    have hl := hb.2.2.1 hs
    refine ⟨fun e => ?_, fun e => ?_, fun e => ?_, fun _ => ?_⟩
    · cases e
    · cases e
    · cases e
    show (g.m_state.rawText ++ [r]).length ≤ 246
    rw [List.length_append]
    simp only [List.length_cons, List.length_nil]
    omega
  · rcases getmesg_END_cases g r msg hs res h with ⟨f, p, _, _, e⟩ | ⟨_, e⟩
    · rw [e]
      exact vac _ (Or.inl rfl)
    · rw [e]
      exact vac _ (Or.inl rfl)

/-- Every run of calls keeps the raw frame within the bounds of the
states. -/
theorem feed_bytes_frame_bounded {F : Type} (bs : List Nat) (g g2 : Globals F)
    (rets : List Int) (hb : frame_bounded g) (h : feed_bytes bs g = some (g2, rets)) :
    frame_bounded g2 := by
  induction bs generalizing g rets with
  | nil =>
    simp only [feed_bytes, Option.some.injEq, Prod.mk.injEq] at h
    rw [← h.1]
    exact hb
  | cons r rest ih =>
    cases h1 : _getmesg g r none with
    | none => rw [feed_bytes_cons_none g r rest h1] at h; cases h
    | some res =>
      rw [feed_bytes_cons g r rest res h1] at h
      cases h2 : feed_bytes rest res.g with
      | none => rw [h2] at h; cases h
      | some p =>
        rw [h2] at h
        simp only [Option.map_some', Option.some.injEq, Prod.mk.injEq] at h
        have e : feed_bytes rest res.g = some (g2, p.2) := by rw [h2, ← h.1]
        exact ih res.g p.2 (getmesg_frame_bounded g r none res hb h1) e

/-- C16: for every raw frame of at least 27 bytes that fits the record (at
most 283 bytes, the text array having 256 elements) `build_mesg` returns 1
and fills the record positionally from the content bytes that follow SOH,
each passed through the sanitising step: offset 0 mode, 1..7 address, 8 ack,
9..10 label, 11 block id, 12 skipped, 13..16 sequence number, 17..22 flight
id, and the text from offset 23 up to the last three bytes; what is left of
the arrays is zero.  The bound leaves out no frame the code passes: every
sequence of calls of the frame machine from its initial state keeps the raw
frame within the bounds of the states, and the frame `STATE::END` hands to
`build_mesg` then has at most 246 bytes. -/
theorem build_mesg_positional (txt : List Nat) (h1 : 27 ≤ txt.length)
    (h2 : txt.length ≤ 283) :
    build_mesg txt = some
      ({ mode := build_mesg_char ((txt.drop 1).getD 0 0)
         addr := (((txt.drop 1).drop 1).take 7).map build_mesg_char ++ [0]
         ack := build_mesg_char ((txt.drop 1).getD 8 0)
         label := (((txt.drop 1).drop 9).take 2).map build_mesg_char ++ [0]
         bid := build_mesg_char ((txt.drop 1).getD 11 0)
         no := (((txt.drop 1).drop 13).take 4).map build_mesg_char ++ [0]
         fid := (((txt.drop 1).drop 17).take 6).map build_mesg_char ++ [0]
         txt := (((txt.drop 1).drop 23).take (txt.length - 27)).map build_mesg_char ++
           List.replicate (256 - (txt.length - 27)) 0
         crc := 0 }, 1) ∧
    frame_bounded globals_init ∧
    (∀ (bs : List Nat) (g2 : Globals Unit) (rets : List Int),
      feed_bytes bs globals_init = some (g2, rets) →
      frame_bounded g2 ∧
      (g2.m_state.state = STATE.END →
        ∀ f, end_frame g2.m_state.rawText = some f → f.length ≤ 246 ∧ f.length ≤ 283)) := by
  refine ⟨build_mesg_fields txt h1 h2, by decide, fun bs g2 rets h => ?_⟩
  have hb := feed_bytes_frame_bounded bs globals_init g2 rets (by decide) h
  refine ⟨hb, fun hs f hf => ?_⟩
  have hl := end_frame_length _ f hf
  have h246 := hb.2.2.2 hs
  omega

/-- Witness for C16: the minimum-length frame. -/
theorem build_mesg_positional_witness :
    27 ≤ frame_min.length ∧ frame_min.length ≤ 283 ∧
    build_mesg frame_min = some
      ({ mode := build_mesg_char ((frame_min.drop 1).getD 0 0)
         addr := (((frame_min.drop 1).drop 1).take 7).map build_mesg_char ++ [0]
         ack := build_mesg_char ((frame_min.drop 1).getD 8 0)
         label := (((frame_min.drop 1).drop 9).take 2).map build_mesg_char ++ [0]
         bid := build_mesg_char ((frame_min.drop 1).getD 11 0)
         no := (((frame_min.drop 1).drop 13).take 4).map build_mesg_char ++ [0]
         fid := (((frame_min.drop 1).drop 17).take 6).map build_mesg_char ++ [0]
         txt := (((frame_min.drop 1).drop 23).take (frame_min.length - 27)).map
             build_mesg_char ++
           List.replicate (256 - (frame_min.length - 27)) 0
         crc := 0 }, 1) :=
  ⟨by decide, by decide, (build_mesg_positional frame_min (by decide) (by decide)).1⟩

end Acars
